import Mathlib

/-!
MyLibrary: the containers of `src/Set/Set.hpp`, `src/SegTree.hpp` and `src/list.hpp`

Shallow embedding of the AVL-backed `Set<int>`.  Nodes live in a heap that maps
addresses (natural numbers) to node records; `nullptr` is `none`.  Every
dereference of a null or freed address makes the operation return `none`
(undefined behaviour in the source).  Recursive functions and loops of the
source carry a fuel argument; the container-level operations supply the
number of addresses handed out so far plus one, which bounds the length of
every path of pairwise distinct nodes.

Keys and values are `int` in the embedded instantiation (`Set<int>`); they
are modelled as unbounded integers, which only the comparison `<` observes.
Stored heights are natural numbers: the source only ever assigns `0`, the
default `1`, or `max(..) + 1` to `height`.

The doubly linked `List<int>` is embedded the same way, over a store of list
nodes in which `destroy_node` removes the node from the live addresses.

The segment tree `SegTree<int>` is embedded as its vector `v_`, a size and a
function from indices to records; an access outside the vector and a thrown
exception are `none`.  Sums are `int` additions and are reduced to the 32-bit
two's complement range after every addition; indices are `size_t` values,
modelled as natural numbers, far from the 64-bit bound.
-/

namespace MyLibrary

/-- The record `AVL<T,U,Compare>::Node`. -/
structure Node where
  left : Option Nat
  right : Option Nat
  parent : Option Nat
  height : Nat
  key : Int
  data : Int
deriving DecidableEq

/-- The state of a default-constructed node (`new Node`). -/
def Node.fresh : Node := ⟨none, none, none, 1, 0, 0⟩

/-- The free store: the live nodes and the next address `new` hands out. -/
structure Heap where
  cell : Nat → Option Node
  next : Nat

/-- The store before any allocation. -/
def Heap.empty : Heap := ⟨fun _ => none, 0⟩

/-- Dereference of a pointer; `none` for `nullptr` and for a freed address. -/
def Heap.read (h : Heap) (p : Option Nat) : Option Node :=
  match p with
  | none => none
  | some i => h.cell i

/-- Overwrite the record stored at address `i`. -/
def Heap.write (h : Heap) (i : Nat) (n : Node) : Heap :=
  ⟨fun j => if j = i then some n else h.cell j, h.next⟩

/-- An assignment through a pointer, `p->field = value`. -/
def Heap.modify (h : Heap) (p : Option Nat) (f : Node → Node) : Option Heap :=
  match p with
  | none => none
  | some i =>
    match h.cell i with
    | none => none
    | some n => some (h.write i (f n))

/-- The expression `new Node`: a default node at a never used address. -/
def Heap.alloc (h : Heap) : Heap × Nat :=
  (⟨fun j => if j = h.next then some Node.fresh else h.cell j, h.next + 1⟩, h.next)

/-- The statement `delete p` for a live node `p`. -/
def Heap.free (h : Heap) (p : Option Nat) : Option Heap :=
  match p with
  | none => some h
  | some i =>
    match h.cell i with
    | none => none
    | some _ => some ⟨fun j => if j = i then none else h.cell j, h.next⟩

/-- The expression `(p == nullptr ? 0 : p->height)`. -/
def heightOf (h : Heap) (p : Option Nat) : Option Nat :=
  match p with
  | none => some 0
  | some i => (h.cell i).map (fun n => n.height)

/-- The function `AVL::Diff`. -/
def Diff (h : Heap) (node : Option Nat) : Option Int :=
  match node with
  | none => some 0
  | some i =>
    match h.cell i with
    | none => none
    | some n =>
      match n.left, n.right with
      | some l, some r =>
        match h.cell l, h.cell r with
        | some nl, some nr => some ((nl.height : Int) - (nr.height : Int))
        | _, _ => none
      | some l, none => (h.cell l).map (fun nl => (nl.height : Int))
      | none, some r => (h.cell r).map (fun nr => 0 - (nr.height : Int))
      | none, none => some 0

/-- The function `AVL::Update`. -/
def Update (h : Heap) (node : Option Nat) : Option Heap :=
  match node with
  | none => some h
  | some i => do
    let n ← h.cell i
    let h_l ← heightOf h n.left
    let h_r ← heightOf h n.right
    pure (h.write i { n with height := max h_l h_r + 1 })

/-- The function `AVL::UpdatePtr`. -/
def UpdatePtr (h : Heap) (a b : Option Nat) : Option Heap := do
  let na ← h.read a
  let h1 ← (match na.parent with
    | none => some h
    | some g =>
      match h.cell g with
      | none => none
      | some ng =>
        if ng.left = a then some (h.write g { ng with left := b })
        else if ng.right = a then some (h.write g { ng with right := b })
        else some h)
  match b with
  | none => pure h1
  | some _ => do
    let na1 ← h1.read a
    h1.modify b (fun n => { n with parent := na1.parent })

/-- The expression `(b != nullptr ? b->field : nullptr)`. -/
def fieldOf (h : Heap) (b : Option Nat) (f : Node → Option Nat) : Option (Option Nat) :=
  match b with
  | none => some none
  | some i => (h.cell i).map f

/-- The statement `if (q != nullptr) { q->field = value; }`. -/
def Heap.modifyIf (h : Heap) (q : Option Nat) (f : Node → Node) : Option Heap :=
  match q with
  | none => some h
  | some _ => h.modify q f

/-- The guarded block of `AVL::RotateLeft`, entered when `a` and `b` are not null. -/
def rotateLeftBody (h1 : Heap) (a b p q r : Option Nat) : Option (Heap × Option Nat) := do
  let h2 ← h1.modify a (fun n => { n with parent := b })
  let h3 ← h2.modify b (fun n => { n with left := a })
  let h4 ← h3.modify a (fun n => { n with right := q })
  let h5 ← h4.modifyIf q (fun n => { n with parent := a })
  let h_p ← heightOf h5 p
  let h_q ← heightOf h5 q
  let h_r ← heightOf h5 r
  let h6 ← h5.modify a (fun n => { n with height := max h_p h_q + 1 })
  let na6 ← h6.read a
  let h7 ← h6.modify b (fun n => { n with height := max na6.height h_r + 1 })
  pure (h7, b)

/-- The function `AVL::RotateLeft`. -/
def RotateLeft (h : Heap) (node : Option Nat) : Option (Heap × Option Nat) :=
  match node with
  | none => some (h, none)
  | some ai => do
    let a := some ai
    let na ← h.cell ai
    let b := na.right
    let p := na.left
    let q ← fieldOf h b (fun nb => nb.left)
    let r ← fieldOf h b (fun nb => nb.right)
    let h1 ← UpdatePtr h a b
    if b ≠ none then rotateLeftBody h1 a b p q r else pure (h1, b)

/-- The guarded block of `AVL::RotateRight`, entered when `a` and `b` are not null. -/
def rotateRightBody (h1 : Heap) (a b p q r : Option Nat) : Option (Heap × Option Nat) := do
  let h2 ← h1.modify a (fun n => { n with parent := b })
  let h3 ← h2.modify b (fun n => { n with right := a })
  let h4 ← h3.modify a (fun n => { n with left := r })
  let h5 ← h4.modifyIf r (fun n => { n with parent := a })
  let h_p ← heightOf h5 p
  let h_q ← heightOf h5 q
  let h_r ← heightOf h5 r
  let h6 ← h5.modify a (fun n => { n with height := max h_r h_p + 1 })
  let na6 ← h6.read a
  let h7 ← h6.modify b (fun n => { n with height := max h_q na6.height + 1 })
  pure (h7, b)

/-- The function `AVL::RotateRight`. -/
def RotateRight (h : Heap) (node : Option Nat) : Option (Heap × Option Nat) :=
  match node with
  | none => some (h, none)
  | some ai => do
    let a := some ai
    let na ← h.cell ai
    let b := na.left
    let p := na.right
    let q ← fieldOf h b (fun nb => nb.left)
    let r ← fieldOf h b (fun nb => nb.right)
    let h1 ← UpdatePtr h a b
    if b ≠ none then rotateRightBody h1 a b p q r else pure (h1, b)

/-- The function `AVL::BigRotateLeft`. -/
def BigRotateLeft (h : Heap) (node : Option Nat) : Option (Heap × Option Nat) := do
  let n ← h.read node
  let (h1, _) ← RotateRight h n.right
  RotateLeft h1 node

/-- The function `AVL::BigRotateRight`. -/
def BigRotateRight (h : Heap) (node : Option Nat) : Option (Heap × Option Nat) := do
  let n ← h.read node
  let (h1, _) ← RotateLeft h n.left
  RotateRight h1 node

/-- The function `AVL::Balance`. -/
def Balance (h : Heap) (node : Option Nat) : Option (Heap × Option Nat) := do
  let d ← Diff h node
  if d = -2 then do
    let n ← h.read node
    let dr ← Diff h n.right
    if dr = 1 then BigRotateLeft h node else RotateLeft h node
  else if d = 2 then do
    let n ← h.read node
    let dl ← Diff h n.left
    if dl = -1 then BigRotateRight h node else RotateRight h node
  else pure (h, node)

/-- The function `AVL::CreateNode`. -/
def CreateNode (h : Heap) (parent : Option Nat) (left : Bool) (key data : Int) :
    Option (Heap × Option Nat) := do
  let (h1, i) := h.alloc
  let new_node := some i
  let h2 ← (if left then h1.modify parent (fun n => { n with left := new_node })
    else h1.modify parent (fun n => { n with right := new_node }))
  let h3 ← h2.modify new_node (fun n => { n with parent := parent })
  let h4 ← h3.modify new_node (fun n => { n with key := key })
  let h5 ← h4.modify new_node (fun n => { n with data := data })
  pure (h5, new_node)

/-- The function `AVL::FindNode`. -/
def FindNode : Nat → Heap → Option Nat → Int → Option (Option Nat)
  | 0, _, _, _ => none
  | fuel + 1, h, node, key =>
    match node with
    | none => some none
    | some i =>
      match h.cell i with
      | none => none
      | some n =>
        if ¬ key < n.key ∧ ¬ n.key < key then some node
        else if key < n.key then FindNode fuel h n.left key
        else if n.key < key then FindNode fuel h n.right key
        else some none

/-- The function `AVL::InsertNode`. -/
def InsertNode : Nat → Heap → Option Nat → Int → Int → Option (Heap × Option Nat)
  | 0, _, _, _, _ => none
  | fuel + 1, h, node, key, data => do
    let n ← h.read node
    let h1 ← (if key < n.key then
        (match n.left with
          | none => (CreateNode h node true key data).map (fun x => x.1)
          | some l => (InsertNode fuel h (some l) key data).map (fun x => x.1))
      else if n.key < key then
        (match n.right with
          | none => (CreateNode h node false key data).map (fun x => x.1)
          | some r => (InsertNode fuel h (some r) key data).map (fun x => x.1))
      else some h)
    let h2 ← Update h1 node
    Balance h2 node

/-- The overload `AVL::EraseNode(Node*)`, which unlinks a node with at most one child. -/
def EraseNodeAt (h : Heap) (node : Option Nat) : Option (Heap × Option Nat) := do
  let n ← h.read node
  match n.left, n.right with
  | some _, some _ => pure (h, node)
  | none, none => do
    let par := n.parent
    let h1 ← (match par with
      | none => some h
      | some _ => do
        let np ← h.read par
        if np.left = node then h.modify par (fun m => { m with left := none })
        else h.modify par (fun m => { m with right := none }))
    let h2 ← Update h1 par
    let h3 ← h2.free node
    pure (h3, par)
  | l, r => do
    let kid := (if l ≠ none then l else r)
    let h1 ← h.modify kid (fun m => { m with parent := n.parent })
    let h2 ← (match n.parent with
      | none => some h1
      | some _ => do
        let np ← h1.read n.parent
        if np.left = node then h1.modify n.parent (fun m => { m with left := kid })
        else h1.modify n.parent (fun m => { m with right := kid }))
    let h3 ← Update h2 n.parent
    let h4 ← h3.free node
    pure (h4, kid)

/-- The loop `while (cur->left != nullptr) { prev = cur; cur = prev->left; }`. -/
def leftmost : Nat → Heap → Option Nat → Option (Option Nat)
  | 0, _, _ => none
  | fuel + 1, h, cur =>
    match h.read cur with
    | none => none
    | some n =>
      match n.left with
      | none => some cur
      | some l => leftmost fuel h (some l)

/-- The loop `while (cur->right != nullptr) { prev = cur; cur = prev->right; }`. -/
def rightmost : Nat → Heap → Option Nat → Option (Option Nat)
  | 0, _, _ => none
  | fuel + 1, h, cur =>
    match h.read cur with
    | none => none
    | some n =>
      match n.right with
      | none => some cur
      | some r => rightmost fuel h (some r)

/-- The loop of `AVL::TwoSonsCase`:
`while (prev != node->right) { prev = Balance(cur); cur = prev->parent; }`. -/
def twoSonsLoop : Nat → Heap → Option Nat → Option Nat → Option Nat →
    Option (Heap × Option Nat)
  | 0, _, _, _, _ => none
  | fuel + 1, h, node, prev, cur => do
    let n ← h.read node
    if prev ≠ n.right then do
      let (h1, prev1) ← Balance h cur
      let np ← h1.read prev1
      twoSonsLoop fuel h1 node prev1 np.parent
    else pure (h, cur)

/-- The function `AVL::TwoSonsCase`. -/
def TwoSonsCase (h : Heap) (node : Option Nat) : Option (Heap × Option Nat) := do
  let n ← h.read node
  let cur ← leftmost (h.next + 1) h n.right
  let nc ← h.read cur
  let h1 ← h.modify node (fun m => { m with key := nc.key })
  let nc1 ← h1.read cur
  let h2 ← h1.modify node (fun m => { m with data := nc1.data })
  let (h3, cur1) ← EraseNodeAt h2 cur
  if cur1 ≠ node then twoSonsLoop (h.next + 1) h3 node cur1 cur1
  else pure (h3, cur1)

/-- The overload `AVL::EraseNode(Node*, const T&)`. -/
def EraseNode : Nat → Heap → Option Nat → Int → Option (Heap × Option Nat)
  | 0, _, _, _ => none
  | fuel + 1, h, node, key =>
    match node with
    | none => some (h, none)
    | some i => do
      let n ← h.cell i
      let (h1, subtree_root) ← (
        if key < n.key then (EraseNode fuel h n.left key).map (fun x => (x.1, node))
        else if n.key < key then (EraseNode fuel h n.right key).map (fun x => (x.1, node))
        else if n.left ≠ none ∧ n.right ≠ none then TwoSonsCase h node
        else EraseNodeAt h node)
      Balance h1 subtree_root

/-- The class `AVL<int,int>` (and `Set<int>`, which adds no member). -/
structure AVL where
  heap : Heap
  root_ : Option Nat
  begin_ : Option Nat
  end_ : Option Nat
  rbegin_ : Option Nat
  rend_ : Option Nat
  size_ : Nat

/-- The constructor `AVL::AVL()`. -/
def AVL.new : Option AVL := do
  let (h1, e) := Heap.empty.alloc
  let h2 ← h1.modify (some e) (fun n => { n with height := 0 })
  let (h3, r) := h2.alloc
  let h4 ← h3.modify (some r) (fun n => { n with height := 0 })
  pure ⟨h4, none, none, some e, none, some r, 0⟩

/-- The function `AVL::CutMockNode`. -/
def AVL.CutMockNode (s : AVL) : Option AVL := do
  let h1 ← (match s.begin_ with
    | none => some s.heap
    | some _ => s.heap.modify s.begin_ (fun n => { n with left := none }))
  let h2 ← (match s.rbegin_ with
    | none => some h1
    | some _ => h1.modify s.rbegin_ (fun n => { n with right := none }))
  pure { s with heap := h2 }

/-- The function `AVL::BindMockNode`. -/
def AVL.BindMockNode (s : AVL) : Option AVL := do
  let h1 ← (match s.begin_ with
    | none => some s.heap
    | some _ => s.heap.modify s.begin_ (fun n => { n with left := s.rend_ }))
  let h2 ← h1.modify s.rend_ (fun n => { n with parent := s.begin_ })
  let h3 ← (match s.rbegin_ with
    | none => some h2
    | some _ => h2.modify s.rbegin_ (fun n => { n with right := s.end_ }))
  let h4 ← h3.modify s.end_ (fun n => { n with parent := s.rbegin_ })
  pure { s with heap := h4 }

/-- The first loop of `AVL::UpdateSides`:
`while (cur->left != rend_ && cur->left != nullptr) { prev = cur; cur = prev->left; }`. -/
def leftSide : Nat → Heap → Option Nat → Option Nat → Option (Option Nat)
  | 0, _, _, _ => none
  | fuel + 1, h, rend, cur =>
    match h.read cur with
    | none => none
    | some n =>
      if n.left ≠ rend ∧ n.left ≠ none then leftSide fuel h rend n.left else some cur

/-- The second loop of `AVL::UpdateSides`:
`while (cur->right != end_ && cur->right != nullptr) { prev = cur; cur = prev->right; }`. -/
def rightSide : Nat → Heap → Option Nat → Option Nat → Option (Option Nat)
  | 0, _, _, _ => none
  | fuel + 1, h, e, cur =>
    match h.read cur with
    | none => none
    | some n =>
      if n.right ≠ e ∧ n.right ≠ none then rightSide fuel h e n.right else some cur

/-- The function `AVL::UpdateSides`. -/
def AVL.UpdateSides (s : AVL) : Option AVL :=
  match s.root_ with
  | none => some { s with begin_ := none }
  | some _ => do
    let b ← leftSide (s.heap.next + 1) s.heap s.rend_ s.root_
    let rb ← rightSide (s.heap.next + 1) s.heap s.end_ s.root_
    AVL.BindMockNode { s with begin_ := b, rbegin_ := rb }

/-- The function `AVL::Size`. -/
def AVL.Size (s : AVL) : Nat := s.size_

/-- The function `AVL::Find`: the answer and the state it leaves. -/
def AVL.Find (s : AVL) (key : Int) : Option (Bool × AVL) := do
  let s1 ← s.CutMockNode
  let p ← FindNode (s1.heap.next + 1) s1.heap s1.root_ key
  let s2 ← s1.BindMockNode
  pure (p ≠ none, s2)

/-- The function `AVL::Insert`.  The counter `size_` is a `size_t`; its
increment cannot wrap, as every counted node occupies memory. -/
def AVL.Insert (s : AVL) (key data : Int) : Option AVL := do
  let (found, s0) ← s.Find key
  if found then pure s0
  else do
    let s1 ← s0.CutMockNode
    let s2 := { s1 with size_ := s1.size_ + 1 }
    let s3 ← (match s2.root_ with
      | none => do
        let (h1, i) := s2.heap.alloc
        let h2 ← h1.modify (some i) (fun n => { n with key := key })
        let h3 ← h2.modify (some i) (fun n => { n with data := data })
        pure { s2 with heap := h3, root_ := some i }
      | some _ => do
        let (h1, r) ← InsertNode (s2.heap.next + 1) s2.heap s2.root_ key data
        pure { s2 with heap := h1, root_ := r })
    s3.UpdateSides

/-- The function `AVL::Erase`.  The decrement of the `size_t` counter wraps at zero. -/
def AVL.Erase (s : AVL) (key : Int) : Option AVL := do
  let (found, s0) ← s.Find key
  if ¬ found then pure s0
  else if s0.root_ = none then pure s0
  else do
    let s1 := { s0 with size_ := if s0.size_ = 0 then 2 ^ 64 - 1 else s0.size_ - 1 }
    if s1.size_ = 0 then do
      let h1 ← s1.heap.free s1.root_
      pure { s1 with heap := h1, root_ := none, begin_ := none, rbegin_ := none }
    else do
      let s2 ← s1.CutMockNode
      let (h1, r) ← EraseNode (s2.heap.next + 1) s2.heap s2.root_ key
      AVL.UpdateSides { s2 with heap := h1, root_ := r }

/-- The function `Set::Empty`. -/
def AVL.Empty (s : AVL) : Bool := s.Size = 0

/-- The function `Set::Insert`, which stores the key as its own value. -/
def AVL.SetInsert (s : AVL) (elem : Int) : Option AVL := s.Insert elem elem

/-- The function `Set::begin`; an iterator is the node pointer it wraps. -/
def AVL.itBegin (s : AVL) : Option Nat := if s.Empty then s.end_ else s.begin_

/-- The function `Set::end`. -/
def AVL.itEnd (s : AVL) : Option Nat := s.end_

/-- The climbing loop of `operator++`:
`while (cur->parent != nullptr && prev != cur->left) { prev = cur; cur = prev->parent; }`
followed by the test that selects the result. -/
def climbLeft : Nat → Heap → Option Nat → Option Nat → Option (Option Nat)
  | 0, _, _, _ => none
  | fuel + 1, h, prev, cur =>
    match h.read cur with
    | none => none
    | some n =>
      if n.parent ≠ none ∧ prev ≠ n.left then climbLeft fuel h cur n.parent
      else if n.parent = none ∧ prev ≠ n.left then some none
      else some cur

/-- The function `Set::BidirectionalIterator::operator++`. -/
def itNext (h : Heap) (ptr : Option Nat) : Option (Option Nat) := do
  let n ← h.read ptr
  match n.right with
  | some r => leftmost (h.next + 1) h (some r)
  | none =>
    match n.parent with
    | some g => do
      let ng ← h.cell g
      if ng.left = ptr then pure (some g)
      else climbLeft (h.next + 1) h (some g) (some g)
    | none => pure none

/-- The loop `for (it = first; it != end(); ++it)` collecting `*it`. -/
def collect : Nat → Heap → Option Nat → Option Nat → Option (List Int)
  | 0, _, _, _ => none
  | fuel + 1, h, e, it =>
    if it = e then some []
    else do
      let n ← h.read it
      let nx ← itNext h it
      let rest ← collect fuel h e nx
      pure (n.key :: rest)

/-- The forward traversal `for (auto it = begin(); it != end(); ++it)` of a set. -/
def AVL.traversal (s : AVL) : Option (List Int) :=
  collect (s.heap.next + 1) s.heap s.itEnd s.itBegin

/-- A call of the public interface. -/
inductive Op where
  | insert (k : Int)
  | erase (k : Int)
deriving DecidableEq

/-- One call applied to a set. -/
def AVL.step (s : AVL) : Op → Option AVL
  | Op.insert k => s.SetInsert k
  | Op.erase k => s.Erase k

/-- A sequence of calls applied from left to right. -/
def AVL.run : List Op → AVL → Option AVL
  | [], s => some s
  | op :: ops, s => (s.step op).bind (AVL.run ops)

/-- The calls applied to a freshly constructed set. -/
def runNew (ops : List Op) : Option AVL := AVL.new.bind (AVL.run ops)

/-- Insertion of the keys of a list, in order, into a freshly constructed set. -/
def insertAll (ks : List Int) : Option AVL := runNew (ks.map Op.insert)

/-- A binary tree of heap addresses: the shape the pointers of a subtree spell out,
with the fields stored in each node. -/
inductive PT where
  | nil : PT
  | node (l : PT) (i : Nat) (k d : Int) (ht : Nat) (r : PT) : PT
deriving DecidableEq

/-- The address of the root of a tree, `none` for the empty tree. -/
def PT.root : PT → Option Nat
  | .nil => none
  | .node _ i _ _ _ _ => some i

/-- The stored height of the root, `0` for the empty tree. -/
def PT.ht : PT → Nat
  | .nil => 0
  | .node _ _ _ _ ht _ => ht

/-- The addresses of a tree in symmetric order. -/
def PT.ids : PT → List Nat
  | .nil => []
  | .node l i _ _ _ r => l.ids ++ i :: r.ids

/-- The keys of a tree in symmetric order. -/
def PT.keys : PT → List Int
  | .nil => []
  | .node l _ k _ _ r => l.keys ++ k :: r.keys

/-- The heap stores the tree `t` below the parent pointer `par`. -/
def Repr (h : Heap) : Option Nat → PT → Prop
  | _, .nil => True
  | par, .node l i k d ht r =>
    h.cell i = some ⟨l.root, r.root, par, ht, k, d⟩ ∧ Repr h (some i) l ∧ Repr h (some i) r

/-- The value `AVL::Diff` computes at the root of a tree. -/
def pDiff : PT → Int
  | .nil => 0
  | .node l _ _ _ _ r => (l.ht : Int) - (r.ht : Int)

/-- What `UpdatePtr` does to the record of the parent. -/
def replaceChild (x y : Option Nat) (n : Node) : Node :=
  if n.left = x then { n with left := y }
  else if n.right = x then { n with right := y } else n

/-- Left rotation of a tree whose root has a right child. -/
def pRotL : PT → PT
  | .node p a ka da _ (.node q b kb db _ r) =>
    .node (.node p a ka da (max p.ht q.ht + 1) q) b kb db (max (max p.ht q.ht + 1) r.ht + 1) r
  | t => t

/-- Right rotation of a tree whose root has a left child. -/
def pRotR : PT → PT
  | .node (.node q b kb db _ r) a ka da _ p =>
    .node q b kb db (max q.ht (max r.ht p.ht + 1) + 1) (.node r a ka da (max r.ht p.ht + 1) p)
  | t => t

/-- What a subtree operation guarantees: the heap `h1` stores `t1` where `h` stored `t`,
the parent's child slot follows the root, and nothing else changes. -/
structure SubSpec (h h1 : Heap) (par : Option Nat) (t t1 : PT) : Prop where
  repr : Repr h1 par t1
  frame : ∀ j, j ∉ t.ids → j < h.next → some j ≠ par → h1.cell j = h.cell j
  parent : ∀ g ng, par = some g → h.cell g = some ng →
    h1.cell g = some (replaceChild t.root t1.root ng)
  next : h.next ≤ h1.next
  fresh : (∀ j, h.next ≤ j → h.cell j = none) → ∀ j, h1.next ≤ j → h1.cell j = none
  ids : ∀ j ∈ t1.ids, j ∈ t.ids ∨ (h.next ≤ j ∧ j < h1.next)

/-- What a subtree operation requires of the heap. -/
structure Pre (h : Heap) (par : Option Nat) (t : PT) : Prop where
  repr : Repr h par t
  nodup : t.ids.Nodup
  par_out : ∀ g, par = some g → g ∉ t.ids ∧ ∃ ng, h.cell g = some ng
  fresh : ∀ j, h.next ≤ j → h.cell j = none

/-- The tree after `AVL::Update` recomputed the stored height of its root. -/
def pUpd : PT → PT
  | .nil => .nil
  | .node l x k d _ r => .node l x k d (max l.ht r.ht + 1) r

/-- The tree after `AVL::Balance` at its root. -/
def pBal (t : PT) : PT :=
  match t with
  | .nil => .nil
  | .node l a ka da ha r =>
    if pDiff (.node l a ka da ha r) = -2 then
      (if pDiff r = 1 then pRotL (.node l a ka da ha (pRotR r))
        else pRotL (.node l a ka da ha r))
    else if pDiff (.node l a ka da ha r) = 2 then
      (if pDiff l = -1 then pRotR (.node (pRotL l) a ka da ha r)
        else pRotR (.node l a ka da ha r))
    else .node l a ka da ha r

/-- The number of nodes on the longest downward path of a tree. -/
def PT.depth : PT → Nat
  | .nil => 0
  | .node l _ _ _ _ r => max l.depth r.depth + 1

/-- The tree after `AVL::InsertNode`, the new node taking the address `nid`. -/
def pIns (nid : Nat) (k d : Int) : PT → PT
  | .nil => .node .nil nid k d 1 .nil
  | .node l x kx dx ht r =>
    if k < kx then pBal (pUpd (.node (pIns nid k d l) x kx dx ht r))
    else if kx < k then pBal (pUpd (.node l x kx dx ht (pIns nid k d r)))
    else pBal (pUpd (.node l x kx dx ht r))

/-- The address `AVL::FindNode` returns on a tree. -/
def pFind (key : Int) : PT → Option Nat
  | .nil => none
  | .node l x kx _ _ r =>
    if ¬ key < kx ∧ ¬ kx < key then some x
    else if key < kx then pFind key l
    else if kx < key then pFind key r
    else none

/-- The address of the leftmost node of a tree. -/
def PT.minId : PT → Option Nat
  | .nil => none
  | .node .nil x _ _ _ _ => some x
  | .node (.node ll li lk ld lh lr) _ _ _ _ _ => (PT.node ll li lk ld lh lr).minId

/-- The address of the rightmost node of a tree. -/
def PT.maxId : PT → Option Nat
  | .nil => none
  | .node _ x _ _ _ .nil => some x
  | .node _ _ _ _ _ (.node rl ri rk rd rh rr) => (PT.node rl ri rk rd rh rr).maxId

/-- An ancestor of the subtree the set currently calls its root: the ancestor's node and the
subtree on its other side. -/
structure Frame where
  isLeft : Bool
  id : Nat
  key : Int
  data : Int
  ht : Nat
  sib : PT

/-- The parent pointer of the subtree below a chain of ancestors, innermost first. -/
def ctxPar : List Frame → Option Nat
  | [] => none
  | f :: _ => some f.id

/-- The record of an ancestor, given the root below it and its own parent. -/
def Frame.cell (f : Frame) (child par : Option Nat) : Node :=
  if f.isLeft then ⟨child, f.sib.root, par, f.ht, f.key, f.data⟩
  else ⟨f.sib.root, child, par, f.ht, f.key, f.data⟩

/-- The heap stores the chain of ancestors above the subtree whose root is `child`. -/
def CtxRepr (h : Heap) : List Frame → Option Nat → Prop
  | [], _ => True
  | f :: fs, child =>
    h.cell f.id = some (f.cell child (ctxPar fs)) ∧ Repr h (some f.id) f.sib ∧
      CtxRepr h fs (some f.id)

/-- The addresses of the ancestors and of the subtrees on their other sides. -/
def ctxIds : List Frame → List Nat
  | [] => []
  | f :: fs => (f.id :: f.sib.ids) ++ ctxIds fs

/-- The key of an ancestor is ordered against the subtree on its other side. -/
def Frame.sorted (f : Frame) : Prop :=
  if f.isLeft then (f.key :: f.sib.keys).Sorted (· < ·)
  else (f.sib.keys ++ [f.key]).Sorted (· < ·)

/-- The detached heap `h` stores the subtree `T` of the set below the ancestors `ctx`,
and the two sentinels `e` (`end_`) and `r` (`rend_`) apart from them, childless, of height
`0` and with the key `Key()` they were constructed with. -/
structure WF (h : Heap) (ctx : List Frame) (T : PT) (e r : Nat) : Prop where
  repr : Repr h (ctxPar ctx) T
  crepr : CtxRepr h ctx T.root
  nodup : (T.ids ++ (ctxIds ctx ++ [e, r])).Nodup
  fresh : ∀ j, h.next ≤ j → h.cell j = none
  endc : ∃ n, h.cell e = some n ∧ n.left = none ∧ n.right = none ∧ n.height = 0 ∧ n.key = 0
  rendc : ∃ n, h.cell r = some n ∧ n.left = none ∧ n.right = none ∧ n.height = 0 ∧ n.key = 0
  sorted : T.keys.Sorted (· < ·)
  csorted : ∀ f ∈ ctx, f.sorted
  nonempty : T = .nil → ctx = []

/-- The invariant of a set between two calls: detaching the sentinels gives a well-formed
heap, and attaching them again gives the state back. -/
def Inv (s : AVL) (ctx : List Frame) (T : PT) : Prop :=
  ∃ e r hc, s.end_ = some e ∧ s.rend_ = some r ∧ s.root_ = T.root ∧ s.begin_ = T.minId ∧
    s.rbegin_ = T.maxId ∧ s.size_ = T.ids.length + (ctxIds ctx).length ∧ WF hc ctx T e r ∧
    s.CutMockNode = some { s with heap := hc } ∧
    (T ≠ .nil → AVL.BindMockNode { s with heap := hc } = some s)

/-- The records after `AVL::BindMockNode`, for a set with `begin_ = bi` and `rbegin_ = rbi`. -/
def bindF (c : Nat → Option Node) (bi rbi e r : Nat) : Nat → Option Node := fun j =>
  if j = e then (c e).map (fun n => { n with parent := some rbi })
  else if j = r then (c r).map (fun n => { n with parent := some bi })
  else if j = bi then (c bi).map (fun n =>
    if bi = rbi then { n with left := some r, right := some e } else { n with left := some r })
  else if j = rbi then (c rbi).map (fun n => { n with right := some e })
  else c j

/-- The records after `AVL::CutMockNode`, for a set with `begin_ = bi` and `rbegin_ = rbi`. -/
def cutF (c : Nat → Option Node) (bi rbi : Nat) : Nat → Option Node := fun j =>
  if j = bi then (c bi).map (fun n =>
    if bi = rbi then { n with left := none, right := none } else { n with left := none })
  else if j = rbi then (c rbi).map (fun n => { n with right := none })
  else c j

/-- What a call on a set leaves alone.  `F` lists the nodes of the set before the call and
`F1` those after it: the sentinels stay, the store only grows, every live node outside `F`
other than the sentinels keeps its record, and the nodes of `F1` are nodes of `F` or new. -/
structure Stable (s s1 : AVL) (F F1 : List Nat) : Prop where
  end_eq : s1.end_ = s.end_
  rend_eq : s1.rend_ = s.rend_
  next_le : s.heap.next ≤ s1.heap.next
  frame : ∀ j, j ∉ F → some j ≠ s.end_ → some j ≠ s.rend_ → j < s.heap.next →
    s1.heap.cell j = s.heap.cell j
  grow : ∀ j ∈ F1, j ∈ F ∨ s.heap.next ≤ j

/-- The tree with the tree `sn` hung below its leftmost node. -/
def attachL (sn : PT) : PT → PT
  | .nil => sn
  | .node l x k d ht r => .node (attachL sn l) x k d ht r

/-- The tree with the tree `sn` hung below its rightmost node. -/
def attachR (sn : PT) : PT → PT
  | .nil => sn
  | .node l x k d ht r => .node l x k d ht (attachR sn r)

/-- The record of the parent after `AVL::EraseNode(Node*)` put `kid` where `x` was. -/
def spliceChild (x : Nat) (kid : Option Nat) (n : Node) : Node :=
  if n.left = some x then { n with left := kid } else { n with right := kid }

/-- What the erase path requires beyond `Pre`: the parent holds the root of `t` in one child
slot, its other child lies outside `t`, and its children are live nodes. -/
structure PreE (h : Heap) (par : Option Nat) (t : PT) : Prop where
  pre : Pre h par t
  slot : ∀ g ng, par = some g → h.cell g = some ng →
    (ng.left = t.root ∧ ∀ j ∈ t.ids, ng.right ≠ some j) ∨
      (ng.right = t.root ∧ ∀ j ∈ t.ids, ng.left ≠ some j)
  kids : ∀ g ng, par = some g → h.cell g = some ng →
    ∀ c, (ng.left = some c ∨ ng.right = some c) → ∃ nc, h.cell c = some nc

/-- An intermediate state of an erase: the slot that held `t` now holds `t1`, made of nodes
of `t`; the parent's record follows, possibly with a new height. -/
structure Mid (h h1 : Heap) (par : Option Nat) (t t1 : PT) : Prop where
  repr : Repr h1 par t1
  frame : ∀ j, j ∉ t.ids → some j ≠ par → h1.cell j = h.cell j
  parent : ∀ g ng, par = some g → h.cell g = some ng →
    ∃ hv, h1.cell g = some { replaceChild t.root t1.root ng with height := hv }
  next : h1.next = h.next
  nodup : t1.ids.Nodup
  sub : ∀ j ∈ t1.ids, j ∈ t.ids

/-- The tree around a subtree `v` that hangs at the bottom of a chain of left children;
the chain is listed from the parent of `v` upwards. -/
def plugL : List Frame → PT → PT
  | [], v => v
  | f :: fs, v => plugL fs (.node v f.id f.key f.data f.ht f.sib)

/-- The keys of a chain of left ancestors and of their right subtrees, in order. -/
def spineKeys : List Frame → List Int
  | [] => []
  | f :: fs => (f.key :: f.sib.keys) ++ spineKeys fs

/-- The parent pointer of the subtree at the bottom of a chain hanging below `top`. -/
def spinePar (top : Option Nat) : List Frame → Option Nat
  | [] => top
  | f :: _ => some f.id

/-- Where the pointer returned by the keyed `AVL::EraseNode` lies in the tree it leaves:
at the root, or at the root of a non-empty child of the root. -/
def RetOK (t1 : PT) (ret : Option Nat) : Prop :=
  ret = t1.root ∨ ∃ lc b kb db hb rc, t1 = PT.node lc b kb db hb rc ∧
    ((ret = lc.root ∧ lc ≠ .nil) ∨ (ret = rc.root ∧ rc ≠ .nil))

/-- The subtree rooted at an ancestor once the leaf below it is gone. -/
def Frame.alone (f : Frame) (hv : Nat) : PT :=
  if f.isLeft then .node .nil f.id f.key f.data hv f.sib
  else .node f.sib f.id f.key f.data hv .nil

/-- The constant `kInf` of the source. -/
def kInf : Int := 1000000000

/-- The function `AVL::LowerBound(Node*, Node*, const T&)`. -/
def LowerBound : Nat → Heap → Option Nat → Option Nat → Int → Option (Option Nat)
  | 0, _, _, _, _ => none
  | fuel + 1, h, node, lb, elem =>
    match node with
    | none => some lb
    | some i => do
      let n ← h.cell i
      if ¬ (n.key < elem) then do
        let nlb ← h.read lb
        LowerBound fuel h n.left (if ¬ (nlb.key < n.key) then node else lb) elem
      else LowerBound fuel h n.right lb elem

/-- The function `AVL::UpperBound(Node*, Node*, const T&)`. -/
def UpperBound : Nat → Heap → Option Nat → Option Nat → Int → Option (Option Nat)
  | 0, _, _, _, _ => none
  | fuel + 1, h, node, ub, elem =>
    match node with
    | none => some ub
    | some i => do
      let n ← h.cell i
      if elem < n.key then do
        let nub ← h.read ub
        UpperBound fuel h n.left (if n.key < nub.key then node else ub) elem
      else UpperBound fuel h n.right ub elem

/-- The function `Set::LowerBound(const Key&)` (the non-const overload): the iterator it
returns and the state it leaves. -/
def AVL.SetLowerBound (s : AVL) (elem : Int) : Option (Option Nat × AVL) := do
  let h1 ← s.heap.modify s.rend_ (fun n => { n with key := kInf })
  let ptr ← LowerBound (h1.next + 1) h1 s.root_ s.rend_ elem
  let h2 ← h1.modify s.rend_ (fun n => { n with key := 0 })
  pure (if ptr = s.rend_ then s.end_ else ptr, { s with heap := h2 })

/-- The function `Set::UpperBound(const Key&)`: the iterator it returns and the state it
leaves. -/
def AVL.SetUpperBound (s : AVL) (elem : Int) : Option (Option Nat × AVL) := do
  let h1 ← s.heap.modify s.end_ (fun n => { n with key := kInf })
  let ptr ← UpperBound (h1.next + 1) h1 s.root_ s.end_ elem
  let h2 ← h1.modify s.end_ (fun n => { n with key := 0 })
  pure (ptr, { s with heap := h2 })

/-- The expression `*it` for an iterator `it` of a set. -/
def AVL.deref (s : AVL) (it : Option Nat) : Option Int := (s.heap.read it).map (fun n => n.key)

/-- The climbing loop of `operator--`:
`while (cur->parent != nullptr && prev != cur->right) { prev = cur; cur = prev->parent; }`
followed by the test that selects the result. -/
def climbRight : Nat → Heap → Option Nat → Option Nat → Option (Option Nat)
  | 0, _, _, _ => none
  | fuel + 1, h, prev, cur =>
    match h.read cur with
    | none => none
    | some n =>
      if n.parent ≠ none ∧ prev ≠ n.right then climbRight fuel h cur n.parent
      else if n.parent = none ∧ prev ≠ n.right then some none
      else some cur

/-- The function `Set::BidirectionalIterator::operator--`. -/
def itPrev (h : Heap) (ptr : Option Nat) : Option (Option Nat) := do
  let n ← h.read ptr
  match n.left with
  | some l => rightmost (h.next + 1) h (some l)
  | none =>
    match n.parent with
    | some g => do
      let ng ← h.cell g
      if ng.right = ptr then pure (some g)
      else climbRight (h.next + 1) h (some g) (some g)
    | none => pure none

/-- The loop of `Set::operator<`: the flag `less` and the two iterators when the loop is
left.  `e1` is `end()` of the left operand and `e2` is `s.end()`. -/
def lessLoop : Nat → Heap → Option Nat → Option Nat → Option Nat → Option Nat →
    Option (Bool × Option Nat × Option Nat)
  | 0, _, _, _, _, _ => none
  | fuel + 1, h, e1, e2, it1, it2 =>
    if it1 ≠ e1 ∧ it2 ≠ e2 then do
      let n1 ← h.read it1
      let n2 ← h.read it2
      if n1.key < n2.key then pure (true, it1, it2)
      else do
        let a ← itNext h it1
        let b ← itNext h it2
        lessLoop fuel h e1 e2 a b
    else pure (false, it1, it2)

/-- The function `Set::operator<` for two sets `a` (the left operand) and `b` whose nodes
live in the common store `h`. -/
def AVL.less (h : Heap) (a b : AVL) : Option Bool := do
  let (less, it1, it2) ← lessLoop (h.next + 1) h a.itEnd b.itEnd a.itBegin b.itBegin
  pure (if ¬ less ∧ it1 = a.itEnd ∧ it2 ≠ a.itEnd then true else less)

/-- The constructor `AVL::AVL()` run in a store that already holds other objects. -/
def AVL.newOn (h : Heap) : Option AVL := do
  let (h1, e) := h.alloc
  let h2 ← h1.modify (some e) (fun n => { n with height := 0 })
  let (h3, r) := h2.alloc
  let h4 ← h3.modify (some r) (fun n => { n with height := 0 })
  pure ⟨h4, none, none, some e, none, some r, 0⟩

/-- The function `AVL::CopySubTree`. -/
def CopySubTree : Nat → Heap → Option Nat → Option (Heap × Option Nat)
  | 0, _, _ => none
  | fuel + 1, h, node =>
    match node with
    | none => some (h, none)
    | some i => do
      let n ← h.cell i
      let (h0, nn) := h.alloc
      let h1 ← h0.modify (some nn) (fun _ => n)
      let (h2, l) ← CopySubTree fuel h1 n.left
      let h3 ← h2.modify (some nn) (fun m => { m with left := l })
      let (h4, r) ← CopySubTree fuel h3 n.right
      let h5 ← h4.modify (some nn) (fun m => { m with right := r })
      let n5 ← h5.cell nn
      let h6 ← h5.modifyIf n5.left (fun m => { m with parent := some nn })
      let n6 ← h6.cell nn
      let h7 ← h6.modifyIf n6.right (fun m => { m with parent := some nn })
      pure (h7, some nn)

/-- The copy constructor `AVL::AVL(const AVL&)` (and `Set::Set(const Set&)`): the new
object, in the store that now holds both. -/
def AVL.copy (other : AVL) : Option AVL :=
  match other.root_ with
  | none => do
    let (h1, e) := other.heap.alloc
    let h2 ← h1.modify (some e) (fun n => { n with height := 0 })
    let (h3, r) := h2.alloc
    let h4 ← h3.modify (some r) (fun n => { n with height := 0 })
    pure ⟨h4, none, none, some e, none, some r, other.size_⟩
  | some _ => do
    let (h1, root) ← CopySubTree (other.heap.next + 1) other.heap other.root_
    let cur ← leftmost (h1.next + 1) h1 root
    let nc ← h1.read cur
    let cur2 ← rightmost (h1.next + 1) h1 root
    let nc2 ← h1.read cur2
    pure ⟨h1, root, nc.parent, cur2, nc2.parent, cur, other.size_⟩

/-- The function `AVL::ClearSubtree`. -/
def ClearSubtree : Nat → Heap → Option Nat → Option Heap
  | 0, _, _ => none
  | fuel + 1, h, node =>
    match node with
    | none => some h
    | some i => do
      let n ← h.cell i
      let h1 ← (if n.left ≠ none then ClearSubtree fuel h n.left else some h)
      let n1 ← h1.cell i
      let h2 ← (if n1.right ≠ none then ClearSubtree fuel h1 n1.right else some h1)
      h2.free node

/-- The function `AVL::Clear`. -/
def AVL.Clear (s : AVL) : Option AVL := do
  let s1 ← s.CutMockNode
  let h ← ClearSubtree (s1.heap.next + 1) s1.heap s1.root_
  pure { s1 with heap := h, size_ := 0, root_ := none, begin_ := none, rbegin_ := none }

/-- A call of the public interface, `Clear` included. -/
inductive Call where
  | insert (k : Int)
  | erase (k : Int)
  | clear
deriving DecidableEq

/-- One call applied to a set. -/
def AVL.call (s : AVL) : Call → Option AVL
  | Call.insert k => s.SetInsert k
  | Call.erase k => s.Erase k
  | Call.clear => s.Clear

/-- A sequence of calls applied from left to right. -/
def AVL.calls : List Call → AVL → Option AVL
  | [], s => some s
  | c :: cs, s => (s.call c).bind (AVL.calls cs)

/-- The calls applied to a freshly constructed set. -/
def callsNew (cs : List Call) : Option AVL := AVL.new.bind (AVL.calls cs)

/-- The calls applied to a set freshly constructed in a store that holds other objects. -/
def callsOn (h : Heap) (cs : List Call) : Option AVL := (AVL.newOn h).bind (AVL.calls cs)

/-- The structural height of the claim about balance: an absent child has height `0`, a node
one more than the larger of its children's heights.  `fuel` bounds the depth explored. -/
def structHeight : Nat → Heap → Option Nat → Nat
  | 0, _, _ => 0
  | _ + 1, _, none => 0
  | fuel + 1, h, some i =>
    match h.cell i with
    | none => 0
    | some n => 1 + max (structHeight fuel h n.left) (structHeight fuel h n.right)

/-- Every node reachable from `p` has children whose structural heights differ by at most
one. -/
def balancedFrom : Nat → Heap → Option Nat → Bool
  | 0, _, _ => true
  | _ + 1, _, none => true
  | fuel + 1, h, some i =>
    match h.cell i with
    | none => true
    | some n =>
      decide (structHeight fuel h n.left ≤ structHeight fuel h n.right + 1 ∧
        structHeight fuel h n.right ≤ structHeight fuel h n.left + 1) &&
        balancedFrom fuel h n.left && balancedFrom fuel h n.right

/-- The balance invariant of a set, read on the tree without its two sentinels. -/
def AVL.balanced (s : AVL) : Option Bool :=
  s.CutMockNode.map (fun c => balancedFrom (c.heap.next + 1) c.heap c.root_)

/-- The structural heights of the two children of the root, sentinels detached. -/
def AVL.rootHeights (s : AVL) : Option (Nat × Nat) := do
  let c ← s.CutMockNode
  let n ← c.heap.read c.root_
  pure (structHeight (c.heap.next + 1) c.heap n.left,
    structHeight (c.heap.next + 1) c.heap n.right)

/-- The iterators the loop `for (it = first; it != end(); ++it)` passes through. -/
def positions : Nat → Heap → Option Nat → Option Nat → Option (List (Option Nat))
  | 0, _, _, _ => none
  | fuel + 1, h, e, it =>
    if it = e then some []
    else do
      let nx ← itNext h it
      let rest ← positions fuel h e nx
      pure (it :: rest)

/-- The function `Set::LowerBound(const Key&) const`: the iterator it returns and the state
it leaves.  Its cleanup assigns the key of `end_`. -/
def AVL.SetLowerBoundConst (s : AVL) (elem : Int) : Option (Option Nat × AVL) := do
  let h1 ← s.heap.modify s.rend_ (fun n => { n with key := kInf })
  let ptr ← LowerBound (h1.next + 1) h1 s.root_ s.rend_ elem
  let h2 ← h1.modify s.end_ (fun n => { n with key := 0 })
  pure (if ptr = s.rend_ then s.end_ else ptr, { s with heap := h2 })

/-- The key stored in the sentinel `end_`. -/
def AVL.endKey (s : AVL) : Option Int := (s.heap.read s.end_).map (fun n => n.key)

/-- The key stored in the sentinel `rend_`. -/
def AVL.rendKey (s : AVL) : Option Int := (s.heap.read s.rend_).map (fun n => n.key)

/-- The nodes reachable from `node` through child pointers, in symmetric order. -/
def inorder : Nat → Heap → Option Nat → Option (List Nat)
  | 0, _, _ => none
  | _ + 1, _, none => some []
  | fuel + 1, h, some i => do
    let n ← h.cell i
    let l ← inorder fuel h n.left
    let r ← inorder fuel h n.right
    pure (l ++ i :: r)

/-- The keys of the nodes reachable from `node` through child pointers, in symmetric
order. -/
def inorderKeys : Nat → Heap → Option Nat → Option (List Int)
  | 0, _, _ => none
  | _ + 1, _, none => some []
  | fuel + 1, h, some i => do
    let n ← h.cell i
    let l ← inorderKeys fuel h n.left
    let r ← inorderKeys fuel h n.right
    pure (l ++ n.key :: r)

/-- The nodes reachable from `root_`, the two sentinels included, in symmetric order. -/
def AVL.allNodes (s : AVL) : Option (List Nat) := inorder (s.heap.next + 1) s.heap s.root_

/-- The real nodes of a set in symmetric order: the nodes reachable from `root_` other than
the two sentinels. -/
def AVL.realNodes (s : AVL) : Option (List Nat) :=
  s.allNodes.map (fun l => l.filter (fun i => decide (some i ≠ s.end_ ∧ some i ≠ s.rend_)))

/-- Node `i` stores one more than the larger of the heights stored in its children, an absent
child counting `0`. -/
def heightOK (h : Heap) (i : Nat) : Bool :=
  match h.cell i with
  | none => false
  | some n =>
    match heightOf h n.left, heightOf h n.right with
    | some a, some b => decide (n.height = 1 + max a b)
    | _, _ => false

/-- Every real node stores one more than the larger of its children's stored heights, and
both sentinels store height `0`. -/
def AVL.heightsOK (s : AVL) : Option Bool := do
  let ids ← s.realNodes
  let ne ← s.heap.read s.end_
  let nr ← s.heap.read s.rend_
  pure (ids.all (heightOK s.heap) && decide (ne.height = 0) && decide (nr.height = 0))

/-- The child `c` of node `i`, when present, names `i` as its parent. -/
def childOK (h : Heap) (i : Nat) (c : Option Nat) : Bool :=
  match c with
  | none => true
  | some j =>
    match h.cell j with
    | none => false
    | some m => decide (m.parent = some i)

/-- Both children of node `i`, when present, name `i` as their parent. -/
def linkOK (h : Heap) (i : Nat) : Bool :=
  match h.cell i with
  | none => false
  | some n => childOK h i n.left && childOK h i n.right

/-- Every node reachable from `root_`, sentinels included, is the parent its children name. -/
def AVL.linksOK (s : AVL) : Option Bool := s.allNodes.map (fun l => l.all (linkOK s.heap))

/-- A call of the public interface, `Find` included. -/
inductive Cmd where
  | insert (k : Int)
  | erase (k : Int)
  | find (k : Int)
deriving DecidableEq

/-- One call applied to a set: the state it leaves. -/
def AVL.exec (s : AVL) : Cmd → Option AVL
  | Cmd.insert k => s.SetInsert k
  | Cmd.erase k => s.Erase k
  | Cmd.find k => (s.Find k).map (fun x => x.2)

/-- A sequence of calls applied from left to right. -/
def AVL.execs : List Cmd → AVL → Option AVL
  | [], s => some s
  | c :: cs, s => (s.exec c).bind (AVL.execs cs)

/-- The calls applied to a freshly constructed set. -/
def execsNew (cs : List Cmd) : Option AVL := AVL.new.bind (AVL.execs cs)

/-- The sentinels are attached as the claim describes: `begin_` and `rbegin_` are the first
and the last real node in symmetric order, the left slot of `begin_` holds `rend_`, whose
parent is `begin_`, and the right slot of `rbegin_` holds `end_`, whose parent is
`rbegin_`. -/
def AVL.sidesOK (s : AVL) : Option Bool := do
  let ids ← s.realNodes
  let nb ← s.heap.read s.begin_
  let nrb ← s.heap.read s.rbegin_
  let ne ← s.heap.read s.end_
  let nr ← s.heap.read s.rend_
  pure (decide (s.begin_ = ids.head?) && decide (s.rbegin_ = ids.getLast?) &&
    decide (nb.left = s.rend_) && decide (nr.parent = s.begin_) &&
    decide (nrb.right = s.end_) && decide (ne.parent = s.rbegin_))

/-- The function `Set::rbegin`; a reverse iterator is the node pointer its iterator wraps. -/
def AVL.itRBegin (s : AVL) : Option Nat := if s.Empty then s.rend_ else s.rbegin_

/-- The function `Set::rend`. -/
def AVL.itREnd (s : AVL) : Option Nat := s.rend_

/-- The loop `for (it = first; it != rend(); ++it)` over reverse iterators collecting `*it`:
`MyReverseIterator::operator++` decrements the wrapped iterator and `operator*` reads it. -/
def collectRev : Nat → Heap → Option Nat → Option Nat → Option (List Int)
  | 0, _, _, _ => none
  | fuel + 1, h, e, it =>
    if it = e then some []
    else do
      let n ← h.read it
      let nx ← itPrev h it
      let rest ← collectRev fuel h e nx
      pure (n.key :: rest)

/-- The reverse traversal `for (auto it = rbegin(); it != rend(); ++it)` of a set. -/
def AVL.rtraversal (s : AVL) : Option (List Int) :=
  collectRev (s.heap.next + 1) s.heap s.itREnd s.itRBegin

/-- The structural height of a tree. -/
def PT.sh : PT → Nat
  | .nil => 0
  | .node l _ _ _ _ r => 1 + max l.sh r.sh

/-- Every node of the tree satisfies the balance invariant and stores one more than the
larger of the heights stored in its children. -/
def PT.good : PT → Bool
  | .nil => true
  | .node l _ _ _ ht r =>
    decide (ht = 1 + max l.ht r.ht) && decide (l.ht ≤ r.ht + 1 ∧ r.ht ≤ l.ht + 1) &&
      l.good && r.good

/-- Every node reachable from `p` stores one more than the larger of the structural heights
of its children. -/
def storedFrom : Nat → Heap → Option Nat → Bool
  | 0, _, _ => true
  | _ + 1, _, none => true
  | fuel + 1, h, some i =>
    match h.cell i with
    | none => true
    | some n =>
      decide (n.height = 1 + max (structHeight fuel h n.left) (structHeight fuel h n.right)) &&
        storedFrom fuel h n.left && storedFrom fuel h n.right

/-- The stored heights of a set, read on the tree without its two sentinels. -/
def AVL.stored (s : AVL) : Option Bool :=
  s.CutMockNode.map (fun c => storedFrom (c.heap.next + 1) c.heap c.root_)

/-- A store holding node `0` with key `10` and its right child, node `1` with key `20`. -/
def chainHeap : Heap :=
  ⟨fun j => if j = 0 then some ⟨none, some 1, none, 2, 10, 10⟩
    else if j = 1 then some ⟨none, none, some 0, 1, 20, 20⟩ else none, 2⟩

/-- The tree the store `chainHeap` holds. -/
def chainTree : PT := .node .nil 0 10 10 2 (.node .nil 1 20 20 1 .nil)

/-- A store holding node `0` (key `10`, stored height `3`), its right child `1` (key `30`,
stored height `2`) and the left child `2` of that child (key `20`, stored height `1`):
`Diff` is `-2` at node `0` and `1` at node `1`. -/
def zigHeap : Heap :=
  ⟨fun j => if j = 0 then some ⟨none, some 1, none, 3, 10, 10⟩
    else if j = 1 then some ⟨some 2, none, some 0, 2, 30, 30⟩
    else if j = 2 then some ⟨none, none, some 1, 1, 20, 20⟩ else none, 3⟩

/-- The call of `Balance` that ends `Erase(3)` on the set built by `Insert` of `0, 1, 2, 3`:
the root holds `1 < 3`, so its frame of `EraseNode` runs the recursive call on the right
child and then `Balance` on the store that call returns, with the root as argument. -/
def staleCall : Option (Heap × Option Nat) :=
  (runNew [Op.insert 0, Op.insert 1, Op.insert 2, Op.insert 3]).bind (fun s =>
    (s.Find 3).bind (fun f => f.2.CutMockNode.bind (fun c =>
      (c.heap.read c.root_).bind (fun n =>
        (EraseNode c.heap.next c.heap n.right 3).map (fun x => (x.1, c.root_))))))

/-- The call of `Balance` that ends `Insert(20)` on the set built by `Insert` of
`23, 6, 0, 5, 4, 11, 10, 3, 15, 19, 21, 9, 12, 14` and `Erase(19)`: the root holds `6 < 20`,
so its frame of `InsertNode` runs the recursive call on the right child, then `Update` on
the root, then `Balance` on the resulting store, with the root as argument. -/
def skewCall : Option (Heap × Option Nat) :=
  (runNew [Op.insert 23, Op.insert 6, Op.insert 0, Op.insert 5, Op.insert 4, Op.insert 11,
    Op.insert 10, Op.insert 3, Op.insert 15, Op.insert 19, Op.insert 21, Op.insert 9,
    Op.insert 12, Op.insert 14, Op.erase 19]).bind (fun s =>
    (s.Find 20).bind (fun f => f.2.CutMockNode.bind (fun c =>
      (c.heap.read c.root_).bind (fun n =>
        (InsertNode c.heap.next c.heap n.right 20 20).bind (fun x =>
          (Update x.1 c.root_).map (fun h2 => (h2, c.root_)))))))

/-- The call of `Balance` that ends `Erase(3)` on the set built by `Insert` of
`5, 3, 8, 2, 4, 7, 10, 1, 6, 9, 11, 12` and `Erase` of `6, 4, 1`: the root holds `5 > 3`, so
its frame of `EraseNode` runs the recursive call on the left child and then `Balance` on the
store that call returns, with the root as argument. -/
def rotCall : Option (Heap × Option Nat) :=
  (runNew [Op.insert 5, Op.insert 3, Op.insert 8, Op.insert 2, Op.insert 4, Op.insert 7,
    Op.insert 10, Op.insert 1, Op.insert 6, Op.insert 9, Op.insert 11, Op.insert 12,
    Op.erase 6, Op.erase 4, Op.erase 1]).bind (fun s =>
    (s.Find 3).bind (fun f => f.2.CutMockNode.bind (fun c =>
      (c.heap.read c.root_).bind (fun n =>
        (EraseNode c.heap.next c.heap n.left 3).map (fun x => (x.1, c.root_))))))

/-- The store of the call `rotCall`, written out: the two sentinels at the addresses `0` and
`1`, the root at address `2` with key `5` and stored height `5`, its left child with key
`2` and stored height `1`, and its right child with key `10` and stored height `3`. -/
def erasedHeap : Heap :=
  ⟨fun j => ([some ⟨none, none, some 13, 0, 0, 0⟩, some ⟨none, none, some 5, 0, 0, 0⟩,
      some ⟨some 5, some 8, none, 5, 5, 5⟩, none, some ⟨some 7, some 11, some 8, 2, 8, 8⟩,
      some ⟨none, none, some 2, 1, 2, 2⟩, none, some ⟨none, none, some 4, 1, 7, 7⟩,
      some ⟨some 4, some 12, some 2, 3, 10, 10⟩, none, none,
      some ⟨none, none, some 4, 1, 9, 9⟩, some ⟨none, some 13, some 8, 2, 11, 11⟩,
      some ⟨none, none, some 12, 1, 12, 12⟩] : List (Option Node)).getD j none, 14⟩

/-- The left subtree of the root in `erasedHeap`. -/
def erasedLeft : PT := .node .nil 5 2 2 1 .nil

/-- The right subtree of the root in `erasedHeap`. -/
def erasedRight : PT :=
  .node (.node (.node .nil 7 7 7 1 .nil) 4 8 8 2 (.node .nil 11 9 9 1 .nil)) 8 10 10 3
    (.node .nil 12 11 11 2 (.node .nil 13 12 12 1 .nil))

/-- The record with its two child pointers exchanged. -/
def Node.flip (n : Node) : Node := ⟨n.right, n.left, n.parent, n.height, n.key, n.data⟩

/-- The store with the two child pointers of every node exchanged. -/
def Heap.flip (h : Heap) : Heap := ⟨fun j => (h.cell j).map Node.flip, h.next⟩

/-- The mirror image of a tree. -/
def PT.flip : PT → PT
  | .nil => .nil
  | .node l i k d ht r => .node r.flip i k d ht l.flip

/-- Two trees with the same shape and the same stored keys, values and heights, whatever
the addresses of their nodes. -/
def Iso : PT → PT → Prop
  | .nil, .nil => True
  | .node l _ k d ht r, .node l1 _ k1 d1 ht1 r1 =>
    k = k1 ∧ d = d1 ∧ ht = ht1 ∧ Iso l l1 ∧ Iso r r1
  | _, _ => False

/-- The record `List<T, Alloc>::Node` of `src/list.hpp`, for `T = int`. -/
structure LNode where
  next : Option Nat
  prev : Option Nat
  value : Int
deriving DecidableEq

/-- The memory handed out by the list's allocator: the live nodes and the next address. -/
structure LHeap where
  cell : Nat → Option LNode
  next : Nat

/-- The allocator's memory before any allocation. -/
def LHeap.empty : LHeap := ⟨fun _ => none, 0⟩

/-- Dereference of a node pointer; `none` for `nullptr` and for a deallocated address. -/
def LHeap.read (h : LHeap) (p : Option Nat) : Option LNode :=
  match p with
  | none => none
  | some i => h.cell i

/-- An assignment through a node pointer, `p->field = value`. -/
def LHeap.modify (h : LHeap) (p : Option Nat) (f : LNode → LNode) : Option LHeap :=
  match p with
  | none => none
  | some i =>
    match h.cell i with
    | none => none
    | some n => some ⟨fun j => if j = i then some (f n) else h.cell j, h.next⟩

/-- Allocation of one node at a never used address, holding the record `n`. -/
def LHeap.alloc (h : LHeap) (n : LNode) : LHeap × Nat :=
  (⟨fun j => if j = h.next then some n else h.cell j, h.next + 1⟩, h.next)

/-- The function `List::destroy_node`: the node is destroyed and its memory released. -/
def LHeap.destroy_node (h : LHeap) (p : Option Nat) : Option LHeap :=
  match p with
  | none => none
  | some i =>
    match h.cell i with
    | none => none
    | some _ => some ⟨fun j => if j = i then none else h.cell j, h.next⟩

/-- The class `List<int>` of `src/list.hpp` (the name `List` is taken by the lists of the
logic): the allocator's memory and the fields `size_`, `head_`, `tail_`, `fictive_`. -/
structure DList where
  heap : LHeap
  size_ : Nat
  head_ : Option Nat
  tail_ : Option Nat
  fictive_ : Option Nat

/-- The function `List::fictive_normalize`. -/
def DList.fictive_normalize (l : DList) : Option DList := do
  let h1 ← l.heap.modify l.fictive_ (fun n => { n with prev := l.tail_ })
  let h2 ← h1.modify l.fictive_ (fun n => { n with next := l.head_ })
  let h3 ← (match l.head_ with
    | none => some h2
    | some _ => h2.modify l.head_ (fun n => { n with prev := l.fictive_ }))
  let h4 ← (match l.tail_ with
    | none => some h3
    | some _ => h3.modify l.tail_ (fun n => { n with next := l.fictive_ }))
  pure { l with heap := h4 }

/-- The function `List::fictive_allocate`; the sentinel is raw memory, its links are set by
`fictive_normalize` and its value is never initialised (modelled as `0`). -/
def DList.fictive_allocate (l : DList) : Option DList :=
  ({ l with heap := (l.heap.alloc ⟨none, none, 0⟩).1,
            fictive_ := some (l.heap.alloc ⟨none, none, 0⟩).2 } : DList).fictive_normalize

/-- The default constructor `List()`. -/
def DList.new : Option DList :=
  (⟨LHeap.empty, 0, none, none, none⟩ : DList).fictive_allocate

/-- The function `List::empty`. -/
def DList.empty (l : DList) : Bool := decide (l.size_ = 0)

/-- The node `List::begin()` points to. -/
def DList.itBegin (l : DList) : Option Nat := if l.head_ = none then l.fictive_ else l.head_

/-- The node `List::end()` points to. -/
def DList.itEnd (l : DList) : Option Nat := l.fictive_

/-- The function `List::back`. -/
def DList.back (l : DList) : Option Int := (l.heap.read l.tail_).map (fun n => n.value)

/-- The iterator's `operator++`: `ptr_ = ptr_->next`. -/
def listNext (h : LHeap) (ptr : Option Nat) : Option (Option Nat) :=
  (h.read ptr).map (fun n => n.next)

/-- The iterator's `operator--`: `ptr_ = ptr_->prev`. -/
def listPrev (h : LHeap) (ptr : Option Nat) : Option (Option Nat) :=
  (h.read ptr).map (fun n => n.prev)

/-- The iterator's `operator*`. -/
def listDeref (h : LHeap) (ptr : Option Nat) : Option Int :=
  (h.read ptr).map (fun n => n.value)

/-- The function `List::emplace` with one `int` argument; returns the list and the node the
returned iterator points to. -/
def DList.emplace (l : DList) (it : Option Nat) (x : Int) : Option (DList × Option Nat) :=
  let h1 := (l.heap.alloc ⟨none, none, x⟩).1
  let new_node := some (l.heap.alloc ⟨none, none, x⟩).2
  let size1 := l.size_ + 1
  if size1 = 1 then do
    let l2 ← ({ l with heap := h1, size_ := size1, head_ := new_node, tail_ := new_node }
      : DList).fictive_normalize
    pure (l2, new_node)
  else do
    let next := it
    let nn ← h1.read next
    let prev := nn.prev
    let tail1 := if next = l.fictive_ then new_node else l.tail_
    let head1 := if next = l.head_ then new_node else l.head_
    let h2 ← h1.modify prev (fun n => { n with next := new_node })
    let h3 ← h2.modify next (fun n => { n with prev := new_node })
    let h4 ← h3.modify new_node (fun n => { n with next := next })
    let h5 ← h4.modify new_node (fun n => { n with prev := prev })
    pure (⟨h5, size1, head1, tail1, l.fictive_⟩, new_node)

/-- The function `List::push_back` (through `emplace_back`). -/
def DList.push_back (l : DList) (x : Int) : Option DList :=
  (l.emplace l.itEnd x).map Prod.fst

/-- The function `List::pop_back`; the exception on an empty list is `none`. -/
def DList.pop_back (l : DList) : Option DList :=
  if l.size_ = 0 then none
  else do
    let tmp := l.tail_
    let nt ← l.heap.read tmp
    let new_tail := nt.prev
    let h1 ← l.heap.modify new_tail (fun n => { n with next := l.fictive_ })
    let h2 ← h1.modify l.fictive_ (fun n => { n with prev := l.tail_ })
    let h3 ← h2.destroy_node tmp
    if l.size_ - 1 = 0 then pure ⟨h3, l.size_ - 1, none, none, l.fictive_⟩
    else pure ⟨h3, l.size_ - 1, l.head_, new_tail, l.fictive_⟩

/-- The loop `for (it = begin(); it != end(); ++it)` collecting `*it`. -/
def listCollect : Nat → LHeap → Option Nat → Option Nat → Option (List Int)
  | 0, _, _, _ => none
  | fuel + 1, h, it, stop =>
    if it = stop then some []
    else do
      let n ← h.read it
      let rest ← listCollect fuel h n.next stop
      pure (n.value :: rest)

/-- The forward traversal `begin()..end()` of a list. -/
def DList.traversal (l : DList) : Option (List Int) :=
  listCollect (l.heap.next + 1) l.heap l.itBegin l.itEnd

/-- The constant `inf = 1e9 + 7` of `src/SegTree.hpp`. -/
def inf : Int := 1000000007

/-- The value an `int` holds after an arithmetic result `x`: reduction to the 32-bit two's
complement range. -/
def wrapInt (x : Int) : Int := (x + 2147483648) % 4294967296 - 2147483648

/-- The functor `Addition<int>`. -/
def Addition (a b : Int) : Int := wrapInt (a + b)

/-- The functor `Minimum<int>`. -/
def Minimum (a b : Int) : Int := if a < b then a else b

/-- The constant `neutral<int, Addition>`, stored in `e_sum_`. -/
def e_sum_ : Int := 0

/-- The constant `neutral<int, Minimum>`, stored in `e_min_`. -/
def e_min_ : Int := inf

/-- The record `SegTree::Node`. -/
structure SNode where
  sum : Int
  min : Int
  left : Nat
  right : Nat
deriving DecidableEq

/-- The class `SegTree<int>`: the vector `v_`, given by its size and its elements. -/
structure SegTree where
  size : Nat
  cell : Nat → SNode

/-- The read `v_[i]`; `none` outside the vector. -/
def SegTree.get (t : SegTree) (i : Nat) : Option SNode :=
  if i < t.size then some (t.cell i) else none

/-- An assignment to fields of `v_[i]`; `none` outside the vector. -/
def SegTree.modify (t : SegTree) (i : Nat) (f : SNode → SNode) : Option SegTree :=
  if i < t.size then some ⟨t.size, fun j => if j = i then f (t.cell i) else t.cell j⟩
  else none

/-- The least `k` from `k` upwards with `n ≤ 2 ^ k`, searched for `fuel` steps. -/
def ceilLog2From : Nat → Nat → Nat → Nat
  | 0, k, _ => k
  | fuel + 1, k, n => if n ≤ 2 ^ k then k else ceilLog2From fuel (k + 1) n

/-- The value `ceil(log2(n))` for `n ≥ 1`, the floating-point computation taken as exact. -/
def ceilLog2 (n : Nat) : Nat := ceilLog2From n 0 n

/-- The first loop of the constructor, `cnt` iterations from index `i`:
`v_[i].sum = a[i % sz]; v_[i].min = a[i % sz];`. -/
def assignLeaves (a : List Int) (sz : Nat) : Nat → Nat → SegTree → Option SegTree
  | 0, _, t => some t
  | cnt + 1, i, t => do
    let x ← a[i % sz]?
    let t1 ← t.modify i (fun n => { n with sum := x, min := x })
    assignLeaves a sz cnt (i + 1) t1

/-- The second loop of the constructor, `cnt` iterations from index `i`:
`v_[i].left = i % sz; v_[i].right = i % sz;`. -/
def setBounds (sz : Nat) : Nat → Nat → SegTree → Option SegTree
  | 0, _, t => some t
  | cnt + 1, i, t => do
    let t1 ← t.modify i (fun n => { n with left := i % sz, right := i % sz })
    setBounds sz cnt (i + 1) t1

/-- The two statements recomputing `v_[i].sum` and `v_[i].min` from the elements `2 * i` and
`2 * i + 1`. -/
def SegTree.recompute (t : SegTree) (i : Nat) : Option SegTree := do
  let l ← t.get (2 * i)
  let r ← t.get (2 * i + 1)
  let t1 ← t.modify i (fun n => { n with sum := Addition l.sum r.sum })
  let l1 ← t1.get (2 * i)
  let r1 ← t1.get (2 * i + 1)
  t1.modify i (fun n => { n with min := Minimum l1.min r1.min })

/-- The third loop of the constructor, from index `i` down to `1`. -/
def buildUp : Nat → SegTree → Option SegTree
  | 0, t => some t
  | i + 1, t => do
    let t1 ← t.recompute (i + 1)
    let l ← t1.get (2 * (i + 1))
    let t2 ← t1.modify (i + 1) (fun n => { n with left := l.left })
    let r ← t2.get (2 * (i + 1) + 1)
    let t3 ← t2.modify (i + 1) (fun n => { n with right := r.right })
    buildUp i t3

/-- The constructor `SegTree(const vector<int>& a)`.  For an empty `a` the source computes
`sz = 0` and its third loop starts at `size_t(-1)`, reading outside `v_`: `none`. -/
def SegTree.build (a : List Int) : Option SegTree :=
  if a.length = 0 then none
  else do
    let t1 ← assignLeaves a (2 ^ ceilLog2 a.length) a.length (2 ^ ceilLog2 a.length)
      ⟨2 * 2 ^ ceilLog2 a.length, fun _ => ⟨e_sum_, e_min_, 0, 0⟩⟩
    let t2 ← setBounds (2 ^ ceilLog2 a.length) (2 ^ ceilLog2 a.length)
      (2 ^ ceilLog2 a.length) t1
    buildUp (2 ^ ceilLog2 a.length - 1) t2

/-- The private function `SegTree::GetSum(node, l, r)`. -/
def SegTree.GetSumAt (t : SegTree) : Nat → Nat → Nat → Nat → Option Int
  | 0, _, _, _ => none
  | fuel + 1, node, l, r => do
    let n ← t.get node
    if l > n.right ∨ r < n.left then pure e_sum_
    else if l ≤ n.left ∧ r ≥ n.right then pure n.sum
    else do
      let x ← SegTree.GetSumAt t fuel (2 * node) l r
      let y ← SegTree.GetSumAt t fuel (2 * node + 1) l r
      pure (Addition x y)

/-- The private function `SegTree::GetMin(node, l, r)`. -/
def SegTree.GetMinAt (t : SegTree) : Nat → Nat → Nat → Nat → Option Int
  | 0, _, _, _ => none
  | fuel + 1, node, l, r => do
    let n ← t.get node
    if l > n.right ∨ r < n.left then pure e_min_
    else if l ≤ n.left ∧ r ≥ n.right then pure n.min
    else do
      let x ← SegTree.GetMinAt t fuel (2 * node) l r
      let y ← SegTree.GetMinAt t fuel (2 * node + 1) l r
      pure (Minimum x y)

/-- The public function `SegTree::GetSum(l, r)`; the exception is `none`. -/
def SegTree.GetSum (t : SegTree) (l r : Nat) : Option Int :=
  if r > t.size / 2 ∨ l > r then none else t.GetSumAt t.size 1 l r

/-- The public function `SegTree::GetMin(l, r)`; the exception is `none`. -/
def SegTree.GetMin (t : SegTree) (l r : Nat) : Option Int :=
  if r > t.size / 2 ∨ l > r then none else t.GetMinAt t.size 1 l r

/-- The loop `while (node > 1)` of `SegTree::Change`. -/
def climbUp : Nat → Nat → SegTree → Option SegTree
  | 0, node, t => if node > 1 then none else some t
  | fuel + 1, node, t =>
    if node > 1 then do
      let t1 ← t.recompute (node / 2)
      climbUp fuel (node / 2) t1
    else some t

/-- The function `SegTree::Change`; the exception is `none`. -/
def SegTree.Change (t : SegTree) (i : Nat) (val : Int) : Option SegTree :=
  if i ≥ t.size / 2 then none
  else do
    let t1 ← t.modify (t.size / 2 + i) (fun n => { n with sum := val, min := val })
    climbUp (t.size / 2 + i) (t.size / 2 + i) t1

/-- The values an `int` can hold. -/
def inInt (x : Int) : Prop := -2147483648 ≤ x ∧ x ≤ 2147483647

/-- The sum `a[l] + ... + a[r]` over the integers. -/
def rangeSum (a : List Int) (l r : Nat) : Int := ((a.drop l).take (r + 1 - l)).sum

/-- The minimum of `a[l], ..., a[r]`, if the range is not empty. -/
def rangeMin (a : List Int) (l r : Nat) : Option Int := ((a.drop l).take (r + 1 - l)).min?

/-- The sum `f lo + ... + f (lo + n - 1)`. -/
def segSum (f : Nat → Int) (lo : Nat) : Nat → Int
  | 0 => 0
  | n + 1 => f lo + segSum f (lo + 1) n

/-- The sum of `f j` over the `j` in `[lo, lo + n)` with `l ≤ j ≤ r`. -/
def maskSum (f : Nat → Int) (l r lo : Nat) : Nat → Int
  | 0 => 0
  | n + 1 => (if l ≤ lo ∧ lo ≤ r then f lo else 0) + maskSum f l r (lo + 1) n

/-- The vector `t` is a complete tree over `sz` leaves whose leaf `j` stores the sum `f j` and
the range `[j, j]`, and whose inner elements `1 .. sz - 1` store the wrapped sum of their two
children and the union of their ranges. -/
structure SumInv (t : SegTree) (sz : Nat) (f : Nat → Int) : Prop where
  size : t.size = 2 * sz
  leaf : ∀ j, j < sz → (t.cell (sz + j)).sum = f j ∧ (t.cell (sz + j)).left = j ∧
    (t.cell (sz + j)).right = j
  bounds : ∀ i, 1 ≤ i → i < sz → (t.cell i).left = (t.cell (2 * i)).left ∧
    (t.cell i).right = (t.cell (2 * i + 1)).right
  node : ∀ i, 1 ≤ i → i < sz →
    (t.cell i).sum = Addition (t.cell (2 * i)).sum (t.cell (2 * i + 1)).sum

/-- The state of the loop of `Change` standing at `node`: as `SumInv`, except that the sums
of the elements above `node` are not yet recomputed. -/
structure ClimbInv (t : SegTree) (sz : Nat) (f : Nat → Int) (node : Nat) : Prop where
  size : t.size = 2 * sz
  leaf : ∀ j, j < sz → (t.cell (sz + j)).sum = f j ∧ (t.cell (sz + j)).left = j ∧
    (t.cell (sz + j)).right = j
  bounds : ∀ i, 1 ≤ i → i < sz → (t.cell i).left = (t.cell (2 * i)).left ∧
    (t.cell i).right = (t.cell (2 * i + 1)).right
  node : ∀ i, 1 ≤ i → i < sz → (∀ s, 1 ≤ s → i ≠ node / 2 ^ s) →
    (t.cell i).sum = Addition (t.cell (2 * i)).sum (t.cell (2 * i + 1)).sum

set_option maxRecDepth 100000

@[simp] theorem PT.root_nil : PT.nil.root = none := rfl

@[simp] theorem PT.root_node (l : PT) (i : Nat) (k d : Int) (ht : Nat) (r : PT) :
    (PT.node l i k d ht r).root = some i := rfl

@[simp] theorem PT.ht_nil : PT.nil.ht = 0 := rfl

@[simp] theorem PT.ht_node (l : PT) (i : Nat) (k d : Int) (ht : Nat) (r : PT) :
    (PT.node l i k d ht r).ht = ht := rfl

@[simp] theorem PT.ids_nil : PT.nil.ids = [] := rfl

@[simp] theorem PT.ids_node (l : PT) (i : Nat) (k d : Int) (ht : Nat) (r : PT) :
    (PT.node l i k d ht r).ids = l.ids ++ i :: r.ids := rfl

@[simp] theorem PT.keys_nil : PT.nil.keys = [] := rfl

@[simp] theorem PT.keys_node (l : PT) (i : Nat) (k d : Int) (ht : Nat) (r : PT) :
    (PT.node l i k d ht r).keys = l.keys ++ k :: r.keys := rfl

theorem Repr_congr {h h1 : Heap} {t : PT} : ∀ {par : Option Nat},
    (∀ i ∈ t.ids, h1.cell i = h.cell i) → Repr h par t → Repr h1 par t := by
  induction t with
  | nil => intro _ _ _; trivial
  | node l i k d ht r ihl ihr =>
    intro par hc hr
    obtain ⟨h0, h1l, h1r⟩ := hr
    refine ⟨?_, ihl ?_ h1l, ihr ?_ h1r⟩
    · rw [hc i (by simp [PT.ids])]; exact h0
    · intro j hj; exact hc j (by simp [PT.ids, hj])
    · intro j hj; exact hc j (by simp [PT.ids, hj])

theorem heightOf_root {h : Heap} {par : Option Nat} {t : PT} (hr : Repr h par t) :
    heightOf h t.root = some t.ht := by
  cases t with
  | nil => rfl
  | node l i k d ht r => simp [heightOf, PT.root, PT.ht, hr.1]

theorem Diff_root {h : Heap} {par : Option Nat} {t : PT} (hr : Repr h par t) :
    Diff h t.root = some (pDiff t) := by
  cases t with
  | nil => rfl
  | node l i k d ht r =>
    obtain ⟨h0, hl, hr⟩ := hr
    cases l with
    | nil =>
      cases r with
      | nil => simp [Diff, PT.root, h0, pDiff, PT.ht]
      | node rl ri rk rd rh rr => simp [Diff, PT.root, h0, pDiff, PT.ht, hr.1]
    | node ll li lk ld lh lr =>
      cases r with
      | nil => simp [Diff, PT.root, h0, pDiff, PT.ht, hl.1]
      | node rl ri rk rd rh rr => simp [Diff, PT.root, h0, pDiff, PT.ht, hr.1, hl.1]

theorem replaceChild_self (x : Option Nat) (n : Node) : replaceChild x x n = n := by
  unfold replaceChild
  split
  · next e => cases n; simp at e; simp [e]
  · split
    · next e => cases n; simp at e; simp [e]
    · rfl

@[simp] theorem write_cell (h : Heap) (i j : Nat) (n : Node) :
    (h.write i n).cell j = if j = i then some n else h.cell j := rfl

@[simp] theorem write_next (h : Heap) (i : Nat) (n : Node) : (h.write i n).next = h.next := rfl

theorem heightOf_none (h : Heap) : heightOf h none = some 0 := rfl

theorem heightOf_write_ne {h : Heap} {p : Option Nat} {i : Nat} {n : Node} (hp : p ≠ some i) :
    heightOf (h.write i n) p = heightOf h p := by
  cases p with
  | none => rfl
  | some j =>
    have : j ≠ i := fun e => hp (by rw [e])
    simp [heightOf, this]

theorem heightOf_congr {h h1 : Heap} {p : Option Nat} (hc : ∀ i, p = some i → h1.cell i = h.cell i) :
    heightOf h1 p = heightOf h p := by
  cases p with
  | none => rfl
  | some j => simp [heightOf, hc j rfl]

theorem UpdatePtr_eq {h : Heap} {a b : Nat} {na nb : Node} (hab : a ≠ b)
    (ha : h.cell a = some na) (hb : h.cell b = some nb)
    (hg : ∀ g, na.parent = some g → g ≠ a ∧ g ≠ b ∧ ∃ ng, h.cell g = some ng) :
    ∃ h1, UpdatePtr h (some a) (some b) = some h1 ∧ h1.next = h.next ∧
      h1.cell a = some na ∧ h1.cell b = some { nb with parent := na.parent } ∧
      (∀ g ng, na.parent = some g → h.cell g = some ng →
        h1.cell g = some (replaceChild (some a) (some b) ng)) ∧
      (∀ j, j ≠ b → some j ≠ na.parent → h1.cell j = h.cell j) := by
  cases hp : na.parent with
  | none =>
    simp only [UpdatePtr, Heap.read, ha, hp, Heap.modify, hb, Option.bind_eq_bind, Option.some_bind,
      Option.pure_def]
    refine ⟨_, rfl, rfl, ?_, ?_, ?_, ?_⟩
    · simp [hab]; exact ha
    · simp
    · intro g ng e; cases e
    · intro j hj _; simp [hj]
  | some g =>
    obtain ⟨hga, hgb, ng, hgc⟩ := hg g hp
    by_cases h1 : ng.left = some a
    · simp only [UpdatePtr, Heap.read, ha, hp, Heap.modify, hb, hgc, h1, if_true,
        Option.bind_eq_bind, Option.some_bind, Option.pure_def, write_cell, hab, hab.symm,
        hga, hgb, hga.symm, hgb.symm, if_false]
      refine ⟨_, rfl, rfl, ?_, ?_, ?_, ?_⟩
      · simp [hab, hga.symm, ha]
      · simp
      · intro g1 ng1 e e1
        cases e
        rw [hgc] at e1; cases e1
        simp [hgb, replaceChild, h1]
      · intro j hj hj1
        have : j ≠ g := fun e => hj1 (by rw [e])
        simp [hj, this]
    · by_cases h2 : ng.right = some a
      · simp only [UpdatePtr, Heap.read, ha, hp, Heap.modify, hb, hgc, h1, h2, if_true,
          Option.bind_eq_bind, Option.some_bind, Option.pure_def, write_cell, hab, hab.symm,
          hga, hgb, hga.symm, hgb.symm, if_false]
        refine ⟨_, rfl, rfl, ?_, ?_, ?_, ?_⟩
        · simp [hab, hga.symm, ha]
        · simp
        · intro g1 ng1 e e1
          cases e
          rw [hgc] at e1; cases e1
          simp [hgb, replaceChild, h1, h2]
        · intro j hj hj1
          have : j ≠ g := fun e => hj1 (by rw [e])
          simp [hj, this]
      · simp only [UpdatePtr, Heap.read, ha, hp, Heap.modify, hb, hgc, h1, h2, if_true,
          Option.bind_eq_bind, Option.some_bind, Option.pure_def, write_cell, hab, hab.symm,
          hga, hgb, hga.symm, hgb.symm, if_false]
        refine ⟨_, rfl, rfl, ?_, ?_, ?_, ?_⟩
        · simp [hab, ha]
        · simp
        · intro g1 ng1 e e1
          cases e
          rw [hgc] at e1; cases e1
          simp [hgb, replaceChild, h1, h2, hgc]
        · intro j hj hj1
          simp [hj]

theorem rotateLeftBody_eq {h : Heap} {a b : Nat} {na nb : Node} {p q r : Option Nat}
    {u v w : Nat} (hab : a ≠ b)
    (ha : h.cell a = some na) (hb : h.cell b = some nb)
    (hqa : q ≠ some a) (hqb : q ≠ some b)
    (hqc : ∀ qi, q = some qi → ∃ nq, h.cell qi = some nq ∧ nq.height = v)
    (hq0 : q = none → v = 0)
    (hpa : p ≠ some a) (hpb : p ≠ some b) (hpq : p = none ∨ p ≠ q) (hph : heightOf h p = some u)
    (hra : r ≠ some a) (hrb : r ≠ some b) (hrq : r = none ∨ r ≠ q) (hrh : heightOf h r = some w) :
    ∃ h1, rotateLeftBody h (some a) (some b) p q r = some (h1, some b) ∧ h1.next = h.next ∧
      h1.cell a = some { na with parent := some b, right := q, height := max u v + 1 } ∧
      h1.cell b = some { nb with left := some a, height := max (max u v + 1) w + 1 } ∧
      (∀ qi nq, q = some qi → h.cell qi = some nq →
        h1.cell qi = some { nq with parent := some a }) ∧
      (∀ j, j ≠ a → j ≠ b → some j ≠ q → h1.cell j = h.cell j) := by
  cases q with
  | none =>
    have hq0 := hq0 rfl
    subst hq0
    simp only [rotateLeftBody, Heap.modify, Heap.modifyIf, Heap.read, ha, hb, hab, hab.symm,
      write_cell, if_true, if_false, Option.bind_eq_bind, Option.some_bind, Option.pure_def,
      heightOf_write_ne hpa, heightOf_write_ne hpb, heightOf_write_ne hra, heightOf_write_ne hrb,
      hph, hrh, heightOf_none]
    refine ⟨_, rfl, rfl, ?_, ?_, ?_, ?_⟩
    · simp [hab]
    · simp
    · intro qi nq e; cases e
    · intro j hja hjb _; simp [hja, hjb]
  | some qi =>
    obtain ⟨nq, hqcell, hqh⟩ := hqc qi rfl
    subst hqh
    have hqa1 : qi ≠ a := fun e => hqa (by rw [e])
    have hqb1 : qi ≠ b := fun e => hqb (by rw [e])
    have hpq1 : p ≠ some qi := by
      rcases hpq with e | e
      · rw [e]; simp
      · exact e
    have hrq1 : r ≠ some qi := by
      rcases hrq with e | e
      · rw [e]; simp
      · exact e
    simp only [rotateLeftBody, Heap.modify, Heap.modifyIf, Heap.read, ha, hb, hab, hab.symm,
      write_cell, if_true, if_false, Option.bind_eq_bind, Option.some_bind, Option.pure_def,
      heightOf_write_ne hpa, heightOf_write_ne hpb, heightOf_write_ne hra, heightOf_write_ne hrb,
      heightOf_write_ne hpq1, heightOf_write_ne hrq1, hqa1, hqb1, hqa1.symm, hqb1.symm, hqcell,
      hph, hrh]
    simp only [heightOf, write_cell, if_true, Option.map_some', Option.bind_eq_bind,
      Option.some_bind]
    refine ⟨_, rfl, rfl, ?_, ?_, ?_, ?_⟩
    · simp [hab]
    · simp
    · intro qi1 nq1 e e1; cases e; rw [hqcell] at e1; cases e1; simp [hqa1, hqb1]
    · intro j hja hjb hjq
      have : j ≠ qi := fun e => hjq (by rw [e])
      simp [hja, hjb, this]

theorem root_mem_ids {t : PT} {i : Nat} (h : t.root = some i) : i ∈ t.ids := by
  cases t with
  | nil => cases h
  | node l j k d ht r => simp [PT.root] at h; simp [PT.ids, h]

theorem Repr_reparent {h h1 : Heap} {t : PT} {par par1 : Option Nat} (hr : Repr h par t)
    (hnd : t.ids.Nodup)
    (hroot : ∀ i n, t.root = some i → h.cell i = some n →
      h1.cell i = some { n with parent := par1 })
    (hrest : ∀ j ∈ t.ids, some j ≠ t.root → h1.cell j = h.cell j) : Repr h1 par1 t := by
  cases t with
  | nil => trivial
  | node l i k d ht r =>
    obtain ⟨h0, hl, hr⟩ := hr
    simp only [PT.ids, List.nodup_append, List.nodup_cons, List.mem_cons, List.mem_append] at hnd
    obtain ⟨_, ⟨hir, _⟩, hdis⟩ := hnd
    refine ⟨?_, Repr_congr ?_ hl, Repr_congr ?_ hr⟩
    · rw [hroot i _ rfl h0]
    · intro j hj
      apply hrest j (by simp [PT.ids, hj])
      simp only [PT.root, ne_eq, Option.some.injEq]
      intro e; subst e
      exact hdis hj (List.mem_cons_self _ _)
    · intro j hj
      apply hrest j (by simp [PT.ids, hj])
      simp only [PT.root, ne_eq, Option.some.injEq]
      intro e; subst e
      exact hir hj

theorem RotateLeft_spec {h : Heap} {par : Option Nat} {p q r : PT} {a b : Nat} {ka da kb db : Int}
    {hta htb : Nat} (pre : Pre h par (.node p a ka da hta (.node q b kb db htb r))) :
    ∃ h1, RotateLeft h (some a) = some (h1, some b) ∧ h1.next = h.next ∧
      SubSpec h h1 par (.node p a ka da hta (.node q b kb db htb r))
        (pRotL (.node p a ka da hta (.node q b kb db htb r))) := by
  obtain ⟨⟨ha, hp, hb, hq, hr⟩, hnd, hpar, _⟩ := pre
  simp only [PT.ids, List.nodup_append, List.nodup_cons, List.mem_cons, List.mem_append,
    not_or] at hnd
  obtain ⟨hndp, ⟨⟨haq, hab, har⟩, hndq, ⟨hbr, hndr⟩, hqbr⟩, hpd⟩ := hnd
  have hga : ∀ g, par = some g → g ≠ a ∧ g ≠ b ∧ ∃ ng, h.cell g = some ng := by
    intro g e
    obtain ⟨h1, h2⟩ := hpar g e
    simp only [PT.ids, List.mem_append, List.mem_cons, not_or] at h1
    exact ⟨h1.2.1, h1.2.2.2.1, h2⟩
  obtain ⟨h1, e1, n1, c1a, c1b, c1g, c1o⟩ := UpdatePtr_eq hab ha hb hga
  have hgout : ∀ j, j ∈ p.ids ∨ j ∈ q.ids ∨ j ∈ r.ids → some j ≠ par := by
    intro j hj e
    obtain ⟨h1, _⟩ := hpar j e.symm
    simp only [PT.ids, List.mem_append, List.mem_cons, not_or] at h1
    rcases hj with hj | hj | hj
    · exact h1.1 hj
    · exact h1.2.2.1 hj
    · exact h1.2.2.2.2 hj
  have hpa : ∀ j ∈ p.ids, j ≠ a ∧ j ≠ b ∧ j ∉ q.ids := by
    intro j hj
    have := hpd hj
    refine ⟨?_, ?_, ?_⟩
    · intro e; exact this (by simp [e])
    · intro e; exact this (by simp [e])
    · intro e; exact this (by simp [e])
  have hqa : ∀ j ∈ q.ids, j ≠ a ∧ j ≠ b := by
    intro j hj
    refine ⟨?_, ?_⟩
    · intro e; subst e; exact haq hj
    · intro e; subst e; exact hqbr hj (by simp)
  have hra : ∀ j ∈ r.ids, j ≠ a ∧ j ≠ b ∧ j ∉ q.ids := by
    intro j hj
    refine ⟨?_, ?_, ?_⟩
    · intro e; subst e; exact har hj
    · intro e; subst e; exact hbr hj
    · intro e; exact hqbr e (by simp [hj])
  have key := rotateLeftBody_eq (h := h1) (p := p.root) (q := q.root) (r := r.root)
    (u := p.ht) (v := q.ht) (w := r.ht) hab c1a c1b
    (fun e => (hqa _ (root_mem_ids e)).1 rfl) (fun e => (hqa _ (root_mem_ids e)).2 rfl)
    (by
      intro qi e
      have hm := root_mem_ids e
      cases q with
      | nil => cases e
      | node ql qi1 qk qd qh qr =>
        simp only [PT.root, Option.some.injEq] at e
        subst e
        exact ⟨_, by rw [c1o _ (hqa _ hm).2 (hgout _ (Or.inr (Or.inl hm)))]; exact hq.1, rfl⟩)
    (by intro e; cases q with
      | nil => rfl
      | node ql qi1 qk qd qh qr => cases e)
    (fun e => (hpa _ (root_mem_ids e)).1 rfl) (fun e => (hpa _ (root_mem_ids e)).2.1 rfl)
    (by
      cases hpr : p.root with
      | none => exact Or.inl rfl
      | some pi =>
        right
        intro e
        exact (hpa _ (root_mem_ids hpr)).2.2 (root_mem_ids e.symm))
    (by
      rw [heightOf_congr, heightOf_root hp]
      intro i e
      have hm := root_mem_ids e
      exact c1o _ (hpa _ hm).2.1 (hgout _ (Or.inl hm)))
    (fun e => (hra _ (root_mem_ids e)).1 rfl) (fun e => (hra _ (root_mem_ids e)).2.1 rfl)
    (by
      cases hpr : r.root with
      | none => exact Or.inl rfl
      | some pi =>
        right
        intro e
        exact (hra _ (root_mem_ids hpr)).2.2 (root_mem_ids e.symm))
    (by
      rw [heightOf_congr, heightOf_root hr]
      intro i e
      have hm := root_mem_ids e
      exact c1o _ (hra _ hm).2.1 (hgout _ (Or.inr (Or.inr hm))))
  obtain ⟨h7, e7, n7, c7a, c7b, c7q, c7o⟩ := key
  refine ⟨h7, ?_, by rw [n7, n1], ?_⟩
  · cases q with
    | nil =>
      simp only [RotateLeft, ha, hb, fieldOf, Option.bind_eq_bind, Option.some_bind, PT.root,
        Option.map_some', e1, ne_eq, not_false_eq_true, if_true, reduceCtorEq]
      exact e7
    | node ql qi1 qk qd qh qr =>
      simp only [RotateLeft, ha, hb, fieldOf, Option.bind_eq_bind, Option.some_bind, PT.root,
        Option.map_some', e1, ne_eq, not_false_eq_true, if_true, reduceCtorEq]
      exact e7
  · have hout : ∀ j, j ≠ a → j ≠ b → some j ≠ q.root → some j ≠ par → h7.cell j = h.cell j := by
      intro j h1 h2 h3 h4
      rw [c7o j h1 h2 h3, c1o j h2 h4]
    refine ⟨⟨c7b, ⟨c7a, ?_, ?_⟩, ?_⟩, ?_, ?_, by rw [n7, n1], ?_, ?_⟩
    · apply Repr_congr _ hp
      intro j hj
      obtain ⟨x1, x2, x3⟩ := hpa j hj
      exact hout j x1 x2 (fun e => x3 (root_mem_ids e.symm)) (hgout _ (Or.inl hj))
    · apply Repr_reparent hq hndq
      · intro i n e1 e2
        have hm := root_mem_ids e1
        have := c7q i n e1 (by rw [c1o _ (hqa _ hm).2 (hgout _ (Or.inr (Or.inl hm)))]; exact e2)
        exact this
      · intro j hj hne
        exact hout j (hqa j hj).1 (hqa j hj).2 hne (hgout _ (Or.inr (Or.inl hj)))
    · apply Repr_congr _ hr
      intro j hj
      obtain ⟨x1, x2, x3⟩ := hra j hj
      exact hout j x1 x2 (fun e => x3 (root_mem_ids e.symm)) (hgout _ (Or.inr (Or.inr hj)))
    · intro j hj _ hne
      simp only [PT.ids, List.mem_append, List.mem_cons, not_or] at hj
      exact hout j hj.2.1 hj.2.2.2.1 (fun e => hj.2.2.1 (root_mem_ids e.symm)) hne
    · intro g ng e1 e2
      obtain ⟨x1, x2, _⟩ := hga g e1
      have hgq : some g ≠ q.root := by
        intro e
        have := (hpar g e1).1
        simp only [PT.ids, List.mem_append, List.mem_cons, not_or] at this
        exact this.2.2.1 (root_mem_ids e.symm)
      rw [c7o g x1 x2 hgq]
      have := c1g g ng (by simp [e1]) e2
      simpa [PT.root, pRotL] using this
    · intro hf j hj
      have hj1 : h.next ≤ j := by rw [n7, n1] at hj; exact hj
      have hjn := hf j hj1
      have x1 : j ≠ a := by intro e; subst e; rw [ha] at hjn; cases hjn
      have x2 : j ≠ b := by intro e; subst e; rw [hb] at hjn; cases hjn
      have x3 : some j ≠ q.root := by
        intro e
        cases q with
        | nil => cases e
        | node ql qi1 qk qd qh qr =>
          simp only [PT.root, Option.some.injEq] at e
          subst e
          rw [hq.1] at hjn; cases hjn
      have x4 : some j ≠ par := by
        intro e
        obtain ⟨_, _, ng, hng⟩ := hga j e.symm
        rw [hng] at hjn; cases hjn
      rw [hout j x1 x2 x3 x4]; exact hjn
    · intro j hj
      left
      simp only [pRotL, PT.ids, List.mem_append, List.mem_cons] at hj ⊢
      tauto

theorem rotateRightBody_eq {h : Heap} {a b : Nat} {na nb : Node} {p q r : Option Nat}
    {u v w : Nat} (hab : a ≠ b)
    (ha : h.cell a = some na) (hb : h.cell b = some nb)
    (hra : r ≠ some a) (hrb : r ≠ some b)
    (hrc : ∀ ri, r = some ri → ∃ nr, h.cell ri = some nr ∧ nr.height = w)
    (hr0 : r = none → w = 0)
    (hpa : p ≠ some a) (hpb : p ≠ some b) (hpr : p = none ∨ p ≠ r) (hph : heightOf h p = some u)
    (hqa : q ≠ some a) (hqb : q ≠ some b) (hqr : q = none ∨ q ≠ r) (hqh : heightOf h q = some v) :
    ∃ h1, rotateRightBody h (some a) (some b) p q r = some (h1, some b) ∧ h1.next = h.next ∧
      h1.cell a = some { na with parent := some b, left := r, height := max w u + 1 } ∧
      h1.cell b = some { nb with right := some a, height := max v (max w u + 1) + 1 } ∧
      (∀ ri nr, r = some ri → h.cell ri = some nr →
        h1.cell ri = some { nr with parent := some a }) ∧
      (∀ j, j ≠ a → j ≠ b → some j ≠ r → h1.cell j = h.cell j) := by
  cases r with
  | none =>
    have hr0 := hr0 rfl
    subst hr0
    simp only [rotateRightBody, Heap.modify, Heap.modifyIf, Heap.read, ha, hb, hab, hab.symm,
      write_cell, if_true, if_false, Option.bind_eq_bind, Option.some_bind, Option.pure_def,
      heightOf_write_ne hpa, heightOf_write_ne hpb, heightOf_write_ne hqa, heightOf_write_ne hqb,
      hph, hqh, heightOf_none]
    refine ⟨_, rfl, rfl, ?_, ?_, ?_, ?_⟩
    · simp [hab]
    · simp
    · intro qi nq e; cases e
    · intro j hja hjb _; simp [hja, hjb]
  | some ri =>
    obtain ⟨nr, hrcell, hrh⟩ := hrc ri rfl
    subst hrh
    have hra1 : ri ≠ a := fun e => hra (by rw [e])
    have hrb1 : ri ≠ b := fun e => hrb (by rw [e])
    have hpr1 : p ≠ some ri := by
      rcases hpr with e | e
      · rw [e]; simp
      · exact e
    have hqr1 : q ≠ some ri := by
      rcases hqr with e | e
      · rw [e]; simp
      · exact e
    simp only [rotateRightBody, Heap.modify, Heap.modifyIf, Heap.read, ha, hb, hab, hab.symm,
      write_cell, if_true, if_false, Option.bind_eq_bind, Option.some_bind, Option.pure_def,
      heightOf_write_ne hpa, heightOf_write_ne hpb, heightOf_write_ne hqa, heightOf_write_ne hqb,
      heightOf_write_ne hpr1, heightOf_write_ne hqr1, hra1, hrb1, hra1.symm, hrb1.symm, hrcell,
      hph, hqh]
    simp only [heightOf, write_cell, if_true, Option.map_some', Option.bind_eq_bind,
      Option.some_bind]
    refine ⟨_, rfl, rfl, ?_, ?_, ?_, ?_⟩
    · simp [hab]
    · simp
    · intro qi1 nq1 e e1; cases e; rw [hrcell] at e1; cases e1; simp [hra1, hrb1]
    · intro j hja hjb hjq
      have : j ≠ ri := fun e => hjq (by rw [e])
      simp [hja, hjb, this]

theorem RotateRight_spec {h : Heap} {par : Option Nat} {p q r : PT} {a b : Nat}
    {ka da kb db : Int} {hta htb : Nat}
    (pre : Pre h par (.node (.node q b kb db htb r) a ka da hta p)) :
    ∃ h1, RotateRight h (some a) = some (h1, some b) ∧ h1.next = h.next ∧
      SubSpec h h1 par (.node (.node q b kb db htb r) a ka da hta p)
        (pRotR (.node (.node q b kb db htb r) a ka da hta p)) := by
  obtain ⟨⟨ha, ⟨hb, hq, hr⟩, hp⟩, hnd, hpar, _⟩ := pre
  simp only [PT.ids, List.nodup_append, List.nodup_cons, List.mem_cons, List.mem_append,
    not_or] at hnd
  obtain ⟨⟨hndq, ⟨hbr, hndr⟩, hqbr⟩, ⟨hap, hndp⟩, hdis⟩ := hnd
  have hab : a ≠ b := by
    intro e
    exact hdis (a := b) (by simp) (by simp [e])
  have hga : ∀ g, par = some g → g ≠ a ∧ g ≠ b ∧ ∃ ng, h.cell g = some ng := by
    intro g e
    obtain ⟨h1, h2⟩ := hpar g e
    simp only [PT.ids, List.mem_append, List.mem_cons, not_or] at h1
    exact ⟨h1.2.1, h1.1.2.1, h2⟩
  obtain ⟨h1, e1, n1, c1a, c1b, c1g, c1o⟩ := UpdatePtr_eq hab ha hb hga
  have hgout : ∀ j, j ∈ p.ids ∨ j ∈ q.ids ∨ j ∈ r.ids → some j ≠ par := by
    intro j hj e
    obtain ⟨h1, _⟩ := hpar j e.symm
    simp only [PT.ids, List.mem_append, List.mem_cons, not_or] at h1
    rcases hj with hj | hj | hj
    · exact h1.2.2 hj
    · exact h1.1.1 hj
    · exact h1.1.2.2 hj
  have hpa : ∀ j ∈ p.ids, j ≠ a ∧ j ≠ b ∧ j ∉ r.ids := by
    intro j hj
    refine ⟨?_, ?_, ?_⟩
    · intro e; subst e; exact hap hj
    · intro e; subst e; exact hdis (a := j) (by simp) (by simp [hj])
    · intro e; exact hdis (a := j) (by simp [e]) (by simp [hj])
  have hqa : ∀ j ∈ q.ids, j ≠ a ∧ j ≠ b ∧ j ∉ r.ids := by
    intro j hj
    refine ⟨?_, ?_, ?_⟩
    · intro e; subst e; exact hdis (a := j) (by simp [hj]) (by simp)
    · intro e; subst e; exact hqbr hj (by simp)
    · intro e; exact hqbr hj (by simp [e])
  have hra : ∀ j ∈ r.ids, j ≠ a ∧ j ≠ b := by
    intro j hj
    refine ⟨?_, ?_⟩
    · intro e; subst e; exact hdis (a := j) (by simp [hj]) (by simp)
    · intro e; subst e; exact hbr hj
  have key := rotateRightBody_eq (h := h1) (p := p.root) (q := q.root) (r := r.root)
    (u := p.ht) (v := q.ht) (w := r.ht) hab c1a c1b
    (fun e => (hra _ (root_mem_ids e)).1 rfl) (fun e => (hra _ (root_mem_ids e)).2 rfl)
    (by
      intro ri e
      have hm := root_mem_ids e
      cases r with
      | nil => cases e
      | node rl ri1 rk rd rh rr =>
        simp only [PT.root, Option.some.injEq] at e
        subst e
        exact ⟨_, by rw [c1o _ (hra _ hm).2 (hgout _ (Or.inr (Or.inr hm)))]; exact hr.1, rfl⟩)
    (by intro e; cases r with
      | nil => rfl
      | node ql qi1 qk qd qh qr => cases e)
    (fun e => (hpa _ (root_mem_ids e)).1 rfl) (fun e => (hpa _ (root_mem_ids e)).2.1 rfl)
    (by
      cases hpr : p.root with
      | none => exact Or.inl rfl
      | some pi =>
        right
        intro e
        exact (hpa _ (root_mem_ids hpr)).2.2 (root_mem_ids e.symm))
    (by
      rw [heightOf_congr, heightOf_root hp]
      intro i e
      have hm := root_mem_ids e
      exact c1o _ (hpa _ hm).2.1 (hgout _ (Or.inl hm)))
    (fun e => (hqa _ (root_mem_ids e)).1 rfl) (fun e => (hqa _ (root_mem_ids e)).2.1 rfl)
    (by
      cases hpr : q.root with
      | none => exact Or.inl rfl
      | some pi =>
        right
        intro e
        exact (hqa _ (root_mem_ids hpr)).2.2 (root_mem_ids e.symm))
    (by
      rw [heightOf_congr, heightOf_root hq]
      intro i e
      have hm := root_mem_ids e
      exact c1o _ (hqa _ hm).2.1 (hgout _ (Or.inr (Or.inl hm))))
  obtain ⟨h7, e7, n7, c7a, c7b, c7r, c7o⟩ := key
  refine ⟨h7, ?_, by rw [n7, n1], ?_⟩
  · cases r with
    | nil =>
      simp only [RotateRight, ha, hb, fieldOf, Option.bind_eq_bind, Option.some_bind, PT.root,
        Option.map_some', e1, ne_eq, not_false_eq_true, if_true, reduceCtorEq]
      exact e7
    | node ql qi1 qk qd qh qr =>
      simp only [RotateRight, ha, hb, fieldOf, Option.bind_eq_bind, Option.some_bind, PT.root,
        Option.map_some', e1, ne_eq, not_false_eq_true, if_true, reduceCtorEq]
      exact e7
  · have hout : ∀ j, j ≠ a → j ≠ b → some j ≠ r.root → some j ≠ par → h7.cell j = h.cell j := by
      intro j h1 h2 h3 h4
      rw [c7o j h1 h2 h3, c1o j h2 h4]
    refine ⟨⟨c7b, ?_, ⟨c7a, ?_, ?_⟩⟩, ?_, ?_, by rw [n7, n1], ?_, ?_⟩
    · apply Repr_congr _ hq
      intro j hj
      obtain ⟨x1, x2, x3⟩ := hqa j hj
      exact hout j x1 x2 (fun e => x3 (root_mem_ids e.symm)) (hgout _ (Or.inr (Or.inl hj)))
    · apply Repr_reparent hr hndr
      · intro i n e1 e2
        have hm := root_mem_ids e1
        have := c7r i n e1 (by rw [c1o _ (hra _ hm).2 (hgout _ (Or.inr (Or.inr hm)))]; exact e2)
        exact this
      · intro j hj hne
        exact hout j (hra j hj).1 (hra j hj).2 hne (hgout _ (Or.inr (Or.inr hj)))
    · apply Repr_congr _ hp
      intro j hj
      obtain ⟨x1, x2, x3⟩ := hpa j hj
      exact hout j x1 x2 (fun e => x3 (root_mem_ids e.symm)) (hgout _ (Or.inl hj))
    · intro j hj _ hne
      simp only [PT.ids, List.mem_append, List.mem_cons, not_or] at hj
      exact hout j hj.2.1 hj.1.2.1 (fun e => hj.1.2.2 (root_mem_ids e.symm)) hne
    · intro g ng e1 e2
      obtain ⟨x1, x2, _⟩ := hga g e1
      have hgr : some g ≠ r.root := by
        intro e
        have := (hpar g e1).1
        simp only [PT.ids, List.mem_append, List.mem_cons, not_or] at this
        exact this.1.2.2 (root_mem_ids e.symm)
      rw [c7o g x1 x2 hgr]
      have := c1g g ng (by simp [e1]) e2
      simpa [PT.root, pRotR] using this
    · intro hf j hj
      have hj1 : h.next ≤ j := by rw [n7, n1] at hj; exact hj
      have hjn := hf j hj1
      have x1 : j ≠ a := by intro e; subst e; rw [ha] at hjn; cases hjn
      have x2 : j ≠ b := by intro e; subst e; rw [hb] at hjn; cases hjn
      have x3 : some j ≠ r.root := by
        intro e
        cases r with
        | nil => cases e
        | node ql qi1 qk qd qh qr =>
          simp only [PT.root, Option.some.injEq] at e
          subst e
          rw [hr.1] at hjn; cases hjn
      have x4 : some j ≠ par := by
        intro e
        obtain ⟨_, _, ng, hng⟩ := hga j e.symm
        rw [hng] at hjn; cases hjn
      rw [hout j x1 x2 x3 x4]; exact hjn
    · intro j hj
      left
      simp only [pRotR, PT.ids, List.mem_append, List.mem_cons] at hj ⊢
      tauto

theorem Repr_alive {h : Heap} {t : PT} : ∀ {par : Option Nat}, Repr h par t →
    ∀ i ∈ t.ids, ∃ n, h.cell i = some n := by
  induction t with
  | nil => intro _ _ i hi; simp [PT.ids] at hi
  | node l x k d ht r ihl ihr =>
    intro par hr i hi
    simp only [PT.ids, List.mem_append, List.mem_cons] at hi
    rcases hi with hi | hi | hi
    · exact ihl hr.2.1 i hi
    · subst hi; exact ⟨_, hr.1⟩
    · exact ihr hr.2.2 i hi

theorem Pre.lt {h : Heap} {par : Option Nat} {t : PT} (pre : Pre h par t) :
    ∀ i ∈ t.ids, i < h.next := by
  intro i hi
  obtain ⟨n, hn⟩ := Repr_alive pre.repr i hi
  by_contra hc
  rw [pre.fresh i (Nat.le_of_not_lt hc)] at hn
  cases hn

theorem Pre.par_lt {h : Heap} {par : Option Nat} {t : PT} (pre : Pre h par t) :
    ∀ g, par = some g → g < h.next := by
  intro g e
  obtain ⟨_, n, hn⟩ := pre.par_out g e
  by_contra hc
  rw [pre.fresh g (Nat.le_of_not_lt hc)] at hn
  cases hn

theorem SubSpec.refl {h : Heap} {par : Option Nat} {t : PT} (hr : Repr h par t) :
    SubSpec h h par t t where
  repr := hr
  frame := fun _ _ _ _ => rfl
  parent := fun g ng _ e => by rw [replaceChild_self]; exact e
  next := Nat.le_refl _
  fresh := fun hf => hf
  ids := fun _ hj => Or.inl hj

theorem SubSpec.trans {h h1 h2 : Heap} {par : Option Nat} {t t1 t2 : PT}
    (s1 : SubSpec h h1 par t t1) (s2 : SubSpec h1 h2 par t1 t2) (hroot : t1.root = t.root) :
    SubSpec h h2 par t t2 where
  repr := s2.repr
  frame := by
    intro j hj hlt hne
    rw [s2.frame j ?_ (Nat.lt_of_lt_of_le hlt s1.next) hne, s1.frame j hj hlt hne]
    intro hm
    rcases s1.ids j hm with e | e
    · exact hj e
    · exact absurd hlt (Nat.not_lt.mpr e.1)
  parent := by
    intro g ng e1 e2
    have := s1.parent g ng e1 e2
    rw [hroot, replaceChild_self] at this
    have h2 := s2.parent g ng e1 this
    rw [hroot] at h2
    exact h2
  next := Nat.le_trans s1.next s2.next
  fresh := fun hf => s2.fresh (s1.fresh hf)
  ids := by
    intro j hj
    rcases s2.ids j hj with e | e
    · rcases s1.ids j e with e1 | e1
      · exact Or.inl e1
      · exact Or.inr ⟨e1.1, Nat.lt_of_lt_of_le e1.2 s2.next⟩
    · exact Or.inr ⟨Nat.le_trans s1.next e.1, e.2⟩

theorem Update_spec {h : Heap} {par : Option Nat} {t : PT} (hr : Repr h par t)
    (hnd : t.ids.Nodup) :
    ∃ h1, Update h t.root = some h1 ∧ h1.next = h.next ∧ Repr h1 par (pUpd t) ∧
      (∀ j, some j ≠ t.root → h1.cell j = h.cell j) := by
  cases t with
  | nil => exact ⟨h, rfl, rfl, trivial, fun _ _ => rfl⟩
  | node l x k d ht r =>
    obtain ⟨h0, hl, hr⟩ := hr
    simp only [PT.ids, List.nodup_append, List.nodup_cons, List.mem_cons, List.mem_append,
      not_or] at hnd
    obtain ⟨_, ⟨hxr, _⟩, hdis⟩ := hnd
    simp only [Update, PT.root_node, h0, heightOf_root hl, heightOf_root hr, Option.bind_eq_bind,
      Option.some_bind, Option.pure_def]
    refine ⟨_, rfl, rfl, ⟨by simp, Repr_congr ?_ hl, Repr_congr ?_ hr⟩, ?_⟩
    · intro j hj
      have : j ≠ x := by intro e; subst e; exact hdis hj (by simp)
      simp [this]
    · intro j hj
      have : j ≠ x := by intro e; subst e; exact hxr hj
      simp [this]
    · intro j hj
      have : j ≠ x := fun e => hj (by rw [e])
      simp [this]

theorem pUpd_root (t : PT) : (pUpd t).root = t.root := by cases t <;> rfl

theorem pUpd_ids (t : PT) : (pUpd t).ids = t.ids := by cases t <;> rfl

theorem pUpd_keys (t : PT) : (pUpd t).keys = t.keys := by cases t <;> rfl

theorem Update_SubSpec {h : Heap} {par : Option Nat} {t : PT} (pre : Pre h par t) :
    ∃ h1, Update h t.root = some h1 ∧ h1.next = h.next ∧ SubSpec h h1 par t (pUpd t) := by
  obtain ⟨h1, e, n, hr, ho⟩ := Update_spec pre.repr pre.nodup
  refine ⟨h1, e, n, hr, ?_, ?_, by rw [n], ?_, ?_⟩
  · intro j hj _ _
    exact ho j (fun e => hj (root_mem_ids e.symm))
  · intro g ng e1 e2
    rw [pUpd_root, replaceChild_self, ho g ?_, e2]
    intro e
    exact (pre.par_out g e1).1 (root_mem_ids e.symm)
  · intro hf j hj
    rw [n] at hj
    rw [ho j ?_]
    · exact hf j hj
    · intro e
      obtain ⟨n, hn⟩ := Repr_alive pre.repr j (root_mem_ids e.symm)
      rw [hf j hj] at hn; cases hn
  · intro j hj; rw [pUpd_ids] at hj; exact Or.inl hj

theorem pRotL_ids (t : PT) : (pRotL t).ids = t.ids := by
  unfold pRotL
  split
  · simp
  · rfl

theorem pRotR_ids (t : PT) : (pRotR t).ids = t.ids := by
  unfold pRotR
  split
  · simp
  · rfl

theorem pRotL_keys (t : PT) : (pRotL t).keys = t.keys := by
  unfold pRotL
  split
  · simp
  · rfl

theorem pRotR_keys (t : PT) : (pRotR t).keys = t.keys := by
  unfold pRotR
  split
  · simp
  · rfl

theorem pBal_ids (t : PT) : (pBal t).ids = t.ids := by
  unfold pBal
  split
  · rfl
  · split
    · split
      · rw [pRotL_ids]; simp [pRotR_ids]
      · rw [pRotL_ids]
    · split
      · split
        · rw [pRotR_ids]; simp [pRotL_ids]
        · rw [pRotR_ids]
      · rfl

theorem pBal_keys (t : PT) : (pBal t).keys = t.keys := by
  unfold pBal
  split
  · rfl
  · split
    · split
      · rw [pRotL_keys]; simp [pRotR_keys]
      · rw [pRotL_keys]
    · split
      · split
        · rw [pRotR_keys]; simp [pRotL_keys]
        · rw [pRotR_keys]
      · rfl

theorem Pre.left {h : Heap} {par : Option Nat} {l r : PT} {a : Nat} {ka da : Int} {ha : Nat}
    (pre : Pre h par (.node l a ka da ha r)) : Pre h (some a) l where
  repr := pre.repr.2.1
  nodup := by
    have := pre.nodup
    simp only [PT.ids_node, List.nodup_append] at this
    exact this.1
  par_out := by
    intro g e
    cases e
    have := pre.nodup
    simp only [PT.ids_node, List.nodup_append, List.nodup_cons] at this
    exact ⟨fun hm => this.2.2 hm (by simp), _, pre.repr.1⟩
  fresh := pre.fresh

theorem Pre.right {h : Heap} {par : Option Nat} {l r : PT} {a : Nat} {ka da : Int} {ha : Nat}
    (pre : Pre h par (.node l a ka da ha r)) : Pre h (some a) r where
  repr := pre.repr.2.2
  nodup := by
    have := pre.nodup
    simp only [PT.ids_node, List.nodup_append, List.nodup_cons] at this
    exact this.2.1.2
  par_out := by
    intro g e
    cases e
    have := pre.nodup
    simp only [PT.ids_node, List.nodup_append, List.nodup_cons] at this
    exact ⟨this.2.1.1, _, pre.repr.1⟩
  fresh := pre.fresh

/-- A change inside the right subtree, seen from the node above it. -/
theorem lift_right {h h1 : Heap} {par : Option Nat} {l r r1 : PT} {a : Nat} {ka da : Int}
    {ha : Nat} (pre : Pre h par (.node l a ka da ha r)) (hne : r.root ≠ none)
    (s : SubSpec h h1 (some a) r r1) (hnd : r1.ids.Nodup) :
    SubSpec h h1 par (.node l a ka da ha r) (.node l a ka da ha r1) ∧
      Pre h1 par (.node l a ka da ha r1) := by
  have hnd0 := pre.nodup
  simp only [PT.ids_node, List.nodup_append, List.nodup_cons] at hnd0
  obtain ⟨hndl, ⟨har, hndr⟩, hdis⟩ := hnd0
  have hlt := pre.lt
  have hal : a ∉ l.ids := fun hm => hdis hm (by simp)
  have hlr : ∀ j ∈ l.ids, j ∉ r.ids := fun j hj hm => hdis hj (by simp [hm])
  have hcell : h1.cell a = some ⟨l.root, r1.root, par, ha, ka, da⟩ := by
    rw [s.parent a _ rfl pre.repr.1]
    have : l.root ≠ r.root := by
      intro e
      cases hr : r.root with
      | none => exact hne hr
      | some b =>
        rw [hr] at e
        exact hlr b (root_mem_ids e) (root_mem_ids hr)
    simp [replaceChild, this]
  have hl1 : Repr h1 (some a) l := by
    apply Repr_congr _ pre.repr.2.1
    intro j hj
    apply s.frame j (hlr j hj) (hlt j (by simp [hj]))
    intro e; cases e; exact hal hj
  have hfresh : ∀ j ∈ r1.ids, j ∉ r.ids → h.next ≤ j := by
    intro j hj hn
    rcases s.ids j hj with e | e
    · exact absurd e hn
    · exact e.1
  have hrepr : Repr h1 par (.node l a ka da ha r1) := ⟨hcell, hl1, s.repr⟩
  have hnd1 : (PT.node l a ka da ha r1).ids.Nodup := by
    simp only [PT.ids_node, List.nodup_append, List.nodup_cons]
    refine ⟨hndl, ⟨?_, hnd⟩, ?_⟩
    · intro hm
      by_cases hr : a ∈ r.ids
      · exact har hr
      · have := hfresh a hm hr
        have := hlt a (by simp)
        omega
    · intro j hj hm
      simp only [List.mem_cons] at hm
      rcases hm with e | hm
      · subst e; exact hal hj
      · by_cases hr : j ∈ r.ids
        · exact hlr j hj hr
        · have := hfresh j hm hr
          have := hlt j (by simp [hj])
          omega
  refine ⟨⟨hrepr, ?_, ?_, s.next, s.fresh, ?_⟩, ⟨hrepr, hnd1, ?_, s.fresh pre.fresh⟩⟩
  · intro j hj hlt1 hne1
    simp only [PT.ids_node, List.mem_append, List.mem_cons, not_or] at hj
    apply s.frame j hj.2.2 hlt1
    intro e; cases e; exact hj.2.1 rfl
  · intro g ng e1 e2
    obtain ⟨hg, _⟩ := pre.par_out g e1
    simp only [PT.ids_node, List.mem_append, List.mem_cons, not_or] at hg
    rw [PT.root_node, PT.root_node, replaceChild_self, ← e2]
    apply s.frame g hg.2.2 (pre.par_lt g e1)
    intro e; cases e; exact hg.2.1 rfl
  · intro j hj
    simp only [PT.ids_node, List.mem_append, List.mem_cons] at hj ⊢
    rcases hj with e | e | e
    · exact Or.inl (Or.inl e)
    · exact Or.inl (Or.inr (Or.inl e))
    · rcases s.ids j e with e1 | e1
      · exact Or.inl (Or.inr (Or.inr e1))
      · exact Or.inr e1
  · intro g e1
    obtain ⟨hg, ng, hng⟩ := pre.par_out g e1
    simp only [PT.ids_node, List.mem_append, List.mem_cons, not_or] at hg ⊢
    have hgl := pre.par_lt g e1
    refine ⟨⟨hg.1, hg.2.1, ?_⟩, ng, ?_⟩
    · intro hm
      have := hfresh g hm hg.2.2
      omega
    · rw [← hng]
      apply s.frame g hg.2.2 hgl
      intro e; cases e; exact hg.2.1 rfl

/-- A change inside the left subtree, seen from the node above it. -/
theorem lift_left {h h1 : Heap} {par : Option Nat} {l l1 r : PT} {a : Nat} {ka da : Int}
    {ha : Nat} (pre : Pre h par (.node l a ka da ha r))
    (s : SubSpec h h1 (some a) l l1) (hnd : l1.ids.Nodup) :
    SubSpec h h1 par (.node l a ka da ha r) (.node l1 a ka da ha r) ∧
      Pre h1 par (.node l1 a ka da ha r) := by
  have hnd0 := pre.nodup
  simp only [PT.ids_node, List.nodup_append, List.nodup_cons] at hnd0
  obtain ⟨hndl, ⟨har, hndr⟩, hdis⟩ := hnd0
  have hlt := pre.lt
  have hal : a ∉ l.ids := fun hm => hdis hm (by simp)
  have hlr : ∀ j ∈ l.ids, j ∉ r.ids := fun j hj hm => hdis hj (by simp [hm])
  have hcell : h1.cell a = some ⟨l1.root, r.root, par, ha, ka, da⟩ := by
    rw [s.parent a _ rfl pre.repr.1]
    simp [replaceChild]
  have hr1 : Repr h1 (some a) r := by
    apply Repr_congr _ pre.repr.2.2
    intro j hj
    apply s.frame j (fun hm => hlr j hm hj) (hlt j (by simp [hj]))
    intro e; cases e; exact har hj
  have hfresh : ∀ j ∈ l1.ids, j ∉ l.ids → h.next ≤ j := by
    intro j hj hn
    rcases s.ids j hj with e | e
    · exact absurd e hn
    · exact e.1
  have hrepr : Repr h1 par (.node l1 a ka da ha r) := ⟨hcell, s.repr, hr1⟩
  have hnd1 : (PT.node l1 a ka da ha r).ids.Nodup := by
    simp only [PT.ids_node, List.nodup_append, List.nodup_cons]
    refine ⟨hnd, ⟨har, hndr⟩, ?_⟩
    intro j hj hm
    simp only [List.mem_cons] at hm
    by_cases hl : j ∈ l.ids
    · rcases hm with e | hm
      · subst e; exact hal hl
      · exact hlr j hl hm
    · have := hfresh j hj hl
      rcases hm with e | hm
      · subst e
        have := hlt j (by simp)
        omega
      · have := hlt j (by simp [hm])
        omega
  refine ⟨⟨hrepr, ?_, ?_, s.next, s.fresh, ?_⟩, ⟨hrepr, hnd1, ?_, s.fresh pre.fresh⟩⟩
  · intro j hj hlt1 hne1
    simp only [PT.ids_node, List.mem_append, List.mem_cons, not_or] at hj
    apply s.frame j hj.1 hlt1
    intro e; cases e; exact hj.2.1 rfl
  · intro g ng e1 e2
    obtain ⟨hg, _⟩ := pre.par_out g e1
    simp only [PT.ids_node, List.mem_append, List.mem_cons, not_or] at hg
    rw [PT.root_node, PT.root_node, replaceChild_self, ← e2]
    apply s.frame g hg.1 (pre.par_lt g e1)
    intro e; cases e; exact hg.2.1 rfl
  · intro j hj
    simp only [PT.ids_node, List.mem_append, List.mem_cons] at hj ⊢
    rcases hj with e | e | e
    · rcases s.ids j e with e1 | e1
      · exact Or.inl (Or.inl e1)
      · exact Or.inr e1
    · exact Or.inl (Or.inr (Or.inl e))
    · exact Or.inl (Or.inr (Or.inr e))
  · intro g e1
    obtain ⟨hg, ng, hng⟩ := pre.par_out g e1
    simp only [PT.ids_node, List.mem_append, List.mem_cons, not_or] at hg ⊢
    have hgl := pre.par_lt g e1
    refine ⟨⟨?_, hg.2.1, hg.2.2⟩, ng, ?_⟩
    · intro hm
      have := hfresh g hm hg.1
      omega
    · rw [← hng]
      apply s.frame g hg.1 hgl
      intro e; cases e; exact hg.2.1 rfl

theorem BigRotateLeft_spec {h : Heap} {par : Option Nat} {l ql qr rr : PT} {a b c : Nat}
    {ka da kb db kc dc : Int} {ha hb hc : Nat}
    (pre : Pre h par (.node l a ka da ha (.node (.node ql c kc dc hc qr) b kb db hb rr))) :
    ∃ h1, BigRotateLeft h (some a) = some (h1,
        (pRotL (.node l a ka da ha (pRotR (.node (.node ql c kc dc hc qr) b kb db hb rr)))).root) ∧
      h1.next = h.next ∧
      SubSpec h h1 par (.node l a ka da ha (.node (.node ql c kc dc hc qr) b kb db hb rr))
        (pRotL (.node l a ka da ha (pRotR (.node (.node ql c kc dc hc qr) b kb db hb rr)))) := by
  obtain ⟨h1, e1, n1, s1⟩ := RotateRight_spec pre.right
  have hnd1 : (pRotR (.node (.node ql c kc dc hc qr) b kb db hb rr)).ids.Nodup := by
    rw [pRotR_ids]; exact pre.right.nodup
  obtain ⟨s1', pre1⟩ := lift_right pre (by simp) s1 hnd1
  simp only [pRotR] at s1' pre1 ⊢
  obtain ⟨h2, e2, n2, s2⟩ := RotateLeft_spec pre1
  refine ⟨h2, ?_, by rw [n2, n1], s1'.trans s2 rfl⟩
  simp only [BigRotateLeft, Heap.read, pre.repr.1, PT.root_node, Option.bind_eq_bind,
    Option.some_bind, e1, e2, pRotL]

theorem BigRotateRight_spec {h : Heap} {par : Option Nat} {ll lq lr r : PT} {a b c : Nat}
    {ka da kb db kc dc : Int} {ha hb hc : Nat}
    (pre : Pre h par (.node (.node ll b kb db hb (.node lq c kc dc hc lr)) a ka da ha r)) :
    ∃ h1, BigRotateRight h (some a) = some (h1,
        (pRotR (.node (pRotL (.node ll b kb db hb (.node lq c kc dc hc lr))) a ka da ha r)).root) ∧
      h1.next = h.next ∧
      SubSpec h h1 par (.node (.node ll b kb db hb (.node lq c kc dc hc lr)) a ka da ha r)
        (pRotR (.node (pRotL (.node ll b kb db hb (.node lq c kc dc hc lr))) a ka da ha r)) := by
  obtain ⟨h1, e1, n1, s1⟩ := RotateLeft_spec pre.left
  have hnd1 : (pRotL (.node ll b kb db hb (.node lq c kc dc hc lr))).ids.Nodup := by
    rw [pRotL_ids]; exact pre.left.nodup
  obtain ⟨s1', pre1⟩ := lift_left pre s1 hnd1
  simp only [pRotL] at s1' pre1 ⊢
  obtain ⟨h2, e2, n2, s2⟩ := RotateRight_spec pre1
  refine ⟨h2, ?_, by rw [n2, n1], s1'.trans s2 rfl⟩
  simp only [BigRotateRight, Heap.read, pre.repr.1, PT.root_node, Option.bind_eq_bind,
    Option.some_bind, e1, e2, pRotR]

theorem Balance_spec {h : Heap} {par : Option Nat} {t : PT} (pre : Pre h par t) :
    ∃ h1, Balance h t.root = some (h1, (pBal t).root) ∧ h1.next = h.next ∧
      SubSpec h h1 par t (pBal t) := by
  cases t with
  | nil => exact ⟨h, rfl, rfl, SubSpec.refl trivial⟩
  | node l a ka da ha r =>
    have hd := Diff_root pre.repr
    have h22 : ¬ ((2 : Int) = -2) := by decide
    by_cases d1 : pDiff (.node l a ka da ha r) = -2
    · cases r with
      | nil => simp only [pDiff, PT.ht_nil] at d1; omega
      | node q b kb db hb rr =>
        have hdr := Diff_root pre.right.repr
        by_cases d2 : pDiff (.node q b kb db hb rr) = 1
        · cases q with
          | nil => simp only [pDiff, PT.ht_nil] at d2; omega
          | node ql c kc dc hc qr =>
            obtain ⟨h1, e1, n1, s1⟩ := BigRotateLeft_spec pre
            refine ⟨h1, ?_, n1, ?_⟩
            · simp only [PT.root_node] at hd hdr
              simp only [Balance, PT.root_node, hd, d1, Heap.read, pre.repr.1, hdr, d2,
                Option.bind_eq_bind, Option.some_bind, if_true, e1, pBal]
            · simp only [pBal, d1, d2, if_true]; exact s1
        · obtain ⟨h1, e1, n1, s1⟩ := RotateLeft_spec pre
          refine ⟨h1, ?_, n1, ?_⟩
          · simp only [PT.root_node] at hd hdr
            simp only [Balance, PT.root_node, hd, d1, Heap.read, pre.repr.1, hdr, d2,
              Option.bind_eq_bind, Option.some_bind, if_true, if_false, e1, pBal, pRotL]
          · simp only [pBal, d1, d2, if_true, if_false]; exact s1
    · by_cases d3 : pDiff (.node l a ka da ha r) = 2
      · cases l with
        | nil => simp only [pDiff, PT.ht_nil] at d3; omega
        | node ll b kb db hb q =>
          have hdl := Diff_root pre.left.repr
          by_cases d4 : pDiff (.node ll b kb db hb q) = -1
          · cases q with
            | nil => simp only [pDiff, PT.ht_nil] at d4; omega
            | node lq c kc dc hc lr =>
              obtain ⟨h1, e1, n1, s1⟩ := BigRotateRight_spec pre
              refine ⟨h1, ?_, n1, ?_⟩
              · simp only [PT.root_node] at hd hdl
                simp only [Balance, PT.root_node, hd, d1, d3, h22, Heap.read, pre.repr.1, hdl, d4,
                  Option.bind_eq_bind, Option.some_bind, if_true, if_false, e1, pBal]
              · simp only [pBal, d1, d3, d4, h22, if_true, if_false]; exact s1
          · obtain ⟨h1, e1, n1, s1⟩ := RotateRight_spec pre
            refine ⟨h1, ?_, n1, ?_⟩
            · simp only [PT.root_node] at hd hdl
              simp only [Balance, PT.root_node, hd, d1, d3, h22, Heap.read, pre.repr.1, hdl, d4,
                Option.bind_eq_bind, Option.some_bind, if_true, if_false, e1, pBal, pRotR]
            · simp only [pBal, d1, d3, d4, h22, if_true, if_false]; exact s1
      · refine ⟨h, ?_, rfl, ?_⟩
        · simp only [PT.root_node] at hd
          simp only [Balance, PT.root_node, hd, d1, d3, Option.bind_eq_bind, Option.some_bind,
            if_false, pBal, Option.pure_def]
        · simp only [pBal, d1, d3, if_false]; exact SubSpec.refl pre.repr

theorem SubSpec.pre_after {h h1 : Heap} {par : Option Nat} {t t1 : PT} (pre : Pre h par t)
    (s : SubSpec h h1 par t t1) (hnd : t1.ids.Nodup) : Pre h1 par t1 where
  repr := s.repr
  nodup := hnd
  par_out := by
    intro g e
    obtain ⟨hg, ng, hng⟩ := pre.par_out g e
    refine ⟨?_, _, s.parent g ng e hng⟩
    intro hm
    rcases s.ids g hm with e1 | e1
    · exact hg e1
    · have := pre.par_lt g e
      omega
  fresh := s.fresh pre.fresh

theorem pIns_ids_mem (nid : Nat) (k d : Int) (t : PT) :
    ∀ j ∈ (pIns nid k d t).ids, j = nid ∨ j ∈ t.ids := by
  induction t with
  | nil => intro j hj; simp [pIns] at hj; exact Or.inl hj
  | node l x kx dx ht r ihl ihr =>
    intro j hj
    unfold pIns at hj
    split at hj
    · rw [pBal_ids, pUpd_ids] at hj
      simp only [PT.ids_node, List.mem_append, List.mem_cons] at hj ⊢
      rcases hj with e | e | e
      · rcases ihl j e with e1 | e1
        · exact Or.inl e1
        · exact Or.inr (Or.inl e1)
      · exact Or.inr (Or.inr (Or.inl e))
      · exact Or.inr (Or.inr (Or.inr e))
    · split at hj
      · rw [pBal_ids, pUpd_ids] at hj
        simp only [PT.ids_node, List.mem_append, List.mem_cons] at hj ⊢
        rcases hj with e | e | e
        · exact Or.inr (Or.inl e)
        · exact Or.inr (Or.inr (Or.inl e))
        · rcases ihr j e with e1 | e1
          · exact Or.inl e1
          · exact Or.inr (Or.inr (Or.inr e1))
      · rw [pBal_ids, pUpd_ids] at hj
        exact Or.inr hj

theorem pIns_ids_nodup (nid : Nat) (k d : Int) (t : PT) (hnd : t.ids.Nodup) (hn : nid ∉ t.ids) :
    (pIns nid k d t).ids.Nodup := by
  induction t with
  | nil => simp [pIns]
  | node l x kx dx ht r ihl ihr =>
    simp only [PT.ids_node, List.nodup_append, List.nodup_cons, List.mem_append, List.mem_cons,
      not_or] at hnd hn
    obtain ⟨hndl, ⟨hxr, hndr⟩, hdis⟩ := hnd
    unfold pIns
    split
    · rw [pBal_ids, pUpd_ids]
      simp only [PT.ids_node, List.nodup_append, List.nodup_cons]
      refine ⟨ihl hndl hn.1, ⟨hxr, hndr⟩, ?_⟩
      intro j hj hm
      rcases pIns_ids_mem nid k d l j hj with e | e
      · subst e
        simp only [List.mem_cons] at hm
        rcases hm with e | e
        · exact hn.2.1 e
        · exact hn.2.2 e
      · exact hdis e hm
    · split
      · rw [pBal_ids, pUpd_ids]
        simp only [PT.ids_node, List.nodup_append, List.nodup_cons]
        refine ⟨hndl, ⟨?_, ihr hndr hn.2.2⟩, ?_⟩
        · intro hm
          rcases pIns_ids_mem nid k d r x hm with e | e
          · exact hn.2.1 e.symm
          · exact hxr e
        · intro j hj hm
          simp only [List.mem_cons] at hm
          rcases hm with e | e
          · subst e; exact hdis hj (by simp)
          · rcases pIns_ids_mem nid k d r j e with e1 | e1
            · subst e1; exact hn.1 hj
            · exact hdis hj (by simp [e1])
      · rw [pBal_ids, pUpd_ids]
        simp only [PT.ids_node, List.nodup_append, List.nodup_cons]
        exact ⟨hndl, ⟨hxr, hndr⟩, hdis⟩

theorem CreateNode_eq {h : Heap} {x : Nat} {nx : Node} (left : Bool) (k d : Int)
    (hx : h.cell x = some nx) (hf : ∀ j, h.next ≤ j → h.cell j = none) :
    ∃ h1, CreateNode h (some x) left k d = some (h1, some h.next) ∧ h1.next = h.next + 1 ∧
      h1.cell h.next = some ⟨none, none, some x, 1, k, d⟩ ∧
      h1.cell x = some (if left then { nx with left := some h.next }
        else { nx with right := some h.next }) ∧
      (∀ j, j ≠ x → j ≠ h.next → h1.cell j = h.cell j) := by
  have hxn : x ≠ h.next := by
    intro e
    rw [hf x (by rw [← e])] at hx
    cases hx
  cases left with
  | true =>
    simp only [CreateNode, Heap.alloc, Heap.modify, hx, hxn, if_true, if_false,
      Option.bind_eq_bind, Option.some_bind, Option.pure_def, write_cell, hxn.symm, Node.fresh]
    refine ⟨_, rfl, rfl, ?_, ?_, ?_⟩
    · simp
    · simp [hxn]
    · intro j h1 h2; simp [h1, h2]
  | false =>
    simp only [CreateNode, Heap.alloc, Heap.modify, hx, hxn, if_true, if_false,
      Option.bind_eq_bind, Option.some_bind, Option.pure_def, write_cell, hxn.symm, Node.fresh,
      Bool.false_eq_true]
    refine ⟨_, rfl, rfl, ?_, ?_, ?_⟩
    · simp
    · simp [hxn]
    · intro j h1 h2; simp [h1, h2]

theorem CreateNode_left_spec {h : Heap} {par : Option Nat} {r : PT} {x : Nat} {kx dx : Int}
    {ht : Nat} (k d : Int) (pre : Pre h par (.node .nil x kx dx ht r)) :
    ∃ h1, CreateNode h (some x) true k d = some (h1, some h.next) ∧ h1.next = h.next + 1 ∧
      SubSpec h h1 par (.node .nil x kx dx ht r)
        (.node (.node .nil h.next k d 1 .nil) x kx dx ht r) := by
  obtain ⟨h1, e, n, c1, c2, c3⟩ := CreateNode_eq true k d pre.repr.1 pre.fresh
  have hlt := pre.lt
  refine ⟨h1, e, n, ⟨⟨?_, ⟨c1, trivial, trivial⟩, ?_⟩, ?_, ?_, by omega, ?_, ?_⟩⟩
  · rw [c2]; simp
  · apply Repr_congr _ pre.repr.2.2
    intro j hj
    have hnd := pre.nodup
    simp only [PT.ids_node, PT.ids_nil, List.nil_append, List.nodup_cons] at hnd
    apply c3
    · intro e; subst e; exact hnd.1 hj
    · have := hlt j (by simp [hj]); omega
  · intro j hj hl _
    simp only [PT.ids_node, PT.ids_nil, List.nil_append, List.mem_cons, not_or] at hj
    exact c3 j hj.1 (by omega)
  · intro g ng e1 e2
    obtain ⟨hg, _⟩ := pre.par_out g e1
    simp only [PT.ids_node, PT.ids_nil, List.nil_append, List.mem_cons, not_or] at hg
    rw [PT.root_node, PT.root_node, replaceChild_self, ← e2]
    exact c3 g hg.1 (by have := pre.par_lt g e1; omega)
  · intro hf j hj
    rw [n] at hj
    rw [c3 j ?_ (by omega)]
    · exact hf j (by omega)
    · intro e; subst e; have := hlt j (by simp); omega
  · intro j hj
    by_cases hjn : j = h.next
    · right; omega
    · left
      simp only [PT.ids_node, PT.ids_nil, List.nil_append, List.mem_cons, List.mem_append,
        List.not_mem_nil, or_false, false_or] at hj ⊢
      tauto

theorem CreateNode_right_spec {h : Heap} {par : Option Nat} {l : PT} {x : Nat} {kx dx : Int}
    {ht : Nat} (k d : Int) (pre : Pre h par (.node l x kx dx ht .nil)) :
    ∃ h1, CreateNode h (some x) false k d = some (h1, some h.next) ∧ h1.next = h.next + 1 ∧
      SubSpec h h1 par (.node l x kx dx ht .nil)
        (.node l x kx dx ht (.node .nil h.next k d 1 .nil)) := by
  obtain ⟨h1, e, n, c1, c2, c3⟩ := CreateNode_eq false k d pre.repr.1 pre.fresh
  have hlt := pre.lt
  refine ⟨h1, e, n, ⟨⟨?_, ?_, ⟨c1, trivial, trivial⟩⟩, ?_, ?_, by omega, ?_, ?_⟩⟩
  · rw [c2]; simp
  · apply Repr_congr _ pre.repr.2.1
    intro j hj
    have hnd := pre.nodup
    simp only [PT.ids_node, PT.ids_nil, List.nodup_append, List.nodup_cons] at hnd
    apply c3
    · intro e; subst e; exact hnd.2.2 hj (by simp)
    · have := hlt j (by simp [hj]); omega
  · intro j hj hl _
    simp only [PT.ids_node, PT.ids_nil, List.mem_append, List.mem_cons, not_or] at hj
    exact c3 j hj.2.1 (by omega)
  · intro g ng e1 e2
    obtain ⟨hg, _⟩ := pre.par_out g e1
    simp only [PT.ids_node, PT.ids_nil, List.mem_append, List.mem_cons, not_or] at hg
    rw [PT.root_node, PT.root_node, replaceChild_self, ← e2]
    exact c3 g hg.2.1 (by have := pre.par_lt g e1; omega)
  · intro hf j hj
    rw [n] at hj
    rw [c3 j ?_ (by omega)]
    · exact hf j (by omega)
    · intro e; subst e; have := hlt j (by simp); omega
  · intro j hj
    by_cases hjn : j = h.next
    · right; omega
    · left
      simp only [PT.ids_node, PT.ids_nil, List.nil_append, List.mem_cons, List.mem_append,
        List.not_mem_nil, or_false, false_or] at hj ⊢
      tauto

theorem pBal_pUpd_nodup {t : PT} (hnd : t.ids.Nodup) : (pBal (pUpd t)).ids.Nodup := by
  rw [pBal_ids, pUpd_ids]; exact hnd

theorem InsertNode_tail {h h1 : Heap} {par : Option Nat} {t t1 : PT} {x : Nat}
    (pre : Pre h par t) (s0 : SubSpec h h1 par t t1) (hx : t.root = some x)
    (hx1 : t1.root = some x) (hnd : t1.ids.Nodup) :
    ∃ h3, (Update h1 (some x)).bind (fun h2 => Balance h2 (some x))
        = some (h3, (pBal (pUpd t1)).root) ∧ h3.next = h1.next ∧
      SubSpec h h3 par t (pBal (pUpd t1)) := by
  have pre1 := s0.pre_after pre hnd
  obtain ⟨h2, e2, n2, s1⟩ := Update_SubSpec pre1
  have pre2 := s1.pre_after pre1 (by rw [pUpd_ids]; exact hnd)
  obtain ⟨h3, e3, n3, s2⟩ := Balance_spec pre2
  refine ⟨h3, ?_, by rw [n3, n2], ?_⟩
  · rw [hx1] at e2
    rw [pUpd_root, hx1] at e3
    simp only [e2, Option.some_bind, e3]
  · exact (s0.trans s1 (by rw [hx1, hx])).trans s2 (by rw [pUpd_root, hx1, hx])

theorem InsertNode_spec (k d : Int) : ∀ (t : PT) (fuel : Nat) (h : Heap) (par : Option Nat),
    t ≠ .nil → Pre h par t → t.depth ≤ fuel →
    ∃ h1, InsertNode fuel h t.root k d = some (h1, (pIns h.next k d t).root) ∧
      h1.next ≤ h.next + 1 ∧ SubSpec h h1 par t (pIns h.next k d t) := by
  intro t
  induction t with
  | nil => intro _ _ _ hn; exact absurd rfl hn
  | node l x kx dx ht r ihl ihr =>
    intro fuel h par _ pre hfuel
    cases fuel with
    | zero => simp [PT.depth] at hfuel
    | succ f =>
      simp only [PT.depth, Nat.add_le_add_iff_right] at hfuel
      have hlt := pre.lt
      have hnd0 := pre.nodup
      simp only [PT.ids_node, List.nodup_append, List.nodup_cons] at hnd0
      obtain ⟨hndl, ⟨hxr, hndr⟩, hdis⟩ := hnd0
      by_cases c1 : k < kx
      · cases l with
        | nil =>
          obtain ⟨h1, e1, n1, s0⟩ := CreateNode_left_spec k d pre
          have hnd1 : (PT.node (.node .nil h.next k d 1 .nil) x kx dx ht r).ids.Nodup := by
            simp only [PT.ids_node, PT.ids_nil, List.nil_append, List.nodup_cons, List.mem_cons,
              not_or, List.append_nil, List.singleton_append]
            refine ⟨⟨?_, ?_⟩, hxr, hndr⟩
            · intro e; have := hlt x (by simp); omega
            · intro hm; have := hlt h.next (by simp [hm]); omega
          obtain ⟨h3, e3, n3, s⟩ := InsertNode_tail pre s0 rfl rfl hnd1
          refine ⟨h3, ?_, by omega, ?_⟩
          · simp only [InsertNode, PT.root_node, Heap.read, pre.repr.1, c1, if_true, PT.root_nil,
              e1, Option.map_some', Option.bind_eq_bind, Option.some_bind, pIns]
            exact e3
          · simp only [pIns, c1, if_true]; exact s
        | node ll li lk ld lh lr =>
          obtain ⟨h1, e1, n1, s1⟩ := ihl f h (some x) (by simp) pre.left
            (le_trans (le_max_left _ _) hfuel)
          have hnl : h.next ∉ (PT.node ll li lk ld lh lr).ids := by
            intro hm; have := hlt h.next (List.mem_append_left _ hm); omega
          have hnd1 := pIns_ids_nodup h.next k d _ hndl hnl
          obtain ⟨s0, pre1⟩ := lift_left pre s1 hnd1
          obtain ⟨h3, e3, n3, s⟩ := InsertNode_tail pre s0 rfl rfl pre1.nodup
          refine ⟨h3, ?_, by omega, ?_⟩
          · simp only [PT.root_node] at e1
            simp only [InsertNode, PT.root_node, Heap.read, pre.repr.1, c1, if_true,
              e1, Option.map_some', Option.bind_eq_bind, Option.some_bind]
            rw [e3]; simp only [pIns, c1, if_true]
          · simp only [pIns, c1, if_true] at s ⊢; exact s
      · by_cases c2 : kx < k
        · cases r with
          | nil =>
            obtain ⟨h1, e1, n1, s0⟩ := CreateNode_right_spec k d pre
            have hnd1 : (PT.node l x kx dx ht (.node .nil h.next k d 1 .nil)).ids.Nodup := by
              have e0 : (PT.node l x kx dx ht (.node .nil h.next k d 1 .nil)).ids
                  = l.ids ++ x :: [h.next] := by simp
              rw [e0, List.nodup_append]
              refine ⟨hndl, ?_, ?_⟩
              · rw [List.nodup_cons]
                refine ⟨?_, List.nodup_singleton _⟩
                intro hm
                rw [List.mem_singleton] at hm
                have := hlt x (by simp); omega
              · intro j hj hm
                simp only [List.mem_cons, List.not_mem_nil, or_false] at hm
                rcases hm with e | e
                · subst e; exact hdis hj (by simp)
                · subst e; have := hlt _ (List.mem_append_left _ hj); omega
            obtain ⟨h3, e3, n3, s⟩ := InsertNode_tail pre s0 rfl rfl hnd1
            refine ⟨h3, ?_, by omega, ?_⟩
            · simp only [InsertNode, PT.root_node, Heap.read, pre.repr.1, c1, c2, if_true,
                if_false, PT.root_nil, e1, Option.map_some', Option.bind_eq_bind,
                Option.some_bind, pIns]
              exact e3
            · simp only [pIns, c1, c2, if_true, if_false]; exact s
          | node rl ri rk rd rh rr =>
            obtain ⟨h1, e1, n1, s1⟩ := ihr f h (some x) (by simp) pre.right
              (le_trans (le_max_right _ _) hfuel)
            have hnl : h.next ∉ (PT.node rl ri rk rd rh rr).ids := by
              intro hm
              have := hlt h.next (List.mem_append_right _ (List.mem_cons_of_mem _ hm))
              omega
            have hnd1 := pIns_ids_nodup h.next k d _ hndr hnl
            obtain ⟨s0, pre1⟩ := lift_right pre (by simp) s1 hnd1
            obtain ⟨h3, e3, n3, s⟩ := InsertNode_tail pre s0 rfl rfl pre1.nodup
            refine ⟨h3, ?_, by omega, ?_⟩
            · simp only [PT.root_node] at e1
              simp only [InsertNode, PT.root_node, Heap.read, pre.repr.1, c1, c2, if_true,
                if_false, e1, Option.map_some', Option.bind_eq_bind, Option.some_bind]
              rw [e3]; simp only [pIns, c1, c2, if_true, if_false]
            · simp only [pIns, c1, c2, if_true, if_false] at s ⊢; exact s
        · obtain ⟨h3, e3, n3, s⟩ := InsertNode_tail pre (SubSpec.refl pre.repr) rfl rfl pre.nodup
          refine ⟨h3, ?_, by omega, ?_⟩
          · simp only [InsertNode, PT.root_node, Heap.read, pre.repr.1, c1, c2, if_true,
              if_false, Option.map_some', Option.bind_eq_bind, Option.some_bind]
            rw [e3]; simp only [pIns, c1, c2, if_true, if_false]
          · simp only [pIns, c1, c2, if_true, if_false] at s ⊢; exact s

theorem pIns_keys_mem (nid : Nat) (k d : Int) (t : PT) (y : Int) :
    y ∈ (pIns nid k d t).keys ↔ y = k ∨ y ∈ t.keys := by
  induction t with
  | nil => simp [pIns]
  | node l x kx dx ht r ihl ihr =>
    unfold pIns
    split
    · rw [pBal_keys, pUpd_keys]
      simp only [PT.keys_node, List.mem_append, List.mem_cons, ihl]
      tauto
    · split
      · rw [pBal_keys, pUpd_keys]
        simp only [PT.keys_node, List.mem_append, List.mem_cons, ihr]
        tauto
      · rw [pBal_keys, pUpd_keys]
        have : k = kx := by omega
        subst this
        simp only [PT.keys_node, List.mem_append, List.mem_cons]
        tauto

theorem sorted_node_iff (l r : List Int) (k : Int) :
    (l ++ k :: r).Sorted (· < ·) ↔
      l.Sorted (· < ·) ∧ r.Sorted (· < ·) ∧ (∀ a ∈ l, a < k) ∧ (∀ b ∈ r, k < b) := by
  simp only [List.Sorted, List.pairwise_append, List.pairwise_cons, List.mem_cons]
  constructor
  · rintro ⟨h1, ⟨h2, h3⟩, h4⟩
    exact ⟨h1, h3, fun a ha => h4 a ha k (Or.inl rfl), h2⟩
  · rintro ⟨h1, h2, h3, h4⟩
    refine ⟨h1, ⟨h4, h2⟩, ?_⟩
    intro a ha b hb
    rcases hb with e | e
    · subst e; exact h3 a ha
    · exact lt_trans (h3 a ha) (h4 b e)

theorem pIns_keys_sorted (nid : Nat) (k d : Int) (t : PT) (hs : t.keys.Sorted (· < ·)) :
    (pIns nid k d t).keys.Sorted (· < ·) := by
  induction t with
  | nil => simp [pIns]
  | node l x kx dx ht r ihl ihr =>
    rw [PT.keys_node, sorted_node_iff] at hs
    obtain ⟨hl, hr, hlk, hrk⟩ := hs
    unfold pIns
    split
    · next c =>
      rw [pBal_keys, pUpd_keys, PT.keys_node, sorted_node_iff]
      refine ⟨ihl hl, hr, ?_, hrk⟩
      intro a ha
      rcases (pIns_keys_mem nid k d l a).1 ha with e | e
      · subst e; exact c
      · exact hlk a e
    · split
      · next c1 c2 =>
        rw [pBal_keys, pUpd_keys, PT.keys_node, sorted_node_iff]
        refine ⟨hl, ihr hr, hlk, ?_⟩
        intro a ha
        rcases (pIns_keys_mem nid k d r a).1 ha with e | e
        · subst e; exact c2
        · exact hrk a e
      · rw [pBal_keys, pUpd_keys, PT.keys_node, sorted_node_iff]
        exact ⟨hl, hr, hlk, hrk⟩

theorem keys_length (t : PT) : t.keys.length = t.ids.length := by
  induction t with
  | nil => rfl
  | node l x kx dx ht r ihl ihr => simp [ihl, ihr]

theorem pIns_ids_length (nid : Nat) (k d : Int) (t : PT) (hs : t.keys.Sorted (· < ·))
    (hk : k ∉ t.keys) : (pIns nid k d t).ids.length = t.ids.length + 1 := by
  induction t with
  | nil => simp [pIns]
  | node l x kx dx ht r ihl ihr =>
    rw [PT.keys_node, sorted_node_iff] at hs
    obtain ⟨hl, hr, hlk, hrk⟩ := hs
    simp only [PT.keys_node, List.mem_append, List.mem_cons, not_or] at hk
    unfold pIns
    split
    · rw [pBal_ids, pUpd_ids]
      simp only [PT.ids_node, List.length_append, List.length_cons, ihl hl hk.1]
      omega
    · split
      · rw [pBal_ids, pUpd_ids]
        simp only [PT.ids_node, List.length_append, List.length_cons, ihr hr hk.2.2]
        omega
      · exfalso
        have : k = kx := by omega
        exact hk.2.1 this

theorem pIns_ne_nil (nid : Nat) (k d : Int) (t : PT) : (pIns nid k d t).root ≠ none := by
  intro e
  have h1 : k ∈ (pIns nid k d t).keys := (pIns_keys_mem nid k d t k).2 (Or.inl rfl)
  cases hp : pIns nid k d t with
  | nil => rw [hp] at h1; simp at h1
  | node l x kx dx ht r => rw [hp] at e; simp at e

theorem FindNode_spec (key : Int) : ∀ (t : PT) (fuel : Nat) (h : Heap) (par : Option Nat),
    Repr h par t → t.depth < fuel → FindNode fuel h t.root key = some (pFind key t) := by
  intro t
  induction t with
  | nil =>
    intro fuel h par _ hf
    cases fuel with
    | zero => simp at hf
    | succ f => rfl
  | node l x kx dx ht r ihl ihr =>
    intro fuel h par hr hf
    cases fuel with
    | zero => simp at hf
    | succ f =>
      simp only [PT.depth, Nat.add_lt_add_iff_right] at hf
      have h1 := ihl f h (some x) hr.2.1 (lt_of_le_of_lt (le_max_left _ _) hf)
      have h2 := ihr f h (some x) hr.2.2 (lt_of_le_of_lt (le_max_right _ _) hf)
      simp only [FindNode, PT.root_node, hr.1, pFind, h1, h2]
      split_ifs <;> rfl

theorem pFind_iff (key : Int) (t : PT) (hs : t.keys.Sorted (· < ·)) :
    pFind key t ≠ none ↔ key ∈ t.keys := by
  induction t with
  | nil => simp [pFind]
  | node l x kx dx ht r ihl ihr =>
    rw [PT.keys_node, sorted_node_iff] at hs
    obtain ⟨hl, hr, hlk, hrk⟩ := hs
    unfold pFind
    simp only [PT.keys_node, List.mem_append, List.mem_cons]
    split
    · next c => simp; right; left; omega
    · split
      · next c1 c2 =>
        rw [ihl hl]
        constructor
        · intro hm; exact Or.inl hm
        · rintro (hm | hm | hm)
          · exact hm
          · omega
          · have := hrk key hm; omega
      · split
        · next c1 c2 c3 =>
          rw [ihr hr]
          constructor
          · intro hm; exact Or.inr (Or.inr hm)
          · rintro (hm | hm | hm)
            · have := hlk key hm; omega
            · omega
            · exact hm
        · next c1 c2 c3 => exfalso; omega

theorem minId_eq_head (t : PT) : t.minId = t.ids.head? := by
  induction t with
  | nil => rfl
  | node l x kx dx ht r ihl _ =>
    cases l with
    | nil => simp [PT.minId]
    | node ll li lk ld lh lr =>
      simp only [PT.minId, ihl, PT.ids_node]
      cases hll : ll.ids <;> simp [hll]

theorem getLast?_append_cons (l r : List Nat) (a : Nat) :
    (l ++ a :: r).getLast? = (a :: r).getLast? := by
  rw [List.getLast?_append]
  rw [List.getLast?_eq_getLast (a :: r) (by simp)]
  rfl

theorem maxId_eq_getLast (t : PT) : t.maxId = t.ids.getLast? := by
  induction t with
  | nil => rfl
  | node l x kx dx ht r _ ihr =>
    cases r with
    | nil => simp [PT.maxId]
    | node rl ri rk rd rh rr =>
      have e1 : (PT.node rl ri rk rd rh rr).ids.getLast? = (ri :: rr.ids).getLast? := by
        rw [PT.ids_node, getLast?_append_cons]
      have e2 : (PT.node l x kx dx ht (PT.node rl ri rk rd rh rr)).ids.getLast?
          = (ri :: rr.ids).getLast? := by
        rw [PT.ids_node, PT.ids_node, ← List.cons_append, ← List.append_assoc,
          getLast?_append_cons]
      rw [PT.maxId, ihr, e1, e2]

theorem depth_le_length (t : PT) : t.depth ≤ t.ids.length := by
  induction t with
  | nil => simp [PT.depth]
  | node l x kx dx ht r ihl ihr =>
    simp only [PT.depth, PT.ids_node, List.length_append, List.length_cons]
    omega

theorem length_le_of_nodup_lt {l : List Nat} {n : Nat} (hnd : l.Nodup) (hlt : ∀ i ∈ l, i < n) :
    l.length ≤ n := by
  have h1 : l.toFinset ⊆ Finset.range n := by
    intro i hi
    rw [List.mem_toFinset] at hi
    exact Finset.mem_range.2 (hlt i hi)
  have h2 := Finset.card_le_card h1
  rw [List.toFinset_card_of_nodup hnd, Finset.card_range] at h2
  exact h2

theorem leftmost_spec : ∀ (t : PT) (fuel : Nat) (h : Heap) (par : Option Nat),
    t ≠ .nil → Repr h par t → t.depth ≤ fuel → leftmost fuel h t.root = some t.minId := by
  intro t
  induction t with
  | nil => intro _ _ _ hn; exact absurd rfl hn
  | node l x kx dx ht r ihl _ =>
    intro fuel h par _ hr hf
    cases fuel with
    | zero => simp [PT.depth] at hf
    | succ f =>
      simp only [PT.depth, Nat.add_le_add_iff_right] at hf
      cases l with
      | nil => simp [leftmost, Heap.read, hr.1, PT.minId]
      | node ll li lk ld lh lr =>
        have := ihl f h (some x) (by simp) hr.2.1 (le_trans (le_max_left _ _) hf)
        simp only [PT.root_node] at this
        simp [leftmost, Heap.read, hr.1, PT.minId, this]

theorem leftSide_spec (rend : Option Nat) : ∀ (t : PT) (fuel : Nat) (h : Heap) (par : Option Nat),
    t ≠ .nil → Repr h par t → t.depth ≤ fuel → (∀ i ∈ t.ids, some i ≠ rend) →
    leftSide fuel h rend t.root = some t.minId := by
  intro t
  induction t with
  | nil => intro _ _ _ hn; exact absurd rfl hn
  | node l x kx dx ht r ihl _ =>
    intro fuel h par _ hr hf hne
    cases fuel with
    | zero => simp [PT.depth] at hf
    | succ f =>
      simp only [PT.depth, Nat.add_le_add_iff_right] at hf
      cases l with
      | nil => simp [leftSide, Heap.read, hr.1, PT.minId]
      | node ll li lk ld lh lr =>
        have := ihl f h (some x) (by simp) hr.2.1 (le_trans (le_max_left _ _) hf)
          (fun i hi => hne i (List.mem_append_left _ hi))
        simp only [PT.root_node] at this
        have h2 : some li ≠ rend := hne li (by simp)
        simp [leftSide, Heap.read, hr.1, PT.minId, this, h2]

theorem rightSide_spec (e : Option Nat) : ∀ (t : PT) (fuel : Nat) (h : Heap) (par : Option Nat),
    t ≠ .nil → Repr h par t → t.depth ≤ fuel → (∀ i ∈ t.ids, some i ≠ e) →
    rightSide fuel h e t.root = some t.maxId := by
  intro t
  induction t with
  | nil => intro _ _ _ hn; exact absurd rfl hn
  | node l x kx dx ht r _ ihr =>
    intro fuel h par _ hr hf hne
    cases fuel with
    | zero => simp [PT.depth] at hf
    | succ f =>
      simp only [PT.depth, Nat.add_le_add_iff_right] at hf
      cases r with
      | nil => simp [rightSide, Heap.read, hr.1, PT.maxId]
      | node rl ri rk rd rh rr =>
        have := ihr f h (some x) (by simp) hr.2.2 (le_trans (le_max_right _ _) hf)
          (fun i hi => hne i (List.mem_append_right _ (List.mem_cons_of_mem _ hi)))
        simp only [PT.root_node] at this
        have h2 : some ri ≠ e := hne ri (by simp)
        simp [rightSide, Heap.read, hr.1, PT.maxId, this, h2]

theorem Heap.ext_cells {h1 h2 : Heap} (hc : ∀ j, h1.cell j = h2.cell j) (hn : h1.next = h2.next) :
    h1 = h2 := by
  cases h1 with
  | mk c1 n1 =>
    cases h2 with
    | mk c2 n2 =>
      simp only at hc hn
      have : c1 = c2 := funext hc
      subst this hn
      rfl

theorem minId_cell : ∀ (t : PT) (h : Heap) (par : Option Nat), t ≠ .nil → Repr h par t →
    ∃ bi nb, t.minId = some bi ∧ bi ∈ t.ids ∧ h.cell bi = some nb ∧ nb.left = none := by
  intro t
  induction t with
  | nil => intro _ _ hn; exact absurd rfl hn
  | node l x kx dx ht r ihl _ =>
    intro h par _ hr
    cases l with
    | nil => exact ⟨x, _, rfl, by simp, hr.1, rfl⟩
    | node ll li lk ld lh lr =>
      obtain ⟨bi, nb, e1, e2, e3, e4⟩ := ihl h (some x) (by simp) hr.2.1
      exact ⟨bi, nb, by simp only [PT.minId]; exact e1, List.mem_append_left _ e2, e3, e4⟩

theorem maxId_cell : ∀ (t : PT) (h : Heap) (par : Option Nat), t ≠ .nil → Repr h par t →
    ∃ bi nb, t.maxId = some bi ∧ bi ∈ t.ids ∧ h.cell bi = some nb ∧ nb.right = none := by
  intro t
  induction t with
  | nil => intro _ _ hn; exact absurd rfl hn
  | node l x kx dx ht r _ ihr =>
    intro h par _ hr
    cases r with
    | nil => exact ⟨x, _, rfl, by simp, hr.1, rfl⟩
    | node rl ri rk rd rh rr =>
      obtain ⟨bi, nb, e1, e2, e3, e4⟩ := ihr h (some x) (by simp) hr.2.2
      exact ⟨bi, nb, by simp only [PT.maxId]; exact e1,
        List.mem_append_right _ (List.mem_cons_of_mem _ e2), e3, e4⟩

theorem CtxRepr_congr {h h1 : Heap} : ∀ (ctx : List Frame) (c : Option Nat),
    (∀ j ∈ ctxIds ctx, h1.cell j = h.cell j) → CtxRepr h ctx c → CtxRepr h1 ctx c := by
  intro ctx
  induction ctx with
  | nil => intro _ _ _; trivial
  | cons f fs ih =>
    intro c hc hr
    obtain ⟨h0, hs, hrest⟩ := hr
    refine ⟨?_, Repr_congr ?_ hs, ih _ ?_ hrest⟩
    · rw [hc f.id (by simp [ctxIds])]; exact h0
    · intro j hj; exact hc j (by simp [ctxIds, hj])
    · intro j hj; exact hc j (by simp [ctxIds, hj])

theorem CtxRepr_alive {h : Heap} : ∀ (ctx : List Frame) (c : Option Nat), CtxRepr h ctx c →
    ∀ j ∈ ctxIds ctx, ∃ n, h.cell j = some n := by
  intro ctx
  induction ctx with
  | nil => intro _ _ j hj; simp [ctxIds] at hj
  | cons f fs ih =>
    intro c hr j hj
    simp only [ctxIds, List.cons_append, List.mem_cons, List.mem_append] at hj
    rcases hj with e | e | e
    · subst e; exact ⟨_, hr.1⟩
    · exact Repr_alive hr.2.1 j e
    · exact ih _ hr.2.2 j e

theorem WF.pre {h : Heap} {ctx : List Frame} {T : PT} {e r : Nat} (wf : WF h ctx T e r) :
    Pre h (ctxPar ctx) T where
  repr := wf.repr
  nodup := (List.nodup_append.1 wf.nodup).1
  par_out := by
    intro g hg
    cases ctx with
    | nil => cases hg
    | cons f fs =>
      simp only [ctxPar, Option.some.injEq] at hg
      subst hg
      refine ⟨?_, _, wf.crepr.1⟩
      intro hm
      exact (List.nodup_append.1 wf.nodup).2.2 hm (by simp [ctxIds])
  fresh := wf.fresh

theorem lt_next_of_alive {h : Heap} (hf : ∀ j, h.next ≤ j → h.cell j = none) {j : Nat} {n : Node}
    (hj : h.cell j = some n) : j < h.next := by
  by_contra hc
  rw [hf j (Nat.le_of_not_lt hc)] at hj
  cases hj

theorem WF_of_SubSpec {h h1 : Heap} {ctx : List Frame} {T T1 : PT} {e r : Nat}
    (wf : WF h ctx T e r) (s : SubSpec h h1 (ctxPar ctx) T T1) (hnd : T1.ids.Nodup)
    (hs : T1.keys.Sorted (· < ·)) (hne : T.root ≠ none ∨ ctx = []) (hne1 : T1 ≠ .nil) :
    WF h1 ctx T1 e r := by
  have hnd0 := wf.nodup
  rw [List.nodup_append] at hnd0
  obtain ⟨hndT, hndC, hdis⟩ := hnd0
  have hfr : ∀ j ∈ ctxIds ctx ++ [e, r], some j ≠ ctxPar ctx → h1.cell j = h.cell j := by
    intro j hj hp
    apply s.frame j (fun hm => hdis hm hj) _ hp
    rw [List.mem_append] at hj
    rcases hj with hj | hj
    · obtain ⟨n, hn⟩ := CtxRepr_alive ctx _ wf.crepr j hj
      exact lt_next_of_alive wf.fresh hn
    · simp only [List.mem_cons, List.mem_singleton, List.not_mem_nil, or_false] at hj
      rcases hj with e1 | e1
      · subst e1; obtain ⟨n, hn, _⟩ := wf.endc; exact lt_next_of_alive wf.fresh hn
      · subst e1; obtain ⟨n, hn, _⟩ := wf.rendc; exact lt_next_of_alive wf.fresh hn
  have hsent : ∀ j, j = e ∨ j = r → some j ≠ ctxPar ctx := by
    intro j hj hp
    cases ctx with
    | nil => cases hp
    | cons f fs =>
      simp only [ctxPar, Option.some.injEq] at hp
      rw [List.nodup_append] at hndC
      have hd := hndC.2.2
      exact hd (a := j) (by simp [ctxIds, hp]) (by simpa using hj)
  refine ⟨s.repr, ?_, ?_, s.fresh wf.fresh, ?_, ?_, hs, wf.csorted, fun e => absurd e hne1⟩
  · cases ctx with
    | nil => trivial
    | cons f fs =>
      obtain ⟨c0, cs, cr⟩ := wf.crepr
      have hndC' := hndC
      simp only [ctxIds, List.cons_append, List.nodup_cons, List.mem_append, not_or,
        List.append_assoc] at hndC'
      have hfT : f.id ∉ T.ids := fun hm => hdis hm (by simp [ctxIds])
      refine ⟨?_, Repr_congr ?_ cs, CtxRepr_congr fs _ ?_ cr⟩
      · rw [s.parent f.id _ rfl c0]
        have hroot : T.root ≠ none := by
          rcases hne with h1 | h1
          · exact h1
          · cases h1
        cases hf : f.isLeft with
        | true => simp [Frame.cell, hf, replaceChild]
        | false =>
          have : f.sib.root ≠ T.root := by
            intro e1
            cases hr : T.root with
            | none => exact hroot hr
            | some c =>
              rw [hr] at e1
              exact hdis (root_mem_ids hr) (by simp [ctxIds, root_mem_ids e1])
          simp [Frame.cell, hf, replaceChild, this]
      · intro j hj
        apply hfr j (by simp [ctxIds, hj])
        simp only [ctxPar, ne_eq, Option.some.injEq]
        intro e1; subst e1
        exact hndC'.1.1 hj
      · intro j hj
        apply hfr j (by simp [ctxIds, hj])
        simp only [ctxPar, ne_eq, Option.some.injEq]
        intro e1; subst e1
        exact hndC'.1.2.1 hj
  · rw [List.nodup_append]
    refine ⟨hnd, hndC, ?_⟩
    intro j hj hm
    rcases s.ids j hj with e1 | e1
    · exact hdis e1 hm
    · have : j < h.next := by
        rw [List.mem_append] at hm
        rcases hm with hm | hm
        · obtain ⟨n, hn⟩ := CtxRepr_alive ctx _ wf.crepr j hm
          exact lt_next_of_alive wf.fresh hn
        · simp only [List.mem_cons, List.mem_singleton, List.not_mem_nil, or_false] at hm
          rcases hm with e2 | e2
          · subst e2; obtain ⟨n, hn, _⟩ := wf.endc; exact lt_next_of_alive wf.fresh hn
          · subst e2; obtain ⟨n, hn, _⟩ := wf.rendc; exact lt_next_of_alive wf.fresh hn
      omega
  · obtain ⟨n, hn, h2⟩ := wf.endc
    exact ⟨n, by rw [hfr e (by simp) (hsent e (Or.inl rfl))]; exact hn, h2⟩
  · obtain ⟨n, hn, h2⟩ := wf.rendc
    exact ⟨n, by rw [hfr r (by simp) (hsent r (Or.inr rfl))]; exact hn, h2⟩

theorem Bind_eq {h : Heap} {bi rbi e r : Nat} {nb nrb ne nr : Node} (root : Option Nat) (sz : Nat)
    (hb : h.cell bi = some nb) (hrb : h.cell rbi = some nrb) (he : h.cell e = some ne)
    (hr : h.cell r = some nr) (hbe : bi ≠ e) (hbr : bi ≠ r) (hrbe : rbi ≠ e) (hrbr : rbi ≠ r)
    (her : e ≠ r) :
    AVL.BindMockNode ⟨h, root, some bi, some e, some rbi, some r, sz⟩
      = some ⟨⟨bindF h.cell bi rbi e r, h.next⟩, root, some bi, some e, some rbi, some r, sz⟩ := by
  by_cases hbb : bi = rbi
  · subst hbb
    simp only [AVL.BindMockNode, Heap.modify, hb, he, hr, write_cell, hbe, hbr, hbe.symm,
      hbr.symm, her, her.symm, if_true, if_false, Option.bind_eq_bind, Option.some_bind,
      Option.pure_def, Option.some.injEq, AVL.mk.injEq, and_true, true_and]
    apply Heap.ext_cells
    · intro j
      simp only [write_cell, bindF, write_next]
      split_ifs <;> simp_all
    · rfl
  · have hbb' : rbi ≠ bi := fun e => hbb e.symm
    simp only [AVL.BindMockNode, Heap.modify, hb, hrb, he, hr, write_cell, hbe, hbr, hbe.symm,
      hbr.symm, hrbe, hrbr, hrbe.symm, hrbr.symm, hbb, hbb', her, her.symm, if_true, if_false,
      Option.bind_eq_bind, Option.some_bind,
      Option.pure_def, Option.some.injEq, AVL.mk.injEq, and_true, true_and]
    apply Heap.ext_cells
    · intro j
      simp only [write_cell, bindF, write_next]
      split_ifs <;> simp_all
    · rfl

theorem Cut_eq {h : Heap} {bi rbi : Nat} {nb nrb : Node} (root e r : Option Nat) (sz : Nat)
    (hb : h.cell bi = some nb) (hrb : h.cell rbi = some nrb) :
    AVL.CutMockNode ⟨h, root, some bi, e, some rbi, r, sz⟩
      = some ⟨⟨cutF h.cell bi rbi, h.next⟩, root, some bi, e, some rbi, r, sz⟩ := by
  by_cases hbb : bi = rbi
  · subst hbb
    simp only [AVL.CutMockNode, Heap.modify, hb, write_cell, if_true, if_false,
      Option.bind_eq_bind, Option.some_bind,
      Option.pure_def, Option.some.injEq, AVL.mk.injEq, and_true, true_and]
    apply Heap.ext_cells
    · intro j
      simp only [write_cell, cutF, write_next]
      split_ifs <;> simp_all
    · rfl
  · have hbb' : rbi ≠ bi := fun e => hbb e.symm
    simp only [AVL.CutMockNode, Heap.modify, hb, hrb, write_cell, hbb, hbb', if_true, if_false,
      Option.bind_eq_bind, Option.some_bind,
      Option.pure_def, Option.some.injEq, AVL.mk.injEq, and_true, true_and]
    apply Heap.ext_cells
    · intro j
      simp only [write_cell, cutF, write_next]
      split_ifs <;> simp_all
    · rfl

theorem bindF_cutF_bindF (c : Nat → Option Node) {bi rbi e r : Nat}
    (hbe : bi ≠ e) (hbr : bi ≠ r) (hrbe : rbi ≠ e) (hrbr : rbi ≠ r) (her : e ≠ r) :
    bindF (cutF (bindF c bi rbi e r) bi rbi) bi rbi e r = bindF c bi rbi e r := by
  funext j
  simp only [bindF, cutF]
  by_cases h1 : j = e
  · subst h1
    simp [hbe.symm, hrbe.symm, Option.map_map, Function.comp_def]
  · by_cases h2 : j = r
    · subst h2
      simp [hbr.symm, hrbr.symm, her.symm, Option.map_map, Function.comp_def]
    · by_cases h3 : j = bi
      · subst h3
        by_cases h4 : j = rbi
        · subst h4
          simp [hbe, hbr, Option.map_map, Function.comp_def]
        · simp [hbe, hbr, h4, Option.map_map, Function.comp_def]
      · by_cases h4 : j = rbi
        · subst h4
          have : ¬ bi = j := fun e => h3 e.symm
          simp [hrbe, hrbr, h3, this, Option.map_map, Function.comp_def]
        · simp [h1, h2, h3, h4]

theorem cutF_bindF_cell (c : Nat → Option Node) {bi rbi e r : Nat} {nb nrb : Node}
    (hb : c bi = some nb) (hrb : c rbi = some nrb) (hbl : nb.left = none)
    (hrbr1 : nrb.right = none)
    (hbe : bi ≠ e) (hbr : bi ≠ r) (hrbe : rbi ≠ e) (hrbr : rbi ≠ r) (j : Nat)
    (hje : j ≠ e) (hjr : j ≠ r) : cutF (bindF c bi rbi e r) bi rbi j = c j := by
  simp only [bindF, cutF]
  by_cases h3 : j = bi
  · subst h3
    by_cases h4 : j = rbi
    · subst h4
      rw [hb] at hrb
      cases hrb
      cases nb
      simp only at hbl hrbr1
      simp [hbe, hbr, hb, hbl, hrbr1]
    · cases nb
      simp only at hbl
      simp [hbe, hbr, h4, hb, hbl]
  · by_cases h4 : j = rbi
    · subst h4
      have : ¬ bi = j := fun e => h3 e.symm
      cases nrb
      simp only at hrbr1
      simp [hrbe, hrbr, h3, this, hrb, hrbr1]
    · simp [hje, hjr, h3, h4]

theorem Stable.same (s : AVL) (F : List Nat) : Stable s s F F :=
  ⟨rfl, rfl, Nat.le_refl _, fun _ _ _ _ _ => rfl, fun _ hj => Or.inl hj⟩

theorem Stable.step {s s1 s2 : AVL} {F F1 F2 : List Nat} (a : Stable s s1 F F1)
    (b : Stable s1 s2 F1 F2) : Stable s s2 F F2 where
  end_eq := by rw [b.end_eq, a.end_eq]
  rend_eq := by rw [b.rend_eq, a.rend_eq]
  next_le := Nat.le_trans a.next_le b.next_le
  frame := by
    intro j hj h1 h2 hlt
    rw [b.frame j ?_ (by rw [a.end_eq]; exact h1) (by rw [a.rend_eq]; exact h2)
      (Nat.lt_of_lt_of_le hlt a.next_le), a.frame j hj h1 h2 hlt]
    intro hm
    rcases a.grow j hm with h3 | h3
    · exact hj h3
    · omega
  grow := by
    intro j hj
    rcases b.grow j hj with h3 | h3
    · exact a.grow j h3
    · exact Or.inr (Nat.le_trans a.next_le h3)

theorem Cut_frame {s c : AVL} (hcut : s.CutMockNode = some c) :
    c.heap.next = s.heap.next ∧
      ∀ j, some j ≠ s.begin_ → some j ≠ s.rbegin_ → c.heap.cell j = s.heap.cell j := by
  obtain ⟨heap, root, b, e, rb, r, sz⟩ := s
  cases b with
  | none =>
    cases rb with
    | none =>
      simp only [AVL.CutMockNode, Option.bind_eq_bind, Option.some_bind, Option.pure_def,
        Option.some.injEq] at hcut
      subst hcut
      exact ⟨rfl, fun _ _ _ => rfl⟩
    | some rbi =>
      cases h2 : heap.cell rbi with
      | none => simp [AVL.CutMockNode, Heap.modify, h2] at hcut
      | some n2 =>
        simp only [AVL.CutMockNode, Heap.modify, h2, Option.bind_eq_bind, Option.some_bind,
          Option.pure_def, Option.some.injEq] at hcut
        subst hcut
        refine ⟨rfl, fun j _ h3 => ?_⟩
        have : j ≠ rbi := fun e0 => h3 (by rw [e0])
        simp [this]
  | some bi =>
    cases h1 : heap.cell bi with
    | none => simp [AVL.CutMockNode, Heap.modify, h1] at hcut
    | some n1 =>
      cases rb with
      | none =>
        simp only [AVL.CutMockNode, Heap.modify, h1, Option.bind_eq_bind, Option.some_bind,
          Option.pure_def, Option.some.injEq] at hcut
        subst hcut
        refine ⟨rfl, fun j h3 _ => ?_⟩
        have : j ≠ bi := fun e0 => h3 (by rw [e0])
        simp [this]
      | some rbi =>
        cases h2 : (heap.write bi { n1 with left := none }).cell rbi with
        | none =>
          simp only [AVL.CutMockNode, Heap.modify, h1, h2, Option.bind_eq_bind,
            Option.some_bind, Option.none_bind] at hcut
          cases hcut
        | some n2 =>
          simp only [AVL.CutMockNode, Heap.modify, h1, h2, Option.bind_eq_bind,
            Option.some_bind, Option.pure_def, Option.some.injEq] at hcut
          subst hcut
          refine ⟨rfl, fun j h3 h4 => ?_⟩
          have x1 : j ≠ bi := fun e0 => h3 (by rw [e0])
          have x2 : j ≠ rbi := fun e0 => h4 (by rw [e0])
          simp [x1, x2]

theorem minId_mem {t : PT} {b : Nat} (h : t.minId = some b) : b ∈ t.ids := by
  rw [minId_eq_head] at h
  exact List.mem_of_mem_head? h

theorem maxId_mem {t : PT} {b : Nat} (h : t.maxId = some b) : b ∈ t.ids := by
  rw [maxId_eq_getLast] at h
  exact List.mem_of_getLast?_eq_some h

theorem Stable.of_cut {heap hc h1 : Heap} {T : PT} {e r sz : Nat} {root : Option Nat} {s2 : AVL}
    {F1 : List Nat} (C T1ids : List Nat)
    (hcut : AVL.CutMockNode ⟨heap, root, T.minId, some e, T.maxId, some r, sz⟩
      = some ⟨hc, root, T.minId, some e, T.maxId, some r, sz⟩)
    (hnx : hc.next ≤ h1.next)
    (hfr : ∀ j, j ∉ T.ids ++ C → j < hc.next → h1.cell j = hc.cell j)
    (he : s2.end_ = some e) (hr : s2.rend_ = some r) (hn2 : s2.heap.next = h1.next)
    (hfr2 : ∀ j, j ∉ T1ids → j ≠ e → j ≠ r → s2.heap.cell j = h1.cell j)
    (hsub : ∀ j ∈ T1ids, j ∈ T.ids ++ C ∨ hc.next ≤ j)
    (hgrow : ∀ j ∈ F1, j ∈ T.ids ++ C ∨ hc.next ≤ j) :
    Stable ⟨heap, root, T.minId, some e, T.maxId, some r, sz⟩ s2 (T.ids ++ C) F1 := by
  obtain ⟨c1, c2⟩ := Cut_frame hcut
  simp only at c1 c2
  refine ⟨he, hr, ?_, ?_, ?_⟩
  · show heap.next ≤ s2.heap.next
    omega
  · intro j hj x1 x2 hlt
    simp only at x1 x2 hlt ⊢
    have y1 : j ≠ e := fun e0 => x1 (by rw [e0])
    have y2 : j ≠ r := fun e0 => x2 (by rw [e0])
    have y3 : j ∉ T1ids := by
      intro hm
      rcases hsub j hm with h3 | h3
      · exact hj h3
      · omega
    rw [hfr2 j y3 y1 y2, hfr j hj (by omega), c2 j]
    · intro e0; exact hj (List.mem_append_left _ (minId_mem e0.symm))
    · intro e0; exact hj (List.mem_append_left _ (maxId_mem e0.symm))
  · intro j hj
    rcases hgrow j hj with h3 | h3
    · exact Or.inl h3
    · exact Or.inr (by simp only; omega)

theorem WF.depth_lt {h : Heap} {ctx : List Frame} {T : PT} {e r : Nat} (wf : WF h ctx T e r) :
    T.depth < h.next := by
  have h1 := depth_le_length T
  have hnd := wf.nodup
  rw [List.nodup_append] at hnd
  have h2 : (e :: T.ids).Nodup := by
    rw [List.nodup_cons]
    exact ⟨fun hm => hnd.2.2 hm (by simp), hnd.1⟩
  have h4 : ∀ i ∈ e :: T.ids, i < h.next := by
    intro i hi
    simp only [List.mem_cons] at hi
    rcases hi with hi | hi
    · subst hi; obtain ⟨n, hn, _⟩ := wf.endc; exact lt_next_of_alive wf.fresh hn
    · exact wf.pre.lt i hi
  have h5 := length_le_of_nodup_lt h2 h4
  simp only [List.length_cons] at h5
  omega

theorem bind_inv_frame {h : Heap} {ctx : List Frame} {T : PT} {e r : Nat} (wf : WF h ctx T e r)
    (hT : T ≠ .nil) (sz : Nat) (hsz : sz = T.ids.length + (ctxIds ctx).length) :
    ∃ s1, AVL.BindMockNode ⟨h, T.root, T.minId, some e, T.maxId, some r, sz⟩ = some s1 ∧
      Inv s1 ctx T ∧ s1.size_ = sz ∧ s1.end_ = some e ∧ s1.rend_ = some r ∧
      s1.heap.next = h.next ∧
      ∀ j, j ∉ T.ids → j ≠ e → j ≠ r → s1.heap.cell j = h.cell j := by
  obtain ⟨bi, nb, e1, m1, c1, l1⟩ := minId_cell T h _ hT wf.repr
  obtain ⟨rbi, nrb, e2, m2, c2, l2⟩ := maxId_cell T h _ hT wf.repr
  obtain ⟨ne, ce, ne1, ne2, ne3⟩ := wf.endc
  obtain ⟨nr, cr, nr1, nr2, nr3⟩ := wf.rendc
  have hnd := wf.nodup
  rw [List.nodup_append] at hnd
  obtain ⟨_, hnd2, hdis⟩ := hnd
  rw [List.nodup_append] at hnd2
  have hTe : ∀ j ∈ T.ids, j ≠ e ∧ j ≠ r := by
    intro j hj
    constructor
    · intro e0; subst e0; exact hdis hj (by simp)
    · intro e0; subst e0; exact hdis hj (by simp)
  have hCe : ∀ j ∈ ctxIds ctx, j ≠ e ∧ j ≠ r := by
    intro j hj
    have hd := hnd2.2.2
    constructor
    · intro e0; subst e0; exact hd hj (by simp)
    · intro e0; subst e0; exact hd hj (by simp)
  have her : e ≠ r := by
    have := hnd2.2.1
    simp only [List.nodup_cons, List.mem_singleton] at this
    exact this.1
  have hB := Bind_eq T.root sz c1 c2 ce cr (hTe bi m1).1 (hTe bi m1).2 (hTe rbi m2).1
    (hTe rbi m2).2 her
  rw [← e1, ← e2] at hB
  refine ⟨_, hB, ?_, rfl, rfl, rfl, rfl, ?_⟩
  swap
  · intro j hj h1 h2
    have x1 : j ≠ bi := fun e0 => hj (e0 ▸ m1)
    have x2 : j ≠ rbi := fun e0 => hj (e0 ▸ m2)
    simp [bindF, h1, h2, x1, x2]
  have hcb : bindF h.cell bi rbi e r bi ≠ none := by
    simp [bindF, (hTe bi m1).1, (hTe bi m1).2, c1]
  have hcrb : bindF h.cell bi rbi e r rbi ≠ none := by
    by_cases hbb : rbi = bi
    · subst hbb; exact hcb
    · simp [bindF, (hTe rbi m2).1, (hTe rbi m2).2, c2, hbb]
  obtain ⟨nb', hb'⟩ := Option.ne_none_iff_exists'.1 hcb
  obtain ⟨nrb', hrb'⟩ := Option.ne_none_iff_exists'.1 hcrb
  have hC := Cut_eq (h := ⟨bindF h.cell bi rbi e r, h.next⟩) T.root (some e) (some r) sz hb' hrb'
  have hcell : ∀ j, j ≠ e → j ≠ r → cutF (bindF h.cell bi rbi e r) bi rbi j = h.cell j :=
    fun j => cutF_bindF_cell h.cell c1 c2 l1 l2 (hTe bi m1).1 (hTe bi m1).2 (hTe rbi m2).1
      (hTe rbi m2).2 j
  have hce : cutF (bindF h.cell bi rbi e r) bi rbi e
      = some { ne with parent := some rbi } := by
    have x1 : e ≠ bi := fun e0 => (hTe bi m1).1 e0.symm
    have x2 : e ≠ rbi := fun e0 => (hTe rbi m2).1 e0.symm
    simp [cutF, bindF, x1, x2, ce]
  have hcr : cutF (bindF h.cell bi rbi e r) bi rbi r
      = some { nr with parent := some bi } := by
    have x1 : r ≠ bi := fun e0 => (hTe bi m1).2 e0.symm
    have x2 : r ≠ rbi := fun e0 => (hTe rbi m2).2 e0.symm
    simp [cutF, bindF, x1, x2, cr, her.symm]
  refine ⟨e, r, ⟨cutF (bindF h.cell bi rbi e r) bi rbi, h.next⟩, rfl, rfl, rfl, rfl, rfl, hsz,
    ?_, ?_, ?_⟩
  · refine ⟨Repr_congr ?_ wf.repr, CtxRepr_congr _ _ ?_ wf.crepr, wf.nodup, ?_, ?_, ?_,
      wf.sorted, wf.csorted, wf.nonempty⟩
    · intro j hj; exact hcell j (hTe j hj).1 (hTe j hj).2
    · intro j hj; exact hcell j (hCe j hj).1 (hCe j hj).2
    · intro j hj
      have hn := wf.fresh j hj
      have x1 : j ≠ e := by intro e0; subst e0; rw [ce] at hn; cases hn
      have x2 : j ≠ r := by intro e0; subst e0; rw [cr] at hn; cases hn
      show cutF (bindF h.cell bi rbi e r) bi rbi j = none
      rw [hcell j x1 x2]; exact hn
    · exact ⟨_, hce, ne1, ne2, ne3⟩
    · exact ⟨_, hcr, nr1, nr2, nr3⟩
  · rw [e1, e2]; exact hC
  · intro _
    have hb2 : cutF (bindF h.cell bi rbi e r) bi rbi bi = some nb := by
      rw [hcell bi (hTe bi m1).1 (hTe bi m1).2]; exact c1
    have hrb2 : cutF (bindF h.cell bi rbi e r) bi rbi rbi = some nrb := by
      rw [hcell rbi (hTe rbi m2).1 (hTe rbi m2).2]; exact c2
    have := Bind_eq (h := ⟨cutF (bindF h.cell bi rbi e r) bi rbi, h.next⟩) T.root sz hb2 hrb2
      hce hcr (hTe bi m1).1 (hTe bi m1).2 (hTe rbi m2).1 (hTe rbi m2).2 her
    rw [e1, e2]
    simp only at this ⊢
    rw [this, bindF_cutF_bindF h.cell (hTe bi m1).1 (hTe bi m1).2 (hTe rbi m2).1
      (hTe rbi m2).2 her]

theorem bind_inv {h : Heap} {ctx : List Frame} {T : PT} {e r : Nat} (wf : WF h ctx T e r)
    (hT : T ≠ .nil) (sz : Nat) (hsz : sz = T.ids.length + (ctxIds ctx).length) :
    ∃ s1, AVL.BindMockNode ⟨h, T.root, T.minId, some e, T.maxId, some r, sz⟩ = some s1 ∧
      Inv s1 ctx T ∧ s1.size_ = sz := by
  obtain ⟨s1, e1, i1, z1, _⟩ := bind_inv_frame wf hT sz hsz
  exact ⟨s1, e1, i1, z1⟩

theorem UpdateSides_frame {h : Heap} {ctx : List Frame} {T : PT} {e r : Nat}
    (wf : WF h ctx T e r) (hT : T ≠ .nil) (b0 rb0 : Option Nat) (sz : Nat)
    (hsz : sz = T.ids.length + (ctxIds ctx).length) :
    ∃ s1, AVL.UpdateSides ⟨h, T.root, b0, some e, rb0, some r, sz⟩ = some s1 ∧
      Inv s1 ctx T ∧ s1.size_ = sz ∧ s1.end_ = some e ∧ s1.rend_ = some r ∧
      s1.heap.next = h.next ∧
      ∀ j, j ∉ T.ids → j ≠ e → j ≠ r → s1.heap.cell j = h.cell j := by
  obtain ⟨s1, e1, i1, z1⟩ := bind_inv_frame wf hT sz hsz
  refine ⟨s1, ?_, i1, z1⟩
  have hnd := wf.nodup
  rw [List.nodup_append] at hnd
  have hd := hnd.2.2
  have hl := leftSide_spec (some r) T (h.next + 1) h _ hT wf.repr (by have := wf.depth_lt; omega)
    (by intro i hi e0; cases e0; exact hd hi (by simp))
  have hr := rightSide_spec (some e) T (h.next + 1) h _ hT wf.repr
    (by have := wf.depth_lt; omega)
    (by intro i hi e0; cases e0; exact hd hi (by simp))
  cases hroot : T.root with
  | none => cases T with
    | nil => exact absurd rfl hT
    | node l x kx dx ht r => simp at hroot
  | some x =>
    rw [hroot] at hl hr e1
    simp only [AVL.UpdateSides, hl, hr, Option.bind_eq_bind, Option.some_bind]
    exact e1

theorem UpdateSides_spec {h : Heap} {ctx : List Frame} {T : PT} {e r : Nat}
    (wf : WF h ctx T e r) (hT : T ≠ .nil) (b0 rb0 : Option Nat) (sz : Nat)
    (hsz : sz = T.ids.length + (ctxIds ctx).length) :
    ∃ s1, AVL.UpdateSides ⟨h, T.root, b0, some e, rb0, some r, sz⟩ = some s1 ∧
      Inv s1 ctx T ∧ s1.size_ = sz := by
  obtain ⟨s1, e1, i1, z1, _⟩ := UpdateSides_frame wf hT b0 rb0 sz hsz
  exact ⟨s1, e1, i1, z1⟩

theorem Inv_nil_of {h : Heap} {e r : Nat} (ne nr : Node) (her : e ≠ r)
    (hf : ∀ j, h.next ≤ j → h.cell j = none)
    (ce : h.cell e = some ne) (cr : h.cell r = some nr)
    (he : ne.left = none ∧ ne.right = none ∧ ne.height = 0 ∧ ne.key = 0)
    (hr : nr.left = none ∧ nr.right = none ∧ nr.height = 0 ∧ nr.key = 0) :
    Inv ⟨h, none, none, some e, none, some r, 0⟩ [] .nil := by
  refine ⟨e, r, h, rfl, rfl, rfl, rfl, rfl, rfl, ?_, rfl, fun hn => absurd rfl hn⟩
  refine ⟨trivial, trivial, ?_, hf, ⟨_, ce, he⟩, ⟨_, cr, hr⟩, ?_, ?_, fun _ => rfl⟩
  · simp [ctxIds, her]
  · simp
  · intro f hf; cases hf

theorem new_spec : ∃ s, AVL.new = some s ∧ Inv s [] .nil ∧ s.size_ = 0 := by
  refine ⟨_, rfl, ?_, rfl⟩
  apply Inv_nil_of (e := 0) (r := 1) ⟨none, none, none, 0, 0, 0⟩
    ⟨none, none, none, 0, 0, 0⟩ (by decide)
  · intro j hj
    have h1 : j ≠ 0 := by intro e; subst e; simp [Heap.alloc, Heap.empty] at hj
    have h2 : j ≠ 1 := by intro e; subst e; simp [Heap.alloc, Heap.empty] at hj
    simp [Heap.alloc, Heap.empty, h1, h2]
  · simp [Heap.alloc, Heap.empty, Node.fresh]
  · simp [Heap.alloc, Heap.empty, Node.fresh]
  · exact ⟨rfl, rfl, rfl, rfl⟩
  · exact ⟨rfl, rfl, rfl, rfl⟩

theorem Find_frame {s : AVL} {ctx : List Frame} {T : PT} (inv : Inv s ctx T) (k : Int) :
    ∃ s0, s.Find k = some (decide (k ∈ T.keys), s0) ∧ Inv s0 ctx T ∧ (T ≠ .nil → s0 = s) ∧
      s0.size_ = s.size_ ∧ ∀ F, Stable s s0 F F := by
  obtain ⟨e, r, hc, he, hr, hroot, hb, hrb, hsz, wf, hcut, hbind⟩ := inv
  have hfind := FindNode_spec k T (hc.next + 1) hc _ wf.repr (by have := wf.depth_lt; omega)
  have hdec : decide (pFind k T ≠ none) = decide (k ∈ T.keys) := by
    rw [decide_eq_decide]; exact pFind_iff k T wf.sorted
  by_cases hT : T = .nil
  · subst hT
    obtain ⟨heap, root, b, e', rb, r', sz⟩ := s
    simp only [PT.root_nil, PT.minId, PT.maxId] at he hr hroot hb hrb hsz hfind
    subst he hr hroot hb hrb
    have hc0 : hc = heap := by
      simp only [AVL.CutMockNode, Option.bind_eq_bind, Option.some_bind, Option.pure_def,
        Option.some.injEq, AVL.mk.injEq, and_true, true_and] at hcut
      exact hcut.symm
    subst hc0
    obtain ⟨ne, ce, ne1⟩ := wf.endc
    obtain ⟨nr, cr, nr1⟩ := wf.rendc
    have hctx : ctx = [] := wf.nonempty rfl
    subst hctx
    have her : e ≠ r := by
      have := wf.nodup
      simp [ctxIds] at this
      exact this
    simp only [PT.ids_nil, List.length_nil, ctxIds, Nat.add_zero] at hsz
    subst hsz
    refine ⟨⟨(hc.write r { nr with parent := none }).write e { ne with parent := none }, none,
      none, some e, none, some r, 0⟩, ?_, ?_, fun hn => absurd rfl hn, rfl, ?_⟩
    rotate_left 2
    · intro F
      refine ⟨rfl, rfl, Nat.le_refl _, ?_, fun _ hj => Or.inl hj⟩
      intro j _ h1 h2 _
      have x1 : j ≠ e := fun e0 => h1 (by rw [e0])
      have x2 : j ≠ r := fun e0 => h2 (by rw [e0])
      simp [x1, x2]
    · simp only [AVL.Find, AVL.CutMockNode, hfind, AVL.BindMockNode, Heap.modify, cr, ce,
        write_cell, her, if_false, Option.bind_eq_bind, Option.some_bind, Option.pure_def,
        pFind, PT.keys_nil, List.not_mem_nil, decide_False, ne_eq, not_true_eq_false]
    · apply Inv_nil_of { ne with parent := none } { nr with parent := none } her
      · intro j hj
        simp only [write_next] at hj
        have hn := wf.fresh j hj
        have x1 : j ≠ e := by intro e0; subst e0; rw [ce] at hn; cases hn
        have x2 : j ≠ r := by intro e0; subst e0; rw [cr] at hn; cases hn
        simp [x1, x2, hn]
      · simp
      · simp [her.symm]
      · exact ne1
      · exact nr1
  · refine ⟨s, ?_, ⟨e, r, hc, he, hr, hroot, hb, hrb, hsz, wf, hcut, hbind⟩, fun _ => rfl, rfl,
      fun F => Stable.same s F⟩
    rw [← hroot] at hfind
    simp only [AVL.Find, hcut, hfind, hbind hT, Option.bind_eq_bind, Option.some_bind,
      Option.pure_def, hdec]

theorem Find_spec {s : AVL} {ctx : List Frame} {T : PT} (inv : Inv s ctx T) (k : Int) :
    ∃ s0, s.Find k = some (decide (k ∈ T.keys), s0) ∧ Inv s0 ctx T ∧ (T ≠ .nil → s0 = s) ∧
      s0.size_ = s.size_ := by
  obtain ⟨s0, x1, x2, x3, x4, _⟩ := Find_frame inv k
  exact ⟨s0, x1, x2, x3, x4⟩

theorem Insert_present {s : AVL} {ctx : List Frame} {T : PT} (inv : Inv s ctx T) (k d : Int)
    (hk : k ∈ T.keys) : s.Insert k d = some s := by
  obtain ⟨s0, e0, _, hs0, _⟩ := Find_spec inv k
  have hT : T ≠ .nil := by intro e; subst e; simp at hk
  rw [hs0 hT] at e0
  simp only [AVL.Insert, e0, hk, decide_True, Option.bind_eq_bind, Option.some_bind, if_true,
    Option.pure_def]

theorem Insert_frame {s : AVL} {ctx : List Frame} {T : PT} (inv : Inv s ctx T) (k d : Int)
    (hk : k ∉ T.keys) :
    ∃ s1 n, s.Insert k d = some s1 ∧ Inv s1 ctx (pIns n k d T) ∧ s1.size_ = s.size_ + 1 ∧
      Stable s s1 (T.ids ++ ctxIds ctx) ((pIns n k d T).ids ++ ctxIds ctx) := by
  obtain ⟨s0, e0, inv0, _, hsz0, st0⟩ := Find_frame inv k
  obtain ⟨e, r, hc, he, hr, hroot, hb, hrb, hsz, wf, hcut, hbind⟩ := inv0
  obtain ⟨heap, root, b, e', rb, r', sz⟩ := s0
  simp only at he hr hroot hb hrb hsz hcut hsz0
  subst he hr hroot hb hrb
  have hdec : decide (k ∈ T.keys) = false := by simp [hk]
  rw [hdec] at e0
  cases T with
  | nil =>
    have hctx : ctx = [] := wf.nonempty rfl
    subst hctx
    obtain ⟨ne, ce, ne1⟩ := wf.endc
    obtain ⟨nr, cr, nr1⟩ := wf.rendc
    have hne : hc.next ≠ e := fun e1 => by
      have := wf.fresh e (by omega); rw [ce] at this; cases this
    have hnr : hc.next ≠ r := fun e1 => by
      have := wf.fresh r (by omega); rw [cr] at this; cases this
    let h3 : Heap := ⟨fun j => if j = hc.next then some ⟨none, none, none, 1, k, d⟩
      else hc.cell j, hc.next + 1⟩
    have wf3 : WF h3 [] (pIns hc.next k d .nil) e r := by
      refine ⟨?_, trivial, ?_, ?_, ⟨ne, ?_, ne1⟩, ⟨nr, ?_, nr1⟩, ?_, ?_, ?_⟩
      · exact ⟨by simp [h3, ctxPar], trivial, trivial⟩
      · have := wf.nodup
        simp only [PT.ids_nil, ctxIds, List.nil_append, List.nodup_cons, List.mem_singleton,
          List.not_mem_nil, not_false_eq_true, List.nodup_nil, and_true] at this
        simp [pIns, ctxIds, hne, hnr, this]
      · intro j hj
        have : j ≠ hc.next := by simp only [h3] at hj; omega
        simp only [h3, this, if_false]
        exact wf.fresh j (by simp only [h3] at hj; omega)
      · simp [h3, hne.symm, ce]
      · simp [h3, hnr.symm, cr]
      · simp [pIns]
      · intro f hf; cases hf
      · intro hn; simp [pIns] at hn
    obtain ⟨s1, e1, i1, z1, f1, f2, f3, f4⟩ := UpdateSides_frame wf3 (by simp [pIns]) none none
      (sz + 1) (by simp [pIns, ctxIds]; simp [ctxIds] at hsz; omega)
    refine ⟨s1, hc.next, ?_, i1, by rw [z1, hsz0], (st0 _).step ?_⟩
    rotate_left
    · refine Stable.of_cut (T := .nil) (ctxIds []) (pIns hc.next k d .nil).ids hcut
        (Nat.le_succ _) ?_ f1 f2 f3 f4 ?_ ?_
      · intro j _ hlt
        have : j ≠ hc.next := by omega
        simp [h3, this]
      · intro j hj
        simp only [pIns, PT.ids_node, PT.ids_nil, List.nil_append, List.mem_singleton] at hj
        exact Or.inr (by omega)
      · intro j hj
        simp only [pIns, PT.ids_node, PT.ids_nil, List.nil_append, ctxIds, List.append_nil,
          List.mem_singleton] at hj
        exact Or.inr (by omega)
    simp only [PT.minId, PT.maxId, PT.root_nil] at hcut e1 e0
    simp only [AVL.Insert, e0, Option.bind_eq_bind, Option.some_bind, Bool.false_eq_true,
      if_false, hcut, Heap.alloc, Heap.modify, if_true, Option.pure_def, write_cell,
      Node.fresh]
    have hh : (({ cell := fun j => if j = hc.next then some ⟨none, none, none, 1, 0, 0⟩
          else hc.cell j, next := hc.next + 1 } : Heap).write hc.next
            ⟨none, none, none, 1, k, 0⟩).write hc.next ⟨none, none, none, 1, k, d⟩ = h3 := by
      apply Heap.ext_cells
      · intro j; simp only [write_cell, h3]; split_ifs <;> rfl
      · rfl
    simp only [pIns, PT.root_node] at e1
    rw [hh]
    exact e1
  | node l x kx dx ht rt =>
    obtain ⟨h1, e1, n1, s1⟩ := InsertNode_spec k d (.node l x kx dx ht rt) (hc.next + 1) hc _
      (by simp) wf.pre (by have := wf.depth_lt; omega)
    have hn : hc.next ∉ (PT.node l x kx dx ht rt).ids := by
      intro hm; have := wf.pre.lt _ hm; omega
    have wf1 := WF_of_SubSpec wf s1 (pIns_ids_nodup hc.next k d _ wf.pre.nodup hn)
      (pIns_keys_sorted hc.next k d _ wf.sorted) (Or.inl (by simp))
      (by intro e2; exact pIns_ne_nil hc.next k d _ (by rw [e2]; rfl))
    obtain ⟨s2, e2, i2, z2, f1, f2, f3, f4⟩ := UpdateSides_frame wf1 (by
      intro e2; exact pIns_ne_nil hc.next k d _ (by rw [e2]; rfl))
      (PT.node l x kx dx ht rt).minId (PT.node l x kx dx ht rt).maxId (sz + 1)
      (by rw [pIns_ids_length hc.next k d _ wf.sorted hk, hsz]; omega)
    refine ⟨s2, hc.next, ?_, i2, by rw [z2, hsz0], (st0 _).step ?_⟩
    rotate_left
    · have hsub : ∀ j ∈ (pIns hc.next k d (.node l x kx dx ht rt)).ids,
          j ∈ (PT.node l x kx dx ht rt).ids ++ ctxIds ctx ∨ hc.next ≤ j := by
        intro j hj
        rcases s1.ids j hj with h3 | h3
        · exact Or.inl (List.mem_append_left _ h3)
        · exact Or.inr h3.1
      refine Stable.of_cut (ctxIds ctx) (pIns hc.next k d (.node l x kx dx ht rt)).ids hcut
        s1.next ?_ f1 f2 f3 f4 hsub ?_
      · intro j hj hlt
        rw [List.mem_append, not_or] at hj
        apply s1.frame j hj.1 hlt
        intro e3
        cases ctx with
        | nil => cases e3
        | cons f rest =>
          simp only [ctxPar, Option.some.injEq] at e3
          exact hj.2 (by rw [e3]; simp [ctxIds])
      · intro j hj
        rw [List.mem_append] at hj
        rcases hj with hj | hj
        · exact hsub j hj
        · exact Or.inl (List.mem_append_right _ hj)
    simp only [PT.root_node] at e1 hcut
    simp only [AVL.Insert, e0, Option.bind_eq_bind, Option.some_bind, Bool.false_eq_true,
      if_false, hcut, e1, Option.pure_def, PT.root_node]
    exact e2

theorem Insert_absent {s : AVL} {ctx : List Frame} {T : PT} (inv : Inv s ctx T) (k d : Int)
    (hk : k ∉ T.keys) :
    ∃ s1 n, s.Insert k d = some s1 ∧ Inv s1 ctx (pIns n k d T) ∧ s1.size_ = s.size_ + 1 := by
  obtain ⟨s1, n, x1, x2, x3, _⟩ := Insert_frame inv k d hk
  exact ⟨s1, n, x1, x2, x3⟩

theorem attachL_ids (sn t : PT) : (attachL sn t).ids = sn.ids ++ t.ids := by
  induction t with
  | nil => simp [attachL]
  | node l x k d ht r ihl _ => simp [attachL, ihl]

theorem attachR_ids (sn t : PT) : (attachR sn t).ids = t.ids ++ sn.ids := by
  induction t with
  | nil => simp [attachR]
  | node l x k d ht r _ ihr => simp [attachR, ihr]

theorem attachL_keys (sn t : PT) : (attachL sn t).keys = sn.keys ++ t.keys := by
  induction t with
  | nil => simp [attachL]
  | node l x k d ht r ihl _ => simp [attachL, ihl]

theorem attachR_keys (sn t : PT) : (attachR sn t).keys = t.keys ++ sn.keys := by
  induction t with
  | nil => simp [attachR]
  | node l x k d ht r _ ihr => simp [attachR, ihr]

theorem attachL_root (sn t : PT) (ht : t ≠ .nil) : (attachL sn t).root = t.root := by
  cases t with
  | nil => exact absurd rfl ht
  | node l x k d ht r => rfl

theorem attachR_root (sn t : PT) (ht : t ≠ .nil) : (attachR sn t).root = t.root := by
  cases t with
  | nil => exact absurd rfl ht
  | node l x k d ht r => rfl

theorem attachL_repr (r : Nat) (rk rd : Int) (rh : Nat) : ∀ (t : PT) (h h1 : Heap)
    (par : Option Nat), t ≠ .nil → Repr h par t → t.ids.Nodup →
    (∀ bi nb, t.minId = some bi → h.cell bi = some nb →
      h1.cell bi = some { nb with left := some r }) →
    h1.cell r = some ⟨none, none, t.minId, rh, rk, rd⟩ →
    (∀ j ∈ t.ids, some j ≠ t.minId → h1.cell j = h.cell j) →
    Repr h1 par (attachL (.node .nil r rk rd rh .nil) t) := by
  intro t
  induction t with
  | nil => intro _ _ _ hn; exact absurd rfl hn
  | node l x kx dx ht rt ihl _ =>
    intro h h1 par _ hr hnd hb hrc ho
    simp only [PT.ids_node, List.nodup_append, List.nodup_cons] at hnd
    obtain ⟨hndl, ⟨hxr, hndr⟩, hdis⟩ := hnd
    cases l with
    | nil =>
      simp only [PT.minId] at hb hrc ho
      refine ⟨?_, ⟨hrc, trivial, trivial⟩, Repr_congr ?_ hr.2.2⟩
      · rw [hb x _ rfl hr.1]; simp [attachL]
      · intro j hj
        apply ho j (by simp [hj])
        intro e; cases e; exact hxr hj
    | node ll li lk ld lh lr =>
      have hmin : (PT.node (.node ll li lk ld lh lr) x kx dx ht rt).minId
          = (PT.node ll li lk ld lh lr).minId := rfl
      rw [hmin] at hb hrc ho
      obtain ⟨bi, nb, e1, m1, _, _⟩ := minId_cell (.node ll li lk ld lh lr) h _ (by simp) hr.2.1
      have hxb : some x ≠ (PT.node ll li lk ld lh lr).minId := by
        rw [e1]; intro e; cases e; exact hdis m1 (by simp)
      refine ⟨?_, ihl h h1 (some x) (by simp) hr.2.1 hndl hb hrc ?_, Repr_congr ?_ hr.2.2⟩
      · rw [ho x (by simp) hxb, hr.1]
        simp only [attachL, PT.root_node]
      · intro j hj hne
        exact ho j (List.mem_append_left _ hj) hne
      · intro j hj
        apply ho j (by simp [hj])
        rw [e1]; intro e; cases e
        exact hdis m1 (by simp [hj])

theorem attachR_repr (r : Nat) (rk rd : Int) (rh : Nat) : ∀ (t : PT) (h h1 : Heap)
    (par : Option Nat), t ≠ .nil → Repr h par t → t.ids.Nodup →
    (∀ bi nb, t.maxId = some bi → h.cell bi = some nb →
      h1.cell bi = some { nb with right := some r }) →
    h1.cell r = some ⟨none, none, t.maxId, rh, rk, rd⟩ →
    (∀ j ∈ t.ids, some j ≠ t.maxId → h1.cell j = h.cell j) →
    Repr h1 par (attachR (.node .nil r rk rd rh .nil) t) := by
  intro t
  induction t with
  | nil => intro _ _ _ hn; exact absurd rfl hn
  | node l x kx dx ht rt _ ihr =>
    intro h h1 par _ hr hnd hb hrc ho
    simp only [PT.ids_node, List.nodup_append, List.nodup_cons] at hnd
    obtain ⟨hndl, ⟨hxr, hndr⟩, hdis⟩ := hnd
    cases rt with
    | nil =>
      simp only [PT.maxId] at hb hrc ho
      refine ⟨?_, Repr_congr ?_ hr.2.1, ⟨hrc, trivial, trivial⟩⟩
      · rw [hb x _ rfl hr.1]; simp [attachR]
      · intro j hj
        apply ho j (by simp [hj])
        intro e; cases e; exact hdis hj (by simp)
    | node rl ri rk1 rd1 rh1 rr =>
      have hmax : (PT.node l x kx dx ht (.node rl ri rk1 rd1 rh1 rr)).maxId
          = (PT.node rl ri rk1 rd1 rh1 rr).maxId := by
        cases l <;> rfl
      rw [hmax] at hb hrc ho
      obtain ⟨bi, nb, e1, m1, _, _⟩ := maxId_cell (.node rl ri rk1 rd1 rh1 rr) h _ (by simp)
        hr.2.2
      have hxb : some x ≠ (PT.node rl ri rk1 rd1 rh1 rr).maxId := by
        rw [e1]; intro e; cases e; exact hxr m1
      refine ⟨?_, Repr_congr ?_ hr.2.1, ihr h h1 (some x) (by simp) hr.2.2 hndr hb hrc ?_⟩
      · rw [ho x (by simp) hxb, hr.1]
        simp only [attachR, PT.root_node]
      · intro j hj
        apply ho j (by simp [hj])
        rw [e1]; intro e; cases e
        exact hdis hj (List.mem_cons_of_mem _ m1)
      · intro j hj hne
        exact ho j (List.mem_append_right _ (List.mem_cons_of_mem _ hj)) hne

theorem climb_step_right {h : Heap} {g p : Nat} {ng np : Node} (f : Nat)
    (hg : h.cell g = some ng) (hgp : ng.parent = some p) (hgl : ng.left ≠ some g)
    (hp : h.cell p = some np) (hpl : np.left ≠ some g) (hpp : np.left ≠ some p) :
    climbLeft (f + 1) h (some g) (some g) = climbLeft f h (some p) (some p) := by
  have e1 : climbLeft (f + 1) h (some g) (some g) = climbLeft f h (some g) (some p) := by
    simp [climbLeft, Heap.read, hg, hgp, Ne.symm hgl]
  rw [e1]
  cases f with
  | zero => rfl
  | succ f' =>
    simp [climbLeft, Heap.read, hp, Ne.symm hpl, Ne.symm hpp]

theorem climb_step_left {h : Heap} {g p : Nat} {ng np : Node} (f : Nat)
    (hg : h.cell g = some ng) (hgp : ng.parent = some p) (hgl : ng.left ≠ some g)
    (hp : h.cell p = some np) (hpl : np.left = some g) :
    climbLeft (f + 2) h (some g) (some g) = some (some p) := by
  have e1 : climbLeft (f + 2) h (some g) (some g) = climbLeft (f + 1) h (some g) (some p) := by
    simp [climbLeft, Heap.read, hg, hgp, Ne.symm hgl]
  rw [e1]
  simp [climbLeft, Heap.read, hp, hpl]

theorem root_left_ne {l r : PT} {x : Nat} {k d : Int} {ht : Nat}
    (hnd : (PT.node l x k d ht r).ids.Nodup) : l.root ≠ some x := by
  intro e
  have := root_mem_ids e
  simp only [PT.ids_node, List.nodup_append, List.nodup_cons] at hnd
  exact hnd.2.2 this (by simp)

theorem rspine_climb : ∀ (l : PT) (h : Heap) (par : Option Nat), l ≠ .nil → Repr h par l →
    l.ids.Nodup → ∀ a, l.maxId = some a →
    ∃ na, h.cell a = some na ∧ na.right = none ∧
      ((some a = l.root ∧ na.parent = par) ∨
        (∃ g ng k y, na.parent = some g ∧ h.cell g = some ng ∧ ng.left ≠ some a ∧
          l.root = some y ∧ k + 2 ≤ l.depth ∧
          ∀ f, climbLeft (f + k) h (some g) (some g) = climbLeft f h (some y) (some y))) := by
  intro l
  induction l with
  | nil => intro _ _ hn; exact absurd rfl hn
  | node ll y ky dy hy lr _ ihr =>
    intro h par _ hr hnd a ha
    have hnd' := hnd
    simp only [PT.ids_node, List.nodup_append, List.nodup_cons] at hnd'
    obtain ⟨hndl, ⟨hyr, hndr⟩, hdis⟩ := hnd'
    cases lr with
    | nil =>
      simp only [PT.maxId, Option.some.injEq] at ha
      subst ha
      exact ⟨_, hr.1, rfl, Or.inl ⟨rfl, rfl⟩⟩
    | node rl z kz dz hz rr =>
      have hmax : (PT.node ll y ky dy hy (.node rl z kz dz hz rr)).maxId
          = (PT.node rl z kz dz hz rr).maxId := by cases ll <;> rfl
      rw [hmax] at ha
      obtain ⟨na, c1, c2, c3⟩ := ihr h (some y) (by simp) hr.2.2 hndr a ha
      refine ⟨na, c1, c2, Or.inr ?_⟩
      have hyl : ll.root ≠ some y := root_left_ne hnd
      have hzl : ll.root ≠ some z := by
        intro e
        exact hdis (root_mem_ids e) (by simp)
      rcases c3 with ⟨e1, e2⟩ | ⟨g, ng, k, y1, e1, e2, e3, e4, e5, e6⟩
      · simp only [PT.root_node, Option.some.injEq] at e1
        subst e1
        refine ⟨y, _, 0, y, e2, hr.1, ?_, rfl, ?_, fun f => rfl⟩
        · simpa using hzl
        · simp only [PT.depth]; omega
      · simp only [PT.root_node, Option.some.injEq] at e4
        subst e4
        refine ⟨g, ng, k + 1, y, e1, e2, e3, rfl, ?_, ?_⟩
        · simp only [PT.depth] at e5 ⊢; omega
        · intro f
          have := e6 (f + 1)
          rw [show f + (k + 1) = f + 1 + k by omega, this]
          apply climb_step_right f hr.2.2.1 rfl _ hr.1
          · simpa using hzl
          · simpa using hyl
          · exact root_left_ne hndr

theorem itNext_succ : ∀ (t : PT) (h : Heap) (par : Option Nat), Repr h par t → t.ids.Nodup →
    t.depth ≤ h.next → ∀ pre a b post, t.ids = pre ++ a :: b :: post →
    itNext h (some a) = some (some b) := by
  intro t
  induction t with
  | nil => intro _ _ _ _ _ pre a b post e; simp at e
  | node l x kx dx ht r ihl ihr =>
    intro h par hr hnd hdep pre a b post e
    have hnd' := hnd
    simp only [PT.ids_node, List.nodup_append, List.nodup_cons] at hnd'
    obtain ⟨hndl, ⟨hxr, hndr⟩, hdis⟩ := hnd'
    simp only [PT.depth] at hdep
    have case3 : ∀ post1, r.ids = b :: post1 → itNext h (some x) = some (some b) := by
      intro post1 e1
      cases r with
      | nil => simp at e1
      | node rl ri rk rd rh rr =>
        have h1 := leftmost_spec (.node rl ri rk rd rh rr) (h.next + 1) h (some x) (by simp)
          hr.2.2 (by omega)
        have h2 : (PT.node rl ri rk rd rh rr).minId = some b := by
          rw [minId_eq_head, e1]; rfl
        simp only [PT.root_node] at h1
        simp [itNext, Heap.read, hr.1, h1, h2]
    simp only [PT.ids_node] at e
    rw [List.append_eq_append_iff] at e
    rcases e with ⟨a', e1, e2⟩ | ⟨c', e1, e2⟩
    · cases a' with
      | nil =>
        simp only [List.nil_append, List.cons.injEq] at e2
        obtain ⟨e3, e4⟩ := e2
        subst e3
        exact case3 post e4
      | cons x1 a2 =>
        simp only [List.cons_append, List.cons.injEq] at e2
        exact ihr h (some x) hr.2.2 hndr (by omega) a2 a b post e2.2
    · cases c' with
      | nil =>
        simp only [List.nil_append, List.cons.injEq] at e2
        obtain ⟨e3, e4⟩ := e2
        subst e3
        exact case3 post e4.symm
      | cons a1 c2 =>
        simp only [List.cons_append, List.cons.injEq] at e2
        obtain ⟨e3, e4⟩ := e2
        subst e3
        cases c2 with
        | cons b1 c3 =>
          simp only [List.cons_append, List.cons.injEq] at e4
          obtain ⟨e5, e6⟩ := e4
          subst e5
          exact ihl h (some x) hr.2.1 hndl (by omega) pre a b c3 e1
        | nil =>
          simp only [List.nil_append, List.cons.injEq] at e4
          obtain ⟨e5, e6⟩ := e4
          subst e5
          have hl : l ≠ .nil := by intro e; subst e; simp at e1
          have hmax : l.maxId = some a := by
            rw [maxId_eq_getLast, e1]; simp
          obtain ⟨na, c1, c2, c3⟩ := rspine_climb l h (some b) hl hr.2.1 hndl a hmax
          rcases c3 with ⟨e7, e8⟩ | ⟨g, ng, k, y, e7, e8, e9, e10, e11, e12⟩
          · simp [itNext, Heap.read, c1, c2, e8, hr.1, e7]
          · have hcy : ∃ ny, h.cell y = some ny ∧ ny.parent = some b ∧ ny.left ≠ some y := by
              cases l with
              | nil => exact absurd rfl hl
              | node ll y1 ky dy hy lr =>
                simp only [PT.root_node, Option.some.injEq] at e10
                subst e10
                exact ⟨_, hr.2.1.1, rfl, by
                  simpa using root_left_ne hndl⟩
            obtain ⟨ny, cy1, cy2, cy3⟩ := hcy
            have hfin := climb_step_left (h.next + 1 - k - 2) cy1 cy2 cy3 hr.1
              (by simp [e10])
            have hk := e12 (h.next + 1 - k)
            rw [show h.next + 1 - k + k = h.next + 1 by omega] at hk
            rw [show h.next + 1 - k - 2 + 2 = h.next + 1 - k by omega] at hfin
            simp [itNext, Heap.read, c1, c2, e7, e8, Ne.symm e9, hk, hfin]
            intro e; exact absurd e e9

theorem Repr_keys {h : Heap} : ∀ (t : PT) (par : Option Nat), Repr h par t →
    List.Forall₂ (fun i k => ∃ n, h.cell i = some n ∧ n.key = k) t.ids t.keys := by
  intro t
  induction t with
  | nil => intro _ _; exact List.Forall₂.nil
  | node l x kx dx ht r ihl ihr =>
    intro par hr
    simp only [PT.ids_node, PT.keys_node]
    exact List.rel_append (ihl _ hr.2.1) (List.Forall₂.cons ⟨_, hr.1, rfl⟩ (ihr _ hr.2.2))

theorem Forall₂_keys_congr {h h1 : Heap} {xs : List Nat} {ks : List Int}
    (hf : List.Forall₂ (fun i k => ∃ n, h.cell i = some n ∧ n.key = k) xs ks) :
    (∀ i ∈ xs, ∀ n, h.cell i = some n → ∃ n1, h1.cell i = some n1 ∧ n1.key = n.key) →
    List.Forall₂ (fun i k => ∃ n, h1.cell i = some n ∧ n.key = k) xs ks := by
  induction hf with
  | nil => intro _; exact List.Forall₂.nil
  | cons hk _ ih =>
    intro hc
    obtain ⟨n, hn, hk1⟩ := hk
    obtain ⟨n1, hn1, hk2⟩ := hc _ (List.mem_cons_self _ _) n hn
    exact List.Forall₂.cons ⟨n1, hn1, by rw [hk2, hk1]⟩
      (ih (fun i hi => hc i (List.mem_cons_of_mem _ hi)))

theorem attachL_maxId (sn t : PT) (ht : t ≠ .nil) : (attachL sn t).maxId = t.maxId := by
  rw [maxId_eq_getLast, maxId_eq_getLast, attachL_ids]
  cases hi : t.ids with
  | nil => cases t with
    | nil => exact absurd rfl ht
    | node l x k d h r => simp at hi
  | cons a as => rw [getLast?_append_cons]

theorem collect_spec {h : Heap} {e : Nat} {t : PT} {par : Option Nat} (hr : Repr h par t)
    (hnd : t.ids.Nodup) (hdep : t.depth ≤ h.next) :
    ∀ (xs : List Nat) (ks : List Int) (pre : List Nat) (fuel : Nat),
      t.ids = pre ++ xs ++ [e] →
      List.Forall₂ (fun i k => ∃ n, h.cell i = some n ∧ n.key = k) xs ks →
      xs.length < fuel →
      collect fuel h (some e) ((xs ++ [e]).head?) = some ks := by
  intro xs
  induction xs with
  | nil =>
    intro ks pre fuel _ hf hfuel
    cases hf
    cases fuel with
    | zero => simp at hfuel
    | succ f => simp [collect]
  | cons a xs ih =>
    intro ks pre fuel hids hf hfuel
    cases hf with
    | cons hk hrest =>
      rename_i k ks'
      obtain ⟨na, c1, c2⟩ := hk
      cases fuel with
      | zero => simp at hfuel
      | succ f =>
        have hae : a ≠ e := by
          intro e0
          subst e0
          rw [hids] at hnd
          have : (pre ++ (a :: xs ++ [a])).Nodup := by simpa using hnd
          rw [List.nodup_append] at this
          have h2 := this.2.1
          simp at h2
        have hnext : itNext h (some a) = some ((xs ++ [e]).head?) := by
          cases hx : xs ++ [e] with
          | nil => simp at hx
          | cons b post =>
            have : t.ids = pre ++ a :: b :: post := by
              rw [hids, List.append_assoc, List.cons_append, hx]
            rw [itNext_succ t h par hr hnd hdep pre a b post this]
            rfl
        have hrec := ih ks' (pre ++ [a]) f (by rw [hids]; simp) hrest
          (by simp at hfuel; omega)
        show collect (f + 1) h (some e) (some a) = some (k :: ks')
        have hne : ¬ (some a = some e) := by simpa using hae
        simp only [collect, hne, if_false, Heap.read, c1, hnext, hrec, c2, Option.bind_eq_bind,
          Option.some_bind, Option.pure_def]

theorem Inv_bound_sent {s : AVL} {ctx : List Frame} {T : PT} (inv : Inv s ctx T) (hT : T ≠ .nil) :
    ∃ (e r bi rbi : Nat) (ne nr : Node), s.end_ = some e ∧ s.rend_ = some r ∧
      s.begin_ = some bi ∧
      s.rbegin_ = some rbi ∧ T.minId = some bi ∧ T.maxId = some rbi ∧ s.size_ ≠ 0 ∧
      Repr s.heap (ctxPar ctx) (attachR (.node .nil e ne.key ne.data ne.height .nil)
        (attachL (.node .nil r nr.key nr.data nr.height .nil) T)) ∧
      ([r] ++ T.ids ++ [e]).Nodup ∧
      (attachR (.node .nil e ne.key ne.data ne.height .nil)
        (attachL (.node .nil r nr.key nr.data nr.height .nil) T)).depth ≤ s.heap.next ∧
      T.ids.length + 2 ≤ s.heap.next ∧
      List.Forall₂ (fun i k => ∃ n, s.heap.cell i = some n ∧ n.key = k) T.ids T.keys ∧
      (∃ me, s.heap.cell e = some me ∧ me.parent = some rbi ∧ me.key = 0 ∧ me.height = 0) ∧
      (∃ mr, s.heap.cell r = some mr ∧ mr.parent = some bi ∧ mr.key = 0 ∧ mr.height = 0) ∧
      (∃ mb, s.heap.cell bi = some mb ∧ mb.left = some r) ∧
      (∃ mrb, s.heap.cell rbi = some mrb ∧ mrb.right = some e) ∧
      ne.height = 0 ∧ nr.height = 0 ∧ ne.key = 0 ∧ nr.key = 0 := by
  obtain ⟨e, r, hc, he, hr, hroot, hb, hrb, hsz, wf, hcut, hbind⟩ := inv
  obtain ⟨bi, nb, e1, m1, c1, l1⟩ := minId_cell T hc _ hT wf.repr
  obtain ⟨rbi, nrb, e2, m2, c2, l2⟩ := maxId_cell T hc _ hT wf.repr
  obtain ⟨ne, ce, ne1, ne2, ne3⟩ := wf.endc
  obtain ⟨nr, cr, nr1, nr2, nr3⟩ := wf.rendc
  have hnd := wf.nodup
  rw [List.nodup_append] at hnd
  obtain ⟨hndT, hnd2, hdis⟩ := hnd
  rw [List.nodup_append] at hnd2
  have hTe : ∀ j ∈ T.ids, j ≠ e ∧ j ≠ r := by
    intro j hj
    constructor
    · intro e0; subst e0; exact hdis hj (by simp)
    · intro e0; subst e0; exact hdis hj (by simp)
  have her : e ≠ r := by
    have := hnd2.2.1
    simp only [List.nodup_cons, List.mem_singleton] at this
    exact this.1
  obtain ⟨hbe, hbr⟩ := hTe bi m1
  obtain ⟨hrbe, hrbr⟩ := hTe rbi m2
  have hB := Bind_eq T.root s.size_ c1 c2 ce cr hbe hbr hrbe hrbr her
  have hs := hbind hT
  rw [hroot, hb, hrb, he, hr, e1, e2, hB] at hs
  simp only [Option.some.injEq] at hs
  have hheap : s.heap = ⟨bindF hc.cell bi rbi e r, hc.next⟩ := by rw [← hs]
  let h1 : Heap := ⟨fun j => if j = r then some { nr with parent := some bi }
    else if j = bi then some { nb with left := some r } else hc.cell j, hc.next⟩
  have r1 : Repr h1 (ctxPar ctx) (attachL (.node .nil r nr.key nr.data nr.height .nil) T) := by
    apply attachL_repr r nr.key nr.data nr.height T hc h1 _ hT wf.repr hndT
    · intro bi1 nb1 e3 e4
      rw [e1] at e3; cases e3
      rw [c1] at e4; cases e4
      simp [h1, hbr]
    · cases nr
      simp only at nr1 nr2
      simp [h1, e1, nr1, nr2]
    · intro j hj hne
      have x1 : j ≠ bi := by intro e0; subst e0; exact hne e1.symm
      simp [h1, x1, (hTe j hj).2]
  have hnd1 : (attachL (.node .nil r nr.key nr.data nr.height .nil) T).ids.Nodup := by
    rw [attachL_ids]
    simp only [PT.ids_node, PT.ids_nil, List.nil_append, List.singleton_append,
      List.nodup_cons]
    exact ⟨fun hm => (hTe r hm).2 rfl, hndT⟩
  have hne1 : attachL (.node .nil r nr.key nr.data nr.height .nil) T ≠ .nil := by
    cases T with
    | nil => exact absurd rfl hT
    | node l x k d ht rt => simp [attachL]
  have r2 : Repr s.heap (ctxPar ctx) (attachR (.node .nil e ne.key ne.data ne.height .nil)
      (attachL (.node .nil r nr.key nr.data nr.height .nil) T)) := by
    apply attachR_repr e ne.key ne.data ne.height _ h1 s.heap _ hne1 r1 hnd1
    · intro bi1 nb1 e3 e4
      rw [attachL_maxId _ _ hT, e2] at e3
      simp only [Option.some.injEq] at e3
      subst e3
      rw [hheap]
      by_cases hbb : rbi = bi
      · have e4' : h1.cell rbi = some { nb with left := some r } := by
          simp [h1, hbb, hbr]
        rw [e4'] at e4
        simp only [Option.some.injEq] at e4
        subst e4
        simp [bindF, hbb, hbe, hbr, c1]
      · have e4' : h1.cell rbi = some nrb := by
          simp [h1, hbb, hrbr, c2]
        rw [e4'] at e4
        simp only [Option.some.injEq] at e4
        subst e4
        have hbb' : ¬ bi = rbi := fun e0 => hbb e0.symm
        simp [bindF, hrbe, hrbr, hbb, hbb', c2]
    · rw [attachL_maxId _ _ hT, e2, hheap]
      cases ne
      simp only at ne1 ne2
      simp [bindF, ce, ne1, ne2]
    · intro j hj hne
      rw [attachL_maxId _ _ hT, e2] at hne
      have x1 : j ≠ rbi := fun e0 => hne (by rw [e0])
      rw [attachL_ids] at hj
      simp only [PT.ids_node, PT.ids_nil, List.nil_append, List.singleton_append,
        List.mem_cons] at hj
      rw [hheap]
      rcases hj with e0 | hj
      · subst e0
        simp [bindF, h1, her.symm, cr]
      · by_cases hbb : j = bi
        · subst hbb
          have : ¬ j = rbi := x1
          simp [bindF, h1, hbe, hbr, c1, this]
        · simp [bindF, h1, (hTe j hj).1, (hTe j hj).2, hbb, x1]
  have hids : (attachR (.node .nil e ne.key ne.data ne.height .nil)
      (attachL (.node .nil r nr.key nr.data nr.height .nil) T)).ids = [r] ++ T.ids ++ [e] := by
    rw [attachR_ids, attachL_ids]; simp
  have hnd2' : ([r] ++ T.ids ++ [e]).Nodup := by
    have x1 : (T.ids ++ [e]).Nodup := by
      rw [List.nodup_append]
      refine ⟨hndT, List.nodup_singleton e, ?_⟩
      intro j hj hm
      rw [List.mem_singleton] at hm
      exact (hTe j hj).1 hm
    have x2 : r ∉ T.ids ++ [e] := by
      rw [List.mem_append, List.mem_singleton]
      rintro (hm | hm)
      · exact (hTe r hm).2 rfl
      · exact her hm.symm
    exact List.nodup_cons.2 ⟨x2, x1⟩
  have hlt : ∀ i ∈ [r] ++ T.ids ++ [e], i < hc.next := by
    intro i hi
    have hi' : i = r ∨ i ∈ T.ids ∨ i = e := by
      simpa [List.mem_append, List.mem_cons, or_assoc] using hi
    rcases hi' with hi | hi | hi
    · subst hi; exact lt_next_of_alive wf.fresh cr
    · exact wf.pre.lt i hi
    · subst hi; exact lt_next_of_alive wf.fresh ce
  have hlen := length_le_of_nodup_lt hnd2' hlt
  have hdep : (attachR (.node .nil e ne.key ne.data ne.height .nil)
      (attachL (.node .nil r nr.key nr.data nr.height .nil) T)).depth ≤ s.heap.next := by
    have := depth_le_length (attachR (.node .nil e ne.key ne.data ne.height .nil)
      (attachL (.node .nil r nr.key nr.data nr.height .nil) T))
    rw [hids] at this
    rw [hheap]
    exact le_trans this hlen
  have hkeys : List.Forall₂ (fun i k => ∃ n, s.heap.cell i = some n ∧ n.key = k)
      T.ids T.keys := by
    apply Forall₂_keys_congr (Repr_keys T _ wf.repr)
    intro i hi n hn
    rw [hheap]
    by_cases x1 : i = bi
    · rw [x1] at hn ⊢
      rw [c1] at hn; cases hn
      by_cases x2 : bi = rbi
      · refine ⟨{ nb with left := some r, right := some e }, ?_, rfl⟩
        subst x2
        simp [bindF, hbe, hbr, c1]
      · refine ⟨{ nb with left := some r }, ?_, rfl⟩
        simp [bindF, hbe, hbr, c1, x2]
    · by_cases x2 : i = rbi
      · rw [x2] at hn x1 ⊢
        rw [c2] at hn; cases hn
        refine ⟨{ nrb with right := some e }, ?_, rfl⟩
        simp [bindF, hrbe, hrbr, x1, c2]
      · exact ⟨n, by simp [bindF, (hTe i hi).1, (hTe i hi).2, x1, x2, hn], rfl⟩
  have hne0 : s.size_ ≠ 0 := by
    rw [hsz]
    cases T with
    | nil => exact absurd rfl hT
    | node l x k d ht rt => simp
  refine ⟨e, r, bi, rbi, ne, nr, he, hr, by rw [hb, e1], by rw [hrb, e2], e1, e2, hne0, r2,
    hnd2', hdep, ?_, hkeys, ?_, ?_, ?_, ?_, ne3.1, nr3.1, ne3.2, nr3.2⟩
  · rw [hheap]
    simp only [List.length_append, List.length_singleton, List.length_cons,
      List.length_nil] at hlen
    show T.ids.length + 2 ≤ hc.next
    omega
  · refine ⟨{ ne with parent := some rbi }, ?_, rfl, ne3.2, ne3.1⟩
    rw [hheap]
    simp [bindF, ce]
  · refine ⟨{ nr with parent := some bi }, ?_, rfl, nr3.2, nr3.1⟩
    rw [hheap]
    simp [bindF, cr, her.symm]
  · by_cases hbb : bi = rbi
    · refine ⟨{ nb with left := some r, right := some e }, ?_, rfl⟩
      rw [hheap]
      subst hbb
      simp [bindF, hbe, hbr, c1]
    · refine ⟨{ nb with left := some r }, ?_, rfl⟩
      rw [hheap]
      simp [bindF, hbe, hbr, c1, hbb]
  · by_cases hbb : bi = rbi
    · refine ⟨{ nb with left := some r, right := some e }, ?_, rfl⟩
      rw [hheap, ← hbb]
      simp [bindF, hbe, hbr, c1]
    · refine ⟨{ nrb with right := some e }, ?_, rfl⟩
      have hbb2 : ¬ rbi = bi := fun e0 => hbb e0.symm
      rw [hheap]
      simp [bindF, hrbe, hrbr, c2, hbb2]

theorem Inv_bound {s : AVL} {ctx : List Frame} {T : PT} (inv : Inv s ctx T) (hT : T ≠ .nil) :
    ∃ (e r bi rbi : Nat) (ne nr : Node), s.end_ = some e ∧ s.rend_ = some r ∧
      s.begin_ = some bi ∧
      s.rbegin_ = some rbi ∧ T.minId = some bi ∧ T.maxId = some rbi ∧ s.size_ ≠ 0 ∧
      Repr s.heap (ctxPar ctx) (attachR (.node .nil e ne.key ne.data ne.height .nil)
        (attachL (.node .nil r nr.key nr.data nr.height .nil) T)) ∧
      ([r] ++ T.ids ++ [e]).Nodup ∧
      (attachR (.node .nil e ne.key ne.data ne.height .nil)
        (attachL (.node .nil r nr.key nr.data nr.height .nil) T)).depth ≤ s.heap.next ∧
      T.ids.length + 2 ≤ s.heap.next ∧
      List.Forall₂ (fun i k => ∃ n, s.heap.cell i = some n ∧ n.key = k) T.ids T.keys := by
  obtain ⟨e, r, bi, rbi, ne, nr, x1, x2, x3, x4, x5, x6, x7, x8, x9, x10, x11, x12, _⟩ :=
    Inv_bound_sent inv hT
  exact ⟨e, r, bi, rbi, ne, nr, x1, x2, x3, x4, x5, x6, x7, x8, x9, x10, x11, x12⟩

theorem traversal_spec {s : AVL} {ctx : List Frame} {T : PT} (inv : Inv s ctx T) :
    s.traversal = some T.keys := by
  by_cases hT : T = .nil
  · obtain ⟨e, r, hc, he, hr, hroot, hb, hrb, hsz, wf, hcut, hbind⟩ := inv
    subst hT
    have hctx : ctx = [] := wf.nonempty rfl
    subst hctx
    simp only [PT.ids_nil, List.length_nil, ctxIds, Nat.add_zero] at hsz
    simp [AVL.traversal, AVL.itBegin, AVL.itEnd, AVL.Empty, AVL.Size, hsz, he, collect]
  · obtain ⟨e, r, bi, rbi, ne, nr, he, hr, hb, hrb, e1, e2, hne0, r2, hnd2, hdep, hlen, hkeys⟩ :=
      Inv_bound inv hT
    have hids : (attachR (.node .nil e ne.key ne.data ne.height .nil)
        (attachL (.node .nil r nr.key nr.data nr.height .nil) T)).ids = [r] ++ T.ids ++ [e] := by
      rw [attachR_ids, attachL_ids]; simp
    have hhead : (T.ids ++ [e]).head? = some bi := by
      rw [minId_eq_head] at e1
      cases hi : T.ids with
      | nil => rw [hi] at e1; cases e1
      | cons a as => rw [hi] at e1; simpa using e1
    have hc0 := collect_spec r2 (by rw [hids]; exact hnd2) hdep T.ids T.keys [r]
      (s.heap.next + 1) hids hkeys (by omega)
    simp only [AVL.traversal, AVL.itBegin, AVL.itEnd, AVL.Empty, AVL.Size, hne0, he, hb,
      decide_False, Bool.false_eq_true, if_false]
    rw [hhead] at hc0
    exact hc0

theorem modify_some {h : Heap} {i : Nat} {n : Node} (f : Node → Node) (hc : h.cell i = some n) :
    h.modify (some i) f = some (h.write i (f n)) := by
  simp [Heap.modify, hc]

theorem write_cell_self (h : Heap) (i : Nat) (n : Node) : (h.write i n).cell i = some n := by
  simp

theorem heightOf_alive {h : Heap} {p : Option Nat}
    (hp : ∀ c, p = some c → ∃ nc, h.cell c = some nc) : ∃ v, heightOf h p = some v := by
  cases p with
  | none => exact ⟨0, rfl⟩
  | some c =>
    obtain ⟨nc, hc⟩ := hp c rfl
    exact ⟨nc.height, by simp [heightOf, hc]⟩

theorem Update_cell {h : Heap} {g : Nat} {ng : Node} (hg : h.cell g = some ng)
    (hl : ∀ c, ng.left = some c → ∃ nc, h.cell c = some nc)
    (hr : ∀ c, ng.right = some c → ∃ nc, h.cell c = some nc) :
    ∃ hv, Update h (some g) = some (h.write g { ng with height := hv }) := by
  obtain ⟨v1, e1⟩ := heightOf_alive hl
  obtain ⟨v2, e2⟩ := heightOf_alive hr
  exact ⟨max v1 v2 + 1, by
    simp only [Update, hg, e1, e2, Option.bind_eq_bind, Option.some_bind, Option.pure_def]⟩

theorem free_some {h : Heap} {x : Nat} {nx : Node} (hx : h.cell x = some nx) :
    h.free (some x) = some ⟨fun j => if j = x then none else h.cell j, h.next⟩ := by
  simp [Heap.free, hx]

theorem spliceChild_children {x : Nat} {kid : Option Nat} {n : Node} {c : Nat}
    (hc : (spliceChild x kid n).left = some c ∨ (spliceChild x kid n).right = some c) :
    kid = some c ∨ n.left = some c ∨ n.right = some c := by
  unfold spliceChild at hc
  split at hc
  · rcases hc with hc | hc
    · exact Or.inl hc
    · exact Or.inr (Or.inr hc)
  · rcases hc with hc | hc
    · exact Or.inr (Or.inl hc)
    · exact Or.inl hc

/-- The common tail of both branches of `AVL::EraseNode(Node*)`: relink the parent, update
its height, free the node. -/
theorem erase_tail {h : Heap} {x : Nat} {nx : Node} (kid ret : Option Nat)
    (hx : h.cell x = some nx)
    (hk : ∀ ki, kid = some ki → ∃ nk, h.cell ki = some nk)
    (hg : ∀ g, nx.parent = some g → g ≠ x ∧ ∃ ng, h.cell g = some ng ∧
      (∀ c, (ng.left = some c ∨ ng.right = some c) → ∃ nc, h.cell c = some nc)) :
    ∃ h1, ((match nx.parent with
        | none => some h
        | some _ => do
          let np ← h.read nx.parent
          if np.left = some x then h.modify nx.parent (fun m => { m with left := kid })
          else h.modify nx.parent (fun m => { m with right := kid })).bind fun h2 =>
        (Update h2 nx.parent).bind fun h3 => (h3.free (some x)).bind fun h4 => some (h4, ret))
        = some (h1, ret) ∧ h1.next = h.next ∧ h1.cell x = none ∧
      (∀ g ng, nx.parent = some g → h.cell g = some ng →
        ∃ hv, h1.cell g = some { spliceChild x kid ng with height := hv }) ∧
      (∀ j, j ≠ x → some j ≠ nx.parent → h1.cell j = h.cell j) := by
  cases hp : nx.parent with
  | none =>
    refine ⟨⟨fun j => if j = x then none else h.cell j, h.next⟩, ?_, rfl, by simp, ?_, ?_⟩
    · simp only [Update, free_some hx, Option.bind_eq_bind, Option.some_bind]
    · intro g ng e; cases e
    · intro j hj _; simp [hj]
  | some g =>
    obtain ⟨hgx, ng, hgc, hch⟩ := hg g hp
    have hxg : x ≠ g := fun e => hgx e.symm
    have hm1 : (if ng.left = some x then h.modify (some g) (fun m => { m with left := kid })
        else h.modify (some g) (fun m => { m with right := kid }))
        = some (h.write g (spliceChild x kid ng)) := by
      unfold spliceChild
      split
      · exact modify_some _ hgc
      · exact modify_some _ hgc
    have hc1 : (h.write g (spliceChild x kid ng)).cell g = some (spliceChild x kid ng) := by
      simp
    have halive : ∀ c, (spliceChild x kid ng).left = some c ∨ (spliceChild x kid ng).right = some c
        → ∃ nc, (h.write g (spliceChild x kid ng)).cell c = some nc := by
      intro c hc
      by_cases hcg : c = g
      · subst hcg; exact ⟨_, hc1⟩
      · rcases spliceChild_children hc with e | e | e
        · obtain ⟨nk, hnk⟩ := hk c e
          exact ⟨nk, by simp [hcg, hnk]⟩
        · obtain ⟨nc, hnc⟩ := hch c (Or.inl e)
          exact ⟨nc, by simp [hcg, hnc]⟩
        · obtain ⟨nc, hnc⟩ := hch c (Or.inr e)
          exact ⟨nc, by simp [hcg, hnc]⟩
    obtain ⟨hv, hu⟩ := Update_cell hc1 (fun c hc => halive c (Or.inl hc))
      (fun c hc => halive c (Or.inr hc))
    have hx2 : ((h.write g (spliceChild x kid ng)).write g
        { spliceChild x kid ng with height := hv }).cell x = some nx := by
      simp [hxg, hx]
    refine ⟨⟨fun j => if j = x then none else ((h.write g (spliceChild x kid ng)).write g
        { spliceChild x kid ng with height := hv }).cell j, h.next⟩, ?_, ?_, ?_, ?_, ?_⟩
    · simp only [Heap.read, hgc, hm1, hu, free_some hx2, Option.bind_eq_bind, Option.some_bind]
      rfl
    · rfl
    · simp
    · intro g1 ng1 e1 e2
      cases e1
      rw [hgc] at e2; cases e2
      exact ⟨hv, by simp [hgx]⟩
    · intro j hj hj1
      have : j ≠ g := fun e => hj1 (by rw [e])
      simp [hj, this]

theorem EraseNodeAt_leaf {h : Heap} {x : Nat} {nx : Node} (hx : h.cell x = some nx)
    (hl : nx.left = none) (hr : nx.right = none)
    (hg : ∀ g, nx.parent = some g → g ≠ x ∧ ∃ ng, h.cell g = some ng ∧
      (∀ c, (ng.left = some c ∨ ng.right = some c) → ∃ nc, h.cell c = some nc)) :
    ∃ h1, EraseNodeAt h (some x) = some (h1, nx.parent) ∧ h1.next = h.next ∧ h1.cell x = none ∧
      (∀ g ng, nx.parent = some g → h.cell g = some ng →
        ∃ hv, h1.cell g = some { spliceChild x none ng with height := hv }) ∧
      (∀ j, j ≠ x → some j ≠ nx.parent → h1.cell j = h.cell j) := by
  obtain ⟨h1, e1, r1⟩ := erase_tail none nx.parent hx (fun ki e => by cases e) hg
  refine ⟨h1, ?_, r1⟩
  simp only [EraseNodeAt, Heap.read, hx, hl, hr, Option.bind_eq_bind, Option.some_bind,
    Option.pure_def]
  exact e1

theorem EraseNodeAt_kid {h : Heap} {x ki : Nat} {nx nk : Node} (hx : h.cell x = some nx)
    (hkid : (nx.left = some ki ∧ nx.right = none) ∨ (nx.left = none ∧ nx.right = some ki))
    (hk : h.cell ki = some nk) (hkx : ki ≠ x)
    (hg : ∀ g, nx.parent = some g → g ≠ x ∧ g ≠ ki ∧ ∃ ng, h.cell g = some ng ∧
      (∀ c, (ng.left = some c ∨ ng.right = some c) → ∃ nc, h.cell c = some nc)) :
    ∃ h1, EraseNodeAt h (some x) = some (h1, some ki) ∧ h1.next = h.next ∧ h1.cell x = none ∧
      h1.cell ki = some { nk with parent := nx.parent } ∧
      (∀ g ng, nx.parent = some g → h.cell g = some ng →
        ∃ hv, h1.cell g = some { spliceChild x (some ki) ng with height := hv }) ∧
      (∀ j, j ≠ x → j ≠ ki → some j ≠ nx.parent → h1.cell j = h.cell j) := by
  have hx1 : (h.write ki { nk with parent := nx.parent }).cell x = some nx := by
    simp [Ne.symm hkx, hx]
  obtain ⟨h1, e1, n1, c1, c2, c3⟩ := erase_tail (h := h.write ki { nk with parent := nx.parent })
    (some ki) (some ki) hx1 (fun k1 e => by cases e; exact ⟨_, write_cell_self _ _ _⟩) (by
      intro g e
      obtain ⟨g1, g2, ng, g3, g4⟩ := hg g e
      refine ⟨g1, ng, by simp [g2, g3], ?_⟩
      intro c hc
      obtain ⟨nc, hnc⟩ := g4 c hc
      by_cases hck : c = ki
      · subst hck; exact ⟨_, write_cell_self _ _ _⟩
      · exact ⟨nc, by simp [hck, hnc]⟩)
  refine ⟨h1, ?_, n1, c1, ?_, ?_, ?_⟩
  · rcases hkid with ⟨e2, e3⟩ | ⟨e2, e3⟩
    · simp only [EraseNodeAt, Heap.read, hx, e2, e3, Option.bind_eq_bind, Option.some_bind,
        Option.pure_def, ne_eq, reduceCtorEq, not_false_eq_true, if_true, modify_some _ hk]
      exact e1
    · simp only [EraseNodeAt, Heap.read, hx, e2, e3, Option.bind_eq_bind, Option.some_bind,
        Option.pure_def, ne_eq, not_true_eq_false, if_false, modify_some _ hk]
      exact e1
  · have hkp : some ki ≠ nx.parent := by
      intro e
      exact (hg ki e.symm).2.1 rfl
    rw [c3 ki hkx hkp]; simp
  · intro g ng e2 e3
    obtain ⟨g1, g2, _⟩ := hg g e2
    exact c2 g ng e2 (by simp [g2, e3])
  · intro j h1 h2 h3
    rw [c3 j h1 h3]; simp [h2]

theorem Mid.pre_mid {h h1 : Heap} {par : Option Nat} {t t1 : PT} (p : Pre h par t)
    (m : Mid h h1 par t t1) : Pre h1 par t1 where
  repr := m.repr
  nodup := m.nodup
  par_out := by
    intro g e
    obtain ⟨hg, ng, hng⟩ := p.par_out g e
    obtain ⟨hv, hc⟩ := m.parent g ng e hng
    exact ⟨fun hm => hg (m.sub g hm), _, hc⟩
  fresh := by
    intro j hj
    rw [m.next] at hj
    have hn := p.fresh j hj
    rw [m.frame j ?_ ?_]
    · exact hn
    · intro hm
      obtain ⟨n, hc⟩ := Repr_alive p.repr j hm
      rw [hn] at hc; cases hc
    · intro e
      obtain ⟨_, n, hc⟩ := p.par_out j e.symm
      rw [hn] at hc; cases hc

theorem replaceChild_trans {a b c : Option Nat} {n : Node}
    (hs : n.left = a ∨ (n.right = a ∧ n.left ≠ b)) (hv : Nat) :
    replaceChild b c { replaceChild a b n with height := hv }
      = { replaceChild a c n with height := hv } := by
  rcases hs with e | ⟨e1, e2⟩
  · simp [replaceChild, e]
  · by_cases e3 : n.left = a
    · simp [replaceChild, e3]
    · simp [replaceChild, e1, e2, e3]

theorem Mid_balance_root {h hA : Heap} {par : Option Nat} {t tA : PT} (p : PreE h par t)
    (m : Mid h hA par t tA) (hne : tA ≠ .nil) :
    ∃ hB, Balance hA tA.root = some (hB, (pBal tA).root) ∧ Mid h hB par t (pBal tA) := by
  have preA := m.pre_mid p.pre
  obtain ⟨hB, e, n, s⟩ := Balance_spec preA
  refine ⟨hB, e, s.repr, ?_, ?_, by rw [n, m.next], by rw [pBal_ids]; exact m.nodup,
    by rw [pBal_ids]; exact m.sub⟩
  · intro j hj hp
    by_cases hlt : j < hA.next
    · rw [s.frame j (fun hm => hj (m.sub j hm)) hlt hp, m.frame j hj hp]
    · rw [s.fresh preA.fresh j (by rw [n]; omega)]
      rw [m.next] at hlt
      exact (p.pre.fresh j (by omega)).symm
  · intro g ng e1 e2
    obtain ⟨hv, hc⟩ := m.parent g ng e1 e2
    refine ⟨hv, ?_⟩
    rw [s.parent g _ e1 hc]
    congr 1
    apply replaceChild_trans
    rcases p.slot g ng e1 e2 with ⟨x1, _⟩ | ⟨x1, x2⟩
    · exact Or.inl x1
    · refine Or.inr ⟨x1, ?_⟩
      cases hr : tA.root with
      | none => cases tA with
        | nil => exact absurd rfl hne
        | node l x k d ht r => simp at hr
      | some b => exact x2 b (m.sub b (root_mem_ids hr))

theorem pBal_ne_nil {t : PT} (h : t ≠ .nil) : pBal t ≠ .nil := by
  intro e
  have := pBal_ids t
  rw [e] at this
  cases t with
  | nil => exact h rfl
  | node l x k d ht r => simp at this

theorem Mid_balance_left {h hA : Heap} {par : Option Nat} {t lc rc : PT} {b : Nat} {kb db : Int}
    {hb : Nat} (p : PreE h par t) (m : Mid h hA par t (.node lc b kb db hb rc)) :
    ∃ hB, Balance hA lc.root = some (hB, (pBal lc).root) ∧
      Mid h hB par t (.node (pBal lc) b kb db hb rc) := by
  have preA := m.pre_mid p.pre
  obtain ⟨hB, e, n, s⟩ := Balance_spec preA.left
  obtain ⟨s1, pre1⟩ := lift_left preA s (by rw [pBal_ids]; exact preA.left.nodup)
  refine ⟨hB, e, s1.repr, ?_, ?_, by rw [n, m.next], pre1.nodup, ?_⟩
  · intro j hj hp
    by_cases hlt : j < hA.next
    · rw [s1.frame j (fun hm => hj (m.sub j hm)) hlt hp, m.frame j hj hp]
    · rw [s1.fresh preA.fresh j (by rw [n]; omega)]
      rw [m.next] at hlt
      exact (p.pre.fresh j (by omega)).symm
  · intro g ng e1 e2
    obtain ⟨hv, hc⟩ := m.parent g ng e1 e2
    refine ⟨hv, ?_⟩
    have := s1.parent g _ e1 hc
    rw [PT.root_node, PT.root_node, replaceChild_self] at this
    rw [this]; rfl
  · intro j hj
    apply m.sub
    simp only [PT.ids_node, List.mem_append, List.mem_cons] at hj ⊢
    rw [pBal_ids] at hj
    exact hj

theorem Mid_balance_right {h hA : Heap} {par : Option Nat} {t lc rc : PT} {b : Nat}
    {kb db : Int} {hb : Nat} (p : PreE h par t) (m : Mid h hA par t (.node lc b kb db hb rc))
    (hne : rc ≠ .nil) :
    ∃ hB, Balance hA rc.root = some (hB, (pBal rc).root) ∧
      Mid h hB par t (.node lc b kb db hb (pBal rc)) := by
  have preA := m.pre_mid p.pre
  obtain ⟨hB, e, n, s⟩ := Balance_spec preA.right
  have hr : rc.root ≠ none := by
    cases rc with
    | nil => exact absurd rfl hne
    | node l x k d ht r => simp
  obtain ⟨s1, pre1⟩ := lift_right preA hr s (by rw [pBal_ids]; exact preA.right.nodup)
  refine ⟨hB, e, s1.repr, ?_, ?_, by rw [n, m.next], pre1.nodup, ?_⟩
  · intro j hj hp
    by_cases hlt : j < hA.next
    · rw [s1.frame j (fun hm => hj (m.sub j hm)) hlt hp, m.frame j hj hp]
    · rw [s1.fresh preA.fresh j (by rw [n]; omega)]
      rw [m.next] at hlt
      exact (p.pre.fresh j (by omega)).symm
  · intro g ng e1 e2
    obtain ⟨hv, hc⟩ := m.parent g ng e1 e2
    refine ⟨hv, ?_⟩
    have := s1.parent g _ e1 hc
    rw [PT.root_node, PT.root_node, replaceChild_self] at this
    rw [this]; rfl
  · intro j hj
    apply m.sub
    simp only [PT.ids_node, List.mem_append, List.mem_cons] at hj ⊢
    rw [pBal_ids] at hj
    exact hj

theorem pBal_pos (l r : PT) (x : Nat) (kx dx : Int) (hx : Nat) :
    pBal (.node l x kx dx hx r) = .node l x kx dx hx r ∨
      ∃ lc b kb db hb rc, pBal (.node l x kx dx hx r) = .node lc b kb db hb rc ∧
        ((lc.root = some x ∧ lc ≠ .nil) ∨ (rc.root = some x ∧ rc ≠ .nil)) := by
  simp only [pBal]
  split_ifs with h1 h2 h3 h4
  · cases r with
    | nil => left; rfl
    | node q b kb db hb rr =>
      cases q with
      | nil => right; exact ⟨_, _, _, _, _, _, rfl, Or.inl ⟨rfl, by simp⟩⟩
      | node ql c kc dc hc qr => right; exact ⟨_, _, _, _, _, _, rfl, Or.inl ⟨rfl, by simp⟩⟩
  · cases r with
    | nil => left; rfl
    | node q b kb db hb rr => right; exact ⟨_, _, _, _, _, _, rfl, Or.inl ⟨rfl, by simp⟩⟩
  · cases l with
    | nil => left; rfl
    | node ll b kb db hb q =>
      cases q with
      | nil => right; exact ⟨_, _, _, _, _, _, rfl, Or.inr ⟨rfl, by simp⟩⟩
      | node lq c kc dc hc lr => right; exact ⟨_, _, _, _, _, _, rfl, Or.inr ⟨rfl, by simp⟩⟩
  · cases l with
    | nil => left; rfl
    | node ll b kb db hb q => right; exact ⟨_, _, _, _, _, _, rfl, Or.inr ⟨rfl, by simp⟩⟩
  · left; rfl

theorem nodup_node {l r : PT} {x : Nat} {k d : Int} {ht : Nat}
    (h : (PT.node l x k d ht r).ids.Nodup) :
    l.ids.Nodup ∧ r.ids.Nodup ∧ x ∉ l.ids ∧ x ∉ r.ids ∧ ∀ j, j ∈ l.ids → j ∉ r.ids := by
  simp only [PT.ids_node, List.nodup_append, List.nodup_cons, List.mem_cons] at h
  obtain ⟨h1, ⟨h2, h3⟩, h4⟩ := h
  refine ⟨h1, h3, ?_, h2, ?_⟩
  · intro hm; exact h4 hm (List.mem_cons_self _ _)
  · intro j hj hm; exact h4 hj (List.mem_cons_of_mem _ hm)

theorem Pre.kids {h : Heap} {par : Option Nat} {l r : PT} {a : Nat} {ka da : Int} {ha : Nat}
    (pre : Pre h par (.node l a ka da ha r)) :
    ∃ na, h.cell a = some na ∧ na = ⟨l.root, r.root, par, ha, ka, da⟩ ∧
      ∀ c, (na.left = some c ∨ na.right = some c) → ∃ nc, h.cell c = some nc := by
  refine ⟨_, pre.repr.1, rfl, ?_⟩
  intro c hc
  rcases hc with hc | hc
  · exact Repr_alive pre.repr.2.1 c (root_mem_ids hc)
  · exact Repr_alive pre.repr.2.2 c (root_mem_ids hc)

theorem erase_at_right {h : Heap} {par : Option Nat} {r : PT} {x : Nat} {kx dx : Int} {hx : Nat}
    (pre : Pre h par (.node .nil x kx dx hx r))
    (hk : ∀ g ng, par = some g → h.cell g = some ng →
      ∀ c, (ng.left = some c ∨ ng.right = some c) → ∃ nc, h.cell c = some nc) :
    ∃ h1 ret, EraseNodeAt h (some x) = some (h1, ret) ∧ (r = .nil → ret = par) ∧
      (r ≠ .nil → ret = r.root) ∧ h1.next = h.next ∧ h1.cell x = none ∧ Repr h1 par r ∧
      (∀ g ng, par = some g → h.cell g = some ng →
        ∃ hv, h1.cell g = some { spliceChild x r.root ng with height := hv }) ∧
      (∀ j, j ∉ (PT.node .nil x kx dx hx r).ids → some j ≠ par → h1.cell j = h.cell j) := by
  have hcx := pre.repr.1
  have hnd := pre.nodup
  simp only [PT.ids_node, PT.ids_nil, List.nil_append, List.nodup_cons] at hnd
  cases r with
  | nil =>
    obtain ⟨h1, e1, n1, c1, c2, c3⟩ := EraseNodeAt_leaf hcx rfl rfl (by
      intro g e
      obtain ⟨g1, ng, g2⟩ := pre.par_out g e
      refine ⟨?_, ng, g2, hk g ng e g2⟩
      intro e0; apply g1; simp [e0])
    refine ⟨h1, _, e1, fun _ => rfl, fun hn => absurd rfl hn, n1, c1, trivial, ?_, ?_⟩
    · intro g ng e e2; exact c2 g ng e e2
    · intro j hj hp
      apply c3 j _ hp
      intro e0; apply hj; simp [e0]
  | node kl k kk dk hk0 kr =>
    have hrk := pre.repr.2.2
    have hck := hrk.1
    have hkx : k ≠ x := by
      intro e0; apply hnd.1; simp [e0]
    obtain ⟨h1, e1, n1, c1, ck, c2, c3⟩ := EraseNodeAt_kid hcx (Or.inr ⟨rfl, rfl⟩) hck hkx (by
      intro g e
      obtain ⟨g1, ng, g2⟩ := pre.par_out g e
      refine ⟨?_, ?_, ng, g2, hk g ng e g2⟩
      · intro e0; apply g1; simp [e0]
      · intro e0; apply g1; simp [e0])
    refine ⟨h1, _, e1, (fun hn => by cases hn), fun _ => rfl, n1, c1, ?_, ?_, ?_⟩
    · apply Repr_reparent hrk hnd.2
      · intro i n e0 e2
        simp only [PT.root_node, Option.some.injEq] at e0
        subst e0
        rw [hck] at e2; cases e2
        exact ck
      · intro j hj hp
        simp only [PT.root_node] at hp
        apply c3 j
        · intro e0; apply hnd.1; rw [← e0]; exact hj
        · intro e0; apply hp; rw [e0]
        · intro e0
          obtain ⟨g1, _⟩ := pre.par_out j e0.symm
          apply g1; simp only [PT.ids_node, PT.ids_nil, List.nil_append, List.mem_cons]
          exact Or.inr hj
    · intro g ng e e2; exact c2 g ng e e2
    · intro j hj hp
      apply c3 j _ _ hp
      · intro e0; apply hj; simp [e0]
      · intro e0; apply hj; simp [e0]

theorem erase_at_left {h : Heap} {par : Option Nat} {l : PT} {x : Nat} {kx dx : Int} {hx : Nat}
    (pre : Pre h par (.node l x kx dx hx .nil)) (hl : l ≠ .nil)
    (hk : ∀ g ng, par = some g → h.cell g = some ng →
      ∀ c, (ng.left = some c ∨ ng.right = some c) → ∃ nc, h.cell c = some nc) :
    ∃ h1, EraseNodeAt h (some x) = some (h1, l.root) ∧
      h1.next = h.next ∧ h1.cell x = none ∧ Repr h1 par l ∧
      (∀ g ng, par = some g → h.cell g = some ng →
        ∃ hv, h1.cell g = some { spliceChild x l.root ng with height := hv }) ∧
      (∀ j, j ∉ (PT.node l x kx dx hx .nil).ids → some j ≠ par → h1.cell j = h.cell j) := by
  have hcx := pre.repr.1
  obtain ⟨hnd1, _, hnd3, _, _⟩ := nodup_node pre.nodup
  cases l with
  | nil => exact absurd rfl hl
  | node kl k kk dk hk0 kr =>
    have hrk := pre.repr.2.1
    have hck := hrk.1
    have hkx : k ≠ x := by
      intro e0
      apply hnd3; simp [e0]
    obtain ⟨h1, e1, n1, c1, ck, c2, c3⟩ := EraseNodeAt_kid hcx (Or.inl ⟨rfl, rfl⟩) hck hkx (by
      intro g e
      obtain ⟨g1, ng, g2⟩ := pre.par_out g e
      refine ⟨?_, ?_, ng, g2, hk g ng e g2⟩
      · intro e0; apply g1; simp [e0]
      · intro e0; apply g1; simp [e0])
    refine ⟨h1, e1, n1, c1, ?_, ?_, ?_⟩
    · apply Repr_reparent hrk hnd1
      · intro i n e0 e2
        simp only [PT.root_node, Option.some.injEq] at e0
        subst e0
        rw [hck] at e2; cases e2
        exact ck
      · intro j hj hp
        simp only [PT.root_node] at hp
        apply c3 j
        · intro e0
          apply hnd3; rw [← e0]; exact hj
        · intro e0; apply hp; rw [e0]
        · intro e0
          obtain ⟨g1, _⟩ := pre.par_out j e0.symm
          apply g1
          rw [PT.ids_node]
          exact List.mem_append_left _ hj
    · intro g ng e e2; exact c2 g ng e e2
    · intro j hj hp
      apply c3 j _ _ hp
      · intro e0; apply hj; simp [e0]
      · intro e0; apply hj; simp [e0]

theorem SubSpec.of_local {h h1 : Heap} {par : Option Nat} {t t1 : PT} (pre : Pre h par t)
    (hn : h1.next = h.next) (hr : Repr h1 par t1) (hroot : t1.root = t.root)
    (hf : ∀ j, j ∉ t.ids → h1.cell j = h.cell j) (hs : ∀ j ∈ t1.ids, j ∈ t.ids) :
    SubSpec h h1 par t t1 where
  repr := hr
  frame := fun j hj _ _ => hf j hj
  parent := by
    intro g ng e1 e2
    rw [hroot, replaceChild_self, hf g (pre.par_out g e1).1, e2]
  next := by rw [hn]
  fresh := by
    intro _ j hj
    rw [hn] at hj
    rw [hf j ?_]
    · exact pre.fresh j hj
    · intro hm
      have := pre.lt j hm
      omega
  ids := fun j hj => Or.inl (hs j hj)

theorem del_left {h : Heap} {par : Option Nat} {mr ar : PT} {m a : Nat} {km dm ka da : Int}
    {hm ha : Nat} (pre : Pre h par (.node (.node .nil m km dm hm mr) a ka da ha ar)) :
    ∃ h1 hv ret, EraseNodeAt h (some m) = some (h1, ret) ∧ (mr = .nil → ret = some a) ∧
      (mr ≠ .nil → ret = mr.root) ∧ h1.next = h.next ∧
      SubSpec h h1 par (.node (.node .nil m km dm hm mr) a ka da ha ar)
        (.node mr a ka da hv ar) := by
  obtain ⟨na, hca, hna, hkids⟩ := pre.kids
  obtain ⟨n1, n2, n3, n4, n5⟩ := nodup_node pre.nodup
  obtain ⟨_, m2, _, m4, _⟩ := nodup_node n1
  have hma : m ≠ a := by
    intro e0; apply n3; simp [e0]
  obtain ⟨h1, ret, e1, r1, r2, nx, cx, rp, cp, fr⟩ := erase_at_right pre.left (by
    intro g ng e e2
    cases e
    rw [hca] at e2; cases e2
    exact hkids)
  obtain ⟨hv, hcv⟩ := cp a na rfl hca
  refine ⟨h1, hv, ret, e1, r1, r2, nx, ?_⟩
  refine SubSpec.of_local pre nx ?_ (show (PT.node mr a ka da hv ar).root = _ from rfl) ?_ ?_
  rotate_left
  · intro j hj
    apply fr j
    · intro hm; apply hj; rw [PT.ids_node]; exact List.mem_append_left _ hm
    · intro e0; cases e0; apply hj; simp
  · intro j hj
    simp only [PT.ids_node, PT.ids_nil, List.mem_append, List.mem_cons, List.nil_append] at hj ⊢
    tauto
  · refine ⟨?_, rp, ?_⟩
    · rw [hcv, hna]; simp [spliceChild]
    · apply Repr_congr _ pre.repr.2.2
      intro i hi
      apply fr i
      · intro hm; exact n5 i hm hi
      · intro e0; cases e0; exact n4 hi

theorem del_right {h : Heap} {par : Option Nat} {l mr : PT} {m a : Nat} {km dm ka da : Int}
    {hm ha : Nat} (pre : Pre h par (.node l a ka da ha (.node .nil m km dm hm mr))) :
    ∃ h1 hv ret, EraseNodeAt h (some m) = some (h1, ret) ∧ (mr = .nil → ret = some a) ∧
      (mr ≠ .nil → ret = mr.root) ∧ h1.next = h.next ∧
      SubSpec h h1 par (.node l a ka da ha (.node .nil m km dm hm mr))
        (.node l a ka da hv mr) := by
  obtain ⟨na, hca, hna, hkids⟩ := pre.kids
  obtain ⟨n1, n2, n3, n4, n5⟩ := nodup_node pre.nodup
  have hma : m ≠ a := by
    intro e0; apply n4; simp [e0]
  have hlm : l.root ≠ some m := by
    intro e0
    exact n5 m (root_mem_ids e0) (by simp)
  obtain ⟨h1, ret, e1, r1, r2, nx, cx, rp, cp, fr⟩ := erase_at_right pre.right (by
    intro g ng e e2
    cases e
    rw [hca] at e2; cases e2
    exact hkids)
  obtain ⟨hv, hcv⟩ := cp a na rfl hca
  refine ⟨h1, hv, ret, e1, r1, r2, nx, ?_⟩
  refine SubSpec.of_local pre nx ?_ (show (PT.node l a ka da hv mr).root = _ from rfl) ?_ ?_
  rotate_left
  · intro j hj
    apply fr j
    · intro hm; apply hj; rw [PT.ids_node]
      exact List.mem_append_right _ (List.mem_cons_of_mem _ hm)
    · intro e0; cases e0; apply hj; simp
  · intro j hj
    simp only [PT.ids_node, PT.ids_nil, List.mem_append, List.mem_cons, List.nil_append] at hj ⊢
    tauto
  · refine ⟨?_, ?_, rp⟩
    · rw [hcv, hna]; simp [spliceChild, hlm]
    · apply Repr_congr _ pre.repr.2.1
      intro i hi
      apply fr i
      · intro hm; exact n5 i hi hm
      · intro e0; cases e0; exact n3 hi

theorem splice_eq_replace {x : Nat} {kid : Option Nat} {ng : Node}
    (hs : ng.left = some x ∨ ng.right = some x) :
    spliceChild x kid ng = replaceChild (some x) kid ng := by
  unfold spliceChild replaceChild
  rcases hs with e | e
  · simp [e]
  · by_cases e2 : ng.left = some x
    · simp [e2]
    · simp [e, e2]

theorem Mid_erase_right {h : Heap} {par : Option Nat} {r : PT} {x : Nat} {kx dx : Int} {hx : Nat}
    (p : PreE h par (.node .nil x kx dx hx r)) (hr : r ≠ .nil) :
    ∃ h1, EraseNodeAt h (some x) = some (h1, r.root) ∧
      Mid h h1 par (.node .nil x kx dx hx r) r := by
  obtain ⟨h1, ret, e1, _, r2, nx, cx, rp, cp, fr⟩ := erase_at_right p.pre p.kids
  rw [r2 hr] at e1
  obtain ⟨_, n2, _, n4, _⟩ := nodup_node p.pre.nodup
  refine ⟨h1, e1, rp, fr, ?_, nx, n2, ?_⟩
  · intro g ng e2 e3
    obtain ⟨hv, hc⟩ := cp g ng e2 e3
    refine ⟨hv, ?_⟩
    rw [hc, splice_eq_replace]
    · rfl
    · rcases p.slot g ng e2 e3 with ⟨s1, _⟩ | ⟨s1, _⟩
      · exact Or.inl s1
      · exact Or.inr s1
  · intro j hj
    simp only [PT.ids_node, PT.ids_nil, List.mem_cons, List.nil_append]
    exact Or.inr hj

theorem Mid_erase_left {h : Heap} {par : Option Nat} {l : PT} {x : Nat} {kx dx : Int} {hx : Nat}
    (p : PreE h par (.node l x kx dx hx .nil)) (hl : l ≠ .nil) :
    ∃ h1, EraseNodeAt h (some x) = some (h1, l.root) ∧
      Mid h h1 par (.node l x kx dx hx .nil) l := by
  obtain ⟨h1, e1, nx, cx, rp, cp, fr⟩ := erase_at_left p.pre hl p.kids
  obtain ⟨n1, _, _, _, _⟩ := nodup_node p.pre.nodup
  refine ⟨h1, e1, rp, fr, ?_, nx, n1, ?_⟩
  · intro g ng e2 e3
    obtain ⟨hv, hc⟩ := cp g ng e2 e3
    refine ⟨hv, ?_⟩
    rw [hc, splice_eq_replace]
    · rfl
    · rcases p.slot g ng e2 e3 with ⟨s1, _⟩ | ⟨s1, _⟩
      · exact Or.inl s1
      · exact Or.inr s1
  · intro j hj
    rw [PT.ids_node]
    exact List.mem_append_left _ hj

theorem plugL_ids : ∀ (fs : List Frame) (v : PT), (plugL fs v).ids = v.ids ++ ctxIds fs
  | [], v => by simp [plugL, ctxIds]
  | f :: fs, v => by
    simp only [plugL, ctxIds]
    rw [plugL_ids fs]
    simp

theorem plugL_keys : ∀ (fs : List Frame) (v : PT), (plugL fs v).keys = v.keys ++ spineKeys fs
  | [], v => by simp [plugL, spineKeys]
  | f :: fs, v => by
    simp only [plugL, spineKeys]
    rw [plugL_keys fs]
    simp

theorem plugL_root : ∀ (fs : List Frame) (v v1 : PT), v.root = v1.root →
    (plugL fs v).root = (plugL fs v1).root
  | [], _, _, e => e
  | _ :: fs, _, _, _ => plugL_root fs _ _ rfl

theorem plugL_root_mem : ∀ (fs : List Frame) (f : Frame) (v : PT) (j : Nat),
    (plugL (f :: fs) v).root = some j → j ∈ ctxIds (f :: fs)
  | [], f, v, j, e => by
    simp only [plugL, PT.root_node, Option.some.injEq] at e
    simp [ctxIds, e]
  | g :: fs, f, v, j, e => by
    have := plugL_root_mem fs g _ j e
    rw [ctxIds]
    exact List.mem_append_right _ this

theorem plugL_ne_nil : ∀ (fs : List Frame) (v : PT), v ≠ .nil → plugL fs v ≠ .nil
  | [], _, e => e
  | _ :: fs, _, _ => plugL_ne_nil fs _ (by simp)

theorem plugL_append : ∀ (fs : List Frame) (f : Frame) (v : PT),
    plugL (fs ++ [f]) v = .node (plugL fs v) f.id f.key f.data f.ht f.sib
  | [], _, _ => rfl
  | _ :: fs, f, _ => plugL_append fs f _

theorem spine_decomp : ∀ (r : PT), r ≠ .nil →
    ∃ fs m km dm hm mr, r = plugL fs (.node .nil m km dm hm mr) := by
  intro r
  induction r with
  | nil => intro hn; exact absurd rfl hn
  | node l b kb db hb rr ihl _ =>
    intro _
    cases l with
    | nil => exact ⟨[], b, kb, db, hb, rr, rfl⟩
    | node ll c kc dc hc lr =>
      obtain ⟨fs, m, km, dm, hm, mr, e⟩ := ihl (by simp)
      refine ⟨fs ++ [⟨true, b, kb, db, hb, rr⟩], m, km, dm, hm, mr, ?_⟩
      rw [plugL_append, ← e]

theorem Pre_unplug {h : Heap} {top : Option Nat} : ∀ (fs : List Frame) (v : PT),
    Pre h top (plugL fs v) → Pre h (spinePar top fs) v
  | [], _, p => p
  | _ :: fs, _, p => (Pre_unplug fs _ p).left

theorem lift_plug {h h1 : Heap} {top : Option Nat} : ∀ (fs : List Frame) (v v1 : PT),
    Pre h top (plugL fs v) → SubSpec h h1 (spinePar top fs) v v1 → v1.ids.Nodup →
    SubSpec h h1 top (plugL fs v) (plugL fs v1) ∧ Pre h1 top (plugL fs v1)
  | [], _, _, p, s, hnd => ⟨s, s.pre_after p hnd⟩
  | f :: fs, v, v1, p, s, hnd => by
    have p1 := Pre_unplug fs _ p
    obtain ⟨s2, p2⟩ := lift_left p1 s hnd
    exact lift_plug fs _ _ p s2 p2.nodup

theorem loop_spec {x : Nat} {nx : Node} : ∀ (fs : List Frame) (v : PT) (h : Heap)
    (prev : Option Nat) (c fuel : Nat),
    Pre h (some x) (plugL fs v) → h.cell x = some nx → nx.right = (plugL fs v).root →
    (∀ j ∈ (plugL fs v).ids, nx.left ≠ some j) → v.root = some c →
    prev ≠ (plugL fs v).root → fs.length + 2 ≤ fuel →
    ∃ h1 R1, twoSonsLoop fuel h (some x) prev (some c) = some (h1, some x) ∧
      SubSpec h h1 (some x) (plugL fs v) R1 ∧ R1.ids = (plugL fs v).ids ∧
      R1.keys = (plugL fs v).keys ∧ h1.next = h.next := by
  intro fs
  induction fs with
  | nil =>
    intro v h prev c fuel pre hcx hright hleft hroot hprev hfuel
    simp only [plugL] at pre hright hleft hprev ⊢
    obtain ⟨hB, eB, nB, sB⟩ := Balance_spec pre
    obtain ⟨f1, rfl⟩ : ∃ f1, fuel = f1 + 2 := ⟨fuel - 2, by simp at hfuel; omega⟩
    have hne : v ≠ .nil := by
      intro e0; rw [e0] at hroot; cases hroot
    have hne1 := pBal_ne_nil hne
    cases hb : pBal v with
    | nil => exact absurd hb hne1
    | node bl c1 kc dc hc br =>
      have hrB := sB.repr
      rw [hb] at hrB eB
      have hc1 := hrB.1
      have hxB := sB.parent x nx rfl hcx
      rw [hb, hroot] at hxB
      have hl1 : nx.left ≠ some c := hleft c (root_mem_ids hroot)
      have hr1 : nx.right = some c := by rw [hright, hroot]
      rw [hroot] at eB hprev
      refine ⟨hB, pBal v, ?_, sB, pBal_ids v, pBal_keys v, nB⟩
      simp only [twoSonsLoop, Heap.read, hcx, hr1, eB, hc1, hxB, replaceChild, hl1, PT.root_node,
        Option.bind_eq_bind, Option.some_bind, Option.pure_def, ne_eq, hprev, not_false_eq_true,
        if_true, if_false, not_true_eq_false]
  | cons f rest ih =>
    intro v h prev c fuel pre hcx hright hleft hroot hprev hfuel
    have pre0 := Pre_unplug (f :: rest) v pre
    obtain ⟨hB, eB, nB, sB⟩ := Balance_spec pre0
    obtain ⟨f1, rfl⟩ : ∃ f1, fuel = f1 + 1 := ⟨fuel - 1, by simp at hfuel; omega⟩
    have hne : v ≠ .nil := by
      intro e0; rw [e0] at hroot; cases hroot
    have hne1 := pBal_ne_nil hne
    have hndv : (pBal v).ids.Nodup := by rw [pBal_ids]; exact pre0.nodup
    obtain ⟨sL, pL⟩ := lift_plug (f :: rest) v (pBal v) pre sB hndv
    have hrt : (plugL (f :: rest) (pBal v)).root = (plugL (f :: rest) v).root :=
      plugL_root rest _ _ rfl
    have hids : (plugL (f :: rest) (pBal v)).ids = (plugL (f :: rest) v).ids := by
      rw [plugL_ids, plugL_ids, pBal_ids]
    have hkeys : (plugL (f :: rest) (pBal v)).keys = (plugL (f :: rest) v).keys := by
      rw [plugL_keys, plugL_keys, pBal_keys]
    cases hb : pBal v with
    | nil => exact absurd hb hne1
    | node bl c1 kc dc hc br =>
      have hrB := sB.repr
      rw [hb] at hrB eB
      have hc1 := hrB.1
      have hxB := sL.parent x nx rfl hcx
      rw [hrt, replaceChild_self] at hxB
      rw [hroot] at eB
      have hc1m : c1 ∈ v.ids := by
        rw [← pBal_ids, hb]; simp
      have hprev1 : some c1 ≠ (plugL (f :: rest) (pBal v)).root := by
        intro e0
        have hm := plugL_root_mem rest f _ c1 e0.symm
        have hnd := pre.nodup
        rw [plugL_ids, List.nodup_append] at hnd
        exact hnd.2.2 hc1m hm
      obtain ⟨h1, R1, e1, s1, i1, k1, n1⟩ := ih (.node (pBal v) f.id f.key f.data f.ht f.sib)
        hB (some c1) f.id f1 pL hxB (by rw [hright]; exact hrt.symm)
        (by intro j hj; apply hleft; rw [← hids]; exact hj) rfl hprev1
        (by simp at hfuel ⊢; omega)
      refine ⟨h1, R1, ?_, sL.trans s1 hrt, i1.trans hids, k1.trans hkeys, by rw [n1, nB]⟩
      rw [← e1]
      simp only [twoSonsLoop, Heap.read, hcx, eB, hc1, PT.root_node, spinePar,
        Option.bind_eq_bind, Option.some_bind, Option.pure_def, ne_eq, hright ▸ hprev,
        not_false_eq_true, if_true]

theorem set_key_spec {h : Heap} {par : Option Nat} {l r : PT} {x : Nat} {kx dx : Int}
    {hx : Nat} (km dm : Int) (pre : Pre h par (.node l x kx dx hx r)) :
    SubSpec h (h.write x ⟨l.root, r.root, par, hx, km, dm⟩) par (.node l x kx dx hx r)
      (.node l x km dm hx r) := by
  obtain ⟨n1, n2, n3, n4, n5⟩ := nodup_node pre.nodup
  refine SubSpec.of_local pre rfl ?_ rfl ?_ (fun j hj => hj)
  · refine ⟨by simp, ?_, ?_⟩
    · apply Repr_congr _ pre.repr.2.1
      intro i hi
      have : i ≠ x := by intro e0; rw [e0] at hi; exact n3 hi
      simp [this]
    · apply Repr_congr _ pre.repr.2.2
      intro i hi
      have : i ≠ x := by intro e0; rw [e0] at hi; exact n4 hi
      simp [this]
  · intro j hj
    have : j ≠ x := by intro e0; apply hj; simp [e0]
    simp [this]

theorem SubSpec.next_eq {h h1 : Heap} {par : Option Nat} {t t1 : PT} (s : SubSpec h h1 par t t1)
    (hn : h1.next = h.next) (pre : Pre h par t) :
    ∀ j, j ∉ t.ids → some j ≠ par → h1.cell j = h.cell j := by
  intro j hj hp
  by_cases hlt : j < h.next
  · exact s.frame j hj hlt hp
  · rw [s.fresh pre.fresh j (by omega), pre.fresh j (by omega)]

theorem TwoSonsCase_eq {h h3 : Heap} {x m : Nat} {nx nm : Node} {ret : Option Nat}
    (hcx : h.cell x = some nx) (hlm : leftmost (h.next + 1) h nx.right = some (some m))
    (hcm : h.cell m = some nm) (hmx : m ≠ x)
    (e : EraseNodeAt (h.write x { nx with key := nm.key, data := nm.data }) (some m)
      = some (h3, ret)) :
    TwoSonsCase h (some x) =
      if ret ≠ some x then twoSonsLoop (h.next + 1) h3 (some x) ret ret else some (h3, ret) := by
  have hw : (h.write x { nx with key := nm.key }).write x
      { nx with key := nm.key, data := nm.data }
      = h.write x { nx with key := nm.key, data := nm.data } := by
    apply Heap.ext_cells
    · intro j; by_cases hj : j = x <;> simp [hj]
    · rfl
  simp only [TwoSonsCase, Heap.read, hcx, hlm, hcm, Heap.modify, write_cell, hmx, if_false,
    if_true, Option.bind_eq_bind, Option.some_bind, Option.pure_def, hw, e]

theorem ctxIds_length_ge : ∀ (fs : List Frame), fs.length ≤ (ctxIds fs).length
  | [] => Nat.le_refl _
  | f :: fs => by
    have := ctxIds_length_ge fs
    simp only [ctxIds, List.length_cons, List.length_append]
    omega

theorem TwoSonsCase_spec {h : Heap} {par : Option Nat} {l r : PT} {x : Nat} {kx dx : Int}
    {hx : Nat} (pre : Pre h par (.node l x kx dx hx r)) (hr : r ≠ .nil) :
    ∃ h1 r1 km dm hv ret m, TwoSonsCase h (some x) = some (h1, ret) ∧ h1.next = h.next ∧
      SubSpec h h1 par (.node l x kx dx hx r) (.node l x km dm hv r1) ∧
      r.ids = m :: r1.ids ∧ r.keys = km :: r1.keys ∧
      (ret = some x ∨ (ret = r1.root ∧ r1 ≠ .nil)) := by
  obtain ⟨fs, m, km, dm, hm, mr, rfl⟩ := spine_decomp r hr
  have hcx := pre.repr.1
  obtain ⟨n1, n2, n3, n4, n5⟩ := nodup_node pre.nodup
  have hmin : (plugL fs (.node .nil m km dm hm mr)).minId = some m := by
    rw [minId_eq_head, plugL_ids]; simp
  have hmr : m ∈ (plugL fs (.node .nil m km dm hm mr)).ids := by
    rw [plugL_ids]; simp
  have hmx : m ≠ x := by
    intro e0; apply n4; rw [← e0]; exact hmr
  have hlen : l.ids.length + 1 + (plugL fs (.node .nil m km dm hm mr)).ids.length ≤ h.next := by
    have := length_le_of_nodup_lt pre.nodup pre.lt
    simp only [PT.ids_node, List.length_append, List.length_cons] at this
    omega
  have hlm : leftmost (h.next + 1) h (plugL fs (.node .nil m km dm hm mr)).root
      = some (some m) := by
    rw [← hmin]
    apply leftmost_spec _ _ _ _ hr pre.repr.2.2
    have := depth_le_length (plugL fs (.node .nil m km dm hm mr))
    omega
  have pre0 := Pre_unplug fs _ pre.right
  have hcm := pre0.repr.1
  have s2 := set_key_spec km dm pre
  have pre2 := s2.pre_after pre (by simpa using pre.nodup)
  have hlroot : ∀ j ∈ (plugL fs (.node .nil m km dm hm mr)).ids, l.root ≠ some j := by
    intro j hj e0
    exact n5 j (root_mem_ids e0) hj
  have hrne : (plugL fs (.node .nil m km dm hm mr)).root ≠ none := by
    intro e0
    have := plugL_ne_nil fs (.node .nil m km dm hm mr) (by simp)
    cases hp : plugL fs (.node .nil m km dm hm mr) with
    | nil => exact this hp
    | node a b c d e f => rw [hp] at e0; simp at e0
  cases fs with
  | nil =>
    simp only [plugL] at pre2 hlm s2 hlen ⊢
    obtain ⟨h3, hv, ret, e1, r1, r2, nx3, s3⟩ := del_right pre2
    have eq := TwoSonsCase_eq hcx hlm hcm hmx e1
    cases mr with
    | nil =>
      rw [r1 rfl] at eq
      refine ⟨h3, .nil, km, dm, hv, some x, m, ?_, nx3, s2.trans s3 rfl, by simp, by simp,
        Or.inl rfl⟩
      rw [eq]; simp
    | node kl k kk dk hk kr =>
      have e2 := r2 (by simp)
      simp only [PT.root_node] at e2
      have hkx : k ≠ x := by
        intro e0; apply n4; rw [← e0]; simp [plugL]
      have hx3 := s3.repr.1
      refine ⟨h3, _, km, dm, hv, some k, m, ?_, nx3, s2.trans s3 rfl, by simp, by simp,
        Or.inr ⟨rfl, by simp⟩⟩
      rw [eq, e2]
      simp only [twoSonsLoop, Heap.read, hx3, PT.root_node, Option.bind_eq_bind,
        Option.some_bind, Option.pure_def, ne_eq, Option.some.injEq, hkx, not_false_eq_true,
        if_true, not_true_eq_false, if_false]
  | cons f rest =>
    have hidsR : (plugL (f :: rest) (.node .nil m km dm hm mr)).ids
        = m :: (mr.ids ++ (f.id :: f.sib.ids) ++ ctxIds rest) := by
      simp [plugL_ids, ctxIds]
    have hkeysR : (plugL (f :: rest) (.node .nil m km dm hm mr)).keys
        = km :: (mr.keys ++ (f.key :: f.sib.keys) ++ spineKeys rest) := by
      simp [plugL_keys, spineKeys]
    have hndR := n2
    rw [hidsR, List.nodup_cons] at hndR
    have hlen2 : rest.length + 3 ≤ h.next := by
      rw [hidsR] at hlen
      have := ctxIds_length_ge rest
      simp only [List.length_cons, List.length_append] at hlen
      omega
    have pre2R := pre2.right
    have preU := Pre_unplug rest _ pre2R
    obtain ⟨h3, hv, ret, e1, r1, r2, nx3, sU⟩ := del_left preU
    have hndU : (PT.node mr f.id f.key f.data hv f.sib).ids.Nodup := by
      have := preU.nodup
      simp only [PT.ids_node, PT.ids_nil, List.nil_append, List.cons_append,
        List.nodup_cons] at this ⊢
      exact this.2
    obtain ⟨sR, pR⟩ := lift_plug rest _ _ pre2R sU hndU
    have hrt : (plugL rest (.node mr f.id f.key f.data hv f.sib)).root
        = (plugL (f :: rest) (.node .nil m km dm hm mr)).root := plugL_root rest _ _ rfl
    have hids1 : (plugL rest (.node mr f.id f.key f.data hv f.sib)).ids
        = mr.ids ++ (f.id :: f.sib.ids) ++ ctxIds rest := by
      simp [plugL_ids]
    have hkeys1 : (plugL rest (.node mr f.id f.key f.data hv f.sib)).keys
        = mr.keys ++ (f.key :: f.sib.keys) ++ spineKeys rest := by
      simp [plugL_keys]
    have hx2 : (h.write x ⟨l.root, (plugL (f :: rest) (.node .nil m km dm hm mr)).root, par, hx,
        km, dm⟩).cell x = some ⟨l.root, (plugL (f :: rest) (.node .nil m km dm hm mr)).root,
          par, hx, km, dm⟩ := by simp
    have hx3 := sR.parent x _ rfl hx2
    rw [show (plugL rest (.node (.node .nil m km dm hm mr) f.id f.key f.data f.ht f.sib)).root
      = (plugL rest (.node mr f.id f.key f.data hv f.sib)).root from plugL_root rest _ _ rfl,
      replaceChild_self] at hx3
    have hleft1 : ∀ j ∈ (plugL rest (.node mr f.id f.key f.data hv f.sib)).ids,
        l.root ≠ some j := by
      intro j hj
      apply hlroot
      rw [hidsR]; rw [hids1] at hj
      exact List.mem_cons_of_mem _ hj
    have eq := TwoSonsCase_eq hcx hlm hcm hmx e1
    have hfx : f.id ≠ x := by
      intro e0; apply n4; rw [hidsR, ← e0]; simp
    have fin : ∀ (h4 : Heap) (R1 : PT) (ret1 : Option Nat), h4.next = h3.next →
        SubSpec h3 h4 (some x) (plugL rest (.node mr f.id f.key f.data hv f.sib)) R1 →
        R1.ids = (plugL rest (.node mr f.id f.key f.data hv f.sib)).ids →
        R1.keys = (plugL rest (.node mr f.id f.key f.data hv f.sib)).keys →
        TwoSonsCase h (some x) = some (h4, ret1) →
        (ret1 = some x ∨ (ret1 = R1.root ∧ R1 ≠ .nil)) →
        ∃ h1 r1 km1 dm1 hv ret m1, TwoSonsCase h (some x) = some (h1, ret) ∧ h1.next = h.next ∧
          SubSpec h h1 par (.node l x kx dx hx (plugL (f :: rest) (.node .nil m km dm hm mr)))
            (.node l x km1 dm1 hv r1) ∧
          (plugL (f :: rest) (.node .nil m km dm hm mr)).ids = m1 :: r1.ids ∧
          (plugL (f :: rest) (.node .nil m km dm hm mr)).keys = km1 :: r1.keys ∧
          (ret = some x ∨ (ret = r1.root ∧ r1 ≠ .nil)) := by
      intro h4 R1 ret1 n4 s4 i4 k4 e4 hret
      have sT := sR.trans s4 (plugL_root rest _ _ rfl)
      have hnd1 : R1.ids.Nodup := by rw [i4]; exact pR.nodup
      obtain ⟨sX, _⟩ := lift_right pre2 hrne sT hnd1
      refine ⟨h4, R1, km, dm, hx, ret1, m, e4, by rw [n4, nx3]; rfl, s2.trans sX rfl, ?_, ?_,
        hret⟩
      · rw [hidsR, i4, hids1]
      · rw [hkeysR, k4, hkeys1]
    cases mr with
    | nil =>
      rw [r1 rfl] at eq
      cases rest with
      | nil =>
        simp only [plugL] at hx3 sR pR fin
        apply fin h3 _ (some f.id) rfl (SubSpec.refl pR.repr) rfl rfl _ (Or.inr ⟨rfl, by simp⟩)
        rw [eq]
        simp only [twoSonsLoop, Heap.read, hx3, plugL, PT.root_node, Option.bind_eq_bind,
          Option.some_bind, Option.pure_def, ne_eq, Option.some.injEq, hfx, not_false_eq_true,
          if_true, not_true_eq_false, if_false]
      | cons g rest2 =>
        have hprev : some f.id ≠ (plugL (g :: rest2) (.node .nil f.id f.key f.data hv f.sib)).root := by
          intro e0
          have hm1 := plugL_root_mem rest2 g _ f.id e0.symm
          have hnd := pR.nodup
          rw [plugL_ids, List.nodup_append] at hnd
          exact hnd.2.2 (by simp) hm1
        obtain ⟨h4, R1, e4, s4, i4, k4, n4⟩ := loop_spec (g :: rest2) _ h3 (some f.id) f.id
          (h.next + 1) pR hx3 hrt.symm hleft1 rfl hprev (by simp at hlen2 ⊢; omega)
        apply fin h4 R1 (some x) n4 s4 i4 k4 _ (Or.inl rfl)
        rw [eq, ← e4]
        simp [hfx]
    | node kl k kk dk hk kr =>
      have e2 := r2 (by simp)
      simp only [PT.root_node] at e2
      rw [e2] at eq
      have hkx : k ≠ x := by
        intro e0; apply n4; rw [hidsR, ← e0]; simp
      have hprev : some k ≠ (plugL (⟨f.isLeft, f.id, f.key, f.data, hv, f.sib⟩ :: rest)
          (.node kl k kk dk hk kr)).root := by
        intro e0
        have hm1 := plugL_root_mem rest _ _ k e0.symm
        have hnd := pR.nodup
        rw [hids1, List.append_assoc, List.nodup_append] at hnd
        have hk1 : k ∈ (PT.node kl k kk dk hk kr).ids := by simp
        exact hnd.2.2 hk1 (by simpa [ctxIds] using hm1)
      obtain ⟨h4, R1, e4, s4, i4, k4, n4⟩ := loop_spec
        (⟨f.isLeft, f.id, f.key, f.data, hv, f.sib⟩ :: rest) (.node kl k kk dk hk kr) h3 (some k) k
        (h.next + 1) pR hx3 hrt.symm hleft1 rfl hprev (by simp at hlen2 ⊢; omega)
      apply fin h4 R1 (some x) n4 s4 i4 k4 _ (Or.inl rfl)
      rw [eq, ← e4]
      simp [hkx]

theorem nodup_node_mk {l r : PT} {x : Nat} {k d : Int} {ht : Nat} (h1 : l.ids.Nodup)
    (h2 : r.ids.Nodup) (h3 : x ∉ l.ids) (h4 : x ∉ r.ids) (h5 : ∀ j, j ∈ l.ids → j ∉ r.ids) :
    (PT.node l x k d ht r).ids.Nodup := by
  rw [PT.ids_node, List.nodup_append]
  refine ⟨h1, List.nodup_cons.2 ⟨h4, h2⟩, ?_⟩
  intro a ha hb
  rcases List.mem_cons.1 hb with hb | hb
  · rw [hb] at ha; exact h3 ha
  · exact h5 a ha hb

theorem Mid.of_SubSpec {h h1 : Heap} {par : Option Nat} {t t1 : PT} (pre : Pre h par t)
    (s : SubSpec h h1 par t t1) (hn : h1.next = h.next) (hnd : t1.ids.Nodup) :
    Mid h h1 par t t1 where
  repr := s.repr
  frame := s.next_eq hn pre
  parent := by
    intro g ng e1 e2
    exact ⟨(replaceChild t.root t1.root ng).height, by rw [s.parent g ng e1 e2]⟩
  next := hn
  nodup := hnd
  sub := by
    intro j hj
    rcases s.ids j hj with h0 | h0
    · exact h0
    · omega

theorem Mid_lift_left {h h1 : Heap} {par : Option Nat} {l l1 r : PT} {x : Nat} {kx dx : Int}
    {hx : Nat} (pre : Pre h par (.node l x kx dx hx r)) (m : Mid h h1 (some x) l l1) :
    ∃ hv, Mid h h1 par (.node l x kx dx hx r) (.node l1 x kx dx hv r) := by
  obtain ⟨n1, n2, n3, n4, n5⟩ := nodup_node pre.nodup
  obtain ⟨hv, hc⟩ := m.parent x _ rfl pre.repr.1
  refine ⟨hv, ?_, ?_, ?_, m.next, ?_, ?_⟩
  · refine ⟨?_, m.repr, ?_⟩
    · rw [hc]; simp [replaceChild]
    · apply Repr_congr _ pre.repr.2.2
      intro i hi
      apply m.frame i (fun hm => n5 i hm hi)
      intro e0; cases e0; exact n4 hi
  · intro j hj hp
    apply m.frame j
    · intro hm; apply hj; rw [PT.ids_node]; exact List.mem_append_left _ hm
    · intro e0; cases e0; apply hj; simp
  · intro g ng e1 e2
    refine ⟨ng.height, ?_⟩
    have hg := (pre.par_out g e1).1
    rw [PT.root_node, PT.root_node, replaceChild_self, m.frame g ?_ ?_, e2]
    · intro hm; apply hg; rw [PT.ids_node]; exact List.mem_append_left _ hm
    · intro e0; cases e0; apply hg; simp
  · exact nodup_node_mk m.nodup n2 (fun hm => n3 (m.sub x hm)) n4
      (fun j hj => n5 j (m.sub j hj))
  · intro j hj
    simp only [PT.ids_node, List.mem_append, List.mem_cons] at hj ⊢
    rcases hj with hj | hj
    · exact Or.inl (m.sub j hj)
    · exact Or.inr hj

theorem Mid_lift_right {h h1 : Heap} {par : Option Nat} {l r r1 : PT} {x : Nat} {kx dx : Int}
    {hx : Nat} (pre : Pre h par (.node l x kx dx hx r)) (hr : r ≠ .nil)
    (m : Mid h h1 (some x) r r1) :
    ∃ hv, Mid h h1 par (.node l x kx dx hx r) (.node l x kx dx hv r1) := by
  obtain ⟨n1, n2, n3, n4, n5⟩ := nodup_node pre.nodup
  obtain ⟨hv, hc⟩ := m.parent x _ rfl pre.repr.1
  have hlr : l.root ≠ r.root := by
    cases r with
    | nil => exact absurd rfl hr
    | node a b c d e f =>
      intro e0
      exact n5 b (root_mem_ids e0) (by simp)
  refine ⟨hv, ?_, ?_, ?_, m.next, ?_, ?_⟩
  · refine ⟨?_, ?_, m.repr⟩
    · rw [hc]; simp [replaceChild, hlr]
    · apply Repr_congr _ pre.repr.2.1
      intro i hi
      apply m.frame i (fun hm => n5 i hi hm)
      intro e0; cases e0; exact n3 hi
  · intro j hj hp
    apply m.frame j
    · intro hm; apply hj; rw [PT.ids_node]
      exact List.mem_append_right _ (List.mem_cons_of_mem _ hm)
    · intro e0; cases e0; apply hj; simp
  · intro g ng e1 e2
    refine ⟨ng.height, ?_⟩
    have hg := (pre.par_out g e1).1
    rw [PT.root_node, PT.root_node, replaceChild_self, m.frame g ?_ ?_, e2]
    · intro hm; apply hg; rw [PT.ids_node]
      exact List.mem_append_right _ (List.mem_cons_of_mem _ hm)
    · intro e0; cases e0; apply hg; simp
  · exact nodup_node_mk n1 m.nodup n3 (fun hm => n4 (m.sub x hm))
      (fun j hj hm => n5 j hj (m.sub j hm))
  · intro j hj
    simp only [PT.ids_node, List.mem_append, List.mem_cons] at hj ⊢
    rcases hj with hj | hj | hj
    · exact Or.inl hj
    · exact Or.inr (Or.inl hj)
    · exact Or.inr (Or.inr (m.sub j hj))

theorem Mid_balance_at {h hB : Heap} {par : Option Nat} {t l1 r1 : PT} {x : Nat} {kx dx : Int}
    {hx : Nat} (p : PreE h par t) (m : Mid h hB par t (pBal (.node l1 x kx dx hx r1))) :
    ∃ hC t1 ret, Balance hB (some x) = some (hC, ret) ∧ Mid h hC par t t1 ∧
      t1.ids = (PT.node l1 x kx dx hx r1).ids ∧ t1.keys = (PT.node l1 x kx dx hx r1).keys ∧
      RetOK t1 ret := by
  rcases pBal_pos l1 r1 x kx dx hx with e | ⟨lc, b, kb, db, hb, rc, e, hpos⟩
  · rw [e] at m
    obtain ⟨hC, eC, mC⟩ := Mid_balance_root p m (by simp)
    rw [e] at mC eC
    exact ⟨hC, _, _, eC, mC, rfl, rfl, Or.inl rfl⟩
  · have hi := pBal_ids (.node l1 x kx dx hx r1)
    have hk := pBal_keys (.node l1 x kx dx hx r1)
    rw [e] at m hi hk
    rcases hpos with ⟨e1, e2⟩ | ⟨e1, e2⟩
    · obtain ⟨hC, eC, mC⟩ := Mid_balance_left p m
      rw [e1] at eC
      refine ⟨hC, _, _, eC, mC, ?_, ?_, Or.inr ⟨_, _, _, _, _, _, rfl,
        Or.inl ⟨rfl, pBal_ne_nil e2⟩⟩⟩
      · rw [← hi]; simp [pBal_ids]
      · rw [← hk]; simp [pBal_keys]
    · obtain ⟨hC, eC, mC⟩ := Mid_balance_right p m e2
      rw [e1] at eC
      refine ⟨hC, _, _, eC, mC, ?_, ?_, Or.inr ⟨_, _, _, _, _, _, rfl,
        Or.inr ⟨rfl, pBal_ne_nil e2⟩⟩⟩
      · rw [← hi]; simp [pBal_ids]
      · rw [← hk]; simp [pBal_keys]

theorem EraseNode_lt {h hA : Heap} {x f : Nat} {nx : Node} {key : Int} {r0 : Option Nat}
    (hcx : h.cell x = some nx) (hlt : key < nx.key)
    (e : EraseNode f h nx.left key = some (hA, r0)) :
    EraseNode (f + 1) h (some x) key = Balance hA (some x) := by
  simp only [EraseNode, hcx, hlt, if_true, e, Option.map_some', Option.bind_eq_bind,
    Option.some_bind]

theorem EraseNode_gt {h hA : Heap} {x f : Nat} {nx : Node} {key : Int} {r0 : Option Nat}
    (hcx : h.cell x = some nx) (hgt : nx.key < key)
    (e : EraseNode f h nx.right key = some (hA, r0)) :
    EraseNode (f + 1) h (some x) key = Balance hA (some x) := by
  have h1 : ¬ key < nx.key := by omega
  simp only [EraseNode, hcx, hgt, h1, if_true, if_false, e, Option.map_some',
    Option.bind_eq_bind, Option.some_bind]

theorem EraseNode_eq2 {h hA : Heap} {x f : Nat} {nx : Node} {key : Int} {sr : Option Nat}
    (hcx : h.cell x = some nx) (hk : nx.key = key) (h2 : nx.left ≠ none ∧ nx.right ≠ none)
    (e : TwoSonsCase h (some x) = some (hA, sr)) :
    EraseNode (f + 1) h (some x) key = Balance hA sr := by
  have h1 : ¬ key < nx.key := by omega
  have h3 : ¬ nx.key < key := by omega
  simp only [EraseNode, hcx, h1, h3, if_false, h2, and_self, if_true, e, Option.bind_eq_bind,
    Option.some_bind, ne_eq, not_false_eq_true]

theorem EraseNode_eq1 {h hA : Heap} {x f : Nat} {nx : Node} {key : Int} {sr : Option Nat}
    (hcx : h.cell x = some nx) (hk : nx.key = key) (h2 : ¬ (nx.left ≠ none ∧ nx.right ≠ none))
    (e : EraseNodeAt h (some x) = some (hA, sr)) :
    EraseNode (f + 1) h (some x) key = Balance hA sr := by
  have h1 : ¬ key < nx.key := by omega
  have h3 : ¬ nx.key < key := by omega
  simp only [EraseNode, hcx, h1, h3, if_false, h2, e, Option.bind_eq_bind,
    Option.some_bind]

theorem PreE.of_left {h : Heap} {par : Option Nat} {l r : PT} {x : Nat} {kx dx : Int} {hx : Nat}
    (pre : Pre h par (.node l x kx dx hx r)) : PreE h (some x) l := by
  obtain ⟨n1, n2, n3, n4, n5⟩ := nodup_node pre.nodup
  obtain ⟨na, hca, hna, hk⟩ := pre.kids
  refine ⟨pre.left, ?_, ?_⟩
  · intro g ng e1 e2
    cases e1
    rw [hca] at e2; cases e2
    left
    rw [hna]
    exact ⟨rfl, fun j hj e0 => n5 j hj (root_mem_ids e0)⟩
  · intro g ng e1 e2
    cases e1
    rw [hca] at e2; cases e2
    exact hk

theorem PreE.of_right {h : Heap} {par : Option Nat} {l r : PT} {x : Nat} {kx dx : Int}
    {hx : Nat} (pre : Pre h par (.node l x kx dx hx r)) : PreE h (some x) r := by
  obtain ⟨n1, n2, n3, n4, n5⟩ := nodup_node pre.nodup
  obtain ⟨na, hca, hna, hk⟩ := pre.kids
  refine ⟨pre.right, ?_, ?_⟩
  · intro g ng e1 e2
    cases e1
    rw [hca] at e2; cases e2
    right
    rw [hna]
    exact ⟨rfl, fun j hj e0 => n5 j (root_mem_ids e0) hj⟩
  · intro g ng e1 e2
    cases e1
    rw [hca] at e2; cases e2
    exact hk

theorem ids_length_pos {t : PT} (h : t ≠ .nil) : 1 ≤ t.ids.length := by
  cases t with
  | nil => exact absurd rfl h
  | node l x k d ht r => simp only [PT.ids_node, List.length_append, List.length_cons]; omega

theorem depth_pos {t : PT} (h : t ≠ .nil) : 1 ≤ t.depth := by
  cases t with
  | nil => exact absurd rfl h
  | node l x k d ht r => simp [PT.depth]

theorem erase_leaf_left {h : Heap} {par : Option Nat} {r : PT} {x li : Nat}
    {kx dx key dl : Int} {hx hl : Nat}
    (p : PreE h par (.node (.node .nil li key dl hl .nil) x kx dx hx r)) (hlt : key < kx)
    (f : Nat) :
    ∃ h1 t1 ret, EraseNode (f + 2) h (some x) key = some (h1, ret) ∧
      Mid h h1 par (.node (.node .nil li key dl hl .nil) x kx dx hx r) t1 ∧
      t1.ids = x :: r.ids ∧ t1.keys = kx :: r.keys ∧ RetOK t1 ret := by
  have pre := p.pre
  have hcx := pre.repr.1
  have hcl := pre.repr.2.1.1
  obtain ⟨n1, n2, n3, n4, n5⟩ := nodup_node pre.nodup
  obtain ⟨hA, hv, ret, eA, rA1, _, nA, sA⟩ := del_left pre
  rw [rA1 rfl] at eA
  have mA := Mid.of_SubSpec pre sA nA
    (nodup_node_mk (List.nodup_nil) n2 (by simp) n4 (by simp))
  obtain ⟨hB, eB, mB⟩ := Mid_balance_root p mA (by simp)
  obtain ⟨hC, t1, ret1, eC, mC, i1, k1, ok⟩ := Mid_balance_at p mB
  refine ⟨hC, t1, ret1, ?_, mC, by rw [i1]; simp, by rw [k1]; simp, ok⟩
  have e1 : EraseNode (f + 1) h (some li) key = some (hB, (pBal (.node .nil x kx dx hv r)).root) := by
    rw [EraseNode_eq1 hcl rfl (by simp) eA]
    exact eB
  rw [EraseNode_lt hcx hlt e1]
  exact eC

theorem erase_leaf_right {h : Heap} {par : Option Nat} {l : PT} {x ri : Nat}
    {kx dx key dr : Int} {hx hr : Nat}
    (p : PreE h par (.node l x kx dx hx (.node .nil ri key dr hr .nil))) (hgt : kx < key)
    (f : Nat) :
    ∃ h1 t1 ret, EraseNode (f + 2) h (some x) key = some (h1, ret) ∧
      Mid h h1 par (.node l x kx dx hx (.node .nil ri key dr hr .nil)) t1 ∧
      t1.ids = l.ids ++ [x] ∧ t1.keys = l.keys ++ [kx] ∧ RetOK t1 ret := by
  have pre := p.pre
  have hcx := pre.repr.1
  have hcl := pre.repr.2.2.1
  obtain ⟨n1, n2, n3, n4, n5⟩ := nodup_node pre.nodup
  obtain ⟨hA, hv, ret, eA, rA1, _, nA, sA⟩ := del_right pre
  rw [rA1 rfl] at eA
  have mA := Mid.of_SubSpec pre sA nA
    (nodup_node_mk n1 (List.nodup_nil) n3 (by simp) (by simp))
  obtain ⟨hB, eB, mB⟩ := Mid_balance_root p mA (by simp)
  obtain ⟨hC, t1, ret1, eC, mC, i1, k1, ok⟩ := Mid_balance_at p mB
  refine ⟨hC, t1, ret1, ?_, mC, by rw [i1]; simp, by rw [k1]; simp, ok⟩
  have e1 : EraseNode (f + 1) h (some ri) key = some (hB, (pBal (.node l x kx dx hv .nil)).root) := by
    rw [EraseNode_eq1 hcl rfl (by simp) eA]
    exact eB
  rw [EraseNode_gt hcx hgt e1]
  exact eC

theorem erase_two_sons {h : Heap} {par : Option Nat} {l r : PT} {x : Nat} {kx dx : Int}
    {hx : Nat} (p : PreE h par (.node l x kx dx hx r)) (hl : l ≠ .nil) (hr : r ≠ .nil)
    (f : Nat) :
    ∃ h1 t1 ret, EraseNode (f + 1) h (some x) kx = some (h1, ret) ∧
      Mid h h1 par (.node l x kx dx hx r) t1 ∧
      t1.ids.length + 1 = (PT.node l x kx dx hx r).ids.length ∧ t1.keys = l.keys ++ r.keys ∧
      RetOK t1 ret := by
  have pre := p.pre
  have hcx := pre.repr.1
  obtain ⟨n1, n2, n3, n4, n5⟩ := nodup_node pre.nodup
  obtain ⟨h1, r1, km, dm, hv, ret, m, e1, nx1, s1, i1, k1, hret⟩ := TwoSonsCase_spec pre hr
  rw [i1, List.nodup_cons] at n2
  have hsub : ∀ j, j ∈ r1.ids → j ∈ r.ids := by
    intro j hj; rw [i1]; exact List.mem_cons_of_mem _ hj
  have m1 := Mid.of_SubSpec pre s1 nx1
    (nodup_node_mk n1 n2.2 n3 (fun hm => n4 (hsub x hm)) (fun j hj hm => n5 j hj (hsub j hm)))
  have h2 : (l.root ≠ none ∧ r.root ≠ none) := by
    constructor
    · cases l with
      | nil => exact absurd rfl hl
      | node a b c d e f => simp
    · cases r with
      | nil => exact absurd rfl hr
      | node a b c d e f => simp
  have eE := EraseNode_eq2 (f := f) hcx rfl h2 e1
  rcases hret with e0 | ⟨e0, hne⟩
  · obtain ⟨h2, e2, m2⟩ := Mid_balance_root p m1 (by simp)
    rw [e0] at eE
    refine ⟨h2, _, _, eE.trans e2, m2, ?_, ?_, Or.inl rfl⟩
    · rw [pBal_ids]
      simp only [PT.ids_node, List.length_append, List.length_cons, i1]
      omega
    · rw [pBal_keys]; simp [k1]
  · obtain ⟨h2, e2, m2⟩ := Mid_balance_right p m1 hne
    rw [e0] at eE
    refine ⟨h2, _, _, eE.trans e2, m2, ?_, ?_, Or.inr ⟨_, _, _, _, _, _, rfl,
      Or.inr ⟨rfl, pBal_ne_nil hne⟩⟩⟩
    · simp only [PT.ids_node, List.length_append, List.length_cons, i1, pBal_ids]
      omega
    · simp [k1, pBal_keys]

theorem not_leaf_length {ll lr : PT} {li : Nat} {kl dl : Int} {hl : Nat}
    (hn : ¬ (ll = .nil ∧ lr = .nil)) : 2 ≤ (PT.node ll li kl dl hl lr).ids.length := by
  simp only [PT.ids_node, List.length_append, List.length_cons]
  by_cases h1 : ll = .nil
  · have := ids_length_pos (fun e => hn ⟨h1, e⟩)
    omega
  · have := ids_length_pos h1
    omega

theorem EraseNode_spec : ∀ (t : PT) (fuel : Nat) (h : Heap) (par : Option Nat) (key : Int),
    PreE h par t → t.keys.Sorted (· < ·) → key ∈ t.keys → 2 ≤ t.ids.length → t.depth ≤ fuel →
    ∃ h1 t1 ret, EraseNode fuel h t.root key = some (h1, ret) ∧ Mid h h1 par t t1 ∧
      (∃ p q, t.keys = p ++ key :: q ∧ t1.keys = p ++ q) ∧
      t1.ids.length + 1 = t.ids.length ∧ RetOK t1 ret := by
  intro t
  induction t with
  | nil => intro _ _ _ _ _ _ hk; simp at hk
  | node l x kx dx hx r ihl ihr =>
    intro fuel h par key p hs hk hlen hfuel
    have pre := p.pre
    have hcx := pre.repr.1
    rw [PT.keys_node, sorted_node_iff] at hs
    obtain ⟨hsl, hsr, hlk, hrk⟩ := hs
    simp only [PT.depth] at hfuel
    obtain ⟨f, rfl⟩ : ∃ f, fuel = f + 1 := ⟨fuel - 1, by omega⟩
    rcases lt_trichotomy key kx with hlt | heq | hgt
    · have hkl : key ∈ l.keys := by
        simp only [PT.keys_node, List.mem_append, List.mem_cons] at hk
        rcases hk with hk | hk | hk
        · exact hk
        · omega
        · have := hrk key hk; omega
      cases l with
      | nil => simp at hkl
      | node ll li kl dl hl lr =>
        by_cases hleaf : ll = .nil ∧ lr = .nil
        · obtain ⟨rfl, rfl⟩ := hleaf
          have hkey : key = kl := by simpa using hkl
          subst hkey
          obtain ⟨f1, rfl⟩ : ∃ f1, f = f1 + 1 := ⟨f - 1, by simp [PT.depth] at hfuel; omega⟩
          obtain ⟨h1, t1, ret, e1, m1, i1, k1, ok⟩ := erase_leaf_left p hlt f1
          refine ⟨h1, t1, ret, e1, m1, ⟨[], kx :: r.keys, by simp, by rw [k1]; simp⟩, ?_, ok⟩
          rw [i1]; simp
        · obtain ⟨h1, l1, retl, e1, m1, ⟨pp, q, k0, k1⟩, len1, _⟩ :=
            ihl f h (some x) key (PreE.of_left pre) hsl hkl (not_leaf_length hleaf) (by omega)
          obtain ⟨hv, m2⟩ := Mid_lift_left pre m1
          obtain ⟨h2, e2, m3⟩ := Mid_balance_root p m2 (by simp)
          refine ⟨h2, _, _, ?_, m3, ⟨pp, q ++ kx :: r.keys, ?_, ?_⟩, ?_, Or.inl rfl⟩
          · exact (EraseNode_lt hcx hlt e1).trans e2
          · rw [PT.keys_node, k0]; simp
          · rw [pBal_keys, PT.keys_node, k1]; simp
          · rw [pBal_ids]
            simp only [PT.ids_node, List.length_append, List.length_cons] at len1 ⊢
            omega
    · subst heq
      cases l with
      | nil =>
        cases r with
        | nil => simp at hlen
        | node rl ri kr dr hr rr =>
          obtain ⟨h1, e1, m1⟩ := Mid_erase_right p (by simp)
          obtain ⟨h2, e2, m2⟩ := Mid_balance_root p m1 (by simp)
          refine ⟨h2, _, _, ?_, m2, ⟨[], (PT.node rl ri kr dr hr rr).keys, by simp, ?_⟩, ?_,
            Or.inl rfl⟩
          · exact (EraseNode_eq1 hcx rfl (by simp) e1).trans e2
          · rw [pBal_keys]; simp
          · rw [pBal_ids]; simp
      | node ll li kl dl hl lr =>
        cases r with
        | nil =>
          obtain ⟨h1, e1, m1⟩ := Mid_erase_left p (by simp)
          obtain ⟨h2, e2, m2⟩ := Mid_balance_root p m1 (by simp)
          refine ⟨h2, _, _, ?_, m2, ⟨(PT.node ll li kl dl hl lr).keys, [], by simp, ?_⟩, ?_,
            Or.inl rfl⟩
          · exact (EraseNode_eq1 hcx rfl (by simp) e1).trans e2
          · rw [pBal_keys]; simp
          · rw [pBal_ids]; simp only [PT.ids_node, PT.ids_nil, List.length_append,
              List.length_cons, List.length_nil]
        | node rl ri kr dr hr rr =>
          obtain ⟨h1, t1, ret, e1, m1, i1, k1, ok⟩ := erase_two_sons p (by simp) (by simp) f
          exact ⟨h1, t1, ret, e1, m1, ⟨_, _, rfl, k1⟩, i1, ok⟩
    · have hkr : key ∈ r.keys := by
        simp only [PT.keys_node, List.mem_append, List.mem_cons] at hk
        rcases hk with hk | hk | hk
        · have := hlk key hk; omega
        · omega
        · exact hk
      cases r with
      | nil => simp at hkr
      | node rl ri kr dr hr rr =>
        by_cases hleaf : rl = .nil ∧ rr = .nil
        · obtain ⟨rfl, rfl⟩ := hleaf
          have hkey : key = kr := by simpa using hkr
          subst hkey
          obtain ⟨f1, rfl⟩ : ∃ f1, f = f1 + 1 := ⟨f - 1, by simp [PT.depth] at hfuel; omega⟩
          obtain ⟨h1, t1, ret, e1, m1, i1, k1, ok⟩ := erase_leaf_right p hgt f1
          refine ⟨h1, t1, ret, e1, m1, ⟨l.keys ++ [kx], [], by simp, by rw [k1]; simp⟩, ?_, ok⟩
          rw [i1]; simp
        · obtain ⟨h1, r1, retr, e1, m1, ⟨pp, q, k0, k1⟩, len1, _⟩ :=
            ihr f h (some x) key (PreE.of_right pre) hsr hkr (not_leaf_length hleaf) (by omega)
          obtain ⟨hv, m2⟩ := Mid_lift_right pre (by simp) m1
          obtain ⟨h2, e2, m3⟩ := Mid_balance_root p m2 (by simp)
          refine ⟨h2, _, _, ?_, m3, ⟨l.keys ++ kx :: pp, q, ?_, ?_⟩, ?_, Or.inl rfl⟩
          · exact (EraseNode_gt hcx hgt e1).trans e2
          · rw [PT.keys_node, k0]; simp
          · rw [pBal_keys, PT.keys_node, k1]; simp
          · rw [pBal_ids]
            simp only [PT.ids_node, List.length_append, List.length_cons] at len1 ⊢
            omega

theorem WF_of_Mid {h h1 : Heap} {ctx : List Frame} {T T1 : PT} {e r : Nat}
    (wf : WF h ctx T e r) (m : Mid h h1 (ctxPar ctx) T T1)
    (hs : T1.keys.Sorted (· < ·)) (hne : T ≠ .nil) (hne1 : T1 ≠ .nil) :
    ∃ ctx1, WF h1 ctx1 T1 e r ∧ ctxIds ctx1 = ctxIds ctx := by
  have hnd0 := wf.nodup
  rw [List.nodup_append] at hnd0
  obtain ⟨hndT, hndC, hdis⟩ := hnd0
  have hfr : ∀ j ∈ ctxIds ctx ++ [e, r], some j ≠ ctxPar ctx → h1.cell j = h.cell j := by
    intro j hj hp
    exact m.frame j (fun hm => hdis hm hj) hp
  have hsent : ∀ j, j = e ∨ j = r → some j ≠ ctxPar ctx := by
    intro j hj hp
    cases ctx with
    | nil => cases hp
    | cons f fs =>
      simp only [ctxPar, Option.some.injEq] at hp
      rw [List.nodup_append] at hndC
      have hd := hndC.2.2
      exact hd (a := j) (by simp [ctxIds, hp]) (by simpa using hj)
  have hnd1 : ∀ (c1 : List Frame), ctxIds c1 = ctxIds ctx →
      (T1.ids ++ (ctxIds c1 ++ [e, r])).Nodup := by
    intro c1 hc1
    rw [hc1, List.nodup_append]
    exact ⟨m.nodup, hndC, fun j hj hm => hdis (m.sub j hj) hm⟩
  have hend : ∃ n, h1.cell e = some n ∧ n.left = none ∧ n.right = none ∧ n.height = 0 ∧
      n.key = 0 := by
    obtain ⟨n, hn, h2⟩ := wf.endc
    exact ⟨n, by rw [hfr e (by simp) (hsent e (Or.inl rfl))]; exact hn, h2⟩
  have hrend : ∃ n, h1.cell r = some n ∧ n.left = none ∧ n.right = none ∧ n.height = 0 ∧
      n.key = 0 := by
    obtain ⟨n, hn, h2⟩ := wf.rendc
    exact ⟨n, by rw [hfr r (by simp) (hsent r (Or.inr rfl))]; exact hn, h2⟩
  have hfresh := (m.pre_mid wf.pre).fresh
  cases ctx with
  | nil =>
    exact ⟨[], ⟨m.repr, trivial, hnd1 [] rfl, hfresh, hend, hrend, hs, wf.csorted,
      fun e0 => absurd e0 hne1⟩, rfl⟩
  | cons f fs =>
    obtain ⟨c0, cs, cr⟩ := wf.crepr
    obtain ⟨hv, hc⟩ := m.parent f.id _ rfl c0
    have hndC1 := hndC
    simp only [ctxIds, List.cons_append, List.nodup_cons, List.mem_append, not_or,
      List.append_assoc] at hndC1
    have hids : ctxIds (⟨f.isLeft, f.id, f.key, f.data, hv, f.sib⟩ :: fs) = ctxIds (f :: fs) := rfl
    refine ⟨⟨f.isLeft, f.id, f.key, f.data, hv, f.sib⟩ :: fs, ⟨m.repr, ?_, hnd1 _ hids, hfresh,
      hend, hrend, hs, ?_, fun e0 => absurd e0 hne1⟩, hids⟩
    · refine ⟨?_, Repr_congr ?_ cs, CtxRepr_congr fs _ ?_ cr⟩
      · rw [hc]
        cases hf : f.isLeft with
        | true => simp [Frame.cell, hf, replaceChild]
        | false =>
          have : f.sib.root ≠ T.root := by
            intro e1
            cases hr : T.root with
            | none =>
              cases T with
              | nil => exact hne rfl
              | node a b c d e f => simp at hr
            | some c =>
              rw [hr] at e1
              exact hdis (root_mem_ids hr) (by simp [ctxIds, root_mem_ids e1])
          simp [Frame.cell, hf, replaceChild, this]
      · intro j hj
        apply hfr j (by simp [ctxIds, hj])
        simp only [ctxPar, ne_eq, Option.some.injEq]
        intro e1; subst e1
        exact hndC1.1.1 hj
      · intro j hj
        apply hfr j (by simp [ctxIds, hj])
        simp only [ctxPar, ne_eq, Option.some.injEq]
        intro e1; subst e1
        exact hndC1.1.2.1 hj
    · intro g hg
      rcases List.mem_cons.1 hg with e0 | e0
      · have := wf.csorted f (by simp)
        rw [e0]
        simpa [Frame.sorted] using this
      · exact wf.csorted g (List.mem_cons_of_mem _ e0)

theorem WF_push_left {h : Heap} {ctx : List Frame} {lc rc : PT} {b : Nat} {kb db : Int}
    {hb e r : Nat} (wf : WF h ctx (.node lc b kb db hb rc) e r) (hne : lc ≠ .nil) :
    WF h (⟨true, b, kb, db, hb, rc⟩ :: ctx) lc e r := by
  have hs := wf.sorted
  rw [PT.keys_node, sorted_node_iff] at hs
  obtain ⟨hsl, hsr, hlk, hrk⟩ := hs
  refine ⟨wf.repr.2.1, ⟨wf.repr.1, wf.repr.2.2, wf.crepr⟩, ?_, wf.fresh, wf.endc, wf.rendc, hsl,
    ?_, fun e0 => absurd e0 hne⟩
  · have := wf.nodup
    simpa [ctxIds, List.append_assoc] using this
  · intro g hg
    rcases List.mem_cons.1 hg with e0 | e0
    · rw [e0]
      simp only [Frame.sorted, if_true, List.sorted_cons]
      exact ⟨hrk, hsr⟩
    · exact wf.csorted g e0

theorem WF_push_right {h : Heap} {ctx : List Frame} {lc rc : PT} {b : Nat} {kb db : Int}
    {hb e r : Nat} (wf : WF h ctx (.node lc b kb db hb rc) e r) (hne : rc ≠ .nil) :
    WF h (⟨false, b, kb, db, hb, lc⟩ :: ctx) rc e r := by
  have hs := wf.sorted
  rw [PT.keys_node, sorted_node_iff] at hs
  obtain ⟨hsl, hsr, hlk, hrk⟩ := hs
  refine ⟨wf.repr.2.2, ⟨wf.repr.1, wf.repr.2.1, wf.crepr⟩, ?_, wf.fresh, wf.endc, wf.rendc, hsr,
    ?_, fun e0 => absurd e0 hne⟩
  · have := wf.nodup
    refine List.Perm.nodup ?_ this
    simp only [PT.ids_node, ctxIds, List.append_assoc, List.cons_append]
    have hp : ∀ (A B X : List Nat), (A ++ (B ++ X)).Perm (B ++ (A ++ X)) := by
      intro A B X
      rw [← List.append_assoc, ← List.append_assoc]
      exact List.Perm.append_right _ List.perm_append_comm
    exact List.perm_middle.trans ((List.Perm.cons b (hp _ _ _)).trans List.perm_middle.symm)
  · intro g hg
    rcases List.mem_cons.1 hg with e0 | e0
    · rw [e0]
      have : (lc.keys ++ [kb]).Sorted (· < ·) := by
        rw [sorted_node_iff]
        exact ⟨hsl, List.sorted_nil, hlk, by simp⟩
      simpa [Frame.sorted] using this
    · exact wf.csorted g e0

theorem Cut_size {heap hc : Heap} {root b e rb r : Option Nat} {sz : Nat} (z : Nat)
    (hcut : AVL.CutMockNode ⟨heap, root, b, e, rb, r, sz⟩ = some ⟨hc, root, b, e, rb, r, sz⟩) :
    AVL.CutMockNode ⟨heap, root, b, e, rb, r, z⟩ = some ⟨hc, root, b, e, rb, r, z⟩ := by
  cases b with
  | none =>
    cases rb with
    | none =>
      simp only [AVL.CutMockNode, Option.bind_eq_bind, Option.some_bind, Option.pure_def,
        Option.some.injEq, AVL.mk.injEq, and_true, true_and] at hcut ⊢
      exact hcut
    | some rbi =>
      cases h2 : heap.cell rbi with
      | none => simp [AVL.CutMockNode, Heap.modify, h2] at hcut
      | some n2 =>
        simp only [AVL.CutMockNode, Heap.modify, h2, Option.bind_eq_bind, Option.some_bind,
          Option.pure_def, Option.some.injEq, AVL.mk.injEq, and_true, true_and] at hcut ⊢
        exact hcut
  | some bi =>
    cases h1 : heap.cell bi with
    | none => simp [AVL.CutMockNode, Heap.modify, h1] at hcut
    | some n1 =>
      cases rb with
      | none =>
        simp only [AVL.CutMockNode, Heap.modify, h1, Option.bind_eq_bind, Option.some_bind,
          Option.pure_def, Option.some.injEq, AVL.mk.injEq, and_true, true_and] at hcut ⊢
        exact hcut
      | some rbi =>
        cases h2 : (heap.write bi { n1 with left := none }).cell rbi with
        | none =>
          simp only [AVL.CutMockNode, Heap.modify, h1, h2, Option.bind_eq_bind,
            Option.some_bind, Option.none_bind] at hcut
          cases hcut
        | some n2 =>
          simp only [AVL.CutMockNode, Heap.modify, h1, h2, Option.bind_eq_bind,
            Option.some_bind, Option.pure_def, Option.some.injEq, AVL.mk.injEq, and_true,
            true_and] at hcut ⊢
          exact hcut

theorem Erase_run {heap hc h1 : Heap} {T T1 : PT} {ctx1 : List Frame} {e r sz : Nat} {k : Int}
    (hfind : AVL.Find ⟨heap, T.root, T.minId, some e, T.maxId, some r, sz⟩ k
      = some (true, ⟨heap, T.root, T.minId, some e, T.maxId, some r, sz⟩))
    (hT : T ≠ .nil) (hsz : 2 ≤ sz)
    (hcut : AVL.CutMockNode ⟨heap, T.root, T.minId, some e, T.maxId, some r, sz⟩
      = some ⟨hc, T.root, T.minId, some e, T.maxId, some r, sz⟩)
    (hE : EraseNode (hc.next + 1) hc T.root k = some (h1, T1.root))
    (wf1 : WF h1 ctx1 T1 e r) (hT1 : T1 ≠ .nil)
    (hsz1 : sz - 1 = T1.ids.length + (ctxIds ctx1).length) :
    ∃ s1, AVL.Erase ⟨heap, T.root, T.minId, some e, T.maxId, some r, sz⟩ k = some s1 ∧
      Inv s1 ctx1 T1 ∧ s1.size_ = sz - 1 := by
  obtain ⟨s1, e1, i1, z1⟩ := UpdateSides_spec wf1 hT1 T.minId T.maxId (sz - 1) hsz1
  refine ⟨s1, ?_, i1, z1⟩
  have hroot : T.root ≠ none := by
    cases T with
    | nil => exact absurd rfl hT
    | node a b c d e f => simp
  have h0 : sz ≠ 0 := by omega
  have h01 : sz - 1 ≠ 0 := by omega
  simp only [AVL.Erase, hfind, Option.bind_eq_bind, Option.some_bind, Option.pure_def,
    not_true_eq_false, if_false, hroot, h0, h01, Cut_size (sz - 1) hcut, hE]
  exact e1

theorem Erase_run_frame {heap hc h1 : Heap} {T T1 : PT} {ctx1 : List Frame} {e r sz : Nat}
    {k : Int} (C : List Nat)
    (hfind : AVL.Find ⟨heap, T.root, T.minId, some e, T.maxId, some r, sz⟩ k
      = some (true, ⟨heap, T.root, T.minId, some e, T.maxId, some r, sz⟩))
    (hT : T ≠ .nil) (hsz : 2 ≤ sz)
    (hcut : AVL.CutMockNode ⟨heap, T.root, T.minId, some e, T.maxId, some r, sz⟩
      = some ⟨hc, T.root, T.minId, some e, T.maxId, some r, sz⟩)
    (hE : EraseNode (hc.next + 1) hc T.root k = some (h1, T1.root))
    (wf1 : WF h1 ctx1 T1 e r) (hT1 : T1 ≠ .nil)
    (hsz1 : sz - 1 = T1.ids.length + (ctxIds ctx1).length)
    (hnx : hc.next ≤ h1.next)
    (hfr : ∀ j, j ∉ T.ids ++ C → j < hc.next → h1.cell j = hc.cell j)
    (hgrow : ∀ j ∈ T1.ids ++ ctxIds ctx1, j ∈ T.ids ++ C ∨ hc.next ≤ j) :
    ∃ s1, AVL.Erase ⟨heap, T.root, T.minId, some e, T.maxId, some r, sz⟩ k = some s1 ∧
      Inv s1 ctx1 T1 ∧ s1.size_ = sz - 1 ∧
      Stable ⟨heap, T.root, T.minId, some e, T.maxId, some r, sz⟩ s1 (T.ids ++ C)
        (T1.ids ++ ctxIds ctx1) := by
  obtain ⟨s1, e1, i1, z1, f1, f2, f3, f4⟩ :=
    UpdateSides_frame wf1 hT1 T.minId T.maxId (sz - 1) hsz1
  refine ⟨s1, ?_, i1, z1, Stable.of_cut C T1.ids hcut hnx hfr f1 f2 f3 f4
    (fun j hj => hgrow j (List.mem_append_left _ hj)) hgrow⟩
  have hroot : T.root ≠ none := by
    cases T with
    | nil => exact absurd rfl hT
    | node a b c d e f => simp
  have h0 : sz ≠ 0 := by omega
  have h01 : sz - 1 ≠ 0 := by omega
  simp only [AVL.Erase, hfind, Option.bind_eq_bind, Option.some_bind, Option.pure_def,
    not_true_eq_false, if_false, hroot, h0, h01, Cut_size (sz - 1) hcut, hE]
  exact e1

theorem WF.preE {h : Heap} {ctx : List Frame} {T : PT} {e r : Nat} (wf : WF h ctx T e r) :
    PreE h (ctxPar ctx) T := by
  have hnd0 := wf.nodup
  rw [List.nodup_append] at hnd0
  obtain ⟨hndT, hndC, hdis⟩ := hnd0
  refine ⟨wf.pre, ?_, ?_⟩
  · intro g ng e1 e2
    cases ctx with
    | nil => cases e1
    | cons f fs =>
      simp only [ctxPar, Option.some.injEq] at e1
      subst e1
      rw [wf.crepr.1] at e2
      cases e2
      have hsib : ∀ j ∈ T.ids, f.sib.root ≠ some j := by
        intro j hj e0
        exact hdis hj (by simp [ctxIds, root_mem_ids e0])
      cases hf : f.isLeft with
      | true => left; simpa [Frame.cell, hf] using hsib
      | false => right; simpa [Frame.cell, hf] using hsib
  · intro g ng e1 e2 c hc
    cases ctx with
    | nil => cases e1
    | cons f fs =>
      simp only [ctxPar, Option.some.injEq] at e1
      subst e1
      rw [wf.crepr.1] at e2
      cases e2
      have h1 : ∀ c, T.root = some c → ∃ nc, h.cell c = some nc :=
        fun c hc => Repr_alive wf.repr c (root_mem_ids hc)
      have h2 : ∀ c, f.sib.root = some c → ∃ nc, h.cell c = some nc :=
        fun c hc => Repr_alive wf.crepr.2.1 c (root_mem_ids hc)
      cases hf : f.isLeft with
      | true =>
        simp only [Frame.cell, hf, if_true] at hc
        rcases hc with hc | hc
        · exact h1 c hc
        · exact h2 c hc
      | false =>
        simp only [Frame.cell, hf] at hc
        rcases hc with hc | hc
        · exact h2 c hc
        · exact h1 c hc

theorem split_sorted {p q : List Int} {k : Int} (h : (p ++ k :: q).Sorted (· < ·)) :
    (p ++ q).Sorted (· < ·) ∧ k ∉ p ++ q := by
  rw [sorted_node_iff] at h
  obtain ⟨h1, h2, h3, h4⟩ := h
  constructor
  · simp only [List.Sorted, List.pairwise_append]
    exact ⟨h1, h2, fun a ha b hb => lt_trans (h3 a ha) (h4 b hb)⟩
  · intro hm
    rcases List.mem_append.1 hm with hm | hm
    · exact lt_irrefl _ (h3 k hm)
    · exact lt_irrefl _ (h4 k hm)

theorem erase_rise_frame {hc : Heap} {f : Frame} {rest : List Frame} {x : Nat} {kx dx : Int}
    {hx e r : Nat} (wf : WF hc (f :: rest) (.node .nil x kx dx hx .nil) e r) (fuel : Nat) :
    ∃ h1 T1, EraseNode (fuel + 1) hc (some x) kx = some (h1, T1.root) ∧ WF h1 rest T1 e r ∧
      T1 ≠ .nil ∧ T1.ids.length = 1 + f.sib.ids.length ∧ hc.next ≤ h1.next ∧
      (∀ j, j ∉ [x] ++ ctxIds (f :: rest) → j < hc.next → h1.cell j = hc.cell j) ∧
      (∀ j ∈ T1.ids, j ∈ ctxIds (f :: rest)) := by
  have p := wf.preE
  have hcx := wf.repr.1
  obtain ⟨c0, cs, cr⟩ := wf.crepr
  have hnd0 := wf.nodup
  simp only [PT.ids_node, PT.ids_nil, List.nil_append, List.singleton_append, List.nodup_cons,
    ctxIds, List.cons_append, List.mem_cons, List.mem_append, not_or, List.append_assoc,
    List.nodup_append, List.mem_singleton, List.not_mem_nil, not_false_eq_true,
    List.nodup_nil, and_true, true_and] at hnd0
  obtain ⟨⟨hxf, hxs, hxc, hxe, hxr⟩, ⟨hfs, hfc, hfe, hfr⟩, hsnd, ⟨hcnd, her, hce⟩, hsc⟩ := hnd0
  obtain ⟨hA, ret, eA, r1, _, nxA, cx, _, cp, fr⟩ := erase_at_right p.pre p.kids
  have hret := r1 rfl
  simp only [ctxPar] at hret
  subst hret
  obtain ⟨hv, hcv⟩ := cp f.id _ rfl c0
  have hfrm : ∀ j, j ≠ x → j ≠ f.id → hA.cell j = hc.cell j := by
    intro j h1 h2
    apply fr j
    · simpa using h1
    · simpa [ctxPar] using h2
  have hsA : Repr hA (some f.id) f.sib := by
    apply Repr_congr _ cs
    intro i hi
    apply hfrm i
    · intro e0; rw [e0] at hi; exact hxs hi
    · intro e0; rw [e0] at hi; exact hfs hi
  have wfA : WF hA rest (f.alone hv) e r := by
    have fsort := wf.csorted f (by simp)
    refine ⟨?_, ?_, ?_, ?_, ?_, ?_, ?_, fun g hg => wf.csorted g (List.mem_cons_of_mem _ hg), ?_⟩
    · cases hf : f.isLeft with
      | true =>
        simp only [Frame.alone, hf, if_true]
        refine ⟨?_, trivial, hsA⟩
        rw [hcv]; simp [Frame.cell, hf, spliceChild]
      | false =>
        have : f.sib.root ≠ some x := fun e0 => hxs (root_mem_ids e0)
        simp only [Frame.alone, hf, Bool.false_eq_true, if_false]
        refine ⟨?_, hsA, trivial⟩
        rw [hcv]; simp [Frame.cell, hf, spliceChild, this]
    · have : (f.alone hv).root = some f.id := by
        unfold Frame.alone; split <;> rfl
      rw [this]
      apply CtxRepr_congr rest _ _ cr
      intro j hj
      apply hfrm j
      · intro e0; rw [e0] at hj; exact hxc hj
      · intro e0; rw [e0] at hj; exact hfc hj
    · have hb : (f.id :: f.sib.ids ++ (ctxIds rest ++ [e, r])).Nodup := by
        simp only [List.cons_append, List.nodup_cons, List.mem_append, List.mem_cons, not_or,
          List.nodup_append, List.mem_singleton, List.not_mem_nil, not_false_eq_true,
          List.nodup_nil, and_true, true_and, or_false]
        exact ⟨⟨hfs, hfc, hfe, hfr⟩, hsnd, ⟨hcnd, her, hce⟩, hsc⟩
      cases hf : f.isLeft with
      | true =>
        simpa [Frame.alone, hf] using hb
      | false =>
        refine List.Perm.nodup ?_ hb
        simp only [Frame.alone, hf, PT.ids_node, PT.ids_nil, List.cons_append,
          List.append_assoc, List.nil_append, Bool.false_eq_true, if_false]
        exact List.perm_middle.symm
    · intro j hj
      rw [nxA] at hj
      by_cases h1 : j = x
      · rw [h1]; exact cx
      · by_cases h2 : j = f.id
        · have := lt_next_of_alive wf.fresh c0
          omega
        · rw [hfrm j h1 h2]; exact wf.fresh j hj
    · obtain ⟨n, hn, h2⟩ := wf.endc
      exact ⟨n, by rw [hfrm e (Ne.symm hxe) (Ne.symm hfe)]; exact hn, h2⟩
    · obtain ⟨n, hn, h2⟩ := wf.rendc
      exact ⟨n, by rw [hfrm r (Ne.symm hxr) (Ne.symm hfr)]; exact hn, h2⟩
    · cases hf : f.isLeft with
      | true => simpa [Frame.alone, Frame.sorted, hf] using fsort
      | false => simpa [Frame.alone, Frame.sorted, hf] using fsort
    · intro e0
      unfold Frame.alone at e0
      split at e0 <;> cases e0
  have hne : f.alone hv ≠ .nil := by
    intro e0
    unfold Frame.alone at e0
    split at e0 <;> cases e0
  have hroot : (f.alone hv).root = some f.id := by
    unfold Frame.alone; split <;> rfl
  have hlen : (f.alone hv).ids.length = 1 + f.sib.ids.length := by
    unfold Frame.alone
    split <;> simp [Nat.add_comm]
  obtain ⟨hB, eB, nB, sB⟩ := Balance_spec wfA.pre
  have wfB := WF_of_SubSpec wfA sB (by rw [pBal_ids]; exact wfA.pre.nodup)
    (by rw [pBal_keys]; exact wfA.sorted) (Or.inl (by rw [hroot]; simp)) (pBal_ne_nil hne)
  have hal : ∀ j, j ∈ (f.alone hv).ids ↔ j = f.id ∨ j ∈ f.sib.ids := by
    intro j
    unfold Frame.alone
    split <;> simp [or_comm]
  refine ⟨hB, pBal (f.alone hv), ?_, wfB, pBal_ne_nil hne, by rw [pBal_ids, hlen], ?_, ?_, ?_⟩
  · rw [hroot] at eB
    exact (EraseNode_eq1 hcx rfl (by simp) eA).trans eB
  · have := sB.next
    omega
  · intro j hj hlt
    have j1 : j ≠ x := fun e0 => hj (by simp [e0])
    have j2 : j ≠ f.id := fun e0 => hj (by simp [ctxIds, e0])
    have j3 : j ∉ f.sib.ids := fun e0 => hj (by simp [ctxIds, e0])
    have j4 : j ∉ ctxIds rest := fun e0 => hj (by simp [ctxIds, e0])
    rw [sB.frame j (by rw [hal]; exact fun hm => hm.elim j2 j3) (by omega) ?_, hfrm j j1 j2]
    intro e3
    cases rest with
    | nil => cases e3
    | cons g gs =>
      simp only [ctxPar, Option.some.injEq] at e3
      exact j4 (by rw [e3]; simp [ctxIds])
  · intro j hj
    rw [pBal_ids, hal] at hj
    simp only [ctxIds, List.cons_append, List.mem_cons, List.mem_append]
    rcases hj with hj | hj
    · exact Or.inl hj
    · exact Or.inr (Or.inl hj)

theorem erase_rise {hc : Heap} {f : Frame} {rest : List Frame} {x : Nat} {kx dx : Int}
    {hx e r : Nat} (wf : WF hc (f :: rest) (.node .nil x kx dx hx .nil) e r) (fuel : Nat) :
    ∃ h1 T1, EraseNode (fuel + 1) hc (some x) kx = some (h1, T1.root) ∧ WF h1 rest T1 e r ∧
      T1 ≠ .nil ∧ T1.ids.length = 1 + f.sib.ids.length := by
  obtain ⟨h1, T1, x1, x2, x3, x4, _⟩ := erase_rise_frame wf fuel
  exact ⟨h1, T1, x1, x2, x3, x4⟩

theorem erase_last_frame {heap hc : Heap} {x : Nat} {kx dx : Int} {hx e r : Nat}
    (wf : WF hc [] (.node .nil x kx dx hx .nil) e r)
    (hfind : AVL.Find ⟨heap, some x, some x, some e, some x, some r, 1⟩ kx
      = some (true, ⟨heap, some x, some x, some e, some x, some r, 1⟩))
    (hbind : AVL.BindMockNode ⟨hc, some x, some x, some e, some x, some r, 1⟩
      = some ⟨heap, some x, some x, some e, some x, some r, 1⟩) :
    ∃ s1, AVL.Erase ⟨heap, some x, some x, some e, some x, some r, 1⟩ kx = some s1 ∧
      Inv s1 [] .nil ∧ s1.size_ = 0 ∧
      Stable ⟨heap, some x, some x, some e, some x, some r, 1⟩ s1 [x] [] := by
  have hcx := wf.repr.1
  obtain ⟨ne, ce, ne1⟩ := wf.endc
  obtain ⟨nr, cr, nr1⟩ := wf.rendc
  have hnd0 := wf.nodup
  simp only [PT.ids_node, PT.ids_nil, List.nil_append, List.singleton_append, List.nodup_cons,
    ctxIds, List.mem_cons, not_or, List.mem_singleton, List.not_mem_nil, not_false_eq_true,
    List.nodup_nil, and_true] at hnd0
  obtain ⟨⟨hxe, hxr⟩, her⟩ := hnd0
  rw [Bind_eq (some x) 1 hcx hcx ce cr hxe hxr hxe hxr her] at hbind
  simp only [Option.some.injEq, AVL.mk.injEq, and_true] at hbind
  subst hbind
  have hxc : (⟨bindF hc.cell x x e r, hc.next⟩ : Heap).cell x
      = some { (⟨none, none, none, hx, kx, dx⟩ : Node) with left := some r, right := some e } := by
    simp [bindF, hxe, hxr, hcx, ctxPar]
  refine ⟨_, ?_, Inv_nil_of (h := ⟨fun j => if j = x then none
      else bindF hc.cell x x e r j, hc.next⟩) (e := e) (r := r) { ne with parent := some x }
      { nr with parent := some x } her ?_ ?_ ?_ ne1 nr1, rfl, ?_⟩
  · simp only [AVL.Erase, hfind, Option.bind_eq_bind, Option.some_bind, Option.pure_def,
      not_true_eq_false, if_false, one_ne_zero, Nat.sub_self, if_true, free_some hxc,
      reduceCtorEq]
  · intro j hj
    simp only at hj ⊢
    have := wf.fresh j hj
    by_cases h1 : j = x
    · simp [h1]
    · have h2 : j ≠ e := by intro e0; rw [e0, ce] at this; cases this
      have h3 : j ≠ r := by intro e0; rw [e0, cr] at this; cases this
      simp [h1, bindF, h2, h3, this]
  · show (if e = x then none else bindF hc.cell x x e r e) = some { ne with parent := some x }
    simp [Ne.symm hxe, bindF, ce]
  · show (if r = x then none else bindF hc.cell x x e r r) = some { nr with parent := some x }
    simp [Ne.symm hxr, Ne.symm her, bindF, cr]
  · refine ⟨rfl, rfl, Nat.le_refl _, ?_, fun j hj => by cases hj⟩
    intro j hj _ _ _
    have h1 : j ≠ x := fun e0 => hj (by simp [e0])
    simp [h1]

theorem erase_last {heap hc : Heap} {x : Nat} {kx dx : Int} {hx e r : Nat}
    (wf : WF hc [] (.node .nil x kx dx hx .nil) e r)
    (hfind : AVL.Find ⟨heap, some x, some x, some e, some x, some r, 1⟩ kx
      = some (true, ⟨heap, some x, some x, some e, some x, some r, 1⟩))
    (hbind : AVL.BindMockNode ⟨hc, some x, some x, some e, some x, some r, 1⟩
      = some ⟨heap, some x, some x, some e, some x, some r, 1⟩) :
    ∃ s1, AVL.Erase ⟨heap, some x, some x, some e, some x, some r, 1⟩ kx = some s1 ∧
      Inv s1 [] .nil ∧ s1.size_ = 0 := by
  obtain ⟨s1, x1, x2, x3, _⟩ := erase_last_frame wf hfind hbind
  exact ⟨s1, x1, x2, x3⟩

theorem Erase_absent {s : AVL} {ctx : List Frame} {T : PT} (inv : Inv s ctx T) (k : Int)
    (hk : k ∉ T.keys) :
    ∃ s1, s.Erase k = some s1 ∧ Inv s1 ctx T ∧ s1.size_ = s.size_ ∧ (T ≠ .nil → s1 = s) := by
  obtain ⟨s0, e0, inv0, hs0, hsz0⟩ := Find_spec inv k
  have hdec : decide (k ∈ T.keys) = false := by simp [hk]
  rw [hdec] at e0
  refine ⟨s0, ?_, inv0, hsz0, hs0⟩
  simp only [AVL.Erase, e0, Option.bind_eq_bind, Option.some_bind, Option.pure_def,
    Bool.false_eq_true, not_false_eq_true, if_true]

theorem ctxPar_mem {ctx : List Frame} {g : Nat} (h : ctxPar ctx = some g) : g ∈ ctxIds ctx := by
  cases ctx with
  | nil => cases h
  | cons f rest =>
    simp only [ctxPar, Option.some.injEq] at h
    rw [← h]
    simp [ctxIds]

theorem Erase_absent_frame {s : AVL} {ctx : List Frame} {T : PT} (inv : Inv s ctx T) (k : Int)
    (hk : k ∉ T.keys) :
    ∃ s1, s.Erase k = some s1 ∧ Inv s1 ctx T ∧ ∀ F, Stable s s1 F F := by
  obtain ⟨s0, e0, inv0, hs0, hsz0, st⟩ := Find_frame inv k
  have hdec : decide (k ∈ T.keys) = false := by simp [hk]
  rw [hdec] at e0
  refine ⟨s0, ?_, inv0, st⟩
  simp only [AVL.Erase, e0, Option.bind_eq_bind, Option.some_bind, Option.pure_def,
    Bool.false_eq_true, not_false_eq_true, if_true]

theorem Erase_present_frame {s : AVL} {ctx : List Frame} {T : PT} (inv : Inv s ctx T) (k : Int)
    (hk : k ∈ T.keys) :
    ∃ s1 ctx1 T1, s.Erase k = some s1 ∧ Inv s1 ctx1 T1 ∧ s1.size_ + 1 = s.size_ ∧
      (2 ≤ T.ids.length → k ∉ T1.keys) ∧
      Stable s s1 (T.ids ++ ctxIds ctx) (T1.ids ++ ctxIds ctx1) := by
  obtain ⟨s0, e0, _, hs0, _⟩ := Find_spec inv k
  have hT : T ≠ .nil := by
    intro e; rw [e] at hk; simp at hk
  rw [hs0 hT] at e0
  have hdec : decide (k ∈ T.keys) = true := by simp [hk]
  rw [hdec] at e0
  obtain ⟨e, r, hc, he, hr, hroot, hb, hrb, hsz, wf, hcut, hbind⟩ := inv
  obtain ⟨heap, root, b, e1, rb, r1, sz⟩ := s
  simp only at he hr hroot hb hrb hsz hcut hbind e0
  subst he hr hroot hb hrb
  have hbind1 := hbind hT
  have hTlen := ids_length_pos hT
  by_cases h2 : 2 ≤ T.ids.length
  · obtain ⟨h1, T1, ret, eE, m, ⟨p, q, k0, k1⟩, len, ok⟩ :=
      EraseNode_spec T (hc.next + 1) hc (ctxPar ctx) k wf.preE wf.sorted hk h2
        (by have := wf.depth_lt; omega)
    have hT1 : T1 ≠ .nil := by
      intro e; rw [e] at len; simp at len; omega
    have hso := wf.sorted
    rw [k0] at hso
    obtain ⟨hs1, hk1⟩ := split_sorted hso
    rw [← k1] at hs1 hk1
    obtain ⟨ctx1, wf1, hids⟩ := WF_of_Mid wf m hs1 hT hT1
    have hnx : hc.next ≤ h1.next := by rw [m.next]
    have hfr : ∀ j, j ∉ T.ids ++ ctxIds ctx → j < hc.next → h1.cell j = hc.cell j := by
      intro j hj _
      rw [List.mem_append, not_or] at hj
      exact m.frame j hj.1 (fun e3 => hj.2 (ctxPar_mem e3.symm))
    have hg0 : ∀ j ∈ T1.ids ++ ctxIds ctx1, j ∈ T.ids ++ ctxIds ctx ∨ hc.next ≤ j := by
      intro j hj
      rw [List.mem_append] at hj
      rcases hj with hj | hj
      · exact Or.inl (List.mem_append_left _ (m.sub j hj))
      · rw [hids] at hj
        exact Or.inl (List.mem_append_right _ hj)
    rcases ok with e2 | ⟨lc, b, kb, db, hb, rc, e2, ⟨e3, hne⟩ | ⟨e3, hne⟩⟩
    · rw [e2] at eE
      obtain ⟨s1, x1, x2, x3, x4⟩ := Erase_run_frame (ctxIds ctx) e0 hT (by omega) hcut eE wf1
        hT1 (by rw [hids]; omega) hnx hfr hg0
      exact ⟨s1, ctx1, T1, x1, x2, by rw [x3]; simp only; omega, fun _ => hk1, x4⟩
    · subst e2
      rw [e3] at eE
      have wf2 := WF_push_left wf1 hne
      obtain ⟨s1, x1, x2, x3, x4⟩ := Erase_run_frame (ctxIds ctx) e0 hT (by omega) hcut eE wf2
        hne (by
          simp only [ctxIds, List.length_append, List.length_cons, hids]
          simp only [PT.ids_node, List.length_append, List.length_cons] at len
          omega) hnx hfr (by
          intro j hj
          apply hg0 j
          simp only [ctxIds, PT.ids_node, List.mem_append, List.mem_cons] at hj ⊢
          tauto)
      refine ⟨s1, _, lc, x1, x2, by rw [x3]; simp only; omega, fun _ hm => hk1 ?_, x4⟩
      rw [PT.keys_node]; exact List.mem_append_left _ hm
    · subst e2
      rw [e3] at eE
      have wf2 := WF_push_right wf1 hne
      obtain ⟨s1, x1, x2, x3, x4⟩ := Erase_run_frame (ctxIds ctx) e0 hT (by omega) hcut eE wf2
        hne (by
          simp only [ctxIds, List.length_append, List.length_cons, hids]
          simp only [PT.ids_node, List.length_append, List.length_cons] at len
          omega) hnx hfr (by
          intro j hj
          apply hg0 j
          simp only [ctxIds, PT.ids_node, List.mem_append, List.mem_cons] at hj ⊢
          tauto)
      refine ⟨s1, _, rc, x1, x2, by rw [x3]; simp only; omega, fun _ hm => hk1 ?_, x4⟩
      rw [PT.keys_node]; exact List.mem_append_right _ (List.mem_cons_of_mem _ hm)
  · cases T with
    | nil => exact absurd rfl hT
    | node l x kx dx hx rr =>
      have hl : l = .nil := by
        by_contra hne
        have := ids_length_pos hne
        simp only [PT.ids_node, List.length_append, List.length_cons] at h2
        omega
      have hrr : rr = .nil := by
        by_contra hne
        have := ids_length_pos hne
        simp only [PT.ids_node, List.length_append, List.length_cons] at h2
        omega
      subst hl hrr
      have hkx : k = kx := by simpa using hk
      subst hkx
      simp only [PT.ids_node, PT.ids_nil, List.nil_append, List.length_singleton, PT.root_node,
        PT.minId, PT.maxId] at hsz e0 hcut hbind1 ⊢
      cases ctx with
      | nil =>
        simp only [ctxIds, List.length_nil, Nat.add_zero] at hsz
        subst hsz
        obtain ⟨s1, x1, x2, x3, x4⟩ := erase_last_frame wf e0 hbind1
        exact ⟨s1, [], .nil, x1, x2, by rw [x3], fun h => by omega, x4⟩
      | cons f rest =>
        obtain ⟨h1, T1, eE, wf1, hT1, len1, hnx, hfr, hsub⟩ := erase_rise_frame wf hc.next
        have hsz2 : 2 ≤ sz := by
          rw [hsz]; simp only [ctxIds, List.length_append, List.length_cons]; omega
        have hE : EraseNode (hc.next + 1) hc (PT.node .nil x k dx hx .nil).root k
            = some (h1, T1.root) := eE
        obtain ⟨s1, x1, x2, x3, x4⟩ := Erase_run_frame (T := .node .nil x k dx hx .nil)
          (ctxIds (f :: rest)) e0 (by simp) hsz2
          hcut hE wf1 hT1 (by
            rw [hsz, len1]; simp only [ctxIds, List.length_append, List.length_cons]; omega)
          hnx hfr (by
            intro j hj
            rw [List.mem_append] at hj
            rcases hj with hj | hj
            · exact Or.inl (List.mem_append_right _ (hsub j hj))
            · exact Or.inl (List.mem_append_right _ (by simp [ctxIds, hj])))
        exact ⟨s1, rest, T1, x1, x2, by rw [x3]; omega, fun h => by omega, x4⟩

theorem Erase_present {s : AVL} {ctx : List Frame} {T : PT} (inv : Inv s ctx T) (k : Int)
    (hk : k ∈ T.keys) :
    ∃ s1 ctx1 T1, s.Erase k = some s1 ∧ Inv s1 ctx1 T1 ∧ s1.size_ + 1 = s.size_ ∧
      (2 ≤ T.ids.length → k ∉ T1.keys) := by
  obtain ⟨s1, ctx1, T1, x1, x2, x3, x4, _⟩ := Erase_present_frame inv k hk
  exact ⟨s1, ctx1, T1, x1, x2, x3, x4⟩

theorem Erase_spec {s : AVL} {ctx : List Frame} {T : PT} (inv : Inv s ctx T) (k : Int) :
    ∃ s1 ctx1 T1, s.Erase k = some s1 ∧ Inv s1 ctx1 T1 := by
  by_cases hk : k ∈ T.keys
  · obtain ⟨s1, ctx1, T1, x1, x2, _⟩ := Erase_present inv k hk
    exact ⟨s1, ctx1, T1, x1, x2⟩
  · obtain ⟨s1, x1, x2, _⟩ := Erase_absent inv k hk
    exact ⟨s1, ctx, T, x1, x2⟩

theorem ClearSubtree_node {f : Nat} {h : Heap} {i : Nat} {n : Node} (hc : h.cell i = some n) :
    ClearSubtree (f + 1) h (some i) =
      (if n.left ≠ none then ClearSubtree f h n.left else some h).bind (fun h1 =>
        (h1.cell i).bind (fun n1 =>
          (if n1.right ≠ none then ClearSubtree f h1 n1.right else some h1).bind (fun h2 =>
            h2.free (some i)))) := by
  simp only [ClearSubtree, hc, Option.bind_eq_bind, Option.some_bind]

theorem ClearSubtree_spec : ∀ (t : PT) (fuel : Nat) (h : Heap) (par : Option Nat),
    Repr h par t → t.ids.Nodup → t.depth ≤ fuel →
    ∃ h1, ClearSubtree (fuel + 1) h t.root = some h1 ∧ h1.next = h.next ∧
      (∀ j ∈ t.ids, h1.cell j = none) ∧ (∀ j, j ∉ t.ids → h1.cell j = h.cell j) := by
  intro t
  induction t with
  | nil =>
    intro fuel h par _ _ _
    exact ⟨h, rfl, rfl, fun j hj => by simp at hj, fun _ _ => rfl⟩
  | node l x kx dx hx r ihl ihr =>
    intro fuel h par hr hnd hfuel
    obtain ⟨n1, n2, n3, n4, n5⟩ := nodup_node hnd
    have hcx := hr.1
    simp only [PT.depth] at hfuel
    obtain ⟨f, rfl⟩ : ∃ f, fuel = f + 1 := ⟨fuel - 1, by omega⟩
    obtain ⟨h1, e1, x1, d1, f1⟩ := ihl f h (some x) hr.2.1 n1 (by omega)
    have hr2 : Repr h1 (some x) r := by
      apply Repr_congr _ hr.2.2
      intro i hi
      exact f1 i (fun hm => n5 i hm hi)
    obtain ⟨h2, e2, x2, d2, f2⟩ := ihr f h1 (some x) hr2 n2 (by omega)
    have hcx1 : h1.cell x = some ⟨l.root, r.root, par, hx, kx, dx⟩ := by rw [f1 x n3]; exact hcx
    have hcx2 : h2.cell x = some ⟨l.root, r.root, par, hx, kx, dx⟩ := by rw [f2 x n4]; exact hcx1
    have el : (if l.root ≠ none then ClearSubtree (f + 1) h l.root else some h) = some h1 := by
      cases l with
      | nil => simpa [ClearSubtree] using e1
      | node a b c d e g => simpa using e1
    have er : (if r.root ≠ none then ClearSubtree (f + 1) h1 r.root else some h1) = some h2 := by
      cases r with
      | nil => simpa [ClearSubtree] using e2
      | node a b c d e g => simpa using e2
    refine ⟨⟨fun j => if j = x then none else h2.cell j, h2.next⟩, ?_, by simp only; rw [x2, x1],
      ?_, ?_⟩
    · rw [PT.root_node, ClearSubtree_node hcx]
      simp only [Option.bind_eq_bind, Option.some_bind, el, hcx1, er, free_some hcx2]
    · intro j hj
      simp only [PT.ids_node, List.mem_append, List.mem_cons] at hj
      simp only
      by_cases hjx : j = x
      · simp [hjx]
      · simp only [hjx, if_false]
        rcases hj with hj | hj | hj
        · rw [f2 j (fun hm => n5 j hj hm)]; exact d1 j hj
        · exact absurd hj hjx
        · exact d2 j hj
    · intro j hj
      simp only [PT.ids_node, List.mem_append, List.mem_cons, not_or] at hj
      simp only [hj.2.1, if_false]
      rw [f2 j hj.2.2, f1 j hj.1]

theorem Clear_spec {s : AVL} {ctx : List Frame} {T : PT} (inv : Inv s ctx T) :
    ∃ s1, s.Clear = some s1 ∧ Inv s1 [] .nil ∧ s1.size_ = 0 ∧ s1.root_ = none := by
  obtain ⟨e, r, hc, he, hr, hroot, hb, hrb, hsz, wf, hcut, hbind⟩ := inv
  obtain ⟨h1, e1, x1, d1, f1⟩ := ClearSubtree_spec T hc.next hc _ wf.repr wf.pre.nodup
    (by have := wf.depth_lt; omega)
  obtain ⟨ne, ce, ne1⟩ := wf.endc
  obtain ⟨nr, cr, nr1⟩ := wf.rendc
  have hnd := wf.nodup
  rw [List.nodup_append] at hnd
  obtain ⟨_, hnd2, hdis⟩ := hnd
  have heT : e ∉ T.ids := fun hm => hdis hm (by simp)
  have hrT : r ∉ T.ids := fun hm => hdis hm (by simp)
  have her : e ≠ r := by
    rw [List.nodup_append] at hnd2
    have := hnd2.2.1
    simp at this
    exact this
  refine ⟨⟨h1, none, none, some e, none, some r, 0⟩, ?_, ?_, rfl, rfl⟩
  · rw [← hroot] at e1
    simp only [AVL.Clear, hcut, e1, Option.bind_eq_bind, Option.some_bind, Option.pure_def, he,
      hr]
  · apply Inv_nil_of ne nr her
    · intro j hj
      rw [x1] at hj
      by_cases hm : j ∈ T.ids
      · exact d1 j hm
      · rw [f1 j hm]; exact wf.fresh j hj
    · rw [f1 e heT]; exact ce
    · rw [f1 r hrT]; exact cr
    · exact ne1
    · exact nr1

theorem calls_inv : ∀ (cs : List Call) (s : AVL) (ctx : List Frame) (T : PT), Inv s ctx T →
    ∃ s1 ctx1 T1, AVL.calls cs s = some s1 ∧ Inv s1 ctx1 T1 := by
  intro cs
  induction cs with
  | nil => intro s ctx T inv; exact ⟨s, ctx, T, rfl, inv⟩
  | cons c cs ih =>
    intro s ctx T inv
    have step : ∃ s1 ctx1 T1, s.call c = some s1 ∧ Inv s1 ctx1 T1 := by
      cases c with
      | insert k =>
        by_cases hk : k ∈ T.keys
        · exact ⟨s, ctx, T, Insert_present inv k k hk, inv⟩
        · obtain ⟨s1, n, x1, x2, _⟩ := Insert_absent inv k k hk
          exact ⟨s1, ctx, _, x1, x2⟩
      | erase k => exact Erase_spec inv k
      | clear =>
        obtain ⟨s1, x1, x2, _⟩ := Clear_spec inv
        exact ⟨s1, [], .nil, x1, x2⟩
    obtain ⟨s1, ctx1, T1, x1, x2⟩ := step
    obtain ⟨s2, ctx2, T2, y1, y2⟩ := ih s1 ctx1 T1 x2
    exact ⟨s2, ctx2, T2, by simp only [AVL.calls, x1, Option.some_bind]; exact y1, y2⟩

theorem callsNew_inv (cs : List Call) : ∃ s ctx T, callsNew cs = some s ∧ Inv s ctx T := by
  obtain ⟨s0, e0, i0, _⟩ := new_spec
  obtain ⟨s, ctx, T, x1, x2⟩ := calls_inv cs s0 [] .nil i0
  exact ⟨s, ctx, T, by simp only [callsNew, e0, Option.some_bind]; exact x1, x2⟩

theorem run_inv : ∀ (ops : List Op) (s : AVL) (ctx : List Frame) (T : PT), Inv s ctx T →
    ∃ s1 ctx1 T1, AVL.run ops s = some s1 ∧ Inv s1 ctx1 T1 := by
  intro ops
  induction ops with
  | nil => intro s ctx T inv; exact ⟨s, ctx, T, rfl, inv⟩
  | cons c cs ih =>
    intro s ctx T inv
    have step : ∃ s1 ctx1 T1, s.step c = some s1 ∧ Inv s1 ctx1 T1 := by
      cases c with
      | insert k =>
        by_cases hk : k ∈ T.keys
        · exact ⟨s, ctx, T, Insert_present inv k k hk, inv⟩
        · obtain ⟨s1, n, x1, x2, _⟩ := Insert_absent inv k k hk
          exact ⟨s1, ctx, _, x1, x2⟩
      | erase k => exact Erase_spec inv k
    obtain ⟨s1, ctx1, T1, x1, x2⟩ := step
    obtain ⟨s2, ctx2, T2, y1, y2⟩ := ih s1 ctx1 T1 x2
    exact ⟨s2, ctx2, T2, by simp only [AVL.run, x1, Option.some_bind]; exact y1, y2⟩

theorem runNew_inv (ops : List Op) : ∃ s ctx T, runNew ops = some s ∧ Inv s ctx T := by
  obtain ⟨s0, e0, i0, _⟩ := new_spec
  obtain ⟨s, ctx, T, x1, x2⟩ := run_inv ops s0 [] .nil i0
  exact ⟨s, ctx, T, by simp only [runNew, e0, Option.some_bind]; exact x1, x2⟩

theorem Inv_root_none {s : AVL} {ctx : List Frame} {T : PT} (inv : Inv s ctx T) :
    (s.root_ = none ↔ T = .nil) ∧ (s.size_ = 0 ↔ T = .nil) := by
  obtain ⟨e, r, hc, he, hr, hroot, hb, hrb, hsz, wf, hcut, hbind⟩ := inv
  cases T with
  | nil =>
    have hctx : ctx = [] := wf.nonempty rfl
    subst hctx
    simp only [PT.ids_nil, List.length_nil, ctxIds, Nat.add_zero, PT.root_nil] at hsz hroot
    simp [hsz, hroot]
  | node l x k d ht rt =>
    simp only [PT.root_node] at hroot
    simp only [PT.ids_node, List.length_append, List.length_cons] at hsz
    constructor
    · simp [hroot]
    · constructor
      · intro h0; omega
      · intro h0; cases h0

theorem Forall₂_head {α β : Type} {R : α → β → Prop} {xs : List α} {ys : List β} {a : α}
    (h : List.Forall₂ R xs ys) (ha : xs.head? = some a) : ∃ b, ys.head? = some b ∧ R a b := by
  cases h with
  | nil => cases ha
  | cons h1 _ =>
    simp only [List.head?_cons, Option.some.injEq] at ha
    subst ha
    exact ⟨_, rfl, h1⟩

theorem sorted_head_le {ks : List Int} {m k : Int} (hs : ks.Sorted (· < ·))
    (hm : ks.head? = some m) (hk : k ∈ ks) : m ≤ k := by
  cases ks with
  | nil => cases hm
  | cons a as =>
    simp only [List.head?_cons, Option.some.injEq] at hm
    subst hm
    rcases List.mem_cons.1 hk with e | e
    · rw [e]
    · exact le_of_lt (List.rel_of_sorted_cons hs k e)

theorem Inv_sorted {s : AVL} {ctx : List Frame} {T : PT} (inv : Inv s ctx T) :
    T.keys.Sorted (· < ·) := by
  obtain ⟨e, r, hc, he, hr, hroot, hb, hrb, hsz, wf, hcut, hbind⟩ := inv
  exact wf.sorted

theorem Find_true_iff {s s0 : AVL} {ctx : List Frame} {T : PT} (inv : Inv s ctx T) (k : Int)
    (b : Bool) (h : s.Find k = some (b, s0)) : b = true ↔ k ∈ T.keys := by
  obtain ⟨s1, e1, _⟩ := Find_spec inv k
  rw [e1] at h
  simp only [Option.some.injEq, Prod.mk.injEq] at h
  rw [← h.1]
  simp

theorem Find_map {s : AVL} {ctx : List Frame} {T : PT} (inv : Inv s ctx T) (k : Int)
    (b : Bool) (h : (s.Find k).map Prod.fst = some b) : b = true ↔ k ∈ T.keys := by
  obtain ⟨s1, e1, _⟩ := Find_spec inv k
  rw [e1] at h
  simp only [Option.map_some', Option.some.injEq] at h
  rw [← h]
  simp

theorem run_inserts : ∀ (ks : List Int) (s : AVL) (T : PT), Inv s [] T →
    ∃ s1 T1, AVL.run (ks.map Op.insert) s = some s1 ∧ Inv s1 [] T1 ∧
      ∀ y, y ∈ T1.keys ↔ (y ∈ T.keys ∨ y ∈ ks) := by
  intro ks
  induction ks with
  | nil => intro s T inv; exact ⟨s, T, rfl, inv, fun y => by simp⟩
  | cons k ks ih =>
    intro s T inv
    by_cases hk : k ∈ T.keys
    · obtain ⟨s2, T2, y1, y2, y3⟩ := ih s T inv
      refine ⟨s2, T2, ?_, y2, ?_⟩
      · simp only [List.map_cons, AVL.run, AVL.step, AVL.SetInsert, Insert_present inv k k hk,
          Option.some_bind]
        exact y1
      · intro y
        rw [y3, List.mem_cons]
        constructor
        · rintro (h | h)
          · exact Or.inl h
          · exact Or.inr (Or.inr h)
        · rintro (h | h | h)
          · exact Or.inl h
          · rw [h]; exact Or.inl hk
          · exact Or.inr h
    · obtain ⟨s1, n, x1, x2, _⟩ := Insert_absent inv k k hk
      obtain ⟨s2, T2, y1, y2, y3⟩ := ih s1 _ x2
      refine ⟨s2, T2, ?_, y2, ?_⟩
      · simp only [List.map_cons, AVL.run, AVL.step, AVL.SetInsert, x1, Option.some_bind]
        exact y1
      · intro y
        rw [y3, pIns_keys_mem, List.mem_cons]
        constructor
        · rintro ((h | h) | h)
          · exact Or.inr (Or.inl h)
          · exact Or.inl h
          · exact Or.inr (Or.inr h)
        · rintro (h | h | h)
          · exact Or.inl (Or.inr h)
          · exact Or.inl (Or.inl h)
          · exact Or.inr h

theorem Inv_size_nil {s : AVL} {T : PT} (inv : Inv s [] T) : s.size_ = T.keys.length := by
  obtain ⟨e, r, hc, he, hr, hroot, hb, hrb, hsz, wf, hcut, hbind⟩ := inv
  rw [hsz, keys_length]
  simp [ctxIds]

theorem sorted_eq_sort {ks : List Int} {l : List Int} (hs : l.Sorted (· < ·))
    (hm : ∀ y, y ∈ l ↔ y ∈ ks) : l = ks.toFinset.sort (· ≤ ·) := by
  apply List.eq_of_perm_of_sorted (r := (· ≤ ·))
  · apply (List.perm_ext_iff_of_nodup hs.nodup (Finset.sort_nodup _ _)).2
    intro y
    rw [hm, Finset.mem_sort, List.mem_toFinset]
  · exact hs.imp (fun h => le_of_lt h)
  · exact Finset.sort_sorted _ _

theorem Repr_attachR_max {h : Heap} {e : Nat} {k d : Int} {ht : Nat} : ∀ (t : PT)
    (par : Option Nat), t ≠ .nil → Repr h par (attachR (.node .nil e k d ht .nil) t) →
    ∃ m nm, t.maxId = some m ∧ h.cell m = some nm ∧ nm.right = some e ∧
      h.cell e = some ⟨none, none, some m, ht, k, d⟩ := by
  intro t
  induction t with
  | nil => intro _ hn; exact absurd rfl hn
  | node l x kx dx hx r _ ihr =>
    intro par _ hr
    cases r with
    | nil =>
      simp only [attachR] at hr
      exact ⟨x, _, rfl, hr.1, rfl, hr.2.2.1⟩
    | node rl ri rk rd rh rr =>
      simp only [attachR] at hr ihr
      obtain ⟨m, nm, x1, x2, x3, x4⟩ := ihr (some x) (by simp) hr.2.2
      exact ⟨m, nm, by simp only [PT.maxId]; exact x1, x2, x3, x4⟩

theorem Find_nil {s : AVL} {ctx : List Frame} (inv : Inv s ctx .nil) (k : Int) :
    ∃ s0, s.Find k = some (false, s0) ∧ s0.root_ = s.root_ ∧ s0.begin_ = s.begin_ ∧
      s0.rbegin_ = s.rbegin_ ∧ s0.end_ = s.end_ ∧ s0.rend_ = s.rend_ ∧ s0.size_ = s.size_ ∧
      ∀ j, some j ≠ s.end_ → some j ≠ s.rend_ → s0.heap.cell j = s.heap.cell j := by
  obtain ⟨e, r, hc, he, hr, hroot, hb, hrb, hsz, wf, hcut, hbind⟩ := inv
  obtain ⟨heap, root, b, e1, rb, r1, sz⟩ := s
  simp only [PT.root_nil, PT.minId, PT.maxId] at he hr hroot hb hrb hsz hcut
  subst he hr hroot hb hrb
  have hc0 : hc = heap := by
    simp only [AVL.CutMockNode, Option.bind_eq_bind, Option.some_bind, Option.pure_def,
      Option.some.injEq, AVL.mk.injEq, and_true, true_and] at hcut
    exact hcut.symm
  subst hc0
  obtain ⟨ne, ce, ne1⟩ := wf.endc
  obtain ⟨nr, cr, nr1⟩ := wf.rendc
  have her : e ≠ r := by
    have := wf.nodup
    have hctx : ctx = [] := wf.nonempty rfl
    subst hctx
    simp [ctxIds] at this
    exact this
  refine ⟨⟨(hc.write r { nr with parent := none }).write e { ne with parent := none }, none,
    none, some e, none, some r, sz⟩, ?_, rfl, rfl, rfl, rfl, rfl, rfl, ?_⟩
  · simp only [AVL.Find, AVL.CutMockNode, AVL.BindMockNode, Heap.modify, cr, ce, FindNode,
      write_cell, her, if_false, Option.bind_eq_bind, Option.some_bind, Option.pure_def,
      ne_eq, not_true_eq_false, decide_False]
  · intro j h1 h2
    have x1 : j ≠ e := fun e0 => h1 (by rw [e0])
    have x2 : j ≠ r := fun e0 => h2 (by rw [e0])
    simp [x1, x2]

/-- Claim C1, refuted by the code: after inserting `5,3,8,1,4,7,9` the traversal is
`1,3,4,5,7,8,9`, and after `Erase(5)` it is `8,9`, not `1,3,4,7,8,9`. -/
theorem erase_root_traversal :
    (runNew [Op.insert 5, Op.insert 3, Op.insert 8, Op.insert 1, Op.insert 4, Op.insert 7,
      Op.insert 9]).bind AVL.traversal = some [1, 3, 4, 5, 7, 8, 9] ∧
    (runNew [Op.insert 5, Op.insert 3, Op.insert 8, Op.insert 1, Op.insert 4, Op.insert 7,
      Op.insert 9, Op.erase 5]).bind AVL.traversal = some [8, 9] := by
  decide

/-- Claim C2: inserting the keys of any list one by one into an empty set gives a set whose
forward traversal is the sorted list of the distinct keys and whose `Size()` is their
number. -/
theorem insertAll_traversal (ks : List Int) :
    ∃ s, insertAll ks = some s ∧ s.traversal = some (ks.toFinset.sort (· ≤ ·)) ∧
      s.Size = ks.toFinset.card := by
  obtain ⟨s0, e0, i0, _⟩ := new_spec
  obtain ⟨s, T, x1, x2, x3⟩ := run_inserts ks s0 .nil i0
  have hk : T.keys = ks.toFinset.sort (· ≤ ·) :=
    sorted_eq_sort (Inv_sorted x2) (fun y => by rw [x3]; simp)
  refine ⟨s, ?_, ?_, ?_⟩
  · simp only [insertAll, runNew, e0, Option.some_bind]; exact x1
  · rw [traversal_spec x2, hk]
  · show s.size_ = _
    rw [Inv_size_nil x2, hk, Finset.length_sort]

/-- Claim C3, refuted by the code: after inserting `0,1,2,4,5,6,3` and erasing `4` and `6`
the balance invariant fails; the children of the root have structural heights 3 and 0. -/
theorem erase_breaks_balance :
    (runNew [Op.insert 0, Op.insert 1, Op.insert 2, Op.insert 4, Op.insert 5, Op.insert 6,
      Op.insert 3, Op.erase 4, Op.erase 6]).bind
      (fun s => s.balanced.bind (fun b => s.rootHeights.map (fun p => (b, p))))
      = some (false, 3, 0) := by
  decide

/-- Claim C4: after every sequence of `Insert` and `Erase` calls from the empty set the
forward traversal exists and is strictly increasing. -/
theorem traversal_strictly_increasing (ops : List Op) :
    ∃ s ks, runNew ops = some s ∧ s.traversal = some ks ∧ ks.Sorted (· < ·) := by
  obtain ⟨s, ctx, T, x1, x2⟩ := runNew_inv ops
  exact ⟨s, T.keys, x1, traversal_spec x2, Inv_sorted x2⟩

/-- Claim C5, refuted by the code: after inserting `5,3,8,1,4,7,9` and erasing `5`,
`Size()` is 6 while the forward traversal visits 2 nodes. -/
theorem erase_root_size_mismatch :
    (runNew [Op.insert 5, Op.insert 3, Op.insert 8, Op.insert 1, Op.insert 4, Op.insert 7,
      Op.insert 9, Op.erase 5]).bind
      (fun s => s.traversal.map (fun ks => (s.Size, ks.length))) = some (6, 2) := by
  decide

/-- Claim C6: in every set reached by `Insert` and `Erase` calls, `Find(k)` called right
after `Insert(k)` returns true, whatever value is inserted with the key. -/
theorem find_after_insert (ops : List Op) (k d : Int) :
    ∃ s s1, runNew ops = some s ∧ s.Insert k d = some s1 ∧
      (s1.Find k).map Prod.fst = some true := by
  obtain ⟨s, ctx, T, x1, x2⟩ := runNew_inv ops
  by_cases hk : k ∈ T.keys
  · obtain ⟨s0, e0, _⟩ := Find_spec x2 k
    refine ⟨s, s, x1, Insert_present x2 k d hk, ?_⟩
    rw [e0]; simp [hk]
  · obtain ⟨s1, n, y1, y2, _⟩ := Insert_absent x2 k d hk
    obtain ⟨s0, e0, _⟩ := Find_spec y2 k
    refine ⟨s, s1, x1, y1, ?_⟩
    rw [e0]
    have : k ∈ (pIns n k d T).keys := (pIns_keys_mem n k d T k).2 (Or.inl rfl)
    simp [this]

/-- Claim C7, refuted by the code: after inserting `0,1,2,3`, erasing `0`, inserting `2`
again and erasing `1` and `2`, `Find(2)` still returns true. -/
theorem find_after_erase_true :
    (runNew [Op.insert 0, Op.insert 1, Op.insert 2, Op.insert 3, Op.erase 0, Op.insert 2,
      Op.erase 1, Op.erase 2]).bind (fun s => (s.Find 2).map Prod.fst) = some true := by
  decide

/-- Claim C8: in every set reached by `Insert` and `Erase` calls, `Find(k)` returns true
exactly when `k` is one of the keys of the forward traversal. -/
theorem find_iff_in_traversal (ops : List Op) (k : Int) :
    ∃ s ks b, runNew ops = some s ∧ s.traversal = some ks ∧
      (s.Find k).map Prod.fst = some b ∧ (b = true ↔ k ∈ ks) := by
  obtain ⟨s, ctx, T, x1, x2⟩ := runNew_inv ops
  obtain ⟨s0, e0, _⟩ := Find_spec x2 k
  exact ⟨s, T.keys, decide (k ∈ T.keys), x1, traversal_spec x2, by rw [e0]; rfl, by simp⟩

/-- Claim C9: for a set reached by calls of the interface and a key `k` that `Find` does not
find, two `Insert`s of `k` in a row succeed, the first raises `Size()` by one and the second
leaves it unchanged. -/
theorem insert_twice_size (cs : List Call) (s : AVL) (k d1 d2 : Int)
    (hs : callsNew cs = some s) (hk : (s.Find k).map Prod.fst = some false) :
    ∃ s1 s2, s.Insert k d1 = some s1 ∧ s1.Insert k d2 = some s2 ∧ s1.Size = s.Size + 1 ∧
      s2.Size = s1.Size := by
  obtain ⟨s', ctx, T, x1, x2⟩ := callsNew_inv cs
  rw [hs] at x1
  cases x1
  have hn : k ∉ T.keys := by
    intro hm
    have := (Find_map x2 k false hk).2 hm
    cases this
  obtain ⟨s1, n, y1, y2, y3⟩ := Insert_absent x2 k d1 hn
  have hm : k ∈ (pIns n k d1 T).keys := (pIns_keys_mem n k d1 T k).2 (Or.inl rfl)
  exact ⟨s1, s1, y1, Insert_present y2 k d2 hm, y3, rfl⟩

/-- Witness for C9: the set holding `3`, and the key `5`. -/
theorem insert_twice_size_witness :
    ∃ s, callsNew [Call.insert 3] = some s ∧ (s.Find 5).map Prod.fst = some false ∧
      ∃ s1 s2, s.Insert 5 5 = some s1 ∧ s1.Insert 5 6 = some s2 ∧ s1.Size = s.Size + 1 ∧
        s2.Size = s1.Size := by
  cases h : callsNew [Call.insert 3] with
  | none =>
    have hsome : (callsNew [Call.insert 3]).isSome = true := by decide
    rw [h] at hsome
    cases hsome
  | some s =>
    have hk : (s.Find 5).map Prod.fst = some false :=
      (congrArg (fun o => o.bind (fun s => (s.Find 5).map Prod.fst)) h).symm.trans (by decide)
    exact ⟨s, rfl, hk, insert_twice_size [Call.insert 3] s 5 5 6 h hk⟩

/-- Claim C10: for a set reached by calls of the interface and a key `k` that `Find` finds,
`Insert(k)` returns the very same state: size, nodes, stored keys and values and the
sentinels are untouched. -/
theorem insert_present_noop (cs : List Call) (s : AVL) (k d : Int)
    (hs : callsNew cs = some s) (hk : (s.Find k).map Prod.fst = some true) :
    s.Insert k d = some s := by
  obtain ⟨s', ctx, T, x1, x2⟩ := callsNew_inv cs
  rw [hs] at x1
  cases x1
  exact Insert_present x2 k d ((Find_map x2 k true hk).1 rfl)

/-- Witness for C10: the set holding `3`, the key `3` and the value `7`. -/
theorem insert_present_noop_witness :
    ∃ s, callsNew [Call.insert 3] = some s ∧ (s.Find 3).map Prod.fst = some true ∧
      s.Insert 3 7 = some s := by
  cases h : callsNew [Call.insert 3] with
  | none =>
    have hsome : (callsNew [Call.insert 3]).isSome = true := by decide
    rw [h] at hsome
    cases hsome
  | some s =>
    have hk : (s.Find 3).map Prod.fst = some true :=
      (congrArg (fun o => o.bind (fun s => (s.Find 3).map Prod.fst)) h).symm.trans (by decide)
    exact ⟨s, rfl, hk, insert_present_noop [Call.insert 3] s 3 7 h hk⟩

/-- Claim C11: for a set reached by calls of the interface (the empty set included) and a
key `k` that `Find` does not find, `Erase(k)` succeeds and leaves `Size()`, the traversal,
the root, `begin_`, `rbegin_`, the sentinels and every node other than the two sentinels as
they were. -/
theorem erase_absent_noop (cs : List Call) (s : AVL) (k : Int)
    (hs : callsNew cs = some s) (hk : (s.Find k).map Prod.fst = some false) :
    ∃ s1, s.Erase k = some s1 ∧ s1.Size = s.Size ∧ s1.traversal = s.traversal ∧
      s1.root_ = s.root_ ∧ s1.begin_ = s.begin_ ∧ s1.rbegin_ = s.rbegin_ ∧
      s1.end_ = s.end_ ∧ s1.rend_ = s.rend_ ∧
      ∀ j, some j ≠ s.end_ → some j ≠ s.rend_ → s1.heap.cell j = s.heap.cell j := by
  obtain ⟨s', ctx, T, x1, x2⟩ := callsNew_inv cs
  rw [hs] at x1
  cases x1
  have hn : k ∉ T.keys := by
    intro hm
    have := (Find_map x2 k false hk).2 hm
    cases this
  obtain ⟨s1, y1, y2, y3, y4⟩ := Erase_absent x2 k hn
  by_cases hT : T = .nil
  · subst hT
    obtain ⟨s0, z1, z2, z3, z4, z5, z6, z7, z8⟩ := Find_nil x2 k
    have e1 : s.Erase k = some s0 := by
      simp only [AVL.Erase, z1, Option.bind_eq_bind, Option.some_bind, Option.pure_def,
        Bool.false_eq_true, not_false_eq_true, if_true]
    rw [e1] at y1
    cases y1
    exact ⟨s1, e1, z7, by rw [traversal_spec y2, traversal_spec x2], z2, z3, z4, z5, z6, z8⟩
  · have := y4 hT
    subst this
    exact ⟨s1, y1, rfl, rfl, rfl, rfl, rfl, rfl, rfl, fun _ _ _ => rfl⟩

/-- Witness for C11: the empty set and the key `1`. -/
theorem erase_absent_noop_witness :
    ∃ s, callsNew [] = some s ∧ (s.Find 1).map Prod.fst = some false ∧
      ∃ s1, s.Erase 1 = some s1 ∧ s1.Size = s.Size ∧ s1.traversal = s.traversal ∧
        s1.root_ = s.root_ ∧ s1.begin_ = s.begin_ ∧ s1.rbegin_ = s.rbegin_ ∧
        s1.end_ = s.end_ ∧ s1.rend_ = s.rend_ ∧
        ∀ j, some j ≠ s.end_ → some j ≠ s.rend_ → s1.heap.cell j = s.heap.cell j := by
  cases h : callsNew [] with
  | none =>
    have hsome : (callsNew []).isSome = true := by decide
    rw [h] at hsome
    cases hsome
  | some s =>
    have hk : (s.Find 1).map Prod.fst = some false :=
      (congrArg (fun o => o.bind (fun s => (s.Find 1).map Prod.fst)) h).symm.trans (by decide)
    exact ⟨s, rfl, hk, erase_absent_noop [] s 1 h hk⟩

/-- Claim C12, refuted by the code: in the set holding the single key `1000000000`,
`LowerBound(1)` returns `end()` although the stored key is not less than `1`. -/
theorem lowerBound_misses_large_key :
    (insertAll [1000000000]).bind (fun s => (s.SetLowerBound 1).map
      (fun p => (decide (p.1 = p.2.itEnd), s.traversal))) = some (true, some [1000000000]) := by
  decide

/-- Claim C13, refuted by the code: in the set holding the single key `5`, `UpperBound(-1)`
returns an iterator to the sentinel `rend_`, which dereferences to `0`: neither the node
holding `5` nor `end()`. -/
theorem upperBound_returns_sentinel :
    (insertAll [5]).bind (fun s => (s.SetUpperBound (-1)).map
      (fun p => (decide (p.1 = s.rend_), decide (p.1 = p.2.itEnd), p.2.deref p.1)))
      = some (true, false, some 0) := by
  decide

/-- Claim C14: in the set built by inserting `1,3,5,7`, `LowerBound(4)` dereferences to `5`,
`UpperBound(5)` to `7`, `LowerBound(8)` is `end()` and `UpperBound(0)` dereferences
to `1`. -/
theorem bound_queries_scenario :
    (insertAll [1, 3, 5, 7]).bind (fun s => (s.SetLowerBound 4).bind
      (fun p => p.2.deref p.1)) = some 5 ∧
    (insertAll [1, 3, 5, 7]).bind (fun s => (s.SetUpperBound 5).bind
      (fun p => p.2.deref p.1)) = some 7 ∧
    (insertAll [1, 3, 5, 7]).bind (fun s => (s.SetLowerBound 8).map
      (fun p => decide (p.1 = p.2.itEnd))) = some true ∧
    (insertAll [1, 3, 5, 7]).bind (fun s => (s.SetUpperBound 0).bind
      (fun p => p.2.deref p.1)) = some 1 := by
  decide

/-- Claim C15: in every set reached by `Insert` and `Erase` calls, `begin() == end()` holds
exactly when `Size()` is zero, and otherwise `*begin()` is a key that `Find` finds and that
is at most every key that `Find` finds. -/
theorem begin_is_minimum (ops : List Op) :
    ∃ s, runNew ops = some s ∧ (s.itBegin = s.itEnd ↔ s.Size = 0) ∧
      (s.Size ≠ 0 → ∃ m, s.deref s.itBegin = some m ∧ (s.Find m).map Prod.fst = some true ∧
        ∀ k, (s.Find k).map Prod.fst = some true → m ≤ k) := by
  obtain ⟨s, ctx, T, x1, x2⟩ := runNew_inv ops
  refine ⟨s, x1, ?_, ?_⟩
  · by_cases h0 : s.size_ = 0
    · simp [AVL.itBegin, AVL.itEnd, AVL.Empty, AVL.Size, h0]
    · have hT : T ≠ .nil := fun e => h0 ((Inv_root_none x2).2.2 e)
      obtain ⟨e, r, bi, rbi, ne, nr, he, hr, hb, hrb, e1, e2, hne0, r2, hnd2, hdep, hlen,
        hkeys⟩ := Inv_bound x2 hT
      have hbe : bi ≠ e := by
        intro e0
        have hm := minId_mem e1
        rw [e0] at hm
        have := hnd2
        simp only [List.singleton_append, List.cons_append, List.nodup_cons, List.mem_append,
          List.mem_singleton, List.nodup_append] at this
        exact this.2.2.2 hm (List.mem_singleton.2 rfl)
      simp only [AVL.itBegin, AVL.itEnd, AVL.Empty, AVL.Size, h0, decide_False,
        Bool.false_eq_true, if_false, hb, he, Option.some.injEq, hbe]
  · intro h0
    have hT : T ≠ .nil := fun e => h0 ((Inv_root_none x2).2.2 e)
    obtain ⟨e, r, bi, rbi, ne, nr, he, hr, hb, hrb, e1, e2, hne0, r2, hnd2, hdep, hlen,
      hkeys⟩ := Inv_bound x2 hT
    rw [minId_eq_head] at e1
    obtain ⟨m, hm1, n, hn1, hn2⟩ := Forall₂_head hkeys e1
    have hmem : m ∈ T.keys := List.mem_of_mem_head? hm1
    refine ⟨m, ?_, ?_, ?_⟩
    · have h1 : s.size_ ≠ 0 := h0
      simp only [AVL.deref, AVL.itBegin, AVL.Empty, AVL.Size, h1, decide_False,
        Bool.false_eq_true, if_false, hb, Heap.read, hn1, Option.map_some', hn2]
    · obtain ⟨s0, e0, _⟩ := Find_spec x2 m
      rw [e0]; simp [hmem]
    · intro k hk
      exact sorted_head_le (Inv_sorted x2) hm1 ((Find_map x2 k true hk).1 rfl)

/-- Claim C17, refuted by the code: for two distinct empty sets `a < b` returns true, and so
it does for `a` holding `5,6` and `b` holding `3,7`, where the first differing key of `a` is
the larger one. -/
theorem less_on_equal_sets :
    (callsNew []).bind (fun a => (callsOn a.heap []).bind
      (fun b => AVL.less b.heap a b)) = some true ∧
    (callsNew [Call.insert 5, Call.insert 6]).bind (fun a =>
      (callsOn a.heap [Call.insert 3, Call.insert 7]).bind (fun b =>
        (AVL.less b.heap a b).map (fun x =>
          (x, ({ a with heap := b.heap } : AVL).traversal, b.traversal))))
      = some (true, some [5, 6], some [3, 7]) := by
  decide

/-- Claim C20: after every sequence of `Insert`, `Erase` and `Clear` calls from the empty
set, `Size()` is zero exactly when `root_` is null. -/
theorem size_zero_iff_root_absent (cs : List Call) :
    ∃ s, callsNew cs = some s ∧ (s.Size = 0 ↔ s.root_ = none) := by
  obtain ⟨s, ctx, T, x1, x2⟩ := callsNew_inv cs
  refine ⟨s, x1, ?_⟩
  show s.size_ = 0 ↔ _
  rw [(Inv_root_none x2).1, (Inv_root_none x2).2]

theorem collect_nil_inv {f : Nat} {h : Heap} {e it : Option Nat}
    (hc : collect f h e it = some []) : it = e := by
  cases f with
  | zero => simp [collect] at hc
  | succ f =>
    by_contra hne
    simp only [collect, hne, if_false, Option.bind_eq_bind, Option.pure_def] at hc
    cases h1 : h.read it with
    | none => simp [h1] at hc
    | some n =>
      cases h2 : itNext h it with
      | none => simp [h1, h2] at hc
      | some nx =>
        cases h3 : collect f h e nx with
        | none => simp [h1, h2, h3] at hc
        | some ks => simp [h1, h2, h3] at hc

theorem collect_cons_inv {f : Nat} {h : Heap} {e it : Option Nat} {k : Int} {ks : List Int}
    (hc : collect f h e it = some (k :: ks)) :
    it ≠ e ∧ ∃ g n nx, f = g + 1 ∧ h.read it = some n ∧ n.key = k ∧ itNext h it = some nx ∧
      collect g h e nx = some ks := by
  cases f with
  | zero => simp [collect] at hc
  | succ f =>
    by_cases hne : it = e
    · simp [collect, hne] at hc
    · refine ⟨hne, f, ?_⟩
      simp only [collect, hne, if_false, Option.bind_eq_bind, Option.pure_def] at hc
      cases h1 : h.read it with
      | none => simp [h1] at hc
      | some n =>
        cases h2 : itNext h it with
        | none => simp [h1, h2] at hc
        | some nx =>
          cases h3 : collect f h e nx with
          | none => simp [h1, h2, h3] at hc
          | some ks1 =>
            simp only [h1, h2, h3, Option.some_bind, Option.some.injEq, List.cons.injEq] at hc
            exact ⟨n, nx, rfl, rfl, hc.1, rfl, by rw [h3, hc.2]⟩

theorem positions_inv {f : Nat} {h : Heap} {e it : Option Nat} {ps : List (Option Nat)}
    (hp : positions f h e it = some ps) (hne : it ≠ e) :
    ∃ g nx qs, f = g + 1 ∧ itNext h it = some nx ∧ positions g h e nx = some qs ∧
      ps = it :: qs := by
  cases f with
  | zero => simp [positions] at hp
  | succ f =>
    simp only [positions, hne, if_false, Option.bind_eq_bind, Option.pure_def] at hp
    cases h2 : itNext h it with
    | none => simp [h2] at hp
    | some nx =>
      cases h3 : positions f h e nx with
      | none => simp [h2, h3] at hp
      | some qs =>
        simp only [h2, h3, Option.some_bind, Option.some.injEq] at hp
        exact ⟨f, nx, qs, rfl, rfl, h3, hp.symm⟩

theorem lessLoop_prefix {h : Heap} {e1 e2 : Option Nat} : ∀ (ka : List Int) (f1 f2 f3 f : Nat)
    (it1 it2 : Option Nat) (x : Int) (rest : List Int) (ps : List (Option Nat)),
    collect f1 h e1 it1 = some ka → collect f2 h e2 it2 = some (ka ++ x :: rest) →
    positions f3 h e2 it2 = some ps → ka.length < f →
    ∃ p, lessLoop f h e1 e2 it1 it2 = some (false, e1, p) ∧ p ∈ ps := by
  intro ka
  induction ka with
  | nil =>
    intro f1 f2 f3 f it1 it2 x rest ps c1 c2 c3 hf
    have h1 := collect_nil_inv c1
    obtain ⟨h2, _⟩ := collect_cons_inv c2
    obtain ⟨g, nx, qs, _, _, _, hps⟩ := positions_inv c3 h2
    obtain ⟨f0, rfl⟩ : ∃ f0, f = f0 + 1 := ⟨f - 1, by simp at hf; omega⟩
    refine ⟨it2, ?_, by rw [hps]; simp⟩
    simp [lessLoop, h1]
  | cons k ka ih =>
    intro f1 f2 f3 f it1 it2 x rest ps c1 c2 c3 hf
    obtain ⟨n1, g1, m1, a, rfl, r1, k1, x1, y1⟩ := collect_cons_inv c1
    obtain ⟨n2, g2, m2, b, rfl, r2, k2, x2, y2⟩ := collect_cons_inv c2
    obtain ⟨g3, nx, qs, rfl, x3, y3, hps⟩ := positions_inv c3 n2
    rw [x2] at x3
    cases x3
    obtain ⟨f0, rfl⟩ : ∃ f0, f = f0 + 1 := ⟨f - 1, by simp at hf; omega⟩
    obtain ⟨p, e0, hp⟩ := ih g1 g2 g3 f0 a b x rest qs y1 y2 y3 (by simp at hf; omega)
    refine ⟨p, ?_, by rw [hps]; exact List.mem_cons_of_mem _ hp⟩
    have hk : ¬ m1.key < m2.key := by rw [k1, k2]; exact lt_irrefl k
    simp only [lessLoop, n1, n2, ne_eq, not_false_eq_true, and_self, if_true, r1, r2,
      Option.bind_eq_bind, Option.some_bind, hk, if_false, x1, x2, e0]

/-- Claim C18: for two sets whose nodes live in one store, if the traversal of `a` is a
strict prefix of the traversal of `b` and `end()` of `a` is none of the iterators the
traversal of `b` passes through (they are distinct objects), then `a < b` returns true. -/
theorem less_of_strict_prefix (h : Heap) (a b : AVL) (ka kb : List Int)
    (ps : List (Option Nat))
    (ha : ({ a with heap := h } : AVL).traversal = some ka)
    (hb : ({ b with heap := h } : AVL).traversal = some kb)
    (hps : positions (h.next + 1) h b.itEnd b.itBegin = some ps)
    (hd : a.itEnd ∉ ps)
    (hpre : ∃ x rest, kb = ka ++ x :: rest) :
    AVL.less h a b = some true := by
  obtain ⟨x, rest, rfl⟩ := hpre
  have c1 : collect (h.next + 1) h a.itEnd a.itBegin = some ka := ha
  have c2 : collect (h.next + 1) h b.itEnd b.itBegin = some (ka ++ x :: rest) := hb
  have hlen : ka.length < h.next + 1 := by
    have : ∀ (ks : List Int) (f : Nat) (it : Option Nat),
        collect f h a.itEnd it = some ks → ks.length < f := by
      intro ks
      induction ks with
      | nil =>
        intro f it hc
        cases f with
        | zero => simp [collect] at hc
        | succ f => simp
      | cons k ks ih =>
        intro f it hc
        obtain ⟨_, g, n, nx, rfl, _, _, _, y⟩ := collect_cons_inv hc
        have := ih g nx y
        simp only [List.length_cons]
        omega
    exact this ka _ _ c1
  obtain ⟨p, e0, hp⟩ := lessLoop_prefix ka _ _ _ (h.next + 1) _ _ x rest ps c1 c2 hps hlen
  have hne : p ≠ a.itEnd := fun e => hd (e ▸ hp)
  simp only [AVL.less, e0, Option.bind_eq_bind, Option.some_bind, Option.pure_def,
    Bool.false_eq_true, not_false_eq_true, true_and, ne_eq, hne, if_true]

/-- Witness for C18: `a` holds `1`, and `b`, built afterwards in the same store, holds
`1, 2`. -/
theorem less_of_strict_prefix_witness :
    ∃ a b, callsNew [Call.insert 1] = some a ∧
      callsOn a.heap [Call.insert 1, Call.insert 2] = some b ∧
      ({ a with heap := b.heap } : AVL).traversal = some [1] ∧ b.traversal = some [1, 2] ∧
      AVL.less b.heap a b = some true := by
  cases h1 : callsNew [Call.insert 1] with
  | none =>
    have hsome : (callsNew [Call.insert 1]).isSome = true := by decide
    rw [h1] at hsome
    cases hsome
  | some a =>
    cases h2 : callsOn a.heap [Call.insert 1, Call.insert 2] with
    | none =>
      have hsome := (congrArg (fun o => o.bind (fun a =>
        (callsOn a.heap [Call.insert 1, Call.insert 2]).map (fun _ => true))) h1).symm.trans
        (show _ = some true by decide)
      simp only [Option.some_bind, h2, Option.map_none'] at hsome
      cases hsome
    | some b =>
      have ev := (congrArg (fun o => o.bind (fun a =>
        (callsOn a.heap [Call.insert 1, Call.insert 2]).bind (fun b =>
          (positions (b.heap.next + 1) b.heap b.itEnd b.itBegin).map (fun ps =>
            (ps, a.itEnd, ({ a with heap := b.heap } : AVL).traversal, b.traversal))))) h1).symm.trans
        (show _ = some ([some 5, some 6], some 0, some ([1] : List Int),
          some ([1, 2] : List Int)) by decide)
      simp only [Option.some_bind, h2] at ev
      cases hp : positions (b.heap.next + 1) b.heap b.itEnd b.itBegin with
      | none => rw [hp] at ev; cases ev
      | some ps =>
        rw [hp] at ev
        simp only [Option.map_some', Option.some.injEq, Prod.mk.injEq] at ev
        obtain ⟨e1, e2, e3, e4⟩ := ev
        refine ⟨a, b, rfl, h2, e3, e4, less_of_strict_prefix b.heap a b [1] [1, 2] ps e3 e4 hp
          ?_ ⟨2, [], rfl⟩⟩
        rw [e2, e1]
        decide

theorem inorder_spec : ∀ (t : PT) (fuel : Nat) (h : Heap) (par : Option Nat), Repr h par t →
    t.depth < fuel → inorder fuel h t.root = some t.ids := by
  intro t
  induction t with
  | nil =>
    intro fuel h par _ hd
    cases fuel with
    | zero => omega
    | succ f => rfl
  | node l i k d ht r ihl ihr =>
    intro fuel h par hr hd
    cases fuel with
    | zero => omega
    | succ f =>
      simp only [PT.depth] at hd
      have e1 := ihl f h (some i) hr.2.1 (by omega)
      have e2 := ihr f h (some i) hr.2.2 (by omega)
      simp only [PT.root_node, inorder, hr.1, Option.bind_eq_bind, Option.some_bind, e1, e2,
        Option.pure_def, PT.ids_node]

theorem Repr_links {h : Heap} : ∀ (t : PT) (par : Option Nat), Repr h par t →
    ∀ i ∈ t.ids, linkOK h i = true := by
  intro t
  induction t with
  | nil => intro _ _ i hi; simp at hi
  | node l x k d ht r ihl ihr =>
    intro par hr i hi
    simp only [PT.ids_node, List.mem_append, List.mem_cons] at hi
    rcases hi with hi | hi | hi
    · exact ihl _ hr.2.1 i hi
    · subst hi
      have hl : childOK h i l.root = true := by
        cases l with
        | nil => rfl
        | node ll li lk ld lh lr => simp [childOK, hr.2.1.1]
      have hrr : childOK h i r.root = true := by
        cases r with
        | nil => rfl
        | node rl ri rk rd rh rr => simp [childOK, hr.2.2.1]
      simp [linkOK, hr.1, hl, hrr]
    · exact ihr _ hr.2.2 i hi

theorem allNodes_spec {s : AVL} {ctx : List Frame} {T : PT} (inv : Inv s ctx T) (hT : T ≠ .nil) :
    ∃ e r, s.end_ = some e ∧ s.rend_ = some r ∧ s.allNodes = some ([r] ++ T.ids ++ [e]) ∧
      ([r] ++ T.ids ++ [e]).Nodup ∧ ∀ i ∈ [r] ++ T.ids ++ [e], linkOK s.heap i = true := by
  obtain ⟨e, r, bi, rbi, ne, nr, he, hr, hb, hrb, e1, e2, hne0, r2, hnd2, hdep, hlen, hkeys⟩ :=
    Inv_bound inv hT
  have hids : (attachR (.node .nil e ne.key ne.data ne.height .nil)
      (attachL (.node .nil r nr.key nr.data nr.height .nil) T)).ids = [r] ++ T.ids ++ [e] := by
    rw [attachR_ids, attachL_ids]; simp
  have hne1 : attachL (.node .nil r nr.key nr.data nr.height .nil) T ≠ .nil := by
    cases T with
    | nil => exact absurd rfl hT
    | node l x k d ht rt => simp [attachL]
  have hroot : (attachR (.node .nil e ne.key ne.data ne.height .nil)
      (attachL (.node .nil r nr.key nr.data nr.height .nil) T)).root = s.root_ := by
    rw [attachR_root _ _ hne1, attachL_root _ _ hT]
    obtain ⟨_, _, _, _, _, x, _⟩ := inv
    exact x.symm
  refine ⟨e, r, he, hr, ?_, hnd2, ?_⟩
  · have := inorder_spec _ (s.heap.next + 1) s.heap _ r2 (by omega)
    rw [hroot, hids] at this
    exact this
  · intro i hi
    rw [← hids] at hi
    exact Repr_links _ _ r2 i hi

theorem realNodes_spec {s : AVL} {ctx : List Frame} {T : PT} (inv : Inv s ctx T) :
    s.realNodes = some T.ids := by
  by_cases hT : T = .nil
  · subst hT
    have h0 := (Inv_root_none inv).1.2 rfl
    simp [AVL.realNodes, AVL.allNodes, h0, inorder]
  · obtain ⟨e, r, he, hr, ha, hnd, _⟩ := allNodes_spec inv hT
    simp only [AVL.realNodes, ha, he, hr, Option.map_some', Option.some.injEq]
    have h2 := hnd
    rw [List.append_assoc, List.singleton_append, List.nodup_cons] at h2
    obtain ⟨hr1, h3⟩ := h2
    rw [List.nodup_append] at h3
    have hTe := h3.2.2
    have hrT : r ∉ T.ids := fun hm => hr1 (List.mem_append_left _ hm)
    have hall : ∀ i ∈ T.ids, decide (some i ≠ some e ∧ some i ≠ some r) = true := by
      intro i hi
      simp only [ne_eq, Option.some.injEq, decide_eq_true_eq]
      constructor
      · intro e0; subst e0; exact hTe hi (List.mem_singleton.2 rfl)
      · intro e0; subst e0; exact hrT hi
    have h1 : T.ids.filter (fun i => decide (some i ≠ some e ∧ some i ≠ some r)) = T.ids :=
      List.filter_eq_self.2 hall
    rw [List.filter_append, List.filter_append, h1]
    simp

theorem execs_inv : ∀ (cs : List Cmd) (s : AVL) (ctx : List Frame) (T : PT), Inv s ctx T →
    ∃ s1 ctx1 T1, AVL.execs cs s = some s1 ∧ Inv s1 ctx1 T1 := by
  intro cs
  induction cs with
  | nil => intro s ctx T inv; exact ⟨s, ctx, T, rfl, inv⟩
  | cons c cs ih =>
    intro s ctx T inv
    have step : ∃ s1 ctx1 T1, s.exec c = some s1 ∧ Inv s1 ctx1 T1 := by
      cases c with
      | insert k =>
        by_cases hk : k ∈ T.keys
        · exact ⟨s, ctx, T, Insert_present inv k k hk, inv⟩
        · obtain ⟨s1, n, x1, x2, _⟩ := Insert_absent inv k k hk
          exact ⟨s1, ctx, _, x1, x2⟩
      | erase k => exact Erase_spec inv k
      | find k =>
        obtain ⟨s0, x1, x2, _⟩ := Find_spec inv k
        exact ⟨s0, ctx, T, by simp only [AVL.exec, x1, Option.map_some'], x2⟩
    obtain ⟨s1, ctx1, T1, x1, x2⟩ := step
    obtain ⟨s2, ctx2, T2, y1, y2⟩ := ih s1 ctx1 T1 x2
    exact ⟨s2, ctx2, T2, by simp only [AVL.execs, x1, Option.some_bind]; exact y1, y2⟩

theorem execsNew_inv (cs : List Cmd) : ∃ s ctx T, execsNew cs = some s ∧ Inv s ctx T := by
  obtain ⟨s0, e0, i0, _⟩ := new_spec
  obtain ⟨s, ctx, T, x1, x2⟩ := execs_inv cs s0 [] .nil i0
  exact ⟨s, ctx, T, by simp only [execsNew, e0, Option.some_bind]; exact x1, x2⟩

theorem sidesOK_spec {s : AVL} {ctx : List Frame} {T : PT} (inv : Inv s ctx T) (hT : T ≠ .nil) :
    s.sidesOK = some true := by
  obtain ⟨e, r, bi, rbi, ne, nr, he, hr, hb, hrb, e1, e2, hne0, r2, hnd2, hdep, hlen, hkeys,
    ⟨me, ce, pe, _⟩, ⟨mr, cr, pr, _⟩, ⟨mb, cb, lb⟩, ⟨mrb, crb, rrb⟩, _⟩ := Inv_bound_sent inv hT
  rw [minId_eq_head] at e1
  rw [maxId_eq_getLast] at e2
  simp [AVL.sidesOK, realNodes_spec inv, he, hr, hb, hrb, Heap.read, ce, cr, cb, crb, pe, pr,
    lb, rrb, e1, e2]

/-- Claim C22: after every sequence of `Insert`, `Erase` and `Find` calls on a new set that
leaves the tree non-empty, `begin_` and `rbegin_` are the first and the last real node
reachable from the root in symmetric order, the left slot of `begin_` holds `rend_` with
`rend_->parent == begin_`, and the right slot of `rbegin_` holds `end_` with
`end_->parent == rbegin_`. -/
theorem sentinels_attached (cs : List Cmd) :
    ∃ s, execsNew cs = some s ∧ (s.root_ ≠ none → s.sidesOK = some true) := by
  obtain ⟨s, ctx, T, x1, x2⟩ := execsNew_inv cs
  refine ⟨s, x1, fun h0 => sidesOK_spec x2 (fun e => h0 ((Inv_root_none x2).1.2 e))⟩

/-- Claim C23: after every sequence of `Insert` and `Erase` calls on a new set, every node
reachable from the root, the sentinels included, is the parent named by its left child and
by its right child, when present. -/
theorem parent_links_consistent (ops : List Op) :
    ∃ s, runNew ops = some s ∧ s.linksOK = some true := by
  obtain ⟨s, ctx, T, x1, x2⟩ := runNew_inv ops
  refine ⟨s, x1, ?_⟩
  by_cases hT : T = .nil
  · subst hT
    have h0 := (Inv_root_none x2).1.2 rfl
    simp [AVL.linksOK, AVL.allNodes, h0, inorder]
  · obtain ⟨e, r, _, _, ha, _, hl⟩ := allNodes_spec x2 hT
    simp only [AVL.linksOK, ha, Option.map_some', Option.some.injEq, List.all_eq_true]
    exact hl

theorem Inv_sentinels {s : AVL} {ctx : List Frame} {T : PT} (inv : Inv s ctx T) :
    ∃ (e r : Nat) (me mr : Node) (t : PT) (par : Option Nat), s.end_ = some e ∧
      s.rend_ = some r ∧ e ≠ r ∧ s.heap.cell e = some me ∧ s.heap.cell r = some mr ∧
      me.key = 0 ∧ mr.key = 0 ∧ Repr s.heap par t ∧ t.root = s.root_ ∧
      t.depth ≤ s.heap.next := by
  by_cases hT : T = .nil
  · subst hT
    obtain ⟨e, r, hc, he, hr, hroot, hb, hrb, hsz, wf, hcut, hbind⟩ := inv
    obtain ⟨heap, root, b, e1, rb, r1, sz⟩ := s
    simp only [PT.root_nil, PT.minId, PT.maxId] at he hr hroot hb hrb hsz hcut
    subst he hr hroot hb hrb
    have hc0 : hc = heap := by
      simp only [AVL.CutMockNode, Option.bind_eq_bind, Option.some_bind, Option.pure_def,
        Option.some.injEq, AVL.mk.injEq, and_true, true_and] at hcut
      exact hcut.symm
    subst hc0
    obtain ⟨ne, ce, _, _, _, ke⟩ := wf.endc
    obtain ⟨nr, cr, _, _, _, kr⟩ := wf.rendc
    have her : e ≠ r := by
      have := wf.nodup
      have hctx : ctx = [] := wf.nonempty rfl
      subst hctx
      simp [ctxIds] at this
      exact this
    exact ⟨e, r, ne, nr, .nil, none, rfl, rfl, her, ce, cr, ke, kr, trivial, rfl,
      Nat.zero_le _⟩
  · obtain ⟨e, r, bi, rbi, ne, nr, he, hr, hb, hrb, e1, e2, hne0, r2, hnd2, hdep, hlen, hkeys,
      ⟨me, ce, pe, ke, _⟩, ⟨mr, cr, pr, kr, _⟩, _⟩ := Inv_bound_sent inv hT
    have hne1 : attachL (.node .nil r nr.key nr.data nr.height .nil) T ≠ .nil := by
      cases T with
      | nil => exact absurd rfl hT
      | node l x k d ht rt => simp [attachL]
    have hroot : (attachR (.node .nil e ne.key ne.data ne.height .nil)
        (attachL (.node .nil r nr.key nr.data nr.height .nil) T)).root = s.root_ := by
      rw [attachR_root _ _ hne1, attachL_root _ _ hT]
      obtain ⟨_, _, _, _, _, x, _⟩ := inv
      exact x.symm
    have her : e ≠ r := by
      intro e0
      subst e0
      have h2 := hnd2
      rw [List.append_assoc, List.singleton_append, List.nodup_cons] at h2
      exact h2.1 (List.mem_append_right _ (List.mem_singleton.2 rfl))
    exact ⟨e, r, me, mr, _, _, he, hr, her, ce, cr, ke, kr, r2, hroot, hdep⟩

theorem LowerBound_total {h h1 : Heap} (x : Int)
    (hsh : ∀ j n, h.cell j = some n → ∃ n1, h1.cell j = some n1 ∧ n1.left = n.left ∧
      n1.right = n.right) :
    ∀ (t : PT) (fuel : Nat) (par lb : Option Nat), Repr h par t → t.depth < fuel →
      (∃ n, h1.read lb = some n) → ∃ p, LowerBound fuel h1 t.root lb x = some p := by
  intro t
  induction t with
  | nil =>
    intro fuel par lb _ hd _
    cases fuel with
    | zero => omega
    | succ f => exact ⟨lb, rfl⟩
  | node l i k d ht r ihl ihr =>
    intro fuel par lb hr hd hlb
    cases fuel with
    | zero => omega
    | succ f =>
      simp only [PT.depth] at hd
      obtain ⟨n1, c1, l1, r1⟩ := hsh i _ hr.1
      simp only at l1 r1
      obtain ⟨nlb, clb⟩ := hlb
      by_cases hk : n1.key < x
      · obtain ⟨p, hp⟩ := ihr f (some i) lb hr.2.2 (by omega) ⟨nlb, clb⟩
        refine ⟨p, ?_⟩
        simp only [PT.root_node, LowerBound, c1, Option.bind_eq_bind, Option.some_bind, hk,
          not_true_eq_false, if_false, r1]
        exact hp
      · obtain ⟨p, hp⟩ := ihl f (some i) (if ¬ (nlb.key < n1.key) then some i else lb) hr.2.1
          (by omega) (by
            split
            · exact ⟨n1, c1⟩
            · exact ⟨nlb, clb⟩)
        refine ⟨p, ?_⟩
        simp only [PT.root_node, LowerBound, c1, Option.bind_eq_bind, Option.some_bind, hk,
          not_false_eq_true, if_true, clb, l1]
        exact hp

theorem UpperBound_total {h h1 : Heap} (x : Int)
    (hsh : ∀ j n, h.cell j = some n → ∃ n1, h1.cell j = some n1 ∧ n1.left = n.left ∧
      n1.right = n.right) :
    ∀ (t : PT) (fuel : Nat) (par ub : Option Nat), Repr h par t → t.depth < fuel →
      (∃ n, h1.read ub = some n) → ∃ p, UpperBound fuel h1 t.root ub x = some p := by
  intro t
  induction t with
  | nil =>
    intro fuel par ub _ hd _
    cases fuel with
    | zero => omega
    | succ f => exact ⟨ub, rfl⟩
  | node l i k d ht r ihl ihr =>
    intro fuel par ub hr hd hub
    cases fuel with
    | zero => omega
    | succ f =>
      simp only [PT.depth] at hd
      obtain ⟨n1, c1, l1, r1⟩ := hsh i _ hr.1
      simp only at l1 r1
      obtain ⟨nub, cub⟩ := hub
      by_cases hk : x < n1.key
      · obtain ⟨p, hp⟩ := ihl f (some i) (if n1.key < nub.key then some i else ub) hr.2.1
          (by omega) (by
            split
            · exact ⟨n1, c1⟩
            · exact ⟨nub, cub⟩)
        refine ⟨p, ?_⟩
        simp only [PT.root_node, UpperBound, c1, Option.bind_eq_bind, Option.some_bind, hk,
          if_true, cub, l1]
        exact hp
      · obtain ⟨p, hp⟩ := ihr f (some i) ub hr.2.2 (by omega) ⟨nub, cub⟩
        refine ⟨p, ?_⟩
        simp only [PT.root_node, UpperBound, c1, Option.bind_eq_bind, Option.some_bind, hk,
          if_false, r1]
        exact hp

theorem write_shape {h : Heap} {i : Nat} {m : Node} (f : Node → Node) (hc : h.cell i = some m)
    (hl : (f m).left = m.left) (hr : (f m).right = m.right) :
    ∀ j n, h.cell j = some n → ∃ n1, (h.write i (f m)).cell j = some n1 ∧ n1.left = n.left ∧
      n1.right = n.right := by
  intro j n hn
  by_cases hj : j = i
  · subst hj
    rw [hc] at hn
    cases hn
    exact ⟨f m, by simp, hl, hr⟩
  · exact ⟨n, by simp [hj, hn], rfl, rfl⟩

/-- Claim C29: in every set reached by `Insert` and `Erase` calls on a new set, the const
overload of `Set::LowerBound` returns and leaves the key `kInf` in the sentinel `rend_` (it
assigns `Key()` to the key of `end_` instead), while the non-const `LowerBound` and
`UpperBound` return and leave the key `Key()`, which is `0`, in both sentinels. -/
theorem lowerBound_const_leaves_kInf (ops : List Op) (x : Int) :
    ∃ s, runNew ops = some s ∧
      (∃ p s1, s.SetLowerBoundConst x = some (p, s1) ∧ s1.rendKey = some kInf ∧
        s1.endKey = some 0) ∧
      (∃ p s1, s.SetLowerBound x = some (p, s1) ∧ s1.rendKey = some 0 ∧ s1.endKey = some 0) ∧
      (∃ p s1, s.SetUpperBound x = some (p, s1) ∧ s1.rendKey = some 0 ∧
        s1.endKey = some 0) := by
  obtain ⟨s, ctx, T, x1, x2⟩ := runNew_inv ops
  obtain ⟨e, r, me, mr, t, par, he, hr, her, ce, cr, ke, kr, rp, hroot, hdep⟩ := Inv_sentinels x2
  have hre : r ≠ e := fun e0 => her e0.symm
  have shr := write_shape (h := s.heap) (fun n => { n with key := kInf }) cr rfl rfl
  have she := write_shape (h := s.heap) (fun n => { n with key := kInf }) ce rfl rfl
  beta_reduce at shr she
  obtain ⟨p1, hp1⟩ := LowerBound_total x shr t (s.heap.next + 1) par (some r) rp (by omega)
    ⟨{ mr with key := kInf }, by simp [Heap.read]⟩
  obtain ⟨p2, hp2⟩ := UpperBound_total x she t (s.heap.next + 1) par (some e) rp (by omega)
    ⟨{ me with key := kInf }, by simp [Heap.read]⟩
  rw [hroot] at hp1 hp2
  refine ⟨s, x1,
    ⟨if p1 = s.rend_ then s.end_ else p1,
      ⟨(s.heap.write r { mr with key := kInf }).write e { me with key := 0 }, s.root_,
        s.begin_, s.end_, s.rbegin_, s.rend_, s.size_⟩, ?_, ?_, ?_⟩,
    ⟨if p1 = s.rend_ then s.end_ else p1,
      ⟨(s.heap.write r { mr with key := kInf }).write r
        ⟨mr.left, mr.right, mr.parent, mr.height, 0, mr.data⟩, s.root_,
        s.begin_, s.end_, s.rbegin_, s.rend_, s.size_⟩, ?_, ?_, ?_⟩,
    ⟨p2, ⟨(s.heap.write e { me with key := kInf }).write e
        ⟨me.left, me.right, me.parent, me.height, 0, me.data⟩, s.root_,
        s.begin_, s.end_, s.rbegin_, s.rend_, s.size_⟩, ?_, ?_, ?_⟩⟩
  · simp only [AVL.SetLowerBoundConst, hr, he, Heap.modify, cr, Option.bind_eq_bind,
      Option.some_bind, write_next, hp1, write_cell, her, if_false, ce, Option.pure_def]
  · simp [AVL.rendKey, hr, Heap.read, hre]
  · simp [AVL.endKey, he, Heap.read]
  · simp only [AVL.SetLowerBound, hr, he, Heap.modify, cr, Option.bind_eq_bind,
      Option.some_bind, write_next, hp1, write_cell, if_true, Option.pure_def]
  · simp [AVL.rendKey, hr, Heap.read]
  · simp [AVL.endKey, he, Heap.read, her, ce, ke]
  · simp only [AVL.SetUpperBound, hr, he, Heap.modify, ce, Option.bind_eq_bind,
      Option.some_bind, write_next, hp2, write_cell, if_true, Option.pure_def]
  · simp [AVL.rendKey, hr, Heap.read, hre, cr, kr]
  · simp [AVL.endKey, he, Heap.read]

theorem good_node_iff (l r : PT) (i : Nat) (k d : Int) (ht : Nat) :
    (PT.node l i k d ht r).good = true ↔
      ht = 1 + max l.ht r.ht ∧ (l.ht ≤ r.ht + 1 ∧ r.ht ≤ l.ht + 1) ∧ l.good = true ∧
        r.good = true := by
  simp [PT.good, and_assoc]

theorem pBal_good {l r : PT} (a : Nat) (ka da : Int) (ha : Nat) (hl : l.good = true)
    (hr : r.good = true) (hd : l.ht ≤ r.ht + 2 ∧ r.ht ≤ l.ht + 2)
    (hh : ha = 1 + max l.ht r.ht) :
    (pBal (.node l a ka da ha r)).good = true ∧
      ((pBal (.node l a ka da ha r)).ht = ha ∨ (pBal (.node l a ka da ha r)).ht + 1 = ha) ∧
      ((l.ht ≤ r.ht + 1 ∧ r.ht ≤ l.ht + 1) → (pBal (.node l a ka da ha r)).ht = ha) := by
  by_cases h1 : ((l.ht : Int) - (r.ht : Int)) = -2
  · cases r with
    | nil => simp only [PT.ht_nil] at h1; omega
    | node q b kb db hb rr =>
      rw [good_node_iff] at hr
      obtain ⟨e1, e2, gq, grr⟩ := hr
      simp only [PT.ht_node] at h1 hd hh
      by_cases h2 : ((q.ht : Int) - (rr.ht : Int)) = 1
      · cases q with
        | nil => simp only [PT.ht_nil] at h2; omega
        | node ql c kc dc hc qr =>
          rw [good_node_iff] at gq
          obtain ⟨f1, f2, gql, gqr⟩ := gq
          simp only [PT.ht_node] at h2 e1 e2
          have hb1 : pBal (.node l a ka da ha (.node (.node ql c kc dc hc qr) b kb db hb rr))
              = pRotL (.node l a ka da ha (pRotR (.node (.node ql c kc dc hc qr) b kb db hb rr))) := by
            simp [pBal, pDiff, h1, h2]
          rw [hb1]
          simp only [pRotR, pRotL, good_node_iff, PT.ht_node, hl, gql, gqr, grr, and_true, true_and]
          omega
      · have hb1 : pBal (.node l a ka da ha (.node q b kb db hb rr))
            = pRotL (.node l a ka da ha (.node q b kb db hb rr)) := by
          simp [pBal, pDiff, h1, h2]
        rw [hb1]
        simp only [pRotL, good_node_iff, PT.ht_node, hl, gq, grr, and_true, true_and]
        omega
  · by_cases h3 : ((l.ht : Int) - (r.ht : Int)) = 2
    · cases l with
      | nil => simp only [PT.ht_nil] at h3; omega
      | node ll b kb db hb q =>
        rw [good_node_iff] at hl
        obtain ⟨e1, e2, gll, gq⟩ := hl
        simp only [PT.ht_node] at h1 h3 hd hh
        by_cases h2 : ((ll.ht : Int) - (q.ht : Int)) = -1
        · cases q with
          | nil => simp only [PT.ht_nil] at h2; omega
          | node ql c kc dc hc qr =>
            rw [good_node_iff] at gq
            obtain ⟨f1, f2, gql, gqr⟩ := gq
            simp only [PT.ht_node] at h2 e1 e2
            have hb1 : pBal (.node (.node ll b kb db hb (.node ql c kc dc hc qr)) a ka da ha r)
                = pRotR (.node (pRotL (.node ll b kb db hb (.node ql c kc dc hc qr)))
                  a ka da ha r) := by
              simp [pBal, pDiff, h3, h2]
            rw [hb1]
            simp only [pRotR, pRotL, good_node_iff, PT.ht_node, hr, gql, gqr, gll, and_true, true_and]
            omega
        · have hb1 : pBal (.node (.node ll b kb db hb q) a ka da ha r)
              = pRotR (.node (.node ll b kb db hb q) a ka da ha r) := by
            simp [pBal, pDiff, h3, h2]
          rw [hb1]
          simp only [pRotR, good_node_iff, PT.ht_node, hr, gq, gll, and_true, true_and]
          omega
    · have hb1 : pBal (.node l a ka da ha r) = .node l a ka da ha r := by
        simp [pBal, pDiff, h1, h3]
      rw [hb1]
      refine ⟨?_, Or.inl rfl, fun _ => rfl⟩
      rw [good_node_iff]
      exact ⟨hh, ⟨by omega, by omega⟩, hl, hr⟩

theorem pIns_good (nid : Nat) (k d : Int) : ∀ (t : PT), t.good = true →
    (pIns nid k d t).good = true ∧
      ((pIns nid k d t).ht = t.ht ∨ (pIns nid k d t).ht = t.ht + 1) := by
  intro t
  induction t with
  | nil => intro _; simp [pIns, PT.good]
  | node l x kx dx ht r ihl ihr =>
    intro hg
    rw [good_node_iff] at hg
    obtain ⟨e1, e2, gl, gr⟩ := hg
    by_cases h1 : k < kx
    · obtain ⟨g1, g2⟩ := ihl gl
      obtain ⟨b1, b2, b3⟩ := pBal_good (l := pIns nid k d l) (r := r) x kx dx
        (max (pIns nid k d l).ht r.ht + 1) g1 gr (by omega) (by omega)
      simp only [pIns, h1, if_true, pUpd, PT.ht_node]
      refine ⟨b1, ?_⟩
      by_cases h4 : (pIns nid k d l).ht ≤ r.ht + 1 ∧ r.ht ≤ (pIns nid k d l).ht + 1
      · have := b3 h4
        omega
      · omega
    · by_cases h2 : kx < k
      · obtain ⟨g1, g2⟩ := ihr gr
        obtain ⟨b1, b2, b3⟩ := pBal_good (l := l) (r := pIns nid k d r) x kx dx
          (max l.ht (pIns nid k d r).ht + 1) gl g1 (by omega) (by omega)
        simp only [pIns, h1, h2, if_true, if_false, pUpd, PT.ht_node]
        refine ⟨b1, ?_⟩
        by_cases h4 : l.ht ≤ (pIns nid k d r).ht + 1 ∧ (pIns nid k d r).ht ≤ l.ht + 1
        · have := b3 h4
          omega
        · omega
      · obtain ⟨b1, b2, b3⟩ := pBal_good (l := l) (r := r) x kx dx (max l.ht r.ht + 1) gl gr
          (by omega) (by omega)
        simp only [pIns, h1, h2, if_false, pUpd, PT.ht_node]
        refine ⟨b1, ?_⟩
        have := b3 e2
        omega

theorem good_ht_sh : ∀ (t : PT), t.good = true → t.ht = t.sh := by
  intro t
  induction t with
  | nil => intro _; rfl
  | node l x k d ht r ihl ihr =>
    intro hg
    rw [good_node_iff] at hg
    obtain ⟨e1, _, gl, gr⟩ := hg
    simp only [PT.ht_node, PT.sh, e1, ihl gl, ihr gr]

theorem inorderKeys_spec : ∀ (t : PT) (fuel : Nat) (h : Heap) (par : Option Nat),
    Repr h par t → t.depth < fuel → inorderKeys fuel h t.root = some t.keys := by
  intro t
  induction t with
  | nil =>
    intro fuel h par _ hd
    cases fuel with
    | zero => omega
    | succ f => rfl
  | node l i k d ht r ihl ihr =>
    intro fuel h par hr hd
    cases fuel with
    | zero => omega
    | succ f =>
      simp only [PT.depth] at hd
      have e1 := ihl f h (some i) hr.2.1 (by omega)
      have e2 := ihr f h (some i) hr.2.2 (by omega)
      simp only [PT.root_node, inorderKeys, hr.1, Option.bind_eq_bind, Option.some_bind, e1,
        e2, Option.pure_def, PT.keys_node]

theorem structHeight_spec : ∀ (t : PT) (fuel : Nat) (h : Heap) (par : Option Nat),
    Repr h par t → t.depth ≤ fuel → structHeight fuel h t.root = t.sh := by
  intro t
  induction t with
  | nil =>
    intro fuel h par _ _
    cases fuel <;> rfl
  | node l i k d ht r ihl ihr =>
    intro fuel h par hr hd
    cases fuel with
    | zero => simp only [PT.depth] at hd; omega
    | succ f =>
      simp only [PT.depth] at hd
      have e1 := ihl f h (some i) hr.2.1 (by omega)
      have e2 := ihr f h (some i) hr.2.2 (by omega)
      simp only [PT.root_node, structHeight, hr.1, e1, e2, PT.sh]

theorem good_checks : ∀ (t : PT) (fuel : Nat) (h : Heap) (par : Option Nat),
    Repr h par t → t.depth ≤ fuel → t.good = true →
    balancedFrom fuel h t.root = true ∧ storedFrom fuel h t.root = true := by
  intro t
  induction t with
  | nil =>
    intro fuel h par _ _ _
    cases fuel <;> exact ⟨rfl, rfl⟩
  | node l i k d ht r ihl ihr =>
    intro fuel h par hr hd hg
    cases fuel with
    | zero => simp only [PT.depth] at hd; omega
    | succ f =>
      simp only [PT.depth] at hd
      rw [good_node_iff] at hg
      obtain ⟨e1, e2, gl, gr⟩ := hg
      obtain ⟨a1, a2⟩ := ihl f h (some i) hr.2.1 (by omega) gl
      obtain ⟨b1, b2⟩ := ihr f h (some i) hr.2.2 (by omega) gr
      have s1 := structHeight_spec l f h (some i) hr.2.1 (by omega)
      have s2 := structHeight_spec r f h (some i) hr.2.2 (by omega)
      rw [good_ht_sh l gl, good_ht_sh r gr] at e1 e2
      simp only [PT.root_node, balancedFrom, storedFrom, hr.1, s1, s2, a1, a2, b1, b2,
        Bool.and_true, decide_eq_true_eq]
      exact ⟨e2, e1⟩

theorem Pre.depth_bound {h : Heap} {par : Option Nat} {t : PT} (pre : Pre h par t) :
    t.depth < h.next + 1 := by
  have h1 := depth_le_length t
  have h2 := length_le_of_nodup_lt pre.nodup pre.lt
  omega

theorem Pre.keys_read {h : Heap} {par : Option Nat} {t : PT} (pre : Pre h par t) :
    inorderKeys (h.next + 1) h t.root = some t.keys :=
  inorderKeys_spec t _ h par pre.repr pre.depth_bound

theorem chainHeap_pre : Pre chainHeap none chainTree := by
  refine ⟨⟨rfl, trivial, ⟨rfl, trivial, trivial⟩⟩, by decide, (fun g e => by cases e), ?_⟩
  intro j hj
  have h0 : j ≠ 0 := by intro e; subst e; simp [chainHeap] at hj
  have h1 : j ≠ 1 := by intro e; subst e; simp [chainHeap] at hj
  simp [chainHeap, h0, h1]

theorem run_inserts_good : ∀ (ks : List Int) (s : AVL) (T : PT), Inv s [] T → T.good = true →
    ∃ s1 T1, AVL.run (ks.map Op.insert) s = some s1 ∧ Inv s1 [] T1 ∧ T1.good = true := by
  intro ks
  induction ks with
  | nil => intro s T inv hg; exact ⟨s, T, rfl, inv, hg⟩
  | cons k ks ih =>
    intro s T inv hg
    by_cases hk : k ∈ T.keys
    · obtain ⟨s2, T2, y1, y2, y3⟩ := ih s T inv hg
      refine ⟨s2, T2, ?_, y2, y3⟩
      simp only [List.map_cons, AVL.run, AVL.step, AVL.SetInsert, Insert_present inv k k hk,
        Option.some_bind]
      exact y1
    · obtain ⟨s1, n, x1, x2, _⟩ := Insert_absent inv k k hk
      obtain ⟨s2, T2, y1, y2, y3⟩ := ih s1 _ x2 (pIns_good n k k T hg).1
      refine ⟨s2, T2, ?_, y2, y3⟩
      simp only [List.map_cons, AVL.run, AVL.step, AVL.SetInsert, x1, Option.some_bind]
      exact y1

/-- Claim C30: after every sequence of `Insert` calls on a new set, every real node
satisfies the balance invariant on the structural heights of its children and stores one
more than the larger of its children's structural heights. -/
theorem inserts_keep_balance (ks : List Int) :
    ∃ s, insertAll ks = some s ∧ s.balanced = some true ∧ s.stored = some true := by
  obtain ⟨s0, e0, i0, _⟩ := new_spec
  obtain ⟨s, T, x1, x2, x3⟩ := run_inserts_good ks s0 .nil i0 rfl
  refine ⟨s, by simp only [insertAll, runNew, e0, Option.some_bind]; exact x1, ?_⟩
  obtain ⟨e, r, hc, he, hr, hroot, hb, hrb, hsz, wf, hcut, hbind⟩ := x2
  obtain ⟨c1, c2⟩ := good_checks T (hc.next + 1) hc _ wf.repr (by have := wf.depth_lt; omega) x3
  rw [← hroot] at c1 c2
  simp only [AVL.balanced, AVL.stored, hcut, Option.map_some', c1, c2, and_self]

/-- Claim C21, refuted by the code: after `Insert` of `0, 1, 2, 3` and `Erase(3)` the root,
which holds the key `1`, still stores the height `3`, although both its children store the
height `1`; the erase path recomputes only the height of the parent of the removed node. -/
theorem erase_leaves_stale_height :
    (runNew [Op.insert 0, Op.insert 1, Op.insert 2, Op.insert 3, Op.erase 3]).bind
      (fun s => s.heightsOK) = some false ∧
    (runNew [Op.insert 0, Op.insert 1, Op.insert 2, Op.insert 3, Op.erase 3]).bind
      (fun s => (s.heap.read s.root_).bind (fun n => (heightOf s.heap n.left).bind
        (fun a => (heightOf s.heap n.right).map (fun b => (n.key, n.height, a, b)))))
      = some (1, 3, 1, 1) := by
  decide

theorem pBal_stale {l r : PT} (a : Nat) (ka da : Int) (ha hb : Nat)
    (hd : l.ht ≤ r.ht + 2 ∧ r.ht ≤ l.ht + 2) (hw : ¬ (l.ht ≤ r.ht + 1 ∧ r.ht ≤ l.ht + 1)) :
    pBal (.node l a ka da ha r) = pBal (.node l a ka da hb r) := by
  by_cases h1 : ((l.ht : Int) - (r.ht : Int)) = -2
  · cases r with
    | nil => simp only [PT.ht_nil] at h1; omega
    | node q b kb db hq rr =>
      simp only [pBal, pDiff, h1, if_true]
      by_cases h2 : ((q.ht : Int) - (rr.ht : Int)) = 1
      · simp only [h2, if_true]
        cases q with
        | nil => rfl
        | node q1 c kc dc hc q2 => rfl
      · simp only [h2, if_false]
        rfl
  · have h2 : ((l.ht : Int) - (r.ht : Int)) = 2 := by omega
    have h3 : ¬ ((2 : Int) = -2) := by decide
    cases l with
    | nil => simp only [PT.ht_nil] at h2; omega
    | node q b kb db hq rr =>
      simp only [pBal, pDiff, h2, h3, if_true, if_false]
      by_cases h4 : ((q.ht : Int) - (rr.ht : Int)) = -1
      · simp only [h4, if_true]
        cases rr with
        | nil => rfl
        | node q1 c kc dc hc q2 => rfl
      · simp only [h4, if_false]
        rfl

theorem erasedHeap_pre : Pre erasedHeap none (.node erasedLeft 2 5 5 5 erasedRight) := by
  refine ⟨?_, by decide, (fun g e => by cases e), ?_⟩
  · simp only [Repr, erasedLeft, erasedRight, PT.root, and_true]
    decide
  · intro j hj
    exact List.getD_eq_default _ _ hj

/-- Claim C24, with the stored height of the node itself required only where `Balance` does
not rotate: when the two subtrees of a node satisfy the balance invariant with right stored
heights, their heights differ by at most `2`, and the node stores one more than the larger
of them in case they differ by at most `1`, `Balance` returns the root of a subtree with the
same keys in symmetric order, in which every node satisfies the balance invariant and stores
the right height.  When the heights differ by exactly `2` nothing is asked of the height the
node stores. -/
theorem balance_restores (h : Heap) (par : Option Nat) (l r : PT) (a : Nat) (ka da : Int)
    (ha : Nat) (pre : Pre h par (.node l a ka da ha r)) (hl : l.good = true)
    (hr : r.good = true) (hd : l.ht ≤ r.ht + 2 ∧ r.ht ≤ l.ht + 2)
    (hh : (l.ht ≤ r.ht + 1 ∧ r.ht ≤ l.ht + 1) → ha = 1 + max l.ht r.ht) :
    ∃ h1 t1, Balance h (some a) = some (h1, t1.root) ∧ Repr h1 par t1 ∧
      inorderKeys (h.next + 1) h (some a) = some (l.keys ++ ka :: r.keys) ∧
      inorderKeys (h1.next + 1) h1 t1.root = some (l.keys ++ ka :: r.keys) ∧
      t1.good = true := by
  obtain ⟨h1, e1, n1, s1⟩ := Balance_spec pre
  have pre1 := s1.pre_after pre (by rw [pBal_ids]; exact pre.nodup)
  have hg : (pBal (.node l a ka da ha r)).good = true := by
    by_cases hw : l.ht ≤ r.ht + 1 ∧ r.ht ≤ l.ht + 1
    · exact (pBal_good a ka da ha hl hr hd (hh hw)).1
    · rw [pBal_stale a ka da ha (1 + max l.ht r.ht) hd hw]
      exact (pBal_good a ka da _ hl hr hd rfl).1
  refine ⟨h1, _, e1, s1.repr, pre.keys_read, ?_, hg⟩
  have := pre1.keys_read
  rw [pBal_keys] at this
  exact this

/-- The hypotheses of `balance_restores` hold at the call `rotCall`, which `Erase(3)` makes
with the store `erasedHeap` and its root: the subtrees of the root store the heights `1` and
`3`, the root stores the stale height `5`, and `Balance` rotates. -/
theorem balance_restores_witness :
    rotCall.map (fun x => (x.2, x.1.next, (List.range 14).map x.1.cell))
      = some (some 2, erasedHeap.next, (List.range 14).map erasedHeap.cell) ∧
    erasedLeft.good = true ∧ erasedRight.good = true ∧
    (erasedLeft.ht, erasedRight.ht) = (1, 3) ∧
    ∃ h1 t1, Balance erasedHeap (some 2) = some (h1, t1.root) ∧ Repr h1 none t1 ∧
      inorderKeys (erasedHeap.next + 1) erasedHeap (some 2)
        = some (erasedLeft.keys ++ 5 :: erasedRight.keys) ∧
      inorderKeys (h1.next + 1) h1 t1.root = some (erasedLeft.keys ++ 5 :: erasedRight.keys) ∧
      t1.good = true :=
  ⟨by decide, rfl, rfl, rfl,
    balance_restores erasedHeap none erasedLeft erasedRight 2 5 5 5 erasedHeap_pre rfl rfl
      (by decide) (by decide)⟩

/-- Claim C24 as stated fails at the call `staleCall`, which `Erase(3)` makes after `Insert`
of `0, 1, 2, 3`: the root holds key `1` and the stored height `3`, its two subtrees store
the height `1` and satisfy the balance invariant with right stored heights, `Diff` is `0`,
and `Balance` returns the root with its record unchanged, so the returned subtree does not
store the right height at its root; that node is the `root_` of the set after the
`Erase`. -/
theorem balance_keeps_stale_height :
    staleCall.bind (fun x => (x.1.read x.2).bind (fun m =>
      (heightOf x.1 m.left).bind (fun a => (heightOf x.1 m.right).map (fun b =>
        (m.key, m.height, a, b))))) = some (1, 3, 1, 1) ∧
    staleCall.bind (fun x => (x.1.read x.2).map (fun m =>
      (balancedFrom (x.1.next + 1) x.1 m.left && storedFrom (x.1.next + 1) x.1 m.left,
        balancedFrom (x.1.next + 1) x.1 m.right && storedFrom (x.1.next + 1) x.1 m.right)))
      = some (true, true) ∧
    staleCall.bind (fun x => Diff x.1 x.2) = some 0 ∧
    staleCall.bind (fun x => (Balance x.1 x.2).map (fun y =>
      (decide (y.2 = x.2), decide (y.1.read y.2 = x.1.read x.2),
        storedFrom (y.1.next + 1) y.1 y.2))) = some (true, true, false) ∧
    (staleCall.bind (fun x => Balance x.1 x.2)).map (fun y => y.2)
      = (runNew [Op.insert 0, Op.insert 1, Op.insert 2, Op.insert 3, Op.erase 3]).map
        (fun s => s.root_) := by
  decide

/-- Claim C25, with the test of the child's `Diff` as the code makes it: at a node with
`Diff == -2`, `Balance` performs the double rotation (`RotateRight` on the right child, then
`RotateLeft` on the node) when the `Diff` of the right child equals `1`, and the single
`RotateLeft` for every other value; symmetrically at `Diff == 2` with the value `-1` of the
left child; at `Diff` in `-1, 0, 1` it returns the node and leaves the store unchanged. -/
theorem balance_dispatch (h : Heap) (i : Nat) (n : Node) (hn : h.cell i = some n) :
    (Diff h (some i) = some (-2) → Diff h n.right = some 1 →
      Balance h (some i) = (RotateRight h n.right).bind (fun x => RotateLeft x.1 (some i))) ∧
    (Diff h (some i) = some (-2) → ∀ dr, Diff h n.right = some dr → dr ≠ 1 →
      Balance h (some i) = RotateLeft h (some i)) ∧
    (Diff h (some i) = some 2 → Diff h n.left = some (-1) →
      Balance h (some i) = (RotateLeft h n.left).bind (fun x => RotateRight x.1 (some i))) ∧
    (Diff h (some i) = some 2 → ∀ dl, Diff h n.left = some dl → dl ≠ -1 →
      Balance h (some i) = RotateRight h (some i)) ∧
    (∀ d, Diff h (some i) = some d → (d = -1 ∨ d = 0 ∨ d = 1) →
      Balance h (some i) = some (h, some i)) := by
  refine ⟨?_, ?_, ?_, ?_, ?_⟩
  · intro h1 h2
    simp only [Balance, h1, Option.bind_eq_bind, Option.some_bind, if_true, Heap.read, hn, h2,
      BigRotateLeft]
  · intro h1 dr h2 h3
    simp only [Balance, h1, Option.bind_eq_bind, Option.some_bind, if_true, Heap.read, hn, h2,
      h3, if_false]
  · intro h1 h2
    have h22 : ¬ ((2 : Int) = -2) := by decide
    simp only [Balance, h1, Option.bind_eq_bind, Option.some_bind, if_true, Heap.read, hn, h2,
      BigRotateRight, h22, if_false]
  · intro h1 dl h2 h3
    have h22 : ¬ ((2 : Int) = -2) := by decide
    simp only [Balance, h1, Option.bind_eq_bind, Option.some_bind, if_true, Heap.read, hn, h2,
      h3, h22, if_false]
  · intro d h1 h2
    have x1 : ¬ d = -2 := by omega
    have x2 : ¬ d = 2 := by omega
    simp only [Balance, h1, Option.bind_eq_bind, Option.some_bind, x1, x2, if_false,
      Option.pure_def]

/-- The hypotheses of `balance_dispatch` hold at node `0` of the store `zigHeap`, where
`Balance` performs the double rotation. -/
theorem balance_dispatch_witness :
    Balance zigHeap (some 0)
      = (RotateRight zigHeap (some 1)).bind (fun x => RotateLeft x.1 (some 0)) :=
  (balance_dispatch zigHeap 0 ⟨none, some 1, none, 3, 10, 10⟩ rfl).1 (by decide) (by decide)

/-- Claim C25 as stated fails at the call `skewCall`, which `Insert(20)` makes after
`Insert` of `23, 6, 0, 5, 4, 11, 10, 3, 15, 19, 21, 9, 12, 14` and `Erase(19)`: at the root,
which holds key `6`, the `Diff` is `-2` and the `Diff` of the right child, which holds key
`21`, is `3`, which is positive; `Balance` performs the single `RotateLeft` and returns the
node holding `21`, where the double rotation returns the node holding `11`; the node
`Balance` returns is what `InsertNode` returns to `Insert`. -/
theorem balance_single_on_positive_diff :
    skewCall.bind (fun x => (x.1.read x.2).bind (fun m =>
      (Diff x.1 x.2).bind (fun d => (Diff x.1 m.right).map (fun dr => (m.key, d, dr)))))
      = some (6, -2, 3) ∧
    skewCall.bind (fun x => (Balance x.1 x.2).bind (fun y => (y.1.read y.2).map (fun m =>
      (m.key, inorderKeys (y.1.next + 1) y.1 y.2))))
      = some (21, some [0, 3, 4, 5, 6, 9, 10, 11, 12, 14, 15, 20, 21, 23]) ∧
    skewCall.bind (fun x => (RotateLeft x.1 x.2).bind (fun y => (y.1.read y.2).map (fun m =>
      (m.key, decide ((Balance x.1 x.2).map (fun z => z.2) = some y.2)))))
      = some (21, true) ∧
    skewCall.bind (fun x => (x.1.read x.2).bind (fun m =>
      ((RotateRight x.1 m.right).bind (fun y => RotateLeft y.1 x.2)).bind (fun y =>
        (y.1.read y.2).map (fun k => k.key)))) = some 11 ∧
    (skewCall.bind (fun x => Balance x.1 x.2)).map (fun y => y.2)
      = ((runNew [Op.insert 23, Op.insert 6, Op.insert 0, Op.insert 5, Op.insert 4,
          Op.insert 11, Op.insert 10, Op.insert 3, Op.insert 15, Op.insert 19, Op.insert 21,
          Op.insert 9, Op.insert 12, Op.insert 14, Op.erase 19]).bind (fun s =>
          (s.Find 20).bind (fun f => f.2.CutMockNode.bind (fun c =>
            InsertNode (c.heap.next + 1) c.heap c.root_ 20 20)))).map (fun y => y.2) := by
  decide

/-- Claim C26: in a well-formed store, `RotateLeft` at a node with a right child returns
that child, `RotateRight` at a node with a left child returns that child, `BigRotateLeft`
at a node whose right child has a left child returns that grandchild, and `BigRotateRight`
at a node whose left child has a right child returns that grandchild; in each case the keys
below the returned node, in symmetric order, are the keys below the node before the call. -/
theorem rotations_keep_order (h : Heap) (par : Option Nat) (t : PT) (pre : Pre h par t) :
    inorderKeys (h.next + 1) h t.root = some t.keys ∧
    (∀ p a ka da ha q b kb db hb r, t = .node p a ka da ha (.node q b kb db hb r) →
      ∃ h1, RotateLeft h (some a) = some (h1, some b) ∧
        inorderKeys (h1.next + 1) h1 (some b) = some t.keys) ∧
    (∀ p a ka da ha q b kb db hb r, t = .node (.node q b kb db hb r) a ka da ha p →
      ∃ h1, RotateRight h (some a) = some (h1, some b) ∧
        inorderKeys (h1.next + 1) h1 (some b) = some t.keys) ∧
    (∀ l a ka da ha ql c kc dc hc qr b kb db hb rr,
      t = .node l a ka da ha (.node (.node ql c kc dc hc qr) b kb db hb rr) →
      ∃ h1, BigRotateLeft h (some a) = some (h1, some c) ∧
        inorderKeys (h1.next + 1) h1 (some c) = some t.keys) ∧
    (∀ ll a ka da ha lq c kc dc hc lr b kb db hb r,
      t = .node (.node ll b kb db hb (.node lq c kc dc hc lr)) a ka da ha r →
      ∃ h1, BigRotateRight h (some a) = some (h1, some c) ∧
        inorderKeys (h1.next + 1) h1 (some c) = some t.keys) := by
  refine ⟨pre.keys_read, ?_, ?_, ?_, ?_⟩
  · intro p a ka da ha q b kb db hb r e
    subst e
    obtain ⟨h1, e1, n1, s1⟩ := RotateLeft_spec pre
    have pre1 := s1.pre_after pre (by rw [pRotL_ids]; exact pre.nodup)
    have := pre1.keys_read
    rw [pRotL_keys] at this
    exact ⟨h1, e1, this⟩
  · intro p a ka da ha q b kb db hb r e
    subst e
    obtain ⟨h1, e1, n1, s1⟩ := RotateRight_spec pre
    have pre1 := s1.pre_after pre (by rw [pRotR_ids]; exact pre.nodup)
    have := pre1.keys_read
    rw [pRotR_keys] at this
    exact ⟨h1, e1, this⟩
  · intro l a ka da ha ql c kc dc hc qr b kb db hb rr e
    subst e
    obtain ⟨h1, e1, n1, s1⟩ := BigRotateLeft_spec pre
    have hi : (pRotL (.node l a ka da ha (pRotR (.node (.node ql c kc dc hc qr) b kb db hb
        rr)))).ids = (PT.node l a ka da ha (.node (.node ql c kc dc hc qr) b kb db hb rr)).ids := by
      simp [pRotL, pRotR]
    have hk : (pRotL (.node l a ka da ha (pRotR (.node (.node ql c kc dc hc qr) b kb db hb
        rr)))).keys = (PT.node l a ka da ha (.node (.node ql c kc dc hc qr) b kb db hb
        rr)).keys := by
      simp [pRotL, pRotR]
    have pre1 := s1.pre_after pre (by rw [hi]; exact pre.nodup)
    have := pre1.keys_read
    rw [hk] at this
    exact ⟨h1, e1, this⟩
  · intro ll a ka da ha lq c kc dc hc lr b kb db hb r e
    subst e
    obtain ⟨h1, e1, n1, s1⟩ := BigRotateRight_spec pre
    have hi : (pRotR (.node (pRotL (.node ll b kb db hb (.node lq c kc dc hc lr))) a ka da ha
        r)).ids = (PT.node (.node ll b kb db hb (.node lq c kc dc hc lr)) a ka da ha r).ids := by
      simp [pRotL, pRotR]
    have hk : (pRotR (.node (pRotL (.node ll b kb db hb (.node lq c kc dc hc lr))) a ka da ha
        r)).keys = (PT.node (.node ll b kb db hb (.node lq c kc dc hc lr)) a ka da ha
        r).keys := by
      simp [pRotL, pRotR]
    have pre1 := s1.pre_after pre (by rw [hi]; exact pre.nodup)
    have := pre1.keys_read
    rw [hk] at this
    exact ⟨h1, e1, this⟩

/-- The hypothesis of `rotations_keep_order` holds in the store `chainHeap`, where
`RotateLeft` at node `0` returns node `1` and keeps the keys `10, 20` in order. -/
theorem rotations_keep_order_witness :
    ∃ h1, RotateLeft chainHeap (some 0) = some (h1, some 1) ∧
      inorderKeys (h1.next + 1) h1 (some 1) = some [10, 20] :=
  (rotations_keep_order chainHeap none chainTree chainHeap_pre).2.1 .nil 0 10 10 2 .nil 1 20 20
    1 .nil rfl

theorem flip_read (h : Heap) (p : Option Nat) : h.flip.read p = (h.read p).map Node.flip := by
  cases p <;> rfl

theorem rightmost_flip (h : Heap) : ∀ (f : Nat) (c : Option Nat),
    rightmost f h c = leftmost f h.flip c := by
  intro f
  induction f with
  | zero => intro c; rfl
  | succ f ih =>
    intro c
    simp only [rightmost, leftmost, flip_read]
    cases h.read c with
    | none => rfl
    | some n =>
      simp only [Option.map_some', Node.flip]
      cases n.right with
      | none => rfl
      | some rr => exact ih (some rr)

theorem climbRight_flip (h : Heap) : ∀ (f : Nat) (prev cur : Option Nat),
    climbRight f h prev cur = climbLeft f h.flip prev cur := by
  intro f
  induction f with
  | zero => intro _ _; rfl
  | succ f ih =>
    intro prev cur
    simp only [climbRight, climbLeft, flip_read]
    cases h.read cur with
    | none => rfl
    | some n =>
      simp only [Option.map_some', Node.flip, ih]

theorem itPrev_flip (h : Heap) (p : Option Nat) : itPrev h p = itNext h.flip p := by
  simp only [itPrev, itNext, flip_read]
  cases h.read p with
  | none => rfl
  | some n =>
    simp only [Option.map_some', Node.flip, Option.bind_eq_bind, Option.some_bind]
    cases n.left with
    | some l => exact rightmost_flip h _ _
    | none =>
      cases n.parent with
      | none => rfl
      | some g =>
        show (h.cell g).bind _ = ((h.cell g).map Node.flip).bind _
        cases h.cell g with
        | none => rfl
        | some ng =>
          simp only [Option.map_some', Node.flip, Option.some_bind, climbRight_flip]
          rfl

theorem collectRev_flip (h : Heap) (e : Option Nat) : ∀ (f : Nat) (it : Option Nat),
    collectRev f h e it = collect f h.flip e it := by
  intro f
  induction f with
  | zero => intro _; rfl
  | succ f ih =>
    intro it
    simp only [collectRev, collect, flip_read, itPrev_flip]
    by_cases hit : it = e
    · simp [hit]
    · simp only [hit, if_false]
      cases h.read it with
      | none => rfl
      | some n =>
        simp only [Option.map_some', Option.bind_eq_bind, Option.some_bind, ih, Node.flip]

theorem Repr_flip {h : Heap} : ∀ (t : PT) (par : Option Nat), Repr h par t →
    Repr h.flip par t.flip := by
  intro t
  induction t with
  | nil => intro _ _; trivial
  | node l i k d ht r ihl ihr =>
    intro par hr
    refine ⟨?_, ihr _ hr.2.2, ihl _ hr.2.1⟩
    have hl : l.flip.root = l.root := by cases l <;> rfl
    have hrr : r.flip.root = r.root := by cases r <;> rfl
    simp [Heap.flip, hr.1, Node.flip, hl, hrr]

theorem flip_ids : ∀ (t : PT), t.flip.ids = t.ids.reverse := by
  intro t
  induction t with
  | nil => rfl
  | node l i k d ht r ihl ihr => simp [PT.flip, ihl, ihr]

theorem flip_depth : ∀ (t : PT), t.flip.depth = t.depth := by
  intro t
  induction t with
  | nil => rfl
  | node l i k d ht r ihl ihr => simp [PT.flip, PT.depth, ihl, ihr, Nat.max_comm]

theorem rtraversal_spec {s : AVL} {ctx : List Frame} {T : PT} (inv : Inv s ctx T) :
    s.rtraversal = some T.keys.reverse := by
  by_cases hT : T = .nil
  · obtain ⟨e, r, hc, he, hr, hroot, hb, hrb, hsz, wf, hcut, hbind⟩ := inv
    subst hT
    have hctx : ctx = [] := wf.nonempty rfl
    subst hctx
    simp only [PT.ids_nil, List.length_nil, ctxIds, Nat.add_zero] at hsz
    simp [AVL.rtraversal, AVL.itRBegin, AVL.itREnd, AVL.Empty, AVL.Size, hsz, hr, collectRev]
  · obtain ⟨e, r, bi, rbi, ne, nr, he, hr, hb, hrb, e1, e2, hne0, r2, hnd2, hdep, hlen, hkeys⟩ :=
      Inv_bound inv hT
    have hids : (attachR (.node .nil e ne.key ne.data ne.height .nil)
        (attachL (.node .nil r nr.key nr.data nr.height .nil) T)).flip.ids
          = [e] ++ T.ids.reverse ++ [r] := by
      rw [flip_ids, attachR_ids, attachL_ids]; simp
    have hnd : (attachR (.node .nil e ne.key ne.data ne.height .nil)
        (attachL (.node .nil r nr.key nr.data nr.height .nil) T)).flip.ids.Nodup := by
      rw [flip_ids, List.nodup_reverse, attachR_ids, attachL_ids]
      simpa using hnd2
    have hk2 : List.Forall₂ (fun i k => ∃ n, s.heap.flip.cell i = some n ∧ n.key = k)
        T.ids.reverse T.keys.reverse := by
      rw [List.forall₂_reverse_iff]
      refine List.Forall₂.imp ?_ hkeys
      rintro i k ⟨n, c, y⟩
      exact ⟨n.flip, by simp [Heap.flip, c], y⟩
    have hhead : (T.ids.reverse ++ [r]).head? = some rbi := by
      rw [maxId_eq_getLast] at e2
      cases hi : T.ids.reverse with
      | nil =>
        have : T.ids = [] := by simpa using hi
        rw [this] at e2; cases e2
      | cons a as =>
        have h3 : T.ids = as.reverse ++ [a] := by
          have := congrArg List.reverse hi
          simpa using this
        rw [h3, List.getLast?_append] at e2
        simpa using e2
    have hc0 := collect_spec (Repr_flip _ _ r2) hnd (by rw [flip_depth]; exact hdep)
      T.ids.reverse T.keys.reverse [e] (s.heap.next + 1) hids hk2
      (by rw [List.length_reverse]; show T.ids.length < s.heap.flip.next + 1
          have : s.heap.flip.next = s.heap.next := rfl
          omega)
    simp only [AVL.rtraversal, AVL.itRBegin, AVL.itREnd, AVL.Empty, AVL.Size, hne0, hr, hrb,
      decide_False, Bool.false_eq_true, if_false, collectRev_flip]
    rw [hhead] at hc0
    exact hc0

/-- Claim C28: for every set built by `Insert` calls, the loop over reverse iterators from
`rbegin()` to `rend()` yields the reverse of the forward traversal, which is strictly
decreasing. -/
theorem reverse_traversal (ks : List Int) :
    ∃ s l, insertAll ks = some s ∧ s.traversal = some l ∧ s.rtraversal = some l.reverse ∧
      l.reverse.Sorted (· > ·) := by
  obtain ⟨s, ctx, T, x1, x2⟩ := runNew_inv (ks.map Op.insert)
  refine ⟨s, T.keys, x1, traversal_spec x2, rtraversal_spec x2, ?_⟩
  exact List.pairwise_reverse.2 (Inv_sorted x2)

theorem Iso_nil_left {c : PT} (h : Iso .nil c) : c = .nil := by
  cases c with
  | nil => rfl
  | node l i k d ht r => simp [Iso] at h

theorem Iso_node_left {l r c : PT} {i : Nat} {k d : Int} {ht : Nat}
    (h : Iso (.node l i k d ht r) c) :
    ∃ l1 i1 r1, c = .node l1 i1 k d ht r1 ∧ Iso l l1 ∧ Iso r r1 := by
  cases c with
  | nil => simp [Iso] at h
  | node l1 i1 k1 d1 ht1 r1 =>
    simp only [Iso] at h
    obtain ⟨e1, e2, e3, h1, h2⟩ := h
    subst e1 e2 e3
    exact ⟨l1, i1, r1, rfl, h1, h2⟩

theorem Iso_keys : ∀ (t c : PT), Iso t c → c.keys = t.keys := by
  intro t
  induction t with
  | nil => intro c h; rw [Iso_nil_left h]
  | node l i k d ht r ihl ihr =>
    intro c h
    obtain ⟨l1, i1, r1, e, h1, h2⟩ := Iso_node_left h
    subst e
    simp [ihl l1 h1, ihr r1 h2]

theorem Iso_length : ∀ (t c : PT), Iso t c → c.ids.length = t.ids.length := by
  intro t
  induction t with
  | nil => intro c h; rw [Iso_nil_left h]
  | node l i k d ht r ihl ihr =>
    intro c h
    obtain ⟨l1, i1, r1, e, h1, h2⟩ := Iso_node_left h
    subst e
    simp [ihl l1 h1, ihr r1 h2]

theorem Iso_attachR (E : PT) : ∀ (X C : PT), Iso (attachR E X) C →
    ∃ X1 E1, C = attachR E1 X1 ∧ Iso X X1 ∧ Iso E E1 := by
  intro X
  induction X with
  | nil =>
    intro C h
    exact ⟨.nil, C, rfl, trivial, h⟩
  | node l i k d ht r _ ihr =>
    intro C h
    simp only [attachR] at h
    obtain ⟨l1, i1, r1, e, h1, h2⟩ := Iso_node_left h
    obtain ⟨X1, E1, e2, h3, h4⟩ := ihr r1 h2
    subst e e2
    exact ⟨.node l1 i1 k d ht X1, E1, rfl, ⟨rfl, rfl, rfl, h1, h3⟩, h4⟩

theorem Iso_attachL (R : PT) : ∀ (X C : PT), Iso (attachL R X) C →
    ∃ X1 R1, C = attachL R1 X1 ∧ Iso X X1 ∧ Iso R R1 := by
  intro X
  induction X with
  | nil =>
    intro C h
    exact ⟨.nil, C, rfl, trivial, h⟩
  | node l i k d ht r ihl _ =>
    intro C h
    simp only [attachL] at h
    obtain ⟨l1, i1, r1, e, h1, h2⟩ := Iso_node_left h
    obtain ⟨X1, R1, e2, h3, h4⟩ := ihl l1 h1
    subst e e2
    exact ⟨.node X1 i1 k d ht r1, R1, rfl, ⟨rfl, rfl, rfl, h3, h2⟩, h4⟩

theorem Iso_ne_nil {t c : PT} (h : Iso t c) (ht : t ≠ .nil) : c ≠ .nil := by
  cases t with
  | nil => exact absurd rfl ht
  | node l i k d h1 r =>
    obtain ⟨l1, i1, r1, e, _⟩ := Iso_node_left h
    rw [e]; simp

theorem modifyIf_root {h : Heap} {p : Option Nat} (q : Option Nat) {t : PT} (hr : Repr h p t)
    (hnd : t.ids.Nodup) :
    ∃ h1, h.modifyIf t.root (fun m => { m with parent := q }) = some h1 ∧ h1.next = h.next ∧
      Repr h1 q t ∧ ∀ j, j ∉ t.ids → h1.cell j = h.cell j := by
  cases t with
  | nil => exact ⟨h, rfl, rfl, trivial, fun _ _ => rfl⟩
  | node l i k d ht r =>
    refine ⟨h.write i ⟨l.root, r.root, q, ht, k, d⟩, ?_, rfl, ?_, ?_⟩
    · simp [Heap.modifyIf, Heap.modify, hr.1]
    · apply Repr_reparent hr hnd
      · intro i1 n e1 e2
        simp only [PT.root_node, Option.some.injEq] at e1
        subst e1
        rw [hr.1] at e2
        cases e2
        simp
      · intro j _ hne
        have : j ≠ i := fun e0 => hne (by rw [e0]; rfl)
        simp [this]
    · intro j hj
      have : j ≠ i := fun e0 => hj (by rw [e0]; simp)
      simp [this]

theorem CopySubTree_node {f : Nat} {h : Heap} {i : Nat} {n : Node} (hc : h.cell i = some n) :
    CopySubTree (f + 1) h (some i) =
      (CopySubTree f ((⟨fun j => if j = h.next then some Node.fresh else h.cell j,
          h.next + 1⟩ : Heap).write h.next n) n.left).bind (fun x =>
        (x.1.modify (some h.next) (fun m => { m with left := x.2 })).bind (fun h3 =>
          (CopySubTree f h3 n.right).bind (fun y =>
            (y.1.modify (some h.next) (fun m => { m with right := y.2 })).bind (fun h5 =>
              (h5.cell h.next).bind (fun n5 =>
                (h5.modifyIf n5.left (fun m => { m with parent := some h.next })).bind
                  (fun h6 => (h6.cell h.next).bind (fun n6 =>
                    (h6.modifyIf n6.right (fun m => { m with parent := some h.next })).bind
                      (fun h7 => some (h7, some h.next))))))))) := by
  simp only [CopySubTree, hc, Heap.alloc, Heap.modify, Option.bind_eq_bind, Option.some_bind,
    if_true, Option.pure_def]

theorem CopySubTree_spec : ∀ (t : PT) (fuel : Nat) (h : Heap) (par : Option Nat),
    Repr h par t → t.depth < fuel → (∀ j, h.next ≤ j → h.cell j = none) →
    ∃ h1 C, CopySubTree fuel h t.root = some (h1, C.root) ∧ Repr h1 par C ∧ Iso t C ∧
      C.ids.Nodup ∧ (∀ j ∈ C.ids, h.next ≤ j ∧ j < h1.next) ∧ h.next ≤ h1.next ∧
      (∀ j, j < h.next → h1.cell j = h.cell j) ∧ (∀ j, h1.next ≤ j → h1.cell j = none) := by
  intro t
  induction t with
  | nil =>
    intro fuel h par _ hd hf
    cases fuel with
    | zero => omega
    | succ f =>
      exact ⟨h, .nil, rfl, trivial, trivial, List.nodup_nil, (fun j hj => by cases hj),
        Nat.le_refl _, (fun _ _ => rfl), hf⟩
  | node l i k d ht r ihl ihr =>
    intro fuel h par hr hd hf
    cases fuel with
    | zero => omega
    | succ f =>
      simp only [PT.depth] at hd
      have hlt : ∀ j ∈ (PT.node l i k d ht r).ids, j < h.next := by
        intro j hj
        obtain ⟨n, hn⟩ := Repr_alive hr j hj
        by_contra hc
        rw [hf j (Nat.le_of_not_lt hc)] at hn
        cases hn
      obtain ⟨hA, hAdef⟩ : ∃ hA : Heap, hA = (⟨fun j => if j = h.next then some Node.fresh
          else h.cell j, h.next + 1⟩ : Heap).write h.next ⟨l.root, r.root, par, ht, k, d⟩ :=
        ⟨_, rfl⟩
      have nA : hA.next = h.next + 1 := by rw [hAdef]; rfl
      have cA : ∀ j, j ≠ h.next → hA.cell j = h.cell j := by
        intro j hj; rw [hAdef]; simp [hj]
      have cAn : hA.cell h.next = some ⟨l.root, r.root, par, ht, k, d⟩ := by
        rw [hAdef]; simp
      have fA : ∀ j, hA.next ≤ j → hA.cell j = none := by
        intro j hj
        rw [nA] at hj
        rw [cA j (by omega)]
        exact hf j (by omega)
      have rl : Repr hA (some i) l := by
        apply Repr_congr _ hr.2.1
        intro j hj
        have := hlt j (by simp [hj])
        exact cA j (by omega)
      obtain ⟨h2, L, eL, rL, isoL, ndL, rngL, nxL, agL, fL⟩ := ihl f hA (some i) rl (by omega) fA
      obtain ⟨h3, h3def⟩ : ∃ h3 : Heap, h3 = h2.write h.next ⟨L.root, r.root, par, ht, k, d⟩ :=
        ⟨_, rfl⟩
      have c2n : h2.cell h.next = some ⟨l.root, r.root, par, ht, k, d⟩ := by
        rw [agL h.next (by omega)]; exact cAn
      have n3 : h3.next = h2.next := by rw [h3def]; rfl
      have c3 : ∀ j, j ≠ h.next → h3.cell j = h2.cell j := by
        intro j hj; rw [h3def]; simp [hj]
      have c3n : h3.cell h.next = some ⟨L.root, r.root, par, ht, k, d⟩ := by
        rw [h3def]; simp
      have f3 : ∀ j, h3.next ≤ j → h3.cell j = none := by
        intro j hj
        rw [n3] at hj
        rw [c3 j (by omega)]
        exact fL j hj
      have rr3 : Repr h3 (some i) r := by
        apply Repr_congr _ hr.2.2
        intro j hj
        have := hlt j (by simp [hj])
        rw [c3 j (by omega), agL j (by omega), cA j (by omega)]
      obtain ⟨h4, R, eR, rR, isoR, ndR, rngR, nxR, agR, fR⟩ := ihr f h3 (some i) rr3 (by omega) f3
      obtain ⟨h5, h5def⟩ : ∃ h5 : Heap, h5 = h4.write h.next ⟨L.root, R.root, par, ht, k, d⟩ :=
        ⟨_, rfl⟩
      have c4n : h4.cell h.next = some ⟨L.root, r.root, par, ht, k, d⟩ := by
        rw [agR h.next (by omega)]; exact c3n
      have n5 : h5.next = h4.next := by rw [h5def]; rfl
      have c5 : ∀ j, j ≠ h.next → h5.cell j = h4.cell j := by
        intro j hj; rw [h5def]; simp [hj]
      have c5n : h5.cell h.next = some ⟨L.root, R.root, par, ht, k, d⟩ := by
        rw [h5def]; simp
      have rL5 : Repr h5 (some i) L := by
        apply Repr_congr _ rL
        intro j hj
        have := rngL j hj
        rw [c5 j (by omega), agR j (by omega), c3 j (by omega)]
      have rR5 : Repr h5 (some i) R := by
        apply Repr_congr _ rR
        intro j hj
        have := rngR j hj
        exact c5 j (by omega)
      have hLR : ∀ j ∈ L.ids, j ∉ R.ids := by
        intro j hj hm
        have a1 := rngL j hj
        have a2 := rngR j hm
        omega
      obtain ⟨h6, e6, n6, rL6, ag6⟩ := modifyIf_root (some h.next) rL5 ndL
      have rR6 : Repr h6 (some i) R :=
        Repr_congr (fun j hj => ag6 j (fun hm => hLR j hm hj)) rR5
      obtain ⟨h7, e7, n7, rR7, ag7⟩ := modifyIf_root (some h.next) rR6 ndR
      have rL7 : Repr h7 (some h.next) L := Repr_congr (fun j hj => ag7 j (hLR j hj)) rL6
      have hnL : h.next ∉ L.ids := fun hm => by have := rngL _ hm; omega
      have hnR : h.next ∉ R.ids := fun hm => by have := rngR _ hm; omega
      have c6n : h6.cell h.next = some ⟨L.root, R.root, par, ht, k, d⟩ := by
        rw [ag6 _ hnL]; exact c5n
      have c7n : h7.cell h.next = some ⟨L.root, R.root, par, ht, k, d⟩ := by
        rw [ag7 _ hnR]; exact c6n
      refine ⟨h7, .node L h.next k d ht R, ?_, ⟨c7n, rL7, rR7⟩, ⟨rfl, rfl, rfl, isoL, isoR⟩, ?_,
        ?_, ?_, ?_, ?_⟩
      · rw [PT.root_node, CopySubTree_node hr.1, ← hAdef]
        simp only [eL, Option.some_bind, Heap.modify, c2n, ← h3def, eR, c4n, ← h5def, c5n,
          e6, c6n, e7, PT.root_node]
      · simp only [PT.ids_node, List.nodup_append, List.nodup_cons]
        refine ⟨ndL, ⟨hnR, ndR⟩, ?_⟩
        intro j hj hm
        rcases List.mem_cons.1 hm with e0 | e0
        · subst e0; exact hnL hj
        · exact hLR j hj e0
      · intro j hj
        simp only [PT.ids_node, List.mem_append, List.mem_cons] at hj
        rcases hj with hj | hj | hj
        · have := rngL j hj; omega
        · subst hj; omega
        · have := rngR j hj; omega
      · omega
      · intro j hj
        rw [ag7 j (fun hm => by have := rngR j hm; omega),
          ag6 j (fun hm => by have := rngL j hm; omega), c5 j (by omega), agR j (by omega),
          c3 j (by omega), agL j (by omega), cA j (by omega)]
      · intro j hj
        rw [n7, n6, n5] at hj
        rw [ag7 j (fun hm => by have := rngR j hm; omega),
          ag6 j (fun hm => by have := rngL j hm; omega), c5 j (by omega)]
        exact fR j hj

theorem modify_none {h h1 : Heap} {p : Option Nat} {f : Node → Node}
    (e : h.modify p f = some h1) :
    h1.next = h.next ∧ ∀ j, h.cell j = none → h1.cell j = none := by
  cases p with
  | none => simp [Heap.modify] at e
  | some i =>
    cases hc : h.cell i with
    | none => simp [Heap.modify, hc] at e
    | some n =>
      simp only [Heap.modify, hc, Option.some.injEq] at e
      subst e
      refine ⟨rfl, fun j hj => ?_⟩
      have : j ≠ i := by intro e0; rw [e0, hc] at hj; cases hj
      simp [this, hj]

theorem Bind_none {s s1 : AVL} (e : s.BindMockNode = some s1) :
    s1.heap.next = s.heap.next ∧ ∀ j, s.heap.cell j = none → s1.heap.cell j = none := by
  simp only [AVL.BindMockNode, Option.bind_eq_bind, Option.bind_eq_some, Option.pure_def,
    Option.some.injEq] at e
  obtain ⟨h1, e1, h2, e2, h3, e3, h4, e4, e5⟩ := e
  subst e5
  obtain ⟨a2, b2⟩ := modify_none e2
  obtain ⟨a4, b4⟩ := modify_none e4
  have x1 : h1.next = s.heap.next ∧ ∀ j, s.heap.cell j = none → h1.cell j = none := by
    cases hb : s.begin_ with
    | none => rw [hb] at e1; cases e1; exact ⟨rfl, fun _ hj => hj⟩
    | some b => rw [hb] at e1; simp only at e1; rw [← hb] at e1; exact modify_none e1
  have x3 : h3.next = h2.next ∧ ∀ j, h2.cell j = none → h3.cell j = none := by
    cases hb : s.rbegin_ with
    | none => rw [hb] at e3; cases e3; exact ⟨rfl, fun _ hj => hj⟩
    | some b => rw [hb] at e3; simp only at e3; rw [← hb] at e3; exact modify_none e3
  refine ⟨by simp only; rw [a4, x3.1, a2, x1.1], fun j hj => ?_⟩
  exact b4 j (x3.2 j (b2 j (x1.2 j hj)))

theorem Inv_heap_fresh {s : AVL} {ctx : List Frame} {T : PT} (inv : Inv s ctx T) :
    ∀ j, s.heap.next ≤ j → s.heap.cell j = none := by
  obtain ⟨e, r, hc, he, hr, hroot, hb, hrb, hsz, wf, hcut, hbind⟩ := inv
  by_cases hT : T = .nil
  · subst hT
    obtain ⟨heap, root, b, e1, rb, r1, sz⟩ := s
    simp only [PT.root_nil, PT.minId, PT.maxId] at he hr hroot hb hrb hsz hcut
    subst he hr hroot hb hrb
    have hc0 : hc = heap := by
      simp only [AVL.CutMockNode, Option.bind_eq_bind, Option.some_bind, Option.pure_def,
        Option.some.injEq, AVL.mk.injEq, and_true, true_and] at hcut
      exact hcut.symm
    subst hc0
    exact wf.fresh
  · obtain ⟨a, b⟩ := Bind_none (hbind hT)
    intro j hj
    simp only at a b
    exact b j (wf.fresh j (by omega))

theorem rightmost_spec : ∀ (t : PT) (fuel : Nat) (h : Heap) (par : Option Nat),
    t ≠ .nil → Repr h par t → t.depth ≤ fuel → rightmost fuel h t.root = some t.maxId := by
  intro t
  induction t with
  | nil => intro _ _ _ hn; exact absurd rfl hn
  | node l x kx dx ht r _ ihr =>
    intro fuel h par _ hr hf
    cases fuel with
    | zero => simp [PT.depth] at hf
    | succ f =>
      simp only [PT.depth, Nat.add_le_add_iff_right] at hf
      cases r with
      | nil => simp [rightmost, Heap.read, hr.1, PT.maxId]
      | node rl ri rk rd rh rr =>
        have := ihr f h (some x) (by simp) hr.2.2 (le_trans (le_max_right _ _) hf)
        simp only [PT.root_node] at this
        simp [rightmost, Heap.read, hr.1, PT.maxId, this]

theorem Repr_attachL_min {h : Heap} {e : Nat} {k d : Int} {ht : Nat} : ∀ (t : PT)
    (par : Option Nat), t ≠ .nil → Repr h par (attachL (.node .nil e k d ht .nil) t) →
    ∃ m nm, t.minId = some m ∧ h.cell m = some nm ∧ nm.left = some e ∧
      h.cell e = some ⟨none, none, some m, ht, k, d⟩ := by
  intro t
  induction t with
  | nil => intro _ hn; exact absurd rfl hn
  | node l x kx dx hx r ihl _ =>
    intro par _ hr
    cases l with
    | nil =>
      simp only [attachL] at hr
      exact ⟨x, _, rfl, hr.1, rfl, hr.2.1.1⟩
    | node ll li lk ld lh lr =>
      simp only [attachL] at hr ihl
      obtain ⟨m, nm, x1, x2, x3, x4⟩ := ihl (some x) (by simp) hr.2.1
      exact ⟨m, nm, by simp only [PT.minId]; exact x1, x2, x3, x4⟩

theorem attach_comm (E R : PT) {t : PT} (ht : t ≠ .nil) :
    attachR E (attachL R t) = attachL R (attachR E t) := by
  cases t with
  | nil => exact absurd rfl ht
  | node l x k d h r => rfl

theorem attachR_minId (E : PT) {t : PT} (ht : t ≠ .nil) : (attachR E t).minId = t.minId := by
  cases t with
  | nil => exact absurd rfl ht
  | node l x k d h r => cases l <;> rfl

theorem attachR_ne_nil (E : PT) {t : PT} (ht : t ≠ .nil) : attachR E t ≠ .nil := by
  cases t with
  | nil => exact absurd rfl ht
  | node l x k d h r => simp [attachR]

theorem attachL_ne_nil (R : PT) {t : PT} (ht : t ≠ .nil) : attachL R t ≠ .nil := by
  cases t with
  | nil => exact absurd rfl ht
  | node l x k d h r => simp [attachL]

theorem detachR_repr (E : PT) : ∀ (X : PT) (h h1 : Heap) (par : Option Nat), X ≠ .nil →
    Repr h par (attachR E X) → X.ids.Nodup →
    (∀ m nm, X.maxId = some m → h.cell m = some nm →
      h1.cell m = some { nm with right := none }) →
    (∀ j ∈ X.ids, some j ≠ X.maxId → h1.cell j = h.cell j) → Repr h1 par X := by
  intro X
  induction X with
  | nil => intro _ _ _ hn; exact absurd rfl hn
  | node l x kx dx ht rt _ ihr =>
    intro h h1 par _ hr hnd hm ho
    simp only [PT.ids_node, List.nodup_append, List.nodup_cons] at hnd
    obtain ⟨hndl, ⟨hxr, hndr⟩, hdis⟩ := hnd
    cases rt with
    | nil =>
      simp only [attachR] at hr
      simp only [PT.maxId] at hm ho
      refine ⟨?_, Repr_congr ?_ hr.2.1, trivial⟩
      · rw [hm x _ rfl hr.1]; rfl
      · intro j hj
        apply ho j (by simp [hj])
        intro e; cases e
        exact hdis hj (by simp)
    | node rl ri rk rd rh rr =>
      have hmax : (PT.node l x kx dx ht (.node rl ri rk rd rh rr)).maxId
          = (PT.node rl ri rk rd rh rr).maxId := rfl
      rw [hmax] at hm ho
      have hr : Repr h par (.node l x kx dx ht (attachR E (.node rl ri rk rd rh rr))) := hr
      have hm1 : ∀ b, (PT.node rl ri rk rd rh rr).maxId = some b →
          b ∈ (PT.node rl ri rk rd rh rr).ids := fun b hb => maxId_mem hb
      have hxb : some x ≠ (PT.node rl ri rk rd rh rr).maxId := by
        intro e
        exact hxr (hm1 x e.symm)
      refine ⟨?_, Repr_congr ?_ hr.2.1, ihr h h1 (some x) (by simp) hr.2.2 hndr hm ?_⟩
      · rw [ho x (by simp) hxb, hr.1]
        rfl
      · intro j hj
        apply ho j (by simp [hj])
        intro e
        exact hdis hj (List.mem_cons_of_mem _ (hm1 j e.symm))
      · intro j hj hne
        exact ho j (List.mem_append_right _ (List.mem_cons_of_mem _ hj)) hne

theorem detachL_repr (R : PT) : ∀ (X : PT) (h h1 : Heap) (par : Option Nat), X ≠ .nil →
    Repr h par (attachL R X) → X.ids.Nodup →
    (∀ m nm, X.minId = some m → h.cell m = some nm →
      h1.cell m = some { nm with left := none }) →
    (∀ j ∈ X.ids, some j ≠ X.minId → h1.cell j = h.cell j) → Repr h1 par X := by
  intro X
  induction X with
  | nil => intro _ _ _ hn; exact absurd rfl hn
  | node l x kx dx ht rt ihl _ =>
    intro h h1 par _ hr hnd hm ho
    simp only [PT.ids_node, List.nodup_append, List.nodup_cons] at hnd
    obtain ⟨hndl, ⟨hxr, hndr⟩, hdis⟩ := hnd
    cases l with
    | nil =>
      simp only [attachL] at hr
      simp only [PT.minId] at hm ho
      refine ⟨?_, trivial, Repr_congr ?_ hr.2.2⟩
      · rw [hm x _ rfl hr.1]; rfl
      · intro j hj
        apply ho j (by simp [hj])
        intro e; cases e
        exact hxr hj
    | node ll li lk ld lh lr =>
      have hmin : (PT.node (.node ll li lk ld lh lr) x kx dx ht rt).minId
          = (PT.node ll li lk ld lh lr).minId := rfl
      rw [hmin] at hm ho
      have hr : Repr h par (.node (attachL R (.node ll li lk ld lh lr)) x kx dx ht rt) := hr
      have hm1 : ∀ b, (PT.node ll li lk ld lh lr).minId = some b →
          b ∈ (PT.node ll li lk ld lh lr).ids := fun b hb => minId_mem hb
      have hxb : some x ≠ (PT.node ll li lk ld lh lr).minId := by
        intro e
        exact hdis (hm1 x e.symm) (by simp)
      refine ⟨?_, ihl h h1 (some x) (by simp) hr.2.1 hndl hm ?_, Repr_congr ?_ hr.2.2⟩
      · rw [ho x (by simp) hxb, hr.1]
        rfl
      · intro j hj hne
        exact ho j (List.mem_append_left _ hj) hne
      · intro j hj
        apply ho j (by simp [hj])
        intro e
        exact hdis (hm1 j e.symm) (List.mem_cons_of_mem _ hj)

theorem bindF_self (c : Nat → Option Node) {bi rbi e r : Nat} {nb nrb ne nr : Node}
    (hb : c bi = some nb) (hrb : c rbi = some nrb) (he : c e = some ne) (hr : c r = some nr)
    (lb : nb.left = some r) (rrb : nrb.right = some e) (pe : ne.parent = some rbi)
    (pr : nr.parent = some bi) : bindF c bi rbi e r = c := by
  funext j
  unfold bindF
  by_cases h1 : j = e
  · subst h1
    cases ne
    simp only at pe
    simp [he, pe]
  · by_cases h2 : j = r
    · subst h2
      cases nr
      simp only at pr
      simp [h1, hr, pr]
    · by_cases h3 : j = bi
      · subst h3
        by_cases h4 : j = rbi
        · subst h4
          rw [hb] at hrb
          cases hrb
          cases nb
          simp only at lb rrb
          simp [h1, h2, hb, lb, rrb]
        · cases nb
          simp only at lb
          simp [h1, h2, h4, hb, lb]
      · by_cases h4 : j = rbi
        · subst h4
          cases nrb
          simp only at rrb
          simp [h1, h2, h3, hrb, rrb]
        · simp [h1, h2, h3, h4]

theorem cutF_none (c : Nat → Option Node) (bi rbi j : Nat) (h : c j = none) :
    cutF c bi rbi j = none := by
  unfold cutF
  by_cases h1 : j = bi
  · subst h1; simp [h]
  · by_cases h2 : j = rbi
    · subst h2; simp [h1, h]
    · simp [h1, h2, h]

theorem Iso_leaf {e : Nat} {k d : Int} {ht : Nat} {c : PT}
    (h : Iso (.node .nil e k d ht .nil) c) : ∃ e1, c = .node .nil e1 k d ht .nil := by
  obtain ⟨l1, i1, r1, e0, h1, h2⟩ := Iso_node_left h
  rw [Iso_nil_left h1, Iso_nil_left h2] at e0
  exact ⟨i1, e0⟩

theorem copy_nil {s : AVL} (inv : Inv s [] .nil) :
    ∃ c, s.copy = some c ∧ Inv c [] .nil ∧ c.size_ = s.size_ ∧
      s.heap.next ≤ c.heap.next ∧ (∀ j, j < s.heap.next → c.heap.cell j = s.heap.cell j) ∧
      (∀ j, some j = c.end_ ∨ some j = c.rend_ → s.heap.next ≤ j) := by
  have hf := Inv_heap_fresh inv
  have h0 := (Inv_root_none inv).1.2 rfl
  have hz := (Inv_root_none inv).2.2 rfl
  refine ⟨⟨⟨fun j => if j = s.heap.next + 1 then some ⟨none, none, none, 0, 0, 0⟩
      else if j = s.heap.next then some ⟨none, none, none, 0, 0, 0⟩ else s.heap.cell j,
      s.heap.next + 2⟩, none, none, some s.heap.next, none, some (s.heap.next + 1), 0⟩,
    ?_, ?_, hz.symm, ?_, ?_, ?_⟩
  · simp only [AVL.copy, h0, Heap.alloc, Heap.modify, Option.bind_eq_bind, Option.some_bind,
      if_true, write_cell, write_next, Option.pure_def, Node.fresh, hz, Option.some.injEq,
      AVL.mk.injEq, and_true, true_and]
    apply Heap.ext_cells
    · intro j
      simp only [write_cell]
      split_ifs <;> rfl
    · rfl
  · apply Inv_nil_of ⟨none, none, none, 0, 0, 0⟩ ⟨none, none, none, 0, 0, 0⟩ (by omega)
    · intro j hj
      simp only at hj ⊢
      have x1 : j ≠ s.heap.next + 1 := by omega
      have x2 : j ≠ s.heap.next := by omega
      simp only [x1, x2, if_false]
      exact hf j (by omega)
    · simp
    · simp
    · exact ⟨rfl, rfl, rfl, rfl⟩
    · exact ⟨rfl, rfl, rfl, rfl⟩
  · show s.heap.next ≤ s.heap.next + 2
    omega
  · intro j hj
    have x1 : j ≠ s.heap.next + 1 := by omega
    have x2 : j ≠ s.heap.next := by omega
    simp [x1, x2]
  · intro j hj
    simp only [Option.some.injEq] at hj
    omega

theorem copy_node {s : AVL} {T : PT} (inv : Inv s [] T) (hT : T ≠ .nil) :
    ∃ c T1, s.copy = some c ∧ Inv c [] T1 ∧ T1.keys = T.keys ∧ c.size_ = s.size_ ∧
      s.heap.next ≤ c.heap.next ∧ (∀ j, j < s.heap.next → c.heap.cell j = s.heap.cell j) ∧
      (∀ j ∈ T1.ids, s.heap.next ≤ j) ∧
      (∀ j, some j = c.end_ ∨ some j = c.rend_ → s.heap.next ≤ j) := by
  obtain ⟨e, r, bi, rbi, ne, nr, he, hr, hb, hrb, e1, e2, hne0, r2, hnd2, hdep, hlen, hkeys,
    _, _, _, _, zh1, zh2, zk1, zk2⟩ := Inv_bound_sent inv hT
  have hsort := Inv_sorted inv
  have hfresh := Inv_heap_fresh inv
  obtain ⟨_, _, _, _, _, hroot, _, _, hsz, _⟩ := inv
  have hext : (attachR (.node .nil e ne.key ne.data ne.height .nil)
      (attachL (.node .nil r nr.key nr.data nr.height .nil) T)).root = s.root_ := by
    rw [attachR_root _ _ (attachL_ne_nil _ hT), attachL_root _ _ hT, hroot]
  obtain ⟨h1, C, eC, rC, isoC, ndC, rngC, nxC, agC, fC⟩ := CopySubTree_spec _
    (s.heap.next + 1) s.heap _ r2 (by omega) hfresh
  rw [hext] at eC
  obtain ⟨X1, E1, eq1, isoX, isoE⟩ := Iso_attachR _ _ _ isoC
  obtain ⟨T1, R1, eq2, isoT, isoR⟩ := Iso_attachL _ _ _ isoX
  obtain ⟨e', eq3⟩ := Iso_leaf isoE
  obtain ⟨r', eq4⟩ := Iso_leaf isoR
  subst eq1 eq2 eq3 eq4
  have hT1 : T1 ≠ .nil := Iso_ne_nil isoT hT
  have hX1 := attachL_ne_nil (.node .nil r' nr.key nr.data nr.height .nil) hT1
  have hidsC : (attachR (.node .nil e' ne.key ne.data ne.height .nil)
      (attachL (.node .nil r' nr.key nr.data nr.height .nil) T1)).ids
        = r' :: (T1.ids ++ [e']) := by
    rw [attachR_ids, attachL_ids]; simp
  rw [hidsC] at ndC rngC
  rw [List.nodup_cons, List.nodup_append] at ndC
  obtain ⟨hr1, ndT1, _, hdis⟩ := ndC
  have hrT : r' ∉ T1.ids := fun hm => hr1 (List.mem_append_left _ hm)
  have hre : r' ≠ e' := fun e0 => hr1 (List.mem_append_right _ (by simp [e0]))
  have heT : e' ∉ T1.ids := fun hm => hdis hm (List.mem_singleton.2 rfl)
  obtain ⟨m2, nm2, y1, y2, y3, y4⟩ := Repr_attachR_max _ _ hX1 rC
  rw [attachL_maxId _ _ hT1] at y1
  have rC2 := rC
  rw [attach_comm _ _ hT1] at rC2
  obtain ⟨m1, nm1, z1, z2, z3, z4⟩ := Repr_attachL_min _ _ (attachR_ne_nil _ hT1) rC2
  rw [attachR_minId _ hT1] at z1
  have hm1 := minId_mem z1
  have hm2 := maxId_mem y1
  have hm1e : m1 ≠ e' := fun e0 => heT (e0 ▸ hm1)
  have hm1r : m1 ≠ r' := fun e0 => hrT (e0 ▸ hm1)
  have hm2e : m2 ≠ e' := fun e0 => heT (e0 ▸ hm2)
  have hm2r : m2 ≠ r' := fun e0 => hrT (e0 ▸ hm2)
  have hCne : attachR (.node .nil e' ne.key ne.data ne.height .nil)
      (attachL (.node .nil r' nr.key nr.data nr.height .nil) T1) ≠ .nil :=
    attachR_ne_nil _ hX1
  have hCroot : (attachR (.node .nil e' ne.key ne.data ne.height .nil)
      (attachL (.node .nil r' nr.key nr.data nr.height .nil) T1)).root = T1.root := by
    rw [attachR_root _ _ hX1, attachL_root _ _ hT1]
  have hCdep : (attachR (.node .nil e' ne.key ne.data ne.height .nil)
      (attachL (.node .nil r' nr.key nr.data nr.height .nil) T1)).depth ≤ h1.next + 1 := by
    have a1 := depth_le_length (attachR (.node .nil e' ne.key ne.data ne.height .nil)
      (attachL (.node .nil r' nr.key nr.data nr.height .nil) T1))
    rw [hidsC] at a1
    have a2 : (r' :: (T1.ids ++ [e'])).Nodup :=
      List.nodup_cons.2 ⟨hr1, List.nodup_append.2 ⟨ndT1, List.nodup_singleton _, hdis⟩⟩
    have a3 := length_le_of_nodup_lt a2 (fun i hi => (rngC i hi).2)
    omega
  have hlm := leftmost_spec _ (h1.next + 1) h1 _ hCne rC hCdep
  have hrm := rightmost_spec _ (h1.next + 1) h1 _ hCne rC hCdep
  have hmin : (attachR (.node .nil e' ne.key ne.data ne.height .nil)
      (attachL (.node .nil r' nr.key nr.data nr.height .nil) T1)).minId = some r' := by
    rw [minId_eq_head, hidsC]; rfl
  have hmax : (attachR (.node .nil e' ne.key ne.data ne.height .nil)
      (attachL (.node .nil r' nr.key nr.data nr.height .nil) T1)).maxId = some e' := by
    rw [maxId_eq_getLast, hidsC]
    show ((r' :: T1.ids) ++ [e']).getLast? = some e'
    exact List.getLast?_concat _
  rw [hmin, hCroot] at hlm
  rw [hmax, hCroot] at hrm
  rw [hCroot] at eC
  have hTr : ∃ x, s.root_ = some x := by
    rw [hroot]
    cases T with
    | nil => exact absurd rfl hT
    | node l x k d h rr => exact ⟨x, rfl⟩
  obtain ⟨x0, hx0⟩ := hTr
  have hcopy : s.copy = some ⟨h1, T1.root, some m1, some e', some m2, some r', s.size_⟩ := by
    rw [hx0] at eC
    simp only [AVL.copy, hx0, eC, Option.bind_eq_bind, Option.some_bind, hlm, Heap.read, z4,
      hrm, y4, Option.pure_def]
  -- the detached store of the copy
  obtain ⟨hmid, hmdef⟩ : ∃ hmid : Heap, hmid = ⟨fun j => if j = m2 then
      (h1.cell m2).map (fun n => { n with right := none }) else h1.cell j, h1.next⟩ := ⟨_, rfl⟩
  obtain ⟨hc, hcdef⟩ : ∃ hc : Heap, hc = ⟨cutF h1.cell m1 m2, h1.next⟩ := ⟨_, rfl⟩
  have step1 : Repr hmid none (attachL (.node .nil r' nr.key nr.data nr.height .nil) T1) := by
    apply detachR_repr _ _ h1 hmid _ hX1 rC
    · rw [attachL_ids]
      simp only [PT.ids_node, PT.ids_nil, List.nil_append, List.singleton_append,
        List.nodup_cons]
      exact ⟨hrT, ndT1⟩
    · intro m nm hm hcm
      rw [attachL_maxId _ _ hT1, y1] at hm
      cases hm
      rw [hmdef]
      simp [hcm]
    · intro j _ hne
      rw [attachL_maxId _ _ hT1, y1] at hne
      have : j ≠ m2 := fun e0 => hne (by rw [e0])
      rw [hmdef]
      simp [this]
  have step2 : Repr hc none T1 := by
    apply detachL_repr _ _ hmid hc _ hT1 step1 ndT1
    · intro m nm hm hcm
      rw [z1] at hm
      cases hm
      rw [hmdef] at hcm
      rw [hcdef]
      by_cases hmm : m1 = m2
      · subst hmm
        simp only [if_true, z2, Option.map_some', Option.some.injEq] at hcm
        subst hcm
        simp [cutF, z2]
      · simp only [hmm, if_false] at hcm
        simp [cutF, hmm, hcm]
    · intro j _ hne
      rw [z1] at hne
      have : j ≠ m1 := fun e0 => hne (by rw [e0])
      rw [hmdef, hcdef]
      simp [cutF, this]
  have hce : hc.cell e' = some ⟨none, none, some m2, ne.height, ne.key, ne.data⟩ := by
    rw [hcdef]
    simp [cutF, Ne.symm hm1e, Ne.symm hm2e, y4]
  have hcr : hc.cell r' = some ⟨none, none, some m1, nr.height, nr.key, nr.data⟩ := by
    rw [hcdef]
    simp [cutF, Ne.symm hm1r, Ne.symm hm2r, z4]
  have hkeys1 : T1.keys = T.keys := Iso_keys _ _ isoT
  have wf : WF hc [] T1 e' r' := by
    refine ⟨step2, trivial, ?_, ?_, ⟨_, hce, rfl, rfl, zh1, zk1⟩, ⟨_, hcr, rfl, rfl, zh2, zk2⟩,
      (by rw [hkeys1]; exact hsort), (fun f hf => by cases hf), (fun _ => rfl)⟩
    · simp only [ctxIds, List.nil_append]
      rw [List.nodup_append]
      refine ⟨ndT1, ?_, ?_⟩
      · simp only [List.nodup_cons, List.mem_singleton, List.not_mem_nil, not_false_eq_true,
          List.nodup_nil, and_true]
        exact Ne.symm hre
      · intro j hj hm
        simp only [List.mem_cons, List.mem_singleton, List.not_mem_nil, or_false] at hm
        rcases hm with e0 | e0
        · subst e0; exact heT hj
        · subst e0; exact hrT hj
    · intro j hj
      rw [hcdef] at hj ⊢
      exact cutF_none _ _ _ _ (fC j hj)
  have hsz1 : s.size_ = T1.ids.length + (ctxIds []).length := by
    rw [hsz, Iso_length _ _ isoT]
  obtain ⟨s1, b1, i1, _⟩ := bind_inv wf hT1 s.size_ hsz1
  have hcm1 : hc.cell m1 ≠ none := by
    rw [hcdef]; simp [cutF, z2]
  have hcm2 : hc.cell m2 ≠ none := by
    rw [hcdef]
    by_cases hmm : m2 = m1
    · rw [hmm]; simp [cutF, z2]
    · simp [cutF, hmm, y2]
  obtain ⟨nb, hnb⟩ := Option.ne_none_iff_exists'.1 hcm1
  obtain ⟨nrb, hnrb⟩ := Option.ne_none_iff_exists'.1 hcm2
  have hB := Bind_eq T1.root s.size_ hnb hnrb hce hcr hm1e hm1r hm2e hm2r (Ne.symm hre)
  rw [z1, y1, hB] at b1
  have hheap : (⟨bindF hc.cell m1 m2 e' r', hc.next⟩ : Heap) = h1 := by
    have a1 := bindF_self h1.cell z2 y2 y4 z4 z3 y3 rfl rfl
    have a2 := bindF_cutF_bindF h1.cell hm1e hm1r hm2e hm2r (Ne.symm hre)
    rw [a1] at a2
    rw [hcdef]
    show (⟨bindF (cutF h1.cell m1 m2) m1 m2 e' r', h1.next⟩ : Heap) = h1
    rw [a2]
  rw [hheap] at b1
  simp only [Option.some.injEq] at b1
  rw [← b1] at i1
  refine ⟨_, T1, hcopy, i1, hkeys1, rfl, nxC, agC, ?_, ?_⟩
  · intro j hj
    exact (rngC j (List.mem_cons_of_mem _ (List.mem_append_left _ hj))).1
  · intro j hj
    simp only [Option.some.injEq] at hj
    rcases hj with e0 | e0
    · subst e0
      exact (rngC j (List.mem_cons_of_mem _ (List.mem_append_right _ (by simp)))).1
    · subst e0
      exact (rngC j (List.mem_cons_self _ _)).1

theorem step_frame {s : AVL} {ctx : List Frame} {T : PT} (inv : Inv s ctx T) (op : Op) :
    ∃ s1 ctx1 T1, s.step op = some s1 ∧ Inv s1 ctx1 T1 ∧
      Stable s s1 (T.ids ++ ctxIds ctx) (T1.ids ++ ctxIds ctx1) := by
  cases op with
  | insert k =>
    by_cases hk : k ∈ T.keys
    · exact ⟨s, ctx, T, Insert_present inv k k hk, inv, Stable.same s _⟩
    · obtain ⟨s1, n, x1, x2, _, x4⟩ := Insert_frame inv k k hk
      exact ⟨s1, ctx, _, x1, x2, x4⟩
  | erase k =>
    by_cases hk : k ∈ T.keys
    · obtain ⟨s1, ctx1, T1, x1, x2, _, _, x5⟩ := Erase_present_frame inv k hk
      exact ⟨s1, ctx1, T1, x1, x2, x5⟩
    · obtain ⟨s1, x1, x2, x3⟩ := Erase_absent_frame inv k hk
      exact ⟨s1, ctx, T, x1, x2, x3 _⟩

theorem run_apart (n0 : Nat) : ∀ (ops : List Op) (s : AVL) (ctx : List Frame) (T : PT),
    Inv s ctx T → n0 ≤ s.heap.next → (∀ j ∈ T.ids ++ ctxIds ctx, n0 ≤ j) →
    (∀ j, some j = s.end_ ∨ some j = s.rend_ → n0 ≤ j) →
    ∃ s1 ctx1 T1, AVL.run ops s = some s1 ∧ Inv s1 ctx1 T1 ∧ n0 ≤ s1.heap.next ∧
      ∀ j, j < n0 → s1.heap.cell j = s.heap.cell j := by
  intro ops
  induction ops with
  | nil => intro s ctx T inv hn _ _; exact ⟨s, ctx, T, rfl, inv, hn, fun _ _ => rfl⟩
  | cons op ops ih =>
    intro s ctx T inv hn hF hS
    obtain ⟨s1, ctx1, T1, x1, x2, st⟩ := step_frame inv op
    have hn1 : n0 ≤ s1.heap.next := Nat.le_trans hn st.next_le
    have hF1 : ∀ j ∈ T1.ids ++ ctxIds ctx1, n0 ≤ j := by
      intro j hj
      rcases st.grow j hj with h3 | h3
      · exact hF j h3
      · omega
    have hS1 : ∀ j, some j = s1.end_ ∨ some j = s1.rend_ → n0 ≤ j := by
      intro j hj
      rw [st.end_eq, st.rend_eq] at hj
      exact hS j hj
    obtain ⟨s2, ctx2, T2, y1, y2, y3, y4⟩ := ih s1 ctx1 T1 x2 hn1 hF1 hS1
    refine ⟨s2, ctx2, T2, ?_, y2, y3, ?_⟩
    · simp only [AVL.run, x1, Option.some_bind]; exact y1
    · intro j hj
      rw [y4 j hj]
      apply st.frame j
      · intro hm; have := hF j hm; omega
      · intro e0; have := hS j (Or.inl e0); omega
      · intro e0; have := hS j (Or.inr e0); omega
      · omega

theorem traversal_transfer {s : AVL} {ctx : List Frame} {T : PT} (inv : Inv s ctx T) (h : Heap)
    (hag : ∀ j, j < s.heap.next → h.cell j = s.heap.cell j) (hnx : s.heap.next ≤ h.next) :
    ({ s with heap := h } : AVL).traversal = some T.keys := by
  by_cases hT : T = .nil
  · obtain ⟨e, r, hc, he, hr, hroot, hb, hrb, hsz, wf, hcut, hbind⟩ := inv
    subst hT
    have hctx : ctx = [] := wf.nonempty rfl
    subst hctx
    simp only [PT.ids_nil, List.length_nil, ctxIds, Nat.add_zero] at hsz
    simp [AVL.traversal, AVL.itBegin, AVL.itEnd, AVL.Empty, AVL.Size, hsz, he, collect]
  · have hfresh := Inv_heap_fresh inv
    obtain ⟨e, r, bi, rbi, ne, nr, he, hr, hb, hrb, e1, e2, hne0, r2, hnd2, hdep, hlen, hkeys⟩ :=
      Inv_bound inv hT
    have hids : (attachR (.node .nil e ne.key ne.data ne.height .nil)
        (attachL (.node .nil r nr.key nr.data nr.height .nil) T)).ids = [r] ++ T.ids ++ [e] := by
      rw [attachR_ids, attachL_ids]; simp
    have hlt : ∀ i n, s.heap.cell i = some n → i < s.heap.next := by
      intro i n hn
      by_contra hc
      rw [hfresh i (Nat.le_of_not_lt hc)] at hn
      cases hn
    have r3 : Repr h (ctxPar ctx) (attachR (.node .nil e ne.key ne.data ne.height .nil)
        (attachL (.node .nil r nr.key nr.data nr.height .nil) T)) := by
      apply Repr_congr _ r2
      intro i hi
      obtain ⟨n, hn⟩ := Repr_alive r2 i hi
      exact hag i (hlt i n hn)
    have hkeys3 : List.Forall₂ (fun i k => ∃ n, h.cell i = some n ∧ n.key = k) T.ids T.keys := by
      apply Forall₂_keys_congr hkeys
      intro i _ n hn
      exact ⟨n, by rw [hag i (hlt i n hn)]; exact hn, rfl⟩
    have hhead : (T.ids ++ [e]).head? = some bi := by
      rw [minId_eq_head] at e1
      cases hi : T.ids with
      | nil => rw [hi] at e1; cases e1
      | cons a as => rw [hi] at e1; simpa using e1
    have hc0 := collect_spec r3 (by rw [hids]; exact hnd2) (Nat.le_trans hdep hnx) T.ids T.keys
      [r] (h.next + 1) hids hkeys3 (by omega)
    simp only [AVL.traversal, AVL.itBegin, AVL.itEnd, AVL.Empty, AVL.Size, hne0, he, hb,
      decide_False, Bool.false_eq_true, if_false]
    rw [hhead] at hc0
    exact hc0

theorem copy_spec {s : AVL} {T : PT} (inv : Inv s [] T) :
    ∃ c T1, s.copy = some c ∧ Inv c [] T1 ∧ T1.keys = T.keys ∧ c.size_ = s.size_ ∧
      s.heap.next ≤ c.heap.next ∧ (∀ j, j < s.heap.next → c.heap.cell j = s.heap.cell j) ∧
      (∀ j ∈ T1.ids, s.heap.next ≤ j) ∧
      (∀ j, some j = c.end_ ∨ some j = c.rend_ → s.heap.next ≤ j) := by
  by_cases hT : T = .nil
  · subst hT
    obtain ⟨c, x1, x2, x3, x4, x5, x6⟩ := copy_nil inv
    exact ⟨c, .nil, x1, x2, rfl, x3, x4, x5, (fun j hj => by cases hj), x6⟩
  · exact copy_node inv hT

/-- Claim C19: for every set `s` built by `Insert` calls, the copy-constructed set `c` has
the forward traversal and the `Size()` of `s`, and after every sequence of `Insert` and
`Erase` calls applied to `c` the forward traversal and the `Size()` of `s`, read in the store
the calls leave, are what they were. -/
theorem copy_is_independent (ks : List Int) :
    ∃ s c l, insertAll ks = some s ∧ s.copy = some c ∧ s.traversal = some l ∧
      c.traversal = some l ∧ c.Size = s.Size ∧
      ∀ ops : List Op, ∃ c1, AVL.run ops c = some c1 ∧
        ({ s with heap := c1.heap } : AVL).traversal = some l ∧
        ({ s with heap := c1.heap } : AVL).Size = s.Size := by
  obtain ⟨s0, e0, i0, _⟩ := new_spec
  obtain ⟨s, T, x1, x2, _⟩ := run_inserts ks s0 .nil i0
  obtain ⟨c, T1, c1, c2, c3, c4, c5, c6, c7, c8⟩ := copy_spec x2
  refine ⟨s, c, T.keys, by simp only [insertAll, runNew, e0, Option.some_bind]; exact x1, c1,
    traversal_spec x2, by rw [traversal_spec c2, c3], c4, ?_⟩
  intro ops
  obtain ⟨f, ctxf, Tf, y1, y2, y3, y4⟩ := run_apart s.heap.next ops c [] T1 c2 c5
    (by simpa [ctxIds] using c7) c8
  refine ⟨f, y1, ?_, rfl⟩
  apply traversal_transfer x2 f.heap _ y3
  intro j hj
  rw [y4 j hj, c6 j hj]

/-- Claim C31, refuted by the code: after inserting `2,1,3,4` the traversal is `1,2,3,4`
with `Size()` 4; key `1` sits in a leaf that is not the root, and after `Erase(1)` the
traversal is `2` while `Size()` is 3, not `2,3,4`. -/
theorem erase_leaf_loses_nodes :
    (runNew [Op.insert 2, Op.insert 1, Op.insert 3, Op.insert 4]).bind
      (fun s => s.traversal.map (fun ks => (ks, s.Size))) = some ([1, 2, 3, 4], 4) ∧
    (runNew [Op.insert 2, Op.insert 1, Op.insert 3, Op.insert 4]).bind
      (fun s => (s.heap.read s.root_).map (fun n => (n.key, n.parent))) = some (2, none) ∧
    (runNew [Op.insert 2, Op.insert 1, Op.insert 3, Op.insert 4, Op.erase 1]).bind
      (fun s => s.traversal.map (fun ks => (ks, s.Size))) = some ([2], 3) := by
  decide

theorem adjacent_steps {t : PT} {h : Heap} {par : Option Nat} (hr : Repr h par t)
    (hnd : t.ids.Nodup) (hdep : t.depth ≤ h.next) {pre post : List Nat} {a b : Nat}
    (e : t.ids = pre ++ a :: b :: post) :
    itNext h (some a) = some (some b) ∧ itPrev h (some b) = some (some a) := by
  refine ⟨itNext_succ t h par hr hnd hdep pre a b post e, ?_⟩
  rw [itPrev_flip]
  refine itNext_succ t.flip h.flip par (Repr_flip _ _ hr) ?_ ?_ post.reverse b a pre.reverse ?_
  · rw [flip_ids, List.nodup_reverse]; exact hnd
  · rw [flip_depth]; exact hdep
  · rw [flip_ids, e]; simp

/-- Claim C32: in every set built by `Insert` calls, for every real node `a`, `++` from `a`
reaches a position from which `--` returns to `a`, and `--` from `a` reaches a position from
which `++` returns to `a`; the second holds for the node with the smallest key too, through
the sentinel `rend_`. -/
theorem increment_decrement_inverse (ks : List Int) :
    ∃ s ids, insertAll ks = some s ∧ s.realNodes = some ids ∧
      ids.length = ks.toFinset.card ∧
      ∀ a ∈ ids,
        (∃ p, itNext s.heap (some a) = some p ∧ itPrev s.heap p = some (some a)) ∧
        (∃ q, itPrev s.heap (some a) = some q ∧ itNext s.heap q = some (some a)) := by
  obtain ⟨s0, e0, i0, _⟩ := new_spec
  obtain ⟨s, T, x1, x2, x3⟩ := run_inserts ks s0 .nil i0
  have hk : T.keys = ks.toFinset.sort (· ≤ ·) :=
    sorted_eq_sort (Inv_sorted x2) (fun y => by rw [x3]; simp)
  refine ⟨s, T.ids, ?_, realNodes_spec x2, ?_, ?_⟩
  · simp only [insertAll, runNew, e0, Option.some_bind]; exact x1
  · rw [← keys_length, hk, Finset.length_sort]
  intro a ha
  have hT : T ≠ .nil := by
    intro e0; subst e0; simp at ha
  obtain ⟨e, r, bi, rbi, ne, nr, he, hr, hb, hrb, e1, e2, hne0, r2, hnd2, hdep, hlen, hkeys⟩ :=
    Inv_bound x2 hT
  have hnd : (attachR (.node .nil e ne.key ne.data ne.height .nil)
      (attachL (.node .nil r nr.key nr.data nr.height .nil) T)).ids.Nodup := by
    rw [attachR_ids, attachL_ids]
    simpa using hnd2
  obtain ⟨pre, post, hdec⟩ := List.append_of_mem ha
  constructor
  · cases post with
    | nil =>
      have hids : (attachR (.node .nil e ne.key ne.data ne.height .nil)
          (attachL (.node .nil r nr.key nr.data nr.height .nil) T)).ids
            = ([r] ++ pre) ++ a :: e :: [] := by
        rw [attachR_ids, attachL_ids, hdec]; simp
      obtain ⟨y1, y2⟩ := adjacent_steps r2 hnd hdep hids
      exact ⟨_, y1, y2⟩
    | cons b post1 =>
      have hids : (attachR (.node .nil e ne.key ne.data ne.height .nil)
          (attachL (.node .nil r nr.key nr.data nr.height .nil) T)).ids
            = ([r] ++ pre) ++ a :: b :: (post1 ++ [e]) := by
        rw [attachR_ids, attachL_ids, hdec]; simp
      obtain ⟨y1, y2⟩ := adjacent_steps r2 hnd hdep hids
      exact ⟨_, y1, y2⟩
  · rcases List.eq_nil_or_concat pre with hp | ⟨pre1, b, hp⟩
    · subst hp
      have hids : (attachR (.node .nil e ne.key ne.data ne.height .nil)
          (attachL (.node .nil r nr.key nr.data nr.height .nil) T)).ids
            = [] ++ r :: a :: (post ++ [e]) := by
        rw [attachR_ids, attachL_ids, hdec]; simp
      obtain ⟨y1, y2⟩ := adjacent_steps r2 hnd hdep hids
      exact ⟨_, y2, y1⟩
    · subst hp
      have hids : (attachR (.node .nil e ne.key ne.data ne.height .nil)
          (attachL (.node .nil r nr.key nr.data nr.height .nil) T)).ids
            = ([r] ++ pre1) ++ b :: a :: (post ++ [e]) := by
        rw [attachR_ids, attachL_ids, hdec]; simp
      obtain ⟨y1, y2⟩ := adjacent_steps r2 hnd hdep hids
      exact ⟨_, y2, y1⟩

/-- Claim C35, refuted by the code: after `push_back(1)`, `push_back(2)`, `pop_back()` the
list traverses as `1`, `back()` is `1` and `tail_` is node `1`, but the sentinel's `prev`
link holds the address `2` of the destroyed node, which is no longer live; decrementing
`end()` and dereferencing reads that destroyed node, and `push_back(3)` writes through
it. -/
theorem pop_back_leaves_stale_prev :
    (((DList.new.bind (fun l => l.push_back 1)).bind (fun l => l.push_back 2)).bind
      DList.pop_back).bind
      (fun l => (l.heap.read l.fictive_).map (fun n => (l.traversal, l.back, l.tail_, n.prev)))
      = some (some [1], some 1, some 1, some 2) ∧
    (((DList.new.bind (fun l => l.push_back 1)).bind (fun l => l.push_back 2)).bind
      DList.pop_back).bind
      (fun l => (l.heap.read l.fictive_).map (fun n => (l.heap.read n.prev).isSome))
      = some false ∧
    (((DList.new.bind (fun l => l.push_back 1)).bind (fun l => l.push_back 2)).bind
      DList.pop_back).map
      (fun l => ((listPrev l.heap l.itEnd).bind (listDeref l.heap), (l.push_back 3).isSome))
      = some (none, false) := by
  decide

/-- Claim C34, refuted by the code: for `a = {2000000000, 2000000000}` the minimum of
`a[0..0]` is `2000000000`, but `GetMin(0, 0)` returns `1000000007`, the constant `inf`. -/
theorem getMin_returns_inf :
    (SegTree.build [2000000000, 2000000000]).bind (fun t => t.GetMin 0 0) = some 1000000007 ∧
    rangeMin [2000000000, 2000000000] 0 0 = some 2000000000 := by
  decide

theorem wrapInt_add (x y : Int) : wrapInt (wrapInt x + wrapInt y) = wrapInt (x + y) := by
  unfold wrapInt; omega

theorem wrapInt_of_inInt {x : Int} (h : inInt x) : wrapInt x = x := by
  unfold wrapInt; unfold inInt at h; omega

theorem wrapInt_idem (x : Int) : wrapInt (wrapInt x) = wrapInt x := by
  unfold wrapInt; omega

theorem segSum_add (f : Nat → Int) : ∀ (m lo n : Nat),
    segSum f lo (m + n) = segSum f lo m + segSum f (lo + m) n := by
  intro m
  induction m with
  | zero => intro lo n; simp [segSum]
  | succ m ih =>
    intro lo n
    have e : m + 1 + n = (m + n) + 1 := by omega
    rw [e]
    simp only [segSum]
    rw [ih (lo + 1) n]
    have e2 : lo + 1 + m = lo + (m + 1) := by omega
    rw [e2]; omega

theorem maskSum_add (f : Nat → Int) (l r : Nat) : ∀ (m lo n : Nat),
    maskSum f l r lo (m + n) = maskSum f l r lo m + maskSum f l r (lo + m) n := by
  intro m
  induction m with
  | zero => intro lo n; simp [maskSum]
  | succ m ih =>
    intro lo n
    have e : m + 1 + n = (m + n) + 1 := by omega
    rw [e]
    simp only [maskSum]
    rw [ih (lo + 1) n]
    have e2 : lo + 1 + m = lo + (m + 1) := by omega
    rw [e2]; omega

theorem maskSum_out (f : Nat → Int) (l r : Nat) : ∀ (n lo : Nat), (r < lo ∨ lo + n ≤ l) →
    maskSum f l r lo n = 0 := by
  intro n
  induction n with
  | zero => intro lo _; rfl
  | succ n ih =>
    intro lo h
    simp only [maskSum]
    rw [ih (lo + 1) (by omega)]
    have : ¬ (l ≤ lo ∧ lo ≤ r) := by omega
    rw [if_neg this]; rfl

theorem maskSum_in (f : Nat → Int) (l r : Nat) : ∀ (n lo : Nat), l ≤ lo → lo + n ≤ r + 1 →
    maskSum f l r lo n = segSum f lo n := by
  intro n
  induction n with
  | zero => intro lo _ _; rfl
  | succ n ih =>
    intro lo h1 h2
    simp only [maskSum, segSum]
    rw [ih (lo + 1) (by omega) (by omega)]
    have : l ≤ lo ∧ lo ≤ r := by omega
    rw [if_pos this]

theorem maskSum_range (f : Nat → Int) {l r N : Nat} (hlr : l ≤ r) (hr : r < N) :
    maskSum f l r 0 N = segSum f l (r + 1 - l) := by
  have key : ∀ p q, p = r + 1 - l → maskSum f l r 0 (l + (p + q)) = segSum f l p := by
    intro p q hp
    rw [maskSum_add, maskSum_add, maskSum_out f l r l 0 (by omega),
      maskSum_out f l r q (0 + l + p) (Or.inl (by omega)),
      maskSum_in f l r p (0 + l) (by omega) (by omega)]
    simp
  have e : N = l + ((r + 1 - l) + (N - (r + 1))) := by omega
  have h := key (r + 1 - l) (N - (r + 1)) rfl
  rw [← e] at h
  exact h

theorem segSum_list (a : List Int) : ∀ (n l : Nat), l + n ≤ a.length →
    segSum (fun j => a.getD j 0) l n = ((a.drop l).take n).sum := by
  intro n
  induction n with
  | zero => intro l _; simp [segSum]
  | succ n ih =>
    intro l h
    have hl : l < a.length := by omega
    rw [List.drop_eq_getElem_cons hl]
    simp only [segSum, List.take_succ_cons, List.sum_cons]
    rw [ih (l + 1) (by omega)]
    simp [List.getD_eq_getElem?_getD, List.getElem?_eq_getElem hl]

theorem rangeSum_eq (a : List Int) {l r : Nat} (hlr : l ≤ r) (hr : r < a.length) :
    rangeSum a l r = segSum (fun j => a.getD j 0) l (r + 1 - l) := by
  rw [rangeSum, segSum_list a _ _ (by omega)]

theorem child_bound {m i sz : Nat} (hd : m * 2 ∣ sz) (h2 : i * (m * 2) < 2 * sz) :
    i * m + m ≤ sz := by
  obtain ⟨q, rfl⟩ := hd
  have h3 : i < 2 * q := by
    by_contra hc
    have h4 : 2 * q ≤ i := by omega
    have h5 := Nat.mul_le_mul_right (m * 2) h4
    have e : 2 * q * (m * 2) = 2 * (m * 2 * q) := by ring
    omega
  have h6 := Nat.mul_le_mul_right m (show i + 1 ≤ 2 * q by omega)
  have e1 : (i + 1) * m = i * m + m := by ring
  have e2 : 2 * q * m = m * 2 * q := by ring
  omega

theorem ceilLog2From_spec : ∀ (fuel k n : Nat), n ≤ 2 ^ (k + fuel) →
    n ≤ 2 ^ ceilLog2From fuel k n := by
  intro fuel
  induction fuel with
  | zero => intro k n h; simpa [ceilLog2From] using h
  | succ fuel ih =>
    intro k n h
    simp only [ceilLog2From]
    by_cases hk : n ≤ 2 ^ k
    · rw [if_pos hk]; exact hk
    · rw [if_neg hk]
      apply ih
      have e : k + 1 + fuel = k + (fuel + 1) := by omega
      rw [e]; exact h

theorem ceilLog2_spec (n : Nat) : n ≤ 2 ^ ceilLog2 n := by
  apply ceilLog2From_spec
  rw [Nat.zero_add]
  exact Nat.le_of_lt (Nat.lt_two_pow n)

theorem block_spec {t : SegTree} {sz : Nat} {f : Nat → Int} (inv : SumInv t sz f)
    (hf : ∀ j, wrapInt (f j) = f j) : ∀ (d i : Nat), 2 ^ d ∣ sz → sz ≤ i * 2 ^ d →
    i * 2 ^ d < 2 * sz →
    (t.cell i).left = i * 2 ^ d - sz ∧ (t.cell i).right = i * 2 ^ d - sz + 2 ^ d - 1 ∧
      (t.cell i).sum = wrapInt (segSum f (i * 2 ^ d - sz) (2 ^ d)) := by
  intro d
  induction d with
  | zero =>
    intro i _ h1 h2
    simp only [pow_zero, Nat.mul_one] at h1 h2 ⊢
    obtain ⟨y1, y2, y3⟩ := inv.leaf (i - sz) (by omega)
    have e : sz + (i - sz) = i := by omega
    rw [e] at y1 y2 y3
    refine ⟨y2, by omega, ?_⟩
    rw [y1]
    simp only [segSum, add_zero]
    exact (hf _).symm
  | succ d ih =>
    intro i hd h1 h2
    have hm : 0 < 2 ^ d := Nat.two_pow_pos _
    rw [pow_succ] at hd h1 h2 ⊢
    generalize 2 ^ d = m at hd h1 h2 hm ih ⊢
    have hd1 : m ∣ sz := Dvd.dvd.trans (Dvd.intro _ rfl) hd
    have hb := child_bound hd h2
    have e0 : i * (m * 2) = 2 * (i * m) := by ring
    have e1 : 2 * i * m = 2 * (i * m) := by ring
    have e2 : (2 * i + 1) * m = 2 * (i * m) + m := by ring
    have hi1 : 1 ≤ i := by
      rcases Nat.eq_zero_or_pos i with h0 | h0
      · subst h0; simp at h1; omega
      · exact h0
    have hi2 : i < sz := by
      have : i * 1 ≤ i * m := Nat.mul_le_mul_left i hm
      omega
    obtain ⟨a1, a2, a3⟩ := ih (2 * i) hd1 (by omega) (by omega)
    obtain ⟨b1, b2, b3⟩ := ih (2 * i + 1) hd1 (by omega) (by omega)
    obtain ⟨c1, c2⟩ := inv.bounds i hi1 hi2
    have c3 := inv.node i hi1 hi2
    refine ⟨by rw [c1, a1]; omega, by rw [c2, b2]; omega, ?_⟩
    rw [c3, a3, b3, Addition, wrapInt_add]
    have e3 : m * 2 = m + m := by omega
    rw [e3, segSum_add]
    have e4 : (2 * i + 1) * m - sz = i * (m + m) - sz + m := by
      have : i * (m + m) = 2 * (i * m) := by ring
      omega
    have e5 : 2 * i * m - sz = i * (m + m) - sz := by
      have : i * (m + m) = 2 * (i * m) := by ring
      omega
    rw [e4, e5]

theorem GetSumAt_spec {t : SegTree} {sz : Nat} {f : Nat → Int} (inv : SumInv t sz f)
    (hf : ∀ j, wrapInt (f j) = f j) {l r : Nat} (hlr : l ≤ r) : ∀ (d i fuel : Nat),
    2 ^ d ∣ sz → sz ≤ i * 2 ^ d → i * 2 ^ d < 2 * sz → d < fuel →
    t.GetSumAt fuel i l r = some (wrapInt (maskSum f l r (i * 2 ^ d - sz) (2 ^ d))) := by
  intro d
  induction d with
  | zero =>
    intro i fuel hd h1 h2 hfu
    obtain ⟨y1, y2, y3⟩ := block_spec inv hf 0 i hd h1 h2
    simp only [pow_zero, Nat.mul_one] at h1 h2 y1 y2 y3 ⊢
    obtain ⟨fu, rfl⟩ : ∃ fu, fuel = fu + 1 := ⟨fuel - 1, by omega⟩
    have hg : t.get i = some (t.cell i) := by
      simp only [SegTree.get]; rw [if_pos (by rw [inv.size]; exact h2)]
    simp only [SegTree.GetSumAt, hg, Option.bind_eq_bind, Option.some_bind, y1, y2,
      Option.pure_def]
    by_cases c1 : l > i - sz + 1 - 1 ∨ r < i - sz
    · rw [if_pos c1, maskSum_out f l r 1 (i - sz) (by omega)]; rfl
    · rw [if_neg c1, if_pos (by omega), y3,
        maskSum_in f l r 1 (i - sz) (by omega) (by omega)]
  | succ d ih =>
    intro i fuel hd h1 h2 hfu
    obtain ⟨y1, y2, y3⟩ := block_spec inv hf (d + 1) i hd h1 h2
    have hm : 0 < 2 ^ d := Nat.two_pow_pos _
    have hi : i < 2 * sz := by
      have : i * 1 ≤ i * 2 ^ (d + 1) := Nat.mul_le_mul_left i (Nat.two_pow_pos _)
      omega
    obtain ⟨fu, rfl⟩ : ∃ fu, fuel = fu + 1 := ⟨fuel - 1, by omega⟩
    have hg : t.get i = some (t.cell i) := by
      simp only [SegTree.get]; rw [if_pos (by rw [inv.size]; exact hi)]
    simp only [SegTree.GetSumAt, hg, Option.bind_eq_bind, Option.some_bind, y1, y2,
      Option.pure_def]
    rw [pow_succ] at hd h1 h2 y3 ⊢
    have ih1 := fun j => ih j fu
    generalize 2 ^ d = m at hd h1 h2 hm ih1 y3 ⊢
    have hd1 : m ∣ sz := Dvd.dvd.trans (Dvd.intro _ rfl) hd
    have hb := child_bound hd h2
    have e0 : i * (m * 2) = 2 * (i * m) := by ring
    have e1 : 2 * i * m = 2 * (i * m) := by ring
    have e2 : (2 * i + 1) * m = 2 * (i * m) + m := by ring
    by_cases c1 : l > i * (m * 2) - sz + m * 2 - 1 ∨ r < i * (m * 2) - sz
    · rw [if_pos c1, maskSum_out f l r _ _ (by omega)]; rfl
    · rw [if_neg c1]
      by_cases c2 : l ≤ i * (m * 2) - sz ∧ r ≥ i * (m * 2) - sz + m * 2 - 1
      · rw [if_pos c2, y3, maskSum_in f l r _ _ (by omega) (by omega)]
      · rw [if_neg c2, ih1 (2 * i) hd1 (by omega) (by omega) (by omega),
          ih1 (2 * i + 1) hd1 (by omega) (by omega) (by omega)]
        simp only [Option.some_bind, Addition, wrapInt_add]
        have e3 : m * 2 = m + m := by omega
        have e4 : (2 * i + 1) * m - sz = i * (m * 2) - sz + m := by omega
        have e5 : 2 * i * m - sz = i * (m * 2) - sz := by omega
        rw [e4, e5]
        conv_rhs => rw [e3, maskSum_add, ← e3]

theorem GetSum_spec {t : SegTree} {k : Nat} {f : Nat → Int} (inv : SumInv t (2 ^ k) f)
    (hf : ∀ j, wrapInt (f j) = f j) {l r : Nat} (hlr : l ≤ r) (hr : r < 2 ^ k) :
    t.GetSum l r = some (wrapInt (segSum f l (r + 1 - l))) := by
  have h := GetSumAt_spec inv hf hlr k 1 t.size (dvd_refl _) (by omega) (by omega)
    (by rw [inv.size]; have := Nat.lt_two_pow k; omega)
  simp only [SegTree.GetSum]
  rw [if_neg (by rw [inv.size]; omega), h]
  have e : 1 * 2 ^ k - 2 ^ k = 0 := by omega
  rw [e, maskSum_range f hlr hr]

theorem get_of_lt (t : SegTree) (i : Nat) (h : i < t.size) : t.get i = some (t.cell i) := by
  simp only [SegTree.get]; rw [if_pos h]

theorem modify_spec (t : SegTree) (i : Nat) (f : SNode → SNode) (h : i < t.size) :
    ∃ t1, t.modify i f = some t1 ∧ t1.size = t.size ∧ t1.cell i = f (t.cell i) ∧
      ∀ j, j ≠ i → t1.cell j = t.cell j := by
  simp only [SegTree.modify]; rw [if_pos h]
  exact ⟨_, rfl, rfl, by simp, fun j hj => by simp [hj]⟩

theorem recompute_spec (t : SegTree) (i : Nat) (h1 : 1 ≤ i) (h2 : 2 * i + 1 < t.size) :
    ∃ t1, t.recompute i = some t1 ∧ t1.size = t.size ∧
      (∀ j, j ≠ i → t1.cell j = t.cell j) ∧
      (t1.cell i).sum = Addition (t.cell (2 * i)).sum (t.cell (2 * i + 1)).sum ∧
      (t1.cell i).left = (t.cell i).left ∧ (t1.cell i).right = (t.cell i).right := by
  have a1 : 2 * i < t.size := by omega
  have a3 : i < t.size := by omega
  obtain ⟨t1, m1, s1, c1, o1⟩ := modify_spec t i
    (fun n => { n with sum := Addition (t.cell (2 * i)).sum (t.cell (2 * i + 1)).sum }) a3
  obtain ⟨t2, m2, s2, c2, o2⟩ := modify_spec t1 i
    (fun n => { n with min := Minimum (t1.cell (2 * i)).min (t1.cell (2 * i + 1)).min })
    (by omega)
  refine ⟨t2, ?_, by omega, fun j hj => by rw [o2 j hj, o1 j hj], ?_, ?_, ?_⟩
  · simp only [SegTree.recompute, get_of_lt t _ a1, get_of_lt t _ h2, Option.bind_eq_bind,
      Option.some_bind, m1, get_of_lt t1 (2 * i) (by omega),
      get_of_lt t1 (2 * i + 1) (by omega), m2]
  · rw [c2, c1]
  · rw [c2, c1]
  · rw [c2, c1]

theorem assignLeaves_spec (a : List Int) (sz : Nat) : ∀ (cnt i : Nat) (t : SegTree),
    i + cnt ≤ t.size → (∀ j, i ≤ j → j < i + cnt → j % sz < a.length) →
    ∃ t1, assignLeaves a sz cnt i t = some t1 ∧ t1.size = t.size ∧
      (∀ j, ¬ (i ≤ j ∧ j < i + cnt) → t1.cell j = t.cell j) ∧
      ∀ j, i ≤ j → j < i + cnt → (t1.cell j).sum = a.getD (j % sz) 0 ∧
        (t1.cell j).left = (t.cell j).left ∧ (t1.cell j).right = (t.cell j).right := by
  intro cnt
  induction cnt with
  | zero =>
    intro i t _ _
    exact ⟨t, rfl, rfl, fun _ _ => rfl, fun j h1 h2 => by omega⟩
  | succ cnt ih =>
    intro i t hs ha
    have hi := ha i (Nat.le_refl _) (by omega)
    have e1 : a[i % sz]? = some (a.getD (i % sz) 0) := by
      rw [List.getD_eq_getElem?_getD, List.getElem?_eq_getElem hi]; rfl
    obtain ⟨t1, m1, s1, c1, o1⟩ := modify_spec t i
      (fun n => { n with sum := a.getD (i % sz) 0, min := a.getD (i % sz) 0 }) (by omega)
    obtain ⟨t2, x1, x2, x3, x4⟩ := ih (i + 1) t1 (by omega)
      (fun j h1 h2 => ha j (by omega) (by omega))
    refine ⟨t2, ?_, by omega, ?_, ?_⟩
    · simp only [assignLeaves, e1, Option.bind_eq_bind, Option.some_bind, m1]
      exact x1
    · intro j hj
      rw [x3 j (by omega), o1 j (by omega)]
    · intro j h1 h2
      by_cases hji : j = i
      · subst hji
        rw [x3 j (by omega), c1]
        exact ⟨rfl, rfl, rfl⟩
      · obtain ⟨y1, y2, y3⟩ := x4 j (by omega) (by omega)
        rw [y1, y2, y3, o1 j hji]
        exact ⟨rfl, rfl, rfl⟩

theorem setBounds_spec (sz : Nat) : ∀ (cnt i : Nat) (t : SegTree), i + cnt ≤ t.size →
    ∃ t1, setBounds sz cnt i t = some t1 ∧ t1.size = t.size ∧
      (∀ j, ¬ (i ≤ j ∧ j < i + cnt) → t1.cell j = t.cell j) ∧
      ∀ j, i ≤ j → j < i + cnt → (t1.cell j).sum = (t.cell j).sum ∧
        (t1.cell j).left = j % sz ∧ (t1.cell j).right = j % sz := by
  intro cnt
  induction cnt with
  | zero =>
    intro i t _
    exact ⟨t, rfl, rfl, fun _ _ => rfl, fun j h1 h2 => by omega⟩
  | succ cnt ih =>
    intro i t hs
    obtain ⟨t1, m1, s1, c1, o1⟩ := modify_spec t i
      (fun n => { n with left := i % sz, right := i % sz }) (by omega)
    obtain ⟨t2, x1, x2, x3, x4⟩ := ih (i + 1) t1 (by omega)
    refine ⟨t2, ?_, by omega, ?_, ?_⟩
    · simp only [setBounds, Option.bind_eq_bind, Option.some_bind, m1]
      exact x1
    · intro j hj
      rw [x3 j (by omega), o1 j (by omega)]
    · intro j h1 h2
      by_cases hji : j = i
      · subst hji
        rw [x3 j (by omega), c1]
        exact ⟨rfl, rfl, rfl⟩
      · obtain ⟨y1, y2, y3⟩ := x4 j (by omega) (by omega)
        rw [y1, y2, y3, o1 j hji]
        exact ⟨rfl, rfl, rfl⟩

theorem buildUp_spec : ∀ (i : Nat) (t : SegTree), 2 * i + 1 < t.size →
    ∃ t1, buildUp i t = some t1 ∧ t1.size = t.size ∧
      (∀ j, i < j → t1.cell j = t.cell j) ∧
      ∀ j, 1 ≤ j → j ≤ i →
        (t1.cell j).sum = Addition (t1.cell (2 * j)).sum (t1.cell (2 * j + 1)).sum ∧
        (t1.cell j).left = (t1.cell (2 * j)).left ∧
        (t1.cell j).right = (t1.cell (2 * j + 1)).right := by
  intro i
  induction i with
  | zero =>
    intro t _
    exact ⟨t, rfl, rfl, fun _ _ => rfl, fun j h1 h2 => by omega⟩
  | succ i ih =>
    intro t hs
    have n1 : 2 * (i + 1) ≠ i + 1 := by omega
    have n2 : 2 * (i + 1) + 1 ≠ i + 1 := by omega
    obtain ⟨t1, r1, r2, r3, r4, _, _⟩ := recompute_spec t (i + 1) (by omega) hs
    obtain ⟨t2, m2, s2, c2, o2⟩ := modify_spec t1 (i + 1)
      (fun n => { n with left := (t1.cell (2 * (i + 1))).left }) (by omega)
    obtain ⟨t3, m3, s3, c3, o3⟩ := modify_spec t2 (i + 1)
      (fun n => { n with right := (t2.cell (2 * (i + 1) + 1)).right }) (by omega)
    obtain ⟨t4, x1, x2, x3, x4⟩ := ih t3 (by omega)
    refine ⟨t4, ?_, by omega, ?_, ?_⟩
    · simp only [buildUp, r1, Option.bind_eq_bind, Option.some_bind,
        get_of_lt t1 (2 * (i + 1)) (by omega), m2,
        get_of_lt t2 (2 * (i + 1) + 1) (by omega), m3]
      exact x1
    · intro j hj
      have : j ≠ i + 1 := by omega
      rw [x3 j (by omega), o3 j this, o2 j this, r3 j this]
    · intro j h1 h2
      by_cases hj : j ≤ i
      · exact x4 j h1 hj
      · have e : j = i + 1 := by omega
        subst e
        rw [x3 _ (by omega), x3 _ (by omega), x3 _ (by omega), c3, c2, o3 _ n1, o3 _ n2,
          o2 _ n1, o2 _ n2, r3 _ n1, r3 _ n2]
        exact ⟨r4, rfl, rfl⟩

theorem mod_leaf {sz j : Nat} (h1 : sz ≤ j) (h2 : j < 2 * sz) : j % sz = j - sz := by
  rw [Nat.mod_eq_sub_mod h1, Nat.mod_eq_of_lt (by omega)]

theorem build_spec (a : List Int) (hne : a ≠ []) :
    ∃ t, SegTree.build a = some t ∧
      SumInv t (2 ^ ceilLog2 a.length) (fun j => a.getD j 0) := by
  have hlen : a.length ≠ 0 := by
    intro h; exact hne (List.length_eq_zero.1 h)
  simp only [SegTree.build, if_neg hlen]
  have hsz := ceilLog2_spec a.length
  generalize 2 ^ ceilLog2 a.length = sz at hsz ⊢
  obtain ⟨t1, x1, x2, x3, x4⟩ := assignLeaves_spec a sz a.length sz
    ⟨2 * sz, fun _ => ⟨e_sum_, e_min_, 0, 0⟩⟩ (by show sz + a.length ≤ 2 * sz; omega)
    (fun j h1 h2 => by rw [mod_leaf h1 (by omega)]; omega)
  have x2 : t1.size = 2 * sz := x2
  obtain ⟨t2, y1, y2, y3, y4⟩ := setBounds_spec sz sz sz t1 (by omega)
  obtain ⟨t3, z1, z2, z3, z4⟩ := buildUp_spec (sz - 1) t2 (by omega)
  refine ⟨t3, ?_, ?_⟩
  · simp only [x1, y1, Option.bind_eq_bind, Option.some_bind]
    exact z1
  · refine ⟨by omega, ?_, ?_, ?_⟩
    · intro j hj
      rw [z3 _ (by omega)]
      obtain ⟨u1, u2, u3⟩ := y4 (sz + j) (by omega) (by omega)
      have e : (sz + j) % sz = j := by rw [mod_leaf (by omega) (by omega)]; omega
      rw [e] at u2 u3
      refine ⟨?_, u2, u3⟩
      rw [u1]
      by_cases hjn : j < a.length
      · rw [(x4 (sz + j) (by omega) (by omega)).1, e]
      · rw [x3 (sz + j) (by omega)]
        show e_sum_ = _
        rw [List.getD_eq_default _ _ (by omega)]
        rfl
    · intro i h1 h2
      exact (z4 i h1 (by omega)).2
    · intro i h1 h2
      exact (z4 i h1 (by omega)).1

theorem climbUp_spec {sz : Nat} {f : Nat → Int} : ∀ (fuel node : Nat) (t : SegTree),
    ClimbInv t sz f node → 1 ≤ node → node < 2 * sz → node ≤ fuel →
    ∃ t1, climbUp fuel node t = some t1 ∧ SumInv t1 sz f := by
  intro fuel
  induction fuel with
  | zero => intro node t _ h1 _ h3; omega
  | succ fuel ih =>
    intro node t inv h1 h2 h3
    by_cases hn : node > 1
    · have hp1 : 1 ≤ node / 2 := by omega
      have hp2 : node / 2 < sz := by omega
      obtain ⟨t1, r1, r2, r3, r4, r5, r6⟩ := recompute_spec t (node / 2) hp1
        (by rw [inv.size]; omega)
      have n1 : 2 * (node / 2) ≠ node / 2 := by omega
      have n2 : 2 * (node / 2) + 1 ≠ node / 2 := by omega
      have inv1 : ClimbInv t1 sz f (node / 2) := by
        refine ⟨by rw [r2]; exact inv.size, ?_, ?_, ?_⟩
        · intro j hj
          rw [r3 _ (by omega)]
          exact inv.leaf j hj
        · intro i hi1 hi2
          have hc1 : (t1.cell (2 * i)).left = (t.cell (2 * i)).left := by
            by_cases e : 2 * i = node / 2
            · rw [e, r5]
            · rw [r3 _ e]
          have hc2 : (t1.cell (2 * i + 1)).right = (t.cell (2 * i + 1)).right := by
            by_cases e : 2 * i + 1 = node / 2
            · rw [e, r6]
            · rw [r3 _ e]
          have hc3 : (t1.cell i).left = (t.cell i).left ∧
              (t1.cell i).right = (t.cell i).right := by
            by_cases e : i = node / 2
            · rw [e, r5, r6]; exact ⟨rfl, rfl⟩
            · rw [r3 _ e]; exact ⟨rfl, rfl⟩
          rw [hc1, hc2, hc3.1, hc3.2]
          exact inv.bounds i hi1 hi2
        · intro i hi1 hi2 hanc
          by_cases e : i = node / 2
          · subst e
            rw [r4, r3 _ n1, r3 _ n2]
          · have c1 : 2 * i ≠ node / 2 := by
              intro e1
              apply hanc 1 (Nat.le_refl _)
              rw [pow_one]; omega
            have c2 : 2 * i + 1 ≠ node / 2 := by
              intro e1
              apply hanc 1 (Nat.le_refl _)
              rw [pow_one]; omega
            rw [r3 _ e, r3 _ c1, r3 _ c2]
            apply inv.node i hi1 hi2
            intro s hs
            obtain ⟨s1, rfl⟩ : ∃ s1, s = s1 + 1 := ⟨s - 1, by omega⟩
            rcases Nat.eq_zero_or_pos s1 with h0 | h0
            · subst h0; simpa using e
            · have := hanc s1 h0
              rw [pow_succ, Nat.mul_comm, ← Nat.div_div_eq_div_mul]
              exact this
      obtain ⟨t2, x1, x2⟩ := ih (node / 2) t1 inv1 hp1 (by omega) (by omega)
      refine ⟨t2, ?_, x2⟩
      simp only [climbUp, if_pos hn, r1, Option.bind_eq_bind, Option.some_bind]
      exact x1
    · refine ⟨t, by simp only [climbUp, if_neg hn], inv.size, inv.leaf, inv.bounds, ?_⟩
      intro i hi1 hi2
      apply inv.node i hi1 hi2
      intro s hs
      have e : node = 1 := by omega
      subst e
      have : 1 / 2 ^ s = 0 := Nat.div_eq_of_lt (Nat.one_lt_two_pow (by omega))
      omega

theorem Change_spec {t : SegTree} {sz : Nat} {f : Nat → Int} (inv : SumInv t sz f) (i : Nat)
    (v : Int) (hi : i < sz) :
    ∃ t1, t.Change i v = some t1 ∧ SumInv t1 sz (fun j => if j = i then v else f j) := by
  have hs : t.size / 2 = sz := by rw [inv.size]; omega
  obtain ⟨t1, m1, s1, c1, o1⟩ := modify_spec t (sz + i)
    (fun n => { n with sum := v, min := v }) (by rw [inv.size]; omega)
  have inv1 : ClimbInv t1 sz (fun j => if j = i then v else f j) (sz + i) := by
    refine ⟨by rw [s1]; exact inv.size, ?_, ?_, ?_⟩
    · intro j hj
      by_cases e : j = i
      · subst e
        rw [c1, if_pos rfl]
        exact ⟨rfl, (inv.leaf j hj).2.1, (inv.leaf j hj).2.2⟩
      · rw [o1 _ (by omega), if_neg e]
        exact inv.leaf j hj
    · intro k hk1 hk2
      have hc1 : (t1.cell (2 * k)).left = (t.cell (2 * k)).left := by
        by_cases e : 2 * k = sz + i
        · rw [e, c1]
        · rw [o1 _ e]
      have hc2 : (t1.cell (2 * k + 1)).right = (t.cell (2 * k + 1)).right := by
        by_cases e : 2 * k + 1 = sz + i
        · rw [e, c1]
        · rw [o1 _ e]
      rw [hc1, hc2, o1 _ (by omega)]
      exact inv.bounds k hk1 hk2
    · intro k hk1 hk2 hanc
      have c2 : 2 * k ≠ sz + i := by
        intro e1
        apply hanc 1 (Nat.le_refl _)
        rw [pow_one]; omega
      have c3 : 2 * k + 1 ≠ sz + i := by
        intro e1
        apply hanc 1 (Nat.le_refl _)
        rw [pow_one]; omega
      rw [o1 _ (by omega), o1 _ c2, o1 _ c3]
      exact inv.node k hk1 hk2
  obtain ⟨t2, x1, x2⟩ := climbUp_spec (sz + i) (sz + i) t1 inv1 (by omega) (by omega)
    (Nat.le_refl _)
  refine ⟨t2, ?_, x2⟩
  simp only [SegTree.Change, hs, if_neg (show ¬ i ≥ sz by omega), m1, Option.bind_eq_bind,
    Option.some_bind]
  exact x1

theorem getD_set (a : List Int) (i : Nat) (v : Int) (hi : i < a.length) (j : Nat) :
    (a.set i v).getD j 0 = if j = i then v else a.getD j 0 := by
  simp only [List.getD_eq_getElem?_getD, List.getElem?_set]
  by_cases e : j = i
  · subst e; simp [hi]
  · have e2 : ¬ i = j := fun h => e h.symm
    simp [e, e2]

theorem getD_inInt {a : List Int} (ha : ∀ x ∈ a, inInt x) (j : Nat) :
    wrapInt (a.getD j 0) = a.getD j 0 := by
  apply wrapInt_of_inInt
  by_cases hj : j < a.length
  · rw [List.getD_eq_getElem _ _ hj]
    exact ha _ (List.getElem_mem _)
  · rw [List.getD_eq_default _ _ (by omega)]
    unfold inInt; omega

/-- Claim C33, amended: for every non-empty vector `a` of `int` values and all indices
`l ≤ r < a.size()`, `GetSum(l, r)` on the tree built from `a` returns the sum
`a[l] + ... + a[r]` reduced to the range of `int`, hence the exact sum whenever that sum is
an `int` value; and after `Change(i, v)` with `i < a.size()` the same holds for the vector
with position `i` replaced by `v`. -/
theorem getSum_wrapped (a : List Int) (hne : a ≠ []) (ha : ∀ x ∈ a, inInt x) :
    ∃ t, SegTree.build a = some t ∧
      (∀ l r, l ≤ r → r < a.length →
        t.GetSum l r = some (wrapInt (rangeSum a l r)) ∧
        (inInt (rangeSum a l r) → t.GetSum l r = some (rangeSum a l r))) ∧
      ∀ i v, i < a.length → inInt v → ∃ t1, t.Change i v = some t1 ∧
        ∀ l r, l ≤ r → r < a.length →
          t1.GetSum l r = some (wrapInt (rangeSum (a.set i v) l r)) ∧
          (inInt (rangeSum (a.set i v) l r) →
            t1.GetSum l r = some (rangeSum (a.set i v) l r)) := by
  obtain ⟨t, x1, x2⟩ := build_spec a hne
  have hsz := ceilLog2_spec a.length
  refine ⟨t, x1, ?_, ?_⟩
  · intro l r hlr hr
    have h := GetSum_spec x2 (getD_inInt ha) hlr (by omega)
    rw [← rangeSum_eq a hlr hr] at h
    exact ⟨h, fun hin => by rw [h, wrapInt_of_inInt hin]⟩
  · intro i v hi hv
    obtain ⟨t1, y1, y2⟩ := Change_spec x2 i v (by omega)
    have hset : ∀ x ∈ a.set i v, inInt x := by
      intro x hx
      rcases List.mem_or_eq_of_mem_set hx with h | h
      · exact ha x h
      · rw [h]; exact hv
    have hfun : (fun j => if j = i then v else a.getD j 0) = fun j => (a.set i v).getD j 0 := by
      funext j; rw [getD_set a i v hi j]
    rw [hfun] at y2
    refine ⟨t1, y1, ?_⟩
    intro l r hlr hr
    have h := GetSum_spec y2 (getD_inInt hset) hlr (by omega)
    rw [← rangeSum_eq (a.set i v) hlr (by rw [List.length_set]; exact hr)] at h
    exact ⟨h, fun hin => by rw [h, wrapInt_of_inInt hin]⟩

/-- The hypotheses of `getSum_wrapped` hold for the vector `{1, 2, 3}`. -/
theorem getSum_wrapped_witness :
    ([1, 2, 3] : List Int) ≠ [] ∧ (∀ x ∈ ([1, 2, 3] : List Int), inInt x) ∧
    ∃ t, SegTree.build [1, 2, 3] = some t ∧
      (∀ l r, l ≤ r → r < ([1, 2, 3] : List Int).length →
        t.GetSum l r = some (wrapInt (rangeSum [1, 2, 3] l r)) ∧
        (inInt (rangeSum [1, 2, 3] l r) → t.GetSum l r = some (rangeSum [1, 2, 3] l r))) ∧
      ∀ i v, i < ([1, 2, 3] : List Int).length → inInt v → ∃ t1, t.Change i v = some t1 ∧
        ∀ l r, l ≤ r → r < ([1, 2, 3] : List Int).length →
          t1.GetSum l r = some (wrapInt (rangeSum (([1, 2, 3] : List Int).set i v) l r)) ∧
          (inInt (rangeSum (([1, 2, 3] : List Int).set i v) l r) →
            t1.GetSum l r = some (rangeSum (([1, 2, 3] : List Int).set i v) l r)) :=
  ⟨by decide, by unfold inInt; decide,
    getSum_wrapped [1, 2, 3] (by decide) (by unfold inInt; decide)⟩

/-- Claim C33 as stated fails: for `a = {2147483647, 1}` the sum `a[0] + a[1]` is
`2147483648`, which no `int` holds, and `GetSum(0, 1)` returns `-2147483648`. -/
theorem getSum_overflows :
    (SegTree.build [2147483647, 1]).bind (fun t => t.GetSum 0 1) = some (-2147483648) ∧
    rangeSum [2147483647, 1] 0 1 = 2147483648 := by
  decide

end MyLibrary
